import Mathlib

/-!
# s3fc: the columnar row store and the reconciliation pipeline

A shallow embedding of `boltdb/columnar.go`, `models/models.go`, `models/boltdb.go`
and the commands `put_object_set`, `load_inventory`, `plan_new_objects` and
`update_objects_state`.

Conventions of the embedding:

* A Go `[]byte` or `string` is a `Bytes` (a list of byte values); a slice that may be
  `nil` is an `Option Bytes`, `none` standing for `nil` and `some []` for a non-nil
  empty slice.
* `int64` values are `Int`, `uint16` and `uint64` values are `Nat`; conversions wrap
  explicitly.
* A bolt bucket holding keys and values is a `KV`: the list of its entries in ascending
  key order, which is the order a bolt cursor visits them in.
* A failing call returns `Except.error`; a Go run-time panic (nil dereference, slice out
  of range) and `log.Fatalf` are errors too. A write transaction that returns an error is
  rolled back, so a failing transaction leaves the store as it was.
-/

namespace S3fc

/-! ## Bytes -/

/-- A byte string (`[]byte`, `string`). -/
abbrev Bytes := List Nat

/-- The order of `bytes.Compare`, in which a bolt bucket keeps its keys:
`bytesLt a b` iff `bytes.Compare(a, b) < 0`. -/
def bytesLt : Bytes → Bytes → Bool
  | [], [] => false
  | [], _ :: _ => true
  | _ :: _, [] => false
  | a :: as, b :: bs => decide (a < b) || (decide (a = b) && bytesLt as bs)

/-- Go `bytes.HasPrefix(s, p)`. -/
def HasPrefix (s p : Bytes) : Bool := p.isPrefixOf s

/-- Go `bytes.Equal(a, b)` on slices that may be nil: a nil slice equals an empty one. -/
def bytesEqual (a b : Option Bytes) : Bool := decide (a.getD [] = b.getD [])

/-- Go `binary.LittleEndian.PutUint64` into a fresh 8-byte slice. -/
def PutUint64 (v : Nat) : Bytes :=
  [v % 256, v / 256 % 256, v / 256 ^ 2 % 256, v / 256 ^ 3 % 256,
   v / 256 ^ 4 % 256, v / 256 ^ 5 % 256, v / 256 ^ 6 % 256, v / 256 ^ 7 % 256]

/-- Errors of the embedded code. -/
inductive Err where
  /-- a Go run-time panic: nil dereference, index or slice out of range -/
  | panic
  /-- `log.Fatalf` in `AppendRow`: a marshalled key that the schema does not declare -/
  | fatal
  /-- `fmt.Errorf("Bucket not found: %s")` of `flushBuffer` -/
  | bucketNotFound
  /-- `models.ErrNotSourceObject` -/
  | ErrNotSourceObject
  /-- `models.ErrNotDestinationObject` -/
  | ErrNotDestinationObject
  /-- `fmt.Errorf("Invalid state: %s")` of update-state -/
  | invalidState
  /-- `commands.ErrMissingDelimeter` -/
  | ErrMissingDelimeter
  /-- an error returned by a base64 decoder -/
  | corruptInput
  /-- the variable `errInvalidRequest` of `main.go` -/
  | errInvalidRequest
  /-- `bolt.ErrBucketNameRequired`: a bucket is created with an empty name -/
  | ErrBucketNameRequired
  deriving DecidableEq, Repr

/-- Go `binary.LittleEndian.Uint64(b)`: panics on a slice shorter than 8 bytes. -/
def Uint64 : Bytes → Except Err Nat
  | b0 :: b1 :: b2 :: b3 :: b4 :: b5 :: b6 :: b7 :: _ =>
    .ok ((b0 + b1 * 256 + b2 * 256 ^ 2 + b3 * 256 ^ 3 + b4 * 256 ^ 4 + b5 * 256 ^ 5
      + b6 * 256 ^ 6 + b7 * 256 ^ 7) % 2 ^ 64)
  | _ => .error .panic

/-- The conversion `int64(u)` of a `uint64`. -/
def toInt64 (u : Nat) : Int :=
  if u % 2 ^ 64 < 2 ^ 63 then ((u % 2 ^ 64 : Nat) : Int) else ((u % 2 ^ 64 : Nat) : Int) - 2 ^ 64

/-- The conversion `uint64(v)` of an `int64`. -/
def toUint64 (v : Int) : Nat := (v % 2 ^ 64).toNat

/-- An `int64` sum: `a + b` wrapped to 64 bits. -/
def addInt64 (a b : Int) : Int := toInt64 (toUint64 (a + b))

/-- The function `Itol`: an `int64` as 8 bytes in little endian order. -/
def Itol (v : Int) : Bytes := PutUint64 (toUint64 v)

/-- The function `Ltoi`: 8 bytes in little endian order as an `int64`. -/
def Ltoi (b : Bytes) : Except Err Int := (Uint64 b).map toInt64

/-- The function `Uint16tol`: a `uint16` as 2 bytes in little endian order. -/
def Uint16tol (v : Nat) : Bytes := [v % 256, v / 256 % 256]

/-- The function `Ltouint16`: panics on a slice shorter than 2 bytes. -/
def Ltouint16 : Bytes → Except Err Nat
  | b0 :: b1 :: _ => .ok ((b0 + b1 * 256) % 2 ^ 16)
  | _ => .error .panic

/-! ## The ordered key-value substrate -/

/-- A bolt bucket of keys and values: its entries in ascending key order. -/
abbrev KV := List (Bytes × Bytes)

/-- The method `Bucket.Get`: `none` is the nil slice returned for a missing key. -/
def KV.Get : KV → Bytes → Option Bytes
  | [], _ => none
  | (k', v') :: m, k => if k' = k then some v' else KV.Get m k

/-- The method `Bucket.Put`: replaces the value of an existing key, otherwise inserts the
entry at its place in key order. The errors of bolt for an empty key and for a key or a value
beyond its size limits are left out, so the embedding allows every write that bolt allows. -/
def KV.Put : KV → Bytes → Bytes → KV
  | [], k, v => [(k, v)]
  | (k', v') :: m, k, v =>
    if k' = k then (k, v) :: m
    else if bytesLt k k' then (k, v) :: (k', v') :: m
    else (k', v') :: KV.Put m k v

/-- The method `Bucket.Delete`: deleting a missing key changes nothing. -/
def KV.Delete : KV → Bytes → KV
  | [], _ => []
  | (k', v') :: m, k => if k' = k then KV.Delete m k else (k', v') :: KV.Delete m k

/-- The method `Cursor.Seek`: the cursor is the list of entries from the first key that is
not below `k` onwards; `Cursor.Next` drops the head of that list. -/
def KV.Seek : KV → Bytes → KV
  | [], _ => []
  | (k', v') :: m, k => if bytesLt k' k then KV.Seek m k else (k', v') :: m

/-- The keys of a bucket, in cursor order. -/
def KV.keys (m : KV) : List Bytes := m.map Prod.fst

/-! ## Tables -/

/-- The column buckets of a set table (the values of the object schemas). -/
inductive Col where
  | etag | key | storage_class | last_modified | owner_id | owner_display_name
  | size | state | destination_object | is_source_object | is_destination_object
  deriving DecidableEq, Repr

/-- The index buckets of a set table. -/
inductive Idx where
  | idx_destination | idx_source_state | idx_source_key
  | idx_destination_state | idx_destination_key
  deriving DecidableEq, Repr

/-- The keys of `objectSetSchema`, stored in the root of the set table. -/
inductive SetCol where
  | block_size | destination_bucket | destination_path | delimiter
  deriving DecidableEq, Repr

/-- A set table: the top level bolt bucket of an object set with its sequence number,
the set configuration stored at its root, and the nested buckets `objectSetColumns`
that `EnsureTable` creates (one per column and one per index). -/
structure Table where
  sequence : Nat
  root : SetCol → Option Bytes
  cols : Col → KV
  idxs : Idx → KV

/-- The database as seen by one object set: `none` until `EnsureTable` created its table. -/
abbrev DB := Option Table

/-- The table `EnsureTable` creates: every nested bucket exists and is empty. -/
def Table.empty : Table :=
  { sequence := 0, root := fun _ => none, cols := fun _ => [], idxs := fun _ => [] }

/-- The function `EnsureTable` (`CreateBucketIfNotExists` for the table, under its name, and
for each of its columns): the table that exists afterwards. An existing table is left as it
is, and bolt refuses to create a bucket with an empty name. -/
def EnsureTable (name : Bytes) (db : DB) : Except Err Table :=
  if name = [] then .error .ErrBucketNameRequired
  else
    match db with
    | none => .ok Table.empty
    | some t => .ok t

/-- The cell of column `c` at `id`: `b.Bucket(c).Get(id)`. -/
def Table.cell (b : Table) (c : Col) (id : Bytes) : Option Bytes := KV.Get (b.cols c) id

/-- Writes a cell: `b.Bucket(c).Put(id, v)`. -/
def Table.putCell (b : Table) (c : Col) (id v : Bytes) : Table :=
  { b with cols := Function.update b.cols c (KV.Put (b.cols c) id v) }

/-- Deletes a cell: `b.Bucket(c).Delete(id)`. -/
def Table.deleteCell (b : Table) (c : Col) (id : Bytes) : Table :=
  { b with cols := Function.update b.cols c (KV.Delete (b.cols c) id) }

/-- Writes an index entry: `b.Bucket(index).Put(key, nil)`. -/
def Table.putIndex (b : Table) (i : Idx) (key : Bytes) : Table :=
  { b with idxs := Function.update b.idxs i (KV.Put (b.idxs i) key []) }

/-- Deletes an index entry: `b.Bucket(index).Delete(key)`. -/
def Table.deleteIndex (b : Table) (i : Idx) (key : Bytes) : Table :=
  { b with idxs := Function.update b.idxs i (KV.Delete (b.idxs i) key) }

/-- The method `Bucket.NextSequence`: increments the `uint64` sequence of the bucket. -/
def NextSequence (b : Table) : Nat × Table :=
  ((b.sequence + 1) % 2 ^ 64, { b with sequence := (b.sequence + 1) % 2 ^ 64 })

/-! ## The row store (`boltdb/columnar.go`) -/

/-- The constant `idSize`. -/
def idSize : Nat := 8

/-- A marshalled row, `map[string][]byte`: the listed columns are the keys of the map, a
key mapped to `none` holds an explicit nil, a column that is not listed is missing. The
list order stands for the iteration order of the Go map. -/
abbrev Values := List (Col × Option Bytes)

/-- Go `values[k]`: nil for a missing key. -/
def Values.get : Values → Col → Option Bytes
  | [], _ => none
  | (k', v) :: m, k => if k' = k then v else Values.get m k

/-- Go `_, ok := values[k]`. -/
def Values.has : Values → Col → Bool
  | [], _ => false
  | (k', _) :: m, k => if k' = k then true else Values.has m k

/-- What the row store uses of a value of the interface `Row`: the results of its methods
`Marshal`, `Schema` (the declared columns; `boltdb.Schema` names each column bucket after
its key) and `Indexes` (no index at all when the row does not implement `Indexed`). -/
structure Row where
  Marshal : Values
  Schema : Col → Bool
  Indexes : Col → Option Idx

/-- The function `MakeIndex`: the index key of value `v` and row `id`. -/
def MakeIndex (v id : Bytes) : Bytes := v ++ id

/-- The function `idFromIndex`: the last `idSize` bytes of an index key; slicing panics
on a key shorter than that. -/
def idFromIndex (idx : Bytes) : Except Err Bytes :=
  if idx.length < idSize then .error .panic else .ok (idx.drop (idx.length - idSize))

/-- Every column, in the order in which the embedding iterates over a schema. -/
def Col.all : List Col :=
  [.etag, .key, .storage_class, .last_modified, .owner_id, .owner_display_name,
   .size, .state, .destination_object, .is_source_object, .is_destination_object]

/-- The function `lookupRow`: the cell of every schema column at `id`. -/
def lookupRow (b : Table) (id : Bytes) (schema : Col → Bool) : Values :=
  (Col.all.filter schema).map fun k => (k, b.cell k id)

/-- The body of the loop of `AppendRow` for one marshalled entry. -/
def appendValue (row : Row) (id : Bytes) (b : Table) : Col × Option Bytes → Except Err Table
  | (_, none) => .ok b
  | (k, some v) =>
    if row.Schema k then
      let b1 := b.putCell k id v
      match row.Indexes k with
      | some index => .ok (b1.putIndex index (MakeIndex v id))
      | none => .ok b1
    else .error .fatal

/-- The function `AppendRow`: adds a row, writes its index entries and returns its id. -/
def AppendRow (b : Table) (row : Row) : Except Err (Bytes × Table) :=
  let (seq, b1) := NextSequence b
  let id := PutUint64 seq
  (row.Marshal.foldlM (appendValue row id) b1).map fun b2 => (id, b2)

/-- The function `putValue`. -/
def putValue (b : Table) (row : Row) (id : Bytes) (k : Col) (v : Option Bytes)
    (currValues : Values) : Except Err Table :=
  if bytesEqual v (currValues.get k) then .ok b
  else if row.Schema k then
    let b1 := match v with
      | none => b.deleteCell k id
      | some w => b.putCell k id w
    match row.Indexes k with
    | some index =>
      let b2 := b1.deleteIndex index (MakeIndex ((currValues.get k).getD []) id)
      match v with
      | none => .ok b2
      | some w => .ok (b2.putIndex index (MakeIndex w id))
    | none => .ok b1
  else .error .panic

/-- The function `UpdateRow`: `current` is the marshalled current row when one is passed,
and is read from the table over the schema of the row otherwise. -/
def UpdateRow (b : Table) (id : Bytes) (row : Row) (current : Option Values) :
    Except Err Table :=
  let currValues := match current with
    | some c => c
    | none => lookupRow b id row.Schema
  row.Marshal.foldlM (fun b1 kv => putValue b1 row id kv.1 kv.2 currValues) b

/-- The loop of `PrefixQuery` over the cursor `c`, with the rows collected so far. -/
def prefixScan (pfx : Bytes) (limit : Int) : KV → List Bytes → Except Err (List Bytes)
  | [], rows => .ok rows
  | (idx, _) :: c, rows =>
    if HasPrefix idx pfx then
      match idFromIndex idx with
      | .error e => .error e
      | .ok id =>
        if ((rows ++ [id]).length : Int) = limit then .ok (rows ++ [id])
        else prefixScan pfx limit c (rows ++ [id])
    else .ok rows

/-- The largest capacity that `make([][]byte, 0, n)` accepts on the 64-bit platforms the
program is built for: the slice headers of `n` elements, 24 bytes each, may not exceed the
largest allocation of the runtime, `2 ^ 48` bytes. -/
def maxSliceCap : Int := 11728124029610

/-- Go `make([][]byte, 0, n)` for an `int` `n`: the check of `makeslice` panics on a negative
capacity and on a capacity above `maxSliceCap`. -/
def makeSlicePanics (n : Int) : Bool := decide (n < 0 ∨ maxSliceCap < n)

/-- The function `PrefixQuery`; its first statement is `make([][]byte, 0, limit)`, which
panics on a `limit` that is negative or too large. -/
def PrefixQuery (b : Table) (index : Idx) (pfx : Bytes) (limit : Int)
    (exclusiveStart : Option Bytes) : Except Err (List Bytes) :=
  if makeSlicePanics limit then .error .panic
  else
    match exclusiveStart with
    | some start =>
      match KV.Seek (b.idxs index) start with
      | [] => .ok []
      | (idx, v) :: c =>
        if idx = start then prefixScan pfx limit c [] else prefixScan pfx limit ((idx, v) :: c) []
    | none => prefixScan pfx limit (KV.Seek (b.idxs index) pfx) []

/-- The function `LookupID`, given the result `(index, pfx)` of the method `PK`. -/
def LookupID (b : Table) (pk : Idx × Bytes) : Except Err (Option Bytes) :=
  match PrefixQuery b pk.1 pk.2 1 none with
  | .error e => .error e
  | .ok ids => .ok ids.head?

/-! ## The domain model (`models/models.go`, `models/boltdb.go`) -/

/-- The constant `StateUnknown`. -/
def StateUnknown : Nat := 0
/-- The constant `StateNew`. -/
def StateNew : Nat := 1
/-- The constant `StateDirty`. -/
def StateDirty : Nat := 2
/-- The constant `StateInSync`. -/
def StateInSync : Nat := 3
/-- The constant `StateExpired`. -/
def StateExpired : Nat := 4
/-- The constant `StateDeleted`. -/
def StateDeleted : Nat := 5

/-- The method `State.String`. -/
def State.String (s : Nat) : String :=
  if s = StateUnknown then "UNKNOWN"
  else if s = StateNew then "NEW"
  else if s = StateDirty then "DIRTY"
  else if s = StateInSync then "IN_SYNC"
  else if s = StateExpired then "EXPIRED"
  else if s = StateDeleted then "DELETED"
  else "UNKNOWN"

/-- The function `ParseState`. -/
def ParseState (s : String) : Nat :=
  if s = "UNKNOWN" then StateUnknown
  else if s = "NEW" then StateNew
  else if s = "DIRTY" then StateDirty
  else if s = "IN_SYNC" then StateInSync
  else if s = "EXPIRED" then StateExpired
  else if s = "DELETED" then StateDeleted
  else StateUnknown

/-- The variable `valueTrue`. -/
def valueTrue : Bytes := [1]

/-- The struct `ObjectSet` (its table name apart: the embedding follows one set). -/
structure ObjectSet where
  Bucket : Bytes
  Prefix : Bytes
  DestinationBucket : Bytes := []
  DestinationPath : Bytes := []
  Delimiter : Option Bytes := none
  BlockSize : Int := 0

/-- The function `NewObjectSet`. -/
def NewObjectSet (bucket pfx : Bytes) : ObjectSet := { Bucket := bucket, Prefix := pfx }

/-- The values of an object set, `map[string][]byte` over the keys of `objectSetSchema`: the
listed keys are the keys of the map, a key mapped to `none` holds nil, a key that is not
listed is missing. -/
abbrev SetValues := List (SetCol × Option Bytes)

/-- Go `values[k]`: nil for a missing key. -/
def SetValues.get : SetValues → SetCol → Option Bytes
  | [], _ => none
  | (k1, v) :: m, k => if k1 = k then v else SetValues.get m k

/-- Go `_, ok := values[k]`. -/
def SetValues.has : SetValues → SetCol → Bool
  | [], _ => false
  | (k1, _) :: m, k => if k1 = k then true else SetValues.has m k

/-- The method `ObjectSet.Marshal`, over the keys of `objectSetSchema`. -/
def ObjectSet.Marshal (o : ObjectSet) : SetValues :=
  [(.block_size, some (Itol o.BlockSize)),
   (.destination_bucket, some o.DestinationBucket),
   (.destination_path, some o.DestinationPath),
   (.delimiter, o.Delimiter)]

/-- The method `ObjectSet.Unmarshal`: a field is set from the value at its key when the map
holds the key and is left as it is otherwise; `Ltoi` panics on a nil `block_size`, and the
string of a nil slice is the empty string. -/
def ObjectSet.Unmarshal (o : ObjectSet) (values : SetValues) : Except Err ObjectSet :=
  match (if values.has .block_size then Ltoi ((values.get .block_size).getD [])
      else .ok o.BlockSize : Except Err Int) with
  | .error e => .error e
  | .ok n =>
    .ok { o with
      BlockSize := n
      DestinationBucket :=
        if values.has .destination_bucket then (values.get .destination_bucket).getD []
        else o.DestinationBucket
      DestinationPath :=
        if values.has .destination_path then (values.get .destination_path).getD []
        else o.DestinationPath
      Delimiter := if values.has .delimiter then values.get .delimiter else o.Delimiter }

/-- Every key of `objectSetSchema`. -/
def SetCol.all : List SetCol :=
  [.block_size, .destination_bucket, .destination_path, .delimiter]

/-- The map `values` that `LookupTable` fills for an object set: every key of the schema
with what `Get` returns at the root of the table, nil for a key that was never put. -/
def Table.rootValues (b : Table) : SetValues := SetCol.all.map fun k => (k, b.root k)

/-- The function `LookupTable`: the bucket of the set and the set hydrated from the values
at its root; dereferencing the nil bucket of a missing table panics. -/
def LookupTable (db : DB) (set : ObjectSet) : Except Err (Table × ObjectSet) :=
  match db with
  | none => .error .panic
  | some b =>
    match set.Unmarshal b.rootValues with
    | .error e => .error e
    | .ok set1 => .ok (b, set1)

/-- The struct `s3.Owner`. -/
structure Owner where
  DisplayName : Option Bytes := none
  ID : Option Bytes := none
  deriving DecidableEq

/-- The struct `s3.Object`; `LastModified` is held as its `UnixNano` value. -/
structure S3Object where
  ETag : Option Bytes := none
  Key : Option Bytes := none
  LastModified : Option Int := none
  Owner : Option Owner := none
  Size : Option Int := none
  StorageClass : Option Bytes := none
  deriving DecidableEq

/-- The struct `Object`. -/
structure Object extends S3Object where
  Parent : ObjectSet
  State : Nat := StateUnknown

/-- The struct `SourceObject`. -/
structure SourceObject extends Object where
  DestinationObjectID : Option Bytes := none

/-- The struct `DestinationObject`. -/
structure DestinationObject extends Object

/-- The function `NewSourceObject`. -/
def NewSourceObject (p : ObjectSet) : SourceObject := { Parent := p }

/-- The function `NewDestinationObject`. -/
def NewDestinationObject (p : ObjectSet) : DestinationObject := { Parent := p }

/-- The keys of `objectSchema`. -/
def objectSchema : Col → Bool
  | .etag | .key | .storage_class | .last_modified | .owner_id | .owner_display_name
  | .size | .state => true
  | _ => false

/-- The keys of `sourceObjectSchema`. -/
def sourceObjectSchema (c : Col) : Bool :=
  objectSchema c || decide (c = .destination_object) || decide (c = .is_source_object)

/-- The map `sourceObjectIndexes`. -/
def sourceObjectIndexes : Col → Option Idx
  | .destination_object => some .idx_destination
  | .state => some .idx_source_state
  | .key => some .idx_source_key
  | _ => none

/-- The keys of `destinationObjectSchema`. -/
def destinationObjectSchema (c : Col) : Bool :=
  objectSchema c || decide (c = .is_destination_object)

/-- The map `destinationObjectIndexes`. -/
def destinationObjectIndexes : Col → Option Idx
  | .state => some .idx_destination_state
  | .key => some .idx_destination_key
  | _ => none

/-- Go `values[k] = v`. -/
def Values.set : Values → Col → Option Bytes → Values
  | [], k, v => [(k, v)]
  | (k', v') :: m, k, v => if k' = k then (k, v) :: m else (k', v') :: Values.set m k v

/-- Go `s[n:]` on a string: slicing past the end panics. -/
def sliceFrom (s : Bytes) (n : Nat) : Except Err Bytes :=
  if n ≤ s.length then .ok (s.drop n) else .error .panic

/-- Go `aws.StringValue`: the empty string for a nil pointer. -/
def StringValue (s : Option Bytes) : Bytes := s.getD []

/-- The method `Object.Marshal`; the primary key of a plain `Object` is its whole key. -/
def Object.Marshal (o : Object) : Values :=
  [(.etag, o.ETag),
   (.key, o.Key),
   (.storage_class, o.StorageClass),
   (.last_modified, o.LastModified.map Itol),
   (.owner_id, o.Owner.bind (·.ID)),
   (.owner_display_name, o.Owner.bind (·.DisplayName)),
   (.size, o.Size.map Itol),
   (.state, some (Uint16tol o.State))]

/-- The method `Object.Unmarshal`. -/
def Object.Unmarshal (o : Object) (values : Values) : Except Err Object :=
  match (match values.get .last_modified with
      | some v => (Ltoi v).map some
      | none => .ok none : Except Err (Option Int)) with
  | .error e => .error e
  | .ok lastModified =>
    match (match values.get .size with
        | some v => (Ltoi v).map some
        | none => .ok none : Except Err (Option Int)) with
    | .error e => .error e
    | .ok size =>
      match (match values.get .state with
          | some v => Ltouint16 v
          | none => .ok StateUnknown : Except Err Nat) with
      | .error e => .error e
      | .ok state =>
        .ok { o with
          ETag := values.get .etag
          Key := values.get .key
          StorageClass := values.get .storage_class
          LastModified := lastModified
          Owner :=
            if (values.get .owner_id).isSome || (values.get .owner_display_name).isSome then
              some { ID := values.get .owner_id
                     DisplayName := values.get .owner_display_name }
            else none
          Size := size
          State := state }

/-- The method `Object.IsDirty`: the verdict and the receiver after the call. -/
def Object.IsDirty (o other : Object) : Bool × Object :=
  if StringValue o.ETag = StringValue other.ETag then (false, o)
  else (true, { o with State := StateDirty })

/-- The method `SourceObject.PK`: the index and the key without the set prefix. -/
def SourceObject.PK (s : SourceObject) : Except Err (Idx × Bytes) :=
  (sliceFrom (StringValue s.Key) s.Parent.Prefix.length).map fun k => (.idx_source_key, k)

/-- The method `SourceObject.Marshal`. -/
def SourceObject.Marshal (s : SourceObject) : Except Err Values :=
  let values := s.toObject.Marshal
  match (match s.Key with
      | some _ => s.PK.map fun pk => values.set .key (some pk.2)
      | none => .ok values : Except Err Values) with
  | .error e => .error e
  | .ok values1 =>
    .ok ((values1.set .destination_object s.DestinationObjectID).set
      .is_source_object (some valueTrue))

/-- The method `SourceObject.Unmarshal`. -/
def SourceObject.Unmarshal (s : SourceObject) (values : Values) : Except Err SourceObject :=
  match s.toObject.Unmarshal values with
  | .error e => .error e
  | .ok o =>
    let o1 : Object := { o with Key := (values.get .key).map fun v => s.Parent.Prefix ++ v }
    let dest := if values.has .destination_object then values.get .destination_object
      else s.DestinationObjectID
    if bytesEqual (values.get .is_source_object) (some valueTrue)
        && (values.get .is_source_object).isSome then
      .ok { toObject := o1, DestinationObjectID := dest }
    else .error .ErrNotDestinationObject

/-- The method `SourceObject.Copy`. -/
def SourceObject.Copy (s : SourceObject) : Except Err SourceObject :=
  match s.Marshal with
  | .error e => .error e
  | .ok values => (NewSourceObject s.Parent).Unmarshal values

/-- The row-store view of a `SourceObject`. -/
def SourceObject.Row (s : SourceObject) : Except Err Row :=
  s.Marshal.map fun values =>
    { Marshal := values, Schema := sourceObjectSchema, Indexes := sourceObjectIndexes }

/-- The method `DestinationObject.PK`: the index and the key without the destination path. -/
def DestinationObject.PK (d : DestinationObject) : Except Err (Idx × Bytes) :=
  (sliceFrom (StringValue d.Key) d.Parent.DestinationPath.length).map fun k =>
    (.idx_destination_key, k)

/-- The method `DestinationObject.Marshal`. -/
def DestinationObject.Marshal (d : DestinationObject) : Except Err Values :=
  let values := d.toObject.Marshal
  match (match d.Key with
      | some _ => d.PK.map fun pk => values.set .key (some pk.2)
      | none => .ok values : Except Err Values) with
  | .error e => .error e
  | .ok values1 => .ok (values1.set .is_destination_object (some valueTrue))

/-- The method `DestinationObject.Unmarshal`. -/
def DestinationObject.Unmarshal (d : DestinationObject) (values : Values) :
    Except Err DestinationObject :=
  match d.toObject.Unmarshal values with
  | .error e => .error e
  | .ok o =>
    let o1 : Object :=
      { o with Key := (values.get .key).map fun v => d.Parent.DestinationPath ++ v }
    if bytesEqual (values.get .is_destination_object) (some valueTrue)
        && (values.get .is_destination_object).isSome then
      .ok { toObject := o1 }
    else .error .ErrNotDestinationObject

/-- The method `DestinationObject.Copy`. -/
def DestinationObject.Copy (d : DestinationObject) : Except Err DestinationObject :=
  match d.Marshal with
  | .error e => .error e
  | .ok values => (NewDestinationObject d.Parent).Unmarshal values

/-- The row-store view of a `DestinationObject`. -/
def DestinationObject.Row (d : DestinationObject) : Except Err Row :=
  d.Marshal.map fun values =>
    { Marshal := values, Schema := destinationObjectSchema,
      Indexes := destinationObjectIndexes }

/-- The function `LookupRow` for a fresh `SourceObject` of set `p`. -/
def LookupSourceRow (b : Table) (id : Bytes) (p : ObjectSet) : Except Err SourceObject :=
  (NewSourceObject p).Unmarshal (lookupRow b id sourceObjectSchema)

/-- The function `LookupRow` for a fresh `DestinationObject` of set `p`. -/
def LookupDestinationRow (b : Table) (id : Bytes) (p : ObjectSet) :
    Except Err DestinationObject :=
  (NewDestinationObject p).Unmarshal (lookupRow b id destinationObjectSchema)

/-! ## Table names (`models/models.go`) -/

/-- The path at `/`: its elements, with the empty ones between two slashes. -/
def splitSlash : Bytes → List Bytes
  | [] => [[]]
  | c :: rest =>
    if c = 47 then [] :: splitSlash rest
    else
      match splitSlash rest with
      | [] => [[c]]
      | e :: es => (c :: e) :: es

/-- One element of a path in `path.Clean`, with the elements kept so far, last first: an
empty element and `.` are dropped, `..` removes the element before it, is dropped at the
root and is kept otherwise. -/
def cleanStep (rooted : Bool) (stack : List Bytes) (e : Bytes) : List Bytes :=
  if e = [] ∨ e = [46] then stack
  else if e = [46, 46] then
    match stack with
    | top :: below => if top = [46, 46] then e :: stack else below
    | [] => if rooted then [] else [e]
  else e :: stack

/-- The library function `path.Clean`. -/
def Clean (path : Bytes) : Bytes :=
  let rooted := decide (path.head? = some 47)
  let elems := ((splitSlash path).foldl (cleanStep rooted) []).reverse
  let body := [47].intercalate elems
  if rooted then 47 :: body
  else if body = [] then [46] else body

/-- The library function `path.Join`: empty elements before the first non-empty one are
ignored, the rest is joined with slashes and cleaned; the result is empty when every
element is. -/
def Join (elem : List Bytes) : Bytes :=
  match elem.dropWhile (· = []) with
  | [] => []
  | rest => Clean ([47].intercalate rest)

/-- The field `tableName` that `NewObjectSet` gives the set of `bucket` and `pfx`, and that
the method `ObjectSet.Name` returns. -/
def tableName (bucket pfx : Bytes) : Bytes := Join [bucket, pfx]

/-! ## put-set (`commands/put_object_set.go`) -/

/-- The request of put-set. -/
structure PutObjectSet where
  Bucket : Bytes
  Prefix : Bytes
  DestinationBucket : Bytes
  DestinationPath : Bytes
  BlockSize : Int
  Delimiter : Option Bytes := none
  DelimiterB64 : Option Bytes := none

/-- Go `strings.Trim(s, "/")`: `s` without its leading and trailing slashes. -/
def Trim (s : Bytes) : Bytes :=
  ((s.dropWhile (· = 47)).reverse.dropWhile (· = 47)).reverse

/-- The write transaction of put-set: every marshalled value is put at its schema key in
the root of the table. -/
def putSetValues (b : Table) (values : List (SetCol × Option Bytes)) : Table :=
  values.foldl (fun b1 kv => { b1 with root := Function.update b1.root kv.1 (some (kv.2.getD [])) }) b

/-- The method `PutObjectSet.Invoke`; `decode` is `base64.StdEncoding.DecodeString`, and
the name of the table is the `tableName` of the set. -/
def PutObjectSet.Invoke (decode : Bytes → Option Bytes) (p : PutObjectSet) (db : DB) :
    Except Err DB :=
  let objectSet : ObjectSet :=
    { NewObjectSet p.Bucket p.Prefix with
      BlockSize := p.BlockSize
      DestinationBucket := p.DestinationBucket
      DestinationPath := Trim p.DestinationPath ++ [47] }
  match (match p.Delimiter with
      | some d => .ok d
      | none =>
        match p.DelimiterB64 with
        | some d64 =>
          match decode d64 with
          | some d => .ok d
          | none => .error .corruptInput
        | none => .error .ErrMissingDelimeter : Except Err Bytes) with
  | .error e => .error e
  | .ok delimiter =>
    let objectSet1 := { objectSet with Delimiter := some delimiter }
    match EnsureTable (tableName p.Bucket p.Prefix) db with
    | .error e => .error e
    | .ok b => .ok (some (putSetValues b objectSet1.Marshal))

/-! ## load-inventory (`commands/load_inventory.go`) -/

/-- The body of the loop of `flushBuffer` for one inventory object. -/
def flushStep (objectSet : ObjectSet) (b : Table) (i : S3Object) : Except Err Table :=
  let obj : SourceObject := { NewSourceObject objectSet with toS3Object := i }
  match obj.PK with
  | .error e => .error e
  | .ok pk =>
    match LookupID b pk with
    | .error e => .error e
    | .ok (some id) =>
      match LookupSourceRow b id obj.Parent with
      | .error e => .error e
      | .ok current =>
        let dirty := obj.toObject.IsDirty current.toObject
        if dirty.1 then
          let obj1 : SourceObject := { obj with toObject := dirty.2 }
          match obj1.Row with
          | .error e => .error e
          | .ok row =>
            match current.Marshal with
            | .error e => .error e
            | .ok currValues => UpdateRow b id row (some currValues)
        else .ok b
    | .ok none =>
      let obj1 : SourceObject := { obj with State := StateNew }
      match obj1.Row with
      | .error e => .error e
      | .ok row => (AppendRow b row).map Prod.snd

/-- The method `LoadInventory.flushBuffer`: one write transaction over the buffer. -/
def flushBuffer (objectSet : ObjectSet) (db : DB) (buf : List S3Object) : Except Err DB :=
  match db with
  | none => .error .bucketNotFound
  | some b => (buf.foldlM (flushStep objectSet) b).map some

/-- The callback of `forEach` in `LoadInventory.Invoke` over the objects still to come,
with the buffer of capacity `cap`, followed by the final flush: the store that is left and
the error returned, if any. -/
def loadLoop (objectSet : ObjectSet) (cap : Nat) :
    List S3Object → List S3Object → DB → DB × Option Err
  | [], buf, db =>
    match flushBuffer objectSet db buf with
    | .error e => (db, some e)
    | .ok db1 => (db1, none)
  | o :: rest, buf, db =>
    if (buf ++ [o]).length = cap then
      match flushBuffer objectSet db (buf ++ [o]) with
      | .error e => (db, some e)
      | .ok db1 => loadLoop objectSet cap rest [] db1
    else loadLoop objectSet cap rest (buf ++ [o]) db

/-- The request of load-inventory. -/
structure LoadInventory where
  Bucket : Bytes
  Prefix : Bytes

/-- The method `LoadInventory.Invoke` on the objects `inventory` that the decoder reads
from the source. -/
def LoadInventory.Invoke (l : LoadInventory) (inventory : List S3Object) (db : DB) :
    DB × Option Err :=
  loadLoop (NewObjectSet l.Bucket l.Prefix) 2048 inventory [] db

/-! ## plan-new (`commands/plan_new_objects.go`) -/

/-- Go `aws.Int64Value`: zero for a nil pointer. -/
def Int64Value (v : Option Int) : Int := v.getD 0

/-- The variables of `PlanNewObjects.Invoke` that live across pages: the bucket, the id
and the in-memory row of the open block (`none` for nil), its running size `n`, and the
number of blocks created so far. -/
structure PlanState where
  b : Table
  blockID : Option Bytes := none
  block : Option DestinationObject := none
  n : Int := 0
  created : Nat := 0

/-- The method `PlanNewObjects.flushDestination`. -/
def flushDestination (b : Table) (blockID : Bytes) (block : Option DestinationObject)
    (n : Int) : Except Err Table :=
  match block with
  | none => .error .panic
  | some block =>
    match block.Copy with
    | .error e => .error e
    | .ok newBlock =>
      let newBlock1 : DestinationObject := { newBlock with Size := some n }
      match newBlock1.Row with
      | .error e => .error e
      | .ok row =>
        match block.Marshal with
        | .error e => .error e
        | .ok currValues => UpdateRow b blockID row (some currValues)

/-- The first part of the loop body of a page: when no block is open, a new block is
appended; `keys k` is the key `path.Join(DestinationPath, uuid)` drawn for block `k`. -/
def openBlock (set : ObjectSet) (keys : Nat → Bytes) (st : PlanState) : Except Err PlanState :=
  match st.blockID with
  | some _ => .ok st
  | none =>
    let block : DestinationObject :=
      { NewDestinationObject set with Key := some (keys st.created), State := StateNew }
    match block.Row with
    | .error e => .error e
    | .ok row =>
      match AppendRow st.b row with
      | .error e => .error e
      | .ok (blockID, b1) =>
        .ok { b := b1, blockID := some blockID, block := some block, n := 0,
              created := st.created + 1 }

/-- The loop body of a page of plan-new for one source id. -/
def planStep (set : ObjectSet) (keys : Nat → Bytes) (st : PlanState) (id : Bytes) :
    Except Err PlanState :=
  match LookupSourceRow st.b id set with
  | .error e => .error e
  | .ok source =>
    match openBlock set keys st with
    | .error e => .error e
    | .ok st1 =>
      match source.Copy with
      | .error e => .error e
      | .ok current =>
        let source1 : SourceObject :=
          { source with DestinationObjectID := st1.blockID, State := StateInSync }
        match source1.Row with
        | .error e => .error e
        | .ok row =>
          match current.Marshal with
          | .error e => .error e
          | .ok currValues =>
            match UpdateRow st1.b id row (some currValues) with
            | .error e => .error e
            | .ok b2 =>
              let n := addInt64 st1.n
                (addInt64 (Int64Value source1.Size) ((StringValue set.Delimiter).length : Int))
              if set.BlockSize ≤ n then
                match flushDestination b2 (st1.blockID.getD []) st1.block n with
                | .error e => .error e
                | .ok b3 =>
                  .ok { b := b3, blockID := none, block := none, n := 0,
                        created := st1.created }
              else .ok { st1 with b := b2, n := n }

/-- The write transaction of one page of plan-new. -/
def planPage (set : ObjectSet) (keys : Nat → Bytes) (limit : Int) (st : PlanState)
    (objectIds : List Bytes) : Except Err PlanState :=
  match objectIds.foldlM (planStep set keys) st with
  | .error e => .error e
  | .ok st1 =>
    match st1.blockID with
    | some blockID =>
      if (objectIds.length : Int) < limit then
        (flushDestination st1.b blockID st1.block st1.n).map fun b2 => { st1 with b := b2 }
      else .ok st1
    | none => .ok st1

/-- The loop of `PlanNewObjects.Invoke`, run for at most `fuel` pages: `none` when the
loop is still running after that many pages, otherwise the committed bucket and the error
returned, if any. A failing page is rolled back. -/
def planLoop (set : ObjectSet) (keys : Nat → Bytes) (limit : Int) :
    Nat → PlanState → Option (Table × Option Err)
  | 0, _ => none
  | fuel + 1, st =>
    match PrefixQuery st.b .idx_source_state (Uint16tol StateNew) limit none with
    | .error e => some (st.b, some e)
    | .ok objectIds =>
      match planPage set keys limit st objectIds with
      | .error e => some (st.b, some e)
      | .ok st1 =>
        if (objectIds.length : Int) < limit then some (st1.b, none)
        else planLoop set keys limit fuel st1

/-- The request of plan-new. -/
structure PlanNewObjects where
  Bucket : Bytes
  Prefix : Bytes

/-- The method `PlanNewObjects.Invoke`, run for at most `fuel` pages of 2048 ids. -/
def PlanNewObjects.Invoke (p : PlanNewObjects) (keys : Nat → Bytes) (fuel : Nat) (db : DB) :
    Option (DB × Option Err) :=
  match LookupTable db (NewObjectSet p.Bucket p.Prefix) with
  | .error e => some (db, some e)
  | .ok (b, set) =>
    (planLoop set keys 2048 fuel { b := b }).map fun r => (some r.1, r.2)

/-! ## update-state (`commands/update_objects_state.go`) -/

/-- The request of update-state. -/
structure UpdateObjectsState where
  Bucket : Bytes
  Prefix : Bytes
  Type_ : String
  IDS : List Bytes
  State : String

/-- The loop body of update-state for one decoded id. A type that is neither `source`
nor `destination` leaves `row` nil, and `UpdateRow` panics on it. -/
def updateStep (set : ObjectSet) (type : String) (state : Nat) (b : Table) (id : Bytes) :
    Except Err Table :=
  if type = "source" then
    match LookupSourceRow b id set with
    | .error e => .error e
    | .ok o =>
      if o.State = state then .ok b
      else
        match o.Copy with
        | .error e => .error e
        | .ok newO =>
          let newO1 : SourceObject := { newO with State := state }
          match newO1.Row with
          | .error e => .error e
          | .ok row =>
            match o.Marshal with
            | .error e => .error e
            | .ok currValues => UpdateRow b id row (some currValues)
  else if type = "destination" then
    match LookupDestinationRow b id set with
    | .error e => .error e
    | .ok o =>
      if o.State = state then .ok b
      else
        match o.Copy with
        | .error e => .error e
        | .ok newO =>
          let newO1 : DestinationObject := { newO with State := state }
          match newO1.Row with
          | .error e => .error e
          | .ok row =>
            match o.Marshal with
            | .error e => .error e
            | .ok currValues => UpdateRow b id row (some currValues)
  else .error .panic

/-- The method `UpdateObjectsState.Invoke`, one write transaction; `ToUpper` is
`strings.ToUpper` and `decode` is `base64.RawURLEncoding.DecodeString`. -/
def UpdateObjectsState.Invoke (ToUpper : String → String) (decode : Bytes → Option Bytes)
    (u : UpdateObjectsState) (db : DB) : Except Err DB :=
  let state := ParseState (ToUpper u.State)
  if state = StateUnknown then .error .invalidState
  else
    match LookupTable db (NewObjectSet u.Bucket u.Prefix) with
    | .error e => .error e
    | .ok (b, set) =>
      (u.IDS.foldlM (fun (b1 : Table) (idB64 : Bytes) =>
        match decode idB64 with
        | none => (Except.error Err.corruptInput : Except Err Table)
        | some id => updateStep set u.Type_ state b1 id) b).map some

/-! ## The streaming merge (`s3/merge_objects.go`) -/

/-- The struct `s3manager.UploadInput` as `MergeObjects` fills it: the bucket, the key, and
for the body the bytes written to the pipe up to its close, with the error the write end was
closed with, if any. -/
structure UploadInput where
  Bucket : Bytes
  Key : Option Bytes
  Body : Bytes
  BodyErr : Option Err := none

/-- The goroutine of `MergeObjects` over the sources still to come: `get bucket key` is the
fetch of an object with the copy of its body into the pipe, giving the bytes copied and the
error of the fetch or the copy, if any. The result is the bytes written to the pipe and the
count `n`, or the error the pipe is closed with. -/
def mergeWrite (get : Bytes → Option Bytes → Bytes × Option Err) (delimiter : Option Bytes) :
    List SourceObject → Bytes → Int → Bytes × Except Err Int
  | [], body, n => (body, .ok n)
  | source :: rest, body, n =>
    match get source.Parent.Bucket source.Key with
    | (data, some e) => (body ++ data, .error e)
    | (data, none) =>
      mergeWrite get delimiter rest (body ++ data ++ StringValue delimiter)
        (addInt64 n (addInt64 (data.length : Int) ((StringValue delimiter).length : Int)))

/-- The `UploadInput` that `MergeObjects` hands to the uploader. -/
def mergeInput (get : Bytes → Option Bytes → Bytes × Option Err)
    (destination : DestinationObject) (sourceObjects : List SourceObject) : UploadInput :=
  let w := mergeWrite get destination.Parent.Delimiter sourceObjects [] 0
  { Bucket := destination.Parent.Bucket
    Key := destination.Key
    Body := w.1
    BodyErr := match w.2 with
      | .error e => some e
      | .ok _ => none }

/-- The function `MergeObjects`. The uploader `upload` returns `none` when the upload
succeeded and `some (e, readAll)` when it failed with `e`, where `readAll` tells whether it
had read the pipe to its end before. The count is received from the channel of the
goroutine, which is closed without a value (giving zero) when a write to the pipe failed. -/
def MergeObjects (get : Bytes → Option Bytes → Bytes × Option Err)
    (upload : UploadInput → Option (Err × Bool)) (destination : DestinationObject)
    (sourceObjects : List SourceObject) : Int × Option Err :=
  let w := mergeWrite get destination.Parent.Delimiter sourceObjects [] 0
  match upload (mergeInput get destination sourceObjects), w.2 with
  | none, .ok n => (n, none)
  | none, .error _ => (0, none)
  | some (e, readAll), .ok n => (if readAll then n else 0, some e)
  | some (e, _), .error _ => (0, some e)

/-! ## write-destination (`commands/write_destination_object.go`) -/

/-- The request of write-destination. -/
structure WriteDestinationObject where
  Bucket : Bytes
  Prefix : Bytes
  ID : Bytes

/-- A Go loop that appends the result of `f` for every element to a slice and returns at
the first error. -/
def collectM {α β : Type} (f : α → Except Err β) (l : List α) (acc : List β) :
    Except Err (List β) :=
  l.foldlM (fun (acc1 : List β) (a : α) =>
    match f a with
    | .error e => (Except.error e : Except Err (List β))
    | .ok x => .ok (acc1 ++ [x])) acc

/-- The inner loop of `WriteDestinationObject.Invoke`: the rows of the ids of one page are
appended to the sources. -/
def lookupSources (b : Table) (set : ObjectSet) (ids : List Bytes)
    (sources : List SourceObject) : Except Err (List SourceObject) :=
  collectM (fun sID => LookupSourceRow b sID set) ids sources

/-- The loop `for running := true; running;` of `WriteDestinationObject.Invoke` with page
size `limit`, run for at most `fuel` pages: indexing the last id of an empty page panics. -/
def collectSources (b : Table) (set : ObjectSet) (pfx : Bytes) (limit : Int) :
    Nat → Option Bytes → List SourceObject → Option (Except Err (List SourceObject))
  | 0, _, _ => none
  | fuel + 1, exclusiveStart, sources =>
    match PrefixQuery b .idx_destination pfx limit exclusiveStart with
    | .error e => some (.error e)
    | .ok ids =>
      match lookupSources b set ids sources with
      | .error e => some (.error e)
      | .ok sources1 =>
        if (ids.length : Int) < limit then some (.ok sources1)
        else
          match ids.getLast? with
          | none => some (.error .panic)
          | some last => collectSources b set pfx limit fuel (some last) sources1

/-- The read transaction of `WriteDestinationObject.Invoke` up to the call of
`MergeObjects`: the destination row and the source list handed to the merge. -/
def WriteDestinationObject.sources (decode : Bytes → Option Bytes)
    (w : WriteDestinationObject) (fuel : Nat) (db : DB) :
    Option (Except Err (DestinationObject × List SourceObject)) :=
  match LookupTable db (NewObjectSet w.Bucket w.Prefix) with
  | .error e => some (.error e)
  | .ok (b, set) =>
    match decode w.ID with
    | none => some (.error .corruptInput)
    | some id =>
      match LookupDestinationRow b id set with
      | .error e => some (.error e)
      | .ok dest =>
        (collectSources b set id 2048 fuel none []).map fun r =>
          r.map fun sources => (dest, sources)

/-- The method `WriteDestinationObject.Invoke`: the error it returns, if any. -/
def WriteDestinationObject.Invoke (decode : Bytes → Option Bytes)
    (get : Bytes → Option Bytes → Bytes × Option Err)
    (upload : UploadInput → Option (Err × Bool)) (w : WriteDestinationObject) (fuel : Nat)
    (db : DB) : Option (Option Err) :=
  (w.sources decode fuel db).map fun r =>
    match r with
    | .error e => some e
    | .ok (dest, sources) => (MergeObjects get upload dest sources).2

/-! ## list-by-state (`queries/list_objects_by_state.go`) -/

/-- The request of list-by-state. -/
structure ListObjectByState where
  Bucket : Bytes
  Prefix : Bytes
  Type_ : String
  State : String
  Limit : Int
  ExclusiveStart : Option Bytes := none

/-- The struct `ListObjectByStateItem`. -/
structure ListObjectByStateItem where
  ID : Bytes
  State : String
  Size : Int
  deriving DecidableEq

/-- The struct `ListObjectByStateOutput`. -/
structure ListObjectByStateOutput where
  Type_ : String
  Items : List ListObjectByStateItem
  Length : Int
  NextPage : Option Bytes
  deriving DecidableEq

/-- The body of the loop of `ListObjectByState.Invoke` for one id: the row is looked up as a
source for the type `source` and as a destination otherwise. -/
def listItem (encode : Bytes → Bytes) (b : Table) (set : ObjectSet) (type : String)
    (id : Bytes) : Except Err ListObjectByStateItem :=
  if type = "source" then
    match LookupSourceRow b id set with
    | .error e => .error e
    | .ok row =>
      .ok { ID := encode id, State := State.String row.State, Size := Int64Value row.Size }
  else
    match LookupDestinationRow b id set with
    | .error e => .error e
    | .ok row =>
      .ok { ID := encode id, State := State.String row.State, Size := Int64Value row.Size }

/-- The loop of `ListObjectByState.Invoke` over the ids of the page. -/
def listItems (encode : Bytes → Bytes) (b : Table) (set : ObjectSet) (type : String)
    (ids : List Bytes) : Except Err (List ListObjectByStateItem) :=
  collectM (listItem encode b set type) ids []

/-- The index bucket `idx_<type>_state`, if the table has one. -/
def stateIndex (type : String) : Option Idx :=
  if type = "source" then some .idx_source_state
  else if type = "destination" then some .idx_destination_state
  else none

/-- The method `ListObjectByState.Invoke`: the output it encodes. The cursor of an index
bucket that does not exist, for a type other than `source` and `destination`, panics. -/
def ListObjectByState.Invoke (ToLower ToUpper : String → String)
    (decode : Bytes → Option Bytes) (encode : Bytes → Bytes) (l : ListObjectByState)
    (db : DB) : Except Err ListObjectByStateOutput :=
  let type := ToLower l.Type_
  let state := ToUpper l.State
  match LookupTable db (NewObjectSet l.Bucket l.Prefix) with
  | .error e => .error e
  | .ok (b, set) =>
    let pfx := Uint16tol (ParseState state)
    match (match l.ExclusiveStart with
        | none => .ok none
        | some s =>
          match decode s with
          | none => .error .corruptInput
          | some d => .ok (some (MakeIndex pfx d)) : Except Err (Option Bytes)) with
    | .error e => .error e
    | .ok exclusiveStart =>
      match stateIndex type with
      | none => .error .panic
      | some index =>
        match PrefixQuery b index pfx l.Limit exclusiveStart with
        | .error e => .error e
        | .ok ids =>
          match listItems encode b set type ids with
          | .error e => .error e
          | .ok items =>
            .ok { Type_ := type
                  Items := items
                  Length := items.length
                  NextPage :=
                    match ids.getLast? with
                    | some lastID =>
                      if l.Limit ≤ (items.length : Int) then some (encode lastID) else none
                    | none => none }

/-! ## get-source-stats (`queries/get_source_stats.go`) -/

/-- The request of the query get-source-stats. -/
structure GetSourceStats where
  Bucket : Bytes
  Prefix : Bytes

/-- The struct `GetSourceStatsOutput`; `size` is its private field, the sum in bytes that
`Size` is formatted from. -/
structure GetSourceStatsOutput where
  Count : Int
  Size : String
  States : List (String × Int)
  size : Int

/-- A Go map from strings to `int`, as the list of its entries: the value at `k`, if any. -/
def mapGet : List (String × Int) → String → Option Int
  | [], _ => none
  | (k1, v) :: rest, k => if k1 = k then some v else mapGet rest k

/-- The update of `stateCounts` in the loop of `GetSourceStats.Invoke`: the value at
`stateKey` becomes `val + 1` if there is one, and 1 otherwise. -/
def bumpCount : List (String × Int) → String → List (String × Int)
  | [], stateKey => [(stateKey, 1)]
  | (k1, val) :: rest, stateKey =>
    if k1 = stateKey then (k1, addInt64 val 1) :: rest
    else (k1, val) :: bumpCount rest stateKey

/-- The body of the loop of `GetSourceStats.Invoke` for the id under the cursor; `States`
holds the map `stateCounts`. A nil state cell ends the process (`log.Fatal`); a state cell
shorter than 2 bytes and a size cell that is nil or shorter than 8 bytes panic. -/
def statsStep (b : Table) (output : GetSourceStatsOutput) (id : Bytes) :
    Except Err GetSourceStatsOutput :=
  match b.cell .state id with
  | none => .error .fatal
  | some currState =>
    match Ltouint16 currState with
    | .error e => .error e
    | .ok s =>
      let stateKey := State.String s
      match Ltoi ((b.cell .size id).getD []) with
      | .error e => .error e
      | .ok n =>
        .ok { output with
              States := bumpCount output.States stateKey
              size := addInt64 output.size n
              Count := addInt64 output.Count 1 }

/-- The method `GetSourceStats.Invoke`: the output it encodes, after a scan of the keys of
the column `is_source_object` in cursor order; `format` stands for the formatting of the sum
as gigabytes. The table of a set that was never put is nil, and its columns panic. -/
def GetSourceStats.Invoke (format : Int → String) (_ : GetSourceStats) (db : DB) :
    Except Err GetSourceStatsOutput :=
  match db with
  | none => .error .panic
  | some b =>
    match (KV.keys (b.cols .is_source_object)).foldlM (statsStep b)
        { Count := 0, Size := "", States := [], size := 0 } with
    | .error e => .error e
    | .ok output => .ok { output with Size := format output.size }

/-! ## The request handler (`main.go`) -/

/-- The request of take-inventory. -/
structure TakeInventory where
  Bucket : Bytes
  Prefix : Bytes
  Destination : Bytes

/-- The struct `S3CatEvent`: an action field that is not set is a nil pointer. -/
structure S3CatEvent where
  BoltDBURL : Bytes := []
  AssumeRole : Bytes := []
  ExternalID : Option Bytes := none
  LoadInventory : Option LoadInventory := none
  PlanNewObjects : Option PlanNewObjects := none
  PutObjectSet : Option PutObjectSet := none
  TakeInventory : Option TakeInventory := none
  UpdateObjectsState : Option UpdateObjectsState := none
  WriteDestinationObject : Option WriteDestinationObject := none
  ListObjectByState : Option ListObjectByState := none
  GetSourceStats : Option GetSourceStats := none

/-- The struct `S3CatOutput`. -/
structure S3CatOutput where
  ListObjectByStateOutput : Option ListObjectByStateOutput := none
  GetSourceStatsOutput : Option GetSourceStatsOutput := none

/-- The value of the variable `action` of `HandleRequest` after its first switch. -/
inductive Action where
  | loadInventory (a : LoadInventory)
  | planNewObjects (a : PlanNewObjects)
  | putObjectSet (a : PutObjectSet)
  | takeInventory (a : TakeInventory)
  | updateObjectsState (a : UpdateObjectsState)
  | writeDestinationObject (a : WriteDestinationObject)
  | listObjectByState (a : ListObjectByState)
  | getSourceStats (a : GetSourceStats)

/-- The first switch of `HandleRequest`: the cases are tried in their order and the first
action field that is not nil is taken; the default case returns `errInvalidRequest`. -/
def selectAction (event : S3CatEvent) : Except Err Action :=
  match event.LoadInventory with
  | some a => .ok (.loadInventory a)
  | none =>
  match event.PlanNewObjects with
  | some a => .ok (.planNewObjects a)
  | none =>
  match event.PutObjectSet with
  | some a => .ok (.putObjectSet a)
  | none =>
  match event.TakeInventory with
  | some a => .ok (.takeInventory a)
  | none =>
  match event.UpdateObjectsState with
  | some a => .ok (.updateObjectsState a)
  | none =>
  match event.WriteDestinationObject with
  | some a => .ok (.writeDestinationObject a)
  | none =>
  match event.ListObjectByState with
  | some a => .ok (.listObjectByState a)
  | none =>
  match event.GetSourceStats with
  | some a => .ok (.getSourceStats a)
  | none => .error .errInvalidRequest

/-- The method `HandleRequest`; `run` stands for what follows the first switch: the
injection of the dependencies into the action, its invocation, and the output or the error
that results. -/
def HandleRequest (run : Action → Except Err S3CatOutput) (event : S3CatEvent) :
    Except Err S3CatOutput :=
  match selectAction event with
  | .error e => .error e
  | .ok action => run action

/-! ## Start-up (`main.go`) -/

/-- The type `logrus.Level`; its zero value is `PanicLevel`. -/
inductive Level where
  | PanicLevel
  | FatalLevel
  | ErrorLevel
  | WarnLevel
  | InfoLevel
  | DebugLevel
  | TraceLevel
  deriving DecidableEq, Repr

/-- The library function `logrus.ParseLevel`: the level and whether an error is returned;
with an error the level returned is the zero value. `ToLower` is `strings.ToLower`. -/
def ParseLevel (ToLower : String → String) (lvl : String) : Level × Bool :=
  let s := ToLower lvl
  if s = "panic" then (.PanicLevel, false)
  else if s = "fatal" then (.FatalLevel, false)
  else if s = "error" then (.ErrorLevel, false)
  else if s = "warn" ∨ s = "warning" then (.WarnLevel, false)
  else if s = "info" then (.InfoLevel, false)
  else if s = "debug" then (.DebugLevel, false)
  else if s = "trace" then (.TraceLevel, false)
  else (.PanicLevel, true)

/-- The function `init` of `main.go`: the value of the variable `level` that is set on
the logger, for the value `l` of the environment variable `LOG_LEVEL` (empty when it is
not set); `parse` is `logrus.ParseLevel`, which returns a level and an error. -/
def init (parse : String → Level × Bool) (l : String) : Level :=
  if l ≠ "" then
    let r := parse l
    if r.2 then r.1 else .DebugLevel
  else .DebugLevel

/-! ## Auxiliary notions of the specification -/

/-- The keys of the bucket are strictly ascending. -/
def KV.Sorted (m : KV) : Prop := List.Pairwise (fun a b => bytesLt a.1 b.1 = true) m

/-- The last `idSize` bytes of an index key. -/
def idOf (k : Bytes) : Bytes := k.drop (k.length - idSize)

/-- The entries of a bucket whose key starts with `p`. -/
def KV.matching (m : KV) (p : Bytes) : KV := m.filter fun e => HasPrefix e.1 p

/-- The keys of the index bucket `i`, in cursor order. -/
def Table.index (b : Table) (i : Idx) : List Bytes := KV.keys (b.idxs i)

/-- The effect of a successful `putValue` on the table, given the current value `cur` of
the column. -/
def putValueT (b : Table) (ix : Col → Option Idx) (id : Bytes) (k : Col) (v cur : Option Bytes) :
    Table :=
  if bytesEqual v cur then b
  else
    let b1 := match v with
      | none => b.deleteCell k id
      | some w => b.putCell k id w
    match ix k with
    | some index =>
      let b2 := b1.deleteIndex index (MakeIndex (cur.getD []) id)
      match v with
      | none => b2
      | some w => b2.putIndex index (MakeIndex w id)
    | none => b1

/-- The effect of a successful `UpdateRow` on the table. -/
def updateT (b : Table) (ix : Col → Option Idx) (id : Bytes) (values curr : Values) : Table :=
  values.foldl (fun b1 kv => putValueT b1 ix id kv.1 kv.2 (curr.get kv.1)) b

/-- The effect of a successful `appendValue` on the table. -/
def appendValueT (b : Table) (ix : Col → Option Idx) (id : Bytes) (k : Col) :
    Option Bytes → Table
  | none => b
  | some v =>
    match ix k with
    | some index => (b.putCell k id v).putIndex index (MakeIndex v id)
    | none => b.putCell k id v

/-- The effect of the loop of a successful `AppendRow` on the table. -/
def appendT (b : Table) (ix : Col → Option Idx) (id : Bytes) (values : Values) : Table :=
  values.foldl (fun b1 kv => appendValueT b1 ix id kv.1 kv.2) b

/-- The keys of a marshalled row. -/
def Values.keys (m : Values) : List Col := m.map Prod.fst

/-- Every bucket of the table is in key order. -/
def Table.Sorted (b : Table) : Prop :=
  (∀ c, KV.Sorted (b.cols c)) ∧ (∀ i, KV.Sorted (b.idxs i))

/-- The id `AppendRow` gives the next row of the table. -/
def Table.nextID (b : Table) : Bytes := PutUint64 ((b.sequence + 1) % 2 ^ 64)

/-- The table after `NextSequence`. -/
def Table.bump (b : Table) : Table := { b with sequence := (b.sequence + 1) % 2 ^ 64 }

/-! ### Index consistency (I1) -/

/-- The rows appended to a table so far: the id of each with the result of its `Indexes`. -/
abbrev Rows := List (Bytes × (Col → Option Idx))

/-- A row as the row store expects it: the keys of its marshalled map are distinct (it is a
Go map) and each of its indexes is fed by one column. -/
def Row.WellFormed (row : Row) : Prop :=
  (Values.keys row.Marshal).Nodup ∧
    ∀ k k' i, row.Indexes k = some i → row.Indexes k' = some i → k = k'

/-- The tables that sequences of `AppendRow` and `UpdateRow` calls build from the empty
table of `EnsureTable`, with the rows appended on the way. An `UpdateRow` call addresses
a row that was appended, with a row of the same kind; a `current` that is passed agrees,
as `bytes.Equal` sees it, with the cells stored at the id on every marshalled column; and
the 64-bit sequence has not wrapped. -/
inductive Trace : Table → Rows → Prop
  | empty : Trace Table.empty []
  | append {b b' : Table} {rows : Rows} {row : Row} {id : Bytes} :
      Trace b rows → b.sequence + 1 < 2 ^ 64 → row.WellFormed →
      AppendRow b row = .ok (id, b') → Trace b' ((id, row.Indexes) :: rows)
  | update {b b' : Table} {rows : Rows} {row : Row} {id : Bytes} {current : Option Values} :
      Trace b rows → (id, row.Indexes) ∈ rows → row.WellFormed →
      (∀ c, current = some c → ∀ k ∈ Values.keys row.Marshal,
        (c.get k).getD [] = (b.cell k id).getD []) →
      UpdateRow b id row current = .ok b' → Trace b' rows

/-- Index consistency of a table whose rows are `rows`: every cell of an indexed column has
its index entry, every index entry comes from such a cell, ids are the encodings of
sequence numbers handed out so far, and cells exist at appended ids only. -/
structure Consistent (b : Table) (rows : Rows) : Prop where
  complete : ∀ id ix, (id, ix) ∈ rows → ∀ k i v, ix k = some i → b.cell k id = some v →
    v ++ id ∈ b.index i
  sound : ∀ i e, e ∈ b.index i → ∃ id ix k v, (id, ix) ∈ rows ∧ ix k = some i ∧
    b.cell k id = some v ∧ e = v ++ id
  ids : ∀ id ix, (id, ix) ∈ rows → ∃ s, 1 ≤ s ∧ s ≤ b.sequence ∧ id = PutUint64 s
  kinds : ∀ id ix ix', (id, ix) ∈ rows → (id, ix') ∈ rows → ix = ix'
  inj : ∀ id ix, (id, ix) ∈ rows → ∀ k k' i, ix k = some i → ix k' = some i → k = k'
  cells : ∀ k id v, b.cell k id = some v → ∃ ix, (id, ix) ∈ rows
  bound : b.sequence < 2 ^ 64

/-! ### Concrete inputs -/

/-- A source row with key `a` in state NEW, as marshalled. -/
def traceRowNew : Row :=
  { Marshal := [(.key, some [97]), (.state, some (Uint16tol StateNew)),
      (.destination_object, none), (.is_source_object, some valueTrue)]
    Schema := sourceObjectSchema
    Indexes := sourceObjectIndexes }

/-- The same row in state IN_SYNC. -/
def traceRowInSync : Row :=
  { traceRowNew with
    Marshal := [(.key, some [97]), (.state, some (Uint16tol StateInSync)),
      (.destination_object, none), (.is_source_object, some valueTrue)] }

/-- The table after appending `traceRowNew` to the empty table and updating it to
`traceRowInSync`. -/
def traceTable : Table :=
  updateT (appendT Table.empty.bump sourceObjectIndexes Table.empty.nextID traceRowNew.Marshal)
    sourceObjectIndexes Table.empty.nextID traceRowInSync.Marshal traceRowNew.Marshal

/-- The request that creates the example set: bucket `b`, empty prefix, destination path
`out`, block size 100 and a newline as delimiter. -/
def examplePutSet : PutObjectSet :=
  { Bucket := [98], Prefix := [], DestinationBucket := [100], DestinationPath := [111, 117, 116],
    BlockSize := 100, Delimiter := some [10] }

/-- The store after put-set on an empty database. -/
def exampleEmptySet : DB :=
  match examplePutSet.Invoke (fun _ => none) none with
  | .ok db => db
  | .error _ => none

/-- The load-inventory request for the example set. -/
def exampleLoad : LoadInventory := { Bucket := [98], Prefix := [] }

/-- The example set after loading an inventory of the single object with key `ab`. -/
def storeWithAB : DB :=
  (exampleLoad.Invoke [{ Key := some [97, 98], ETag := some [120], Size := some 1 }]
    exampleEmptySet).1

/-- A candidate source object of the example set with key `a`. -/
def candidateA : SourceObject :=
  { NewSourceObject (NewObjectSet [98] []) with Key := some [97] }

/-- An inventory of two objects with the distinct keys `ab` and `a`, in this order. -/
def inventoryABthenA : List S3Object :=
  [{ Key := some [97, 98], ETag := some [120], Size := some 1 },
   { Key := some [97], ETag := some [121], Size := some 2 }]

/-! ### Marshalled rows in closed form -/

/-- The key cell a `SourceObject` marshals: its key without the set prefix, nil for a nil
key; slicing panics when the key is shorter than the prefix. -/
def SourceObject.keyCell (s : SourceObject) : Except Err (Option Bytes) :=
  match s.Key with
  | none => .ok none
  | some key => (sliceFrom key s.Parent.Prefix.length).map some

/-- The map a `SourceObject` marshals, given its key cell. -/
def SourceObject.values (s : SourceObject) (keyCell : Option Bytes) : Values :=
  [(.etag, s.ETag),
   (.key, keyCell),
   (.storage_class, s.StorageClass),
   (.last_modified, s.LastModified.map Itol),
   (.owner_id, s.Owner.bind (·.ID)),
   (.owner_display_name, s.Owner.bind (·.DisplayName)),
   (.size, s.Size.map Itol),
   (.state, some (Uint16tol s.State)),
   (.destination_object, s.DestinationObjectID),
   (.is_source_object, some valueTrue)]

/-- The key cell a `DestinationObject` marshals. -/
def DestinationObject.keyCell (d : DestinationObject) : Except Err (Option Bytes) :=
  match d.Key with
  | none => .ok none
  | some key => (sliceFrom key d.Parent.DestinationPath.length).map some

/-- The map a `DestinationObject` marshals, given its key cell. -/
def DestinationObject.values (d : DestinationObject) (keyCell : Option Bytes) : Values :=
  [(.etag, d.ETag),
   (.key, keyCell),
   (.storage_class, d.StorageClass),
   (.last_modified, d.LastModified.map Itol),
   (.owner_id, d.Owner.bind (·.ID)),
   (.owner_display_name, d.Owner.bind (·.DisplayName)),
   (.size, d.Size.map Itol),
   (.state, some (Uint16tol d.State)),
   (.is_destination_object, some valueTrue)]

/-- The row-store view of a marshalled source object. -/
def sourceRow (values : Values) : Row :=
  { Marshal := values, Schema := sourceObjectSchema, Indexes := sourceObjectIndexes }

/-- The row-store view of a marshalled destination object. -/
def destinationRow (values : Values) : Row :=
  { Marshal := values, Schema := destinationObjectSchema, Indexes := destinationObjectIndexes }

/-- The candidate `flushBuffer` builds for an inventory object. -/
def candidate (objectSet : ObjectSet) (i : S3Object) : SourceObject :=
  { NewSourceObject objectSet with toS3Object := i }

/-- The candidate after `IsDirty` flagged it. -/
def dirtyCandidate (objectSet : ObjectSet) (i : S3Object) : SourceObject :=
  { candidate objectSet i with State := StateDirty }

/-- The candidate that `flushBuffer` appends for a key it did not find. -/
def newCandidate (objectSet : ObjectSet) (i : S3Object) : SourceObject :=
  { candidate objectSet i with State := StateNew }

/-- The example set as load-inventory sees it. -/
def exampleSet : ObjectSet := NewObjectSet [98] []

/-- The table of the example set after loading an inventory of two objects: `a` with etag
`x`, then the key `a` followed by a zero byte with etag `y`. -/
def tableANul : Table :=
  (exampleLoad.Invoke
    [{ Key := some [97], ETag := some [120], Size := some 1 },
     { Key := some [97, 0], ETag := some [121], Size := some 1 }] exampleEmptySet).1.getD
    Table.empty

/-- An inventory object with the key `a` and the etag `z`. -/
def objectAChanged : S3Object := { Key := some [97], ETag := some [122], Size := some 1 }

/-- The table `tableANul` after loading the inventory of `objectAChanged`. -/
def tableANulReloaded : Table :=
  (exampleLoad.Invoke [objectAChanged] (some tableANul)).1.getD Table.empty

/-- The table of `storeWithAB`: one source row, key `ab`, etag `x`, size 1, state NEW. -/
def tableWithAB : Table := storeWithAB.getD Table.empty

/-- The row of `tableWithAB` as `LookupRow` reads it. -/
def rowAB : SourceObject :=
  { Parent := exampleSet, ETag := some [120], Key := some [97, 98], Size := some 1,
    State := StateNew }

/-- An inventory object with the key `ab` and a new etag `y`. -/
def objectABChanged : S3Object := { Key := some [97, 98], ETag := some [121], Size := some 1 }

/-- The example set after three inventories of the key `a`, with the etags `x`, `y`, `z`:
the second load made the row DIRTY, the third found it DIRTY. -/
def storeDirtyTwice : DB :=
  (exampleLoad.Invoke [{ Key := some [97], ETag := some [122] }]
    (exampleLoad.Invoke [{ Key := some [97], ETag := some [121] }]
      (exampleLoad.Invoke [{ Key := some [97], ETag := some [120] }] exampleEmptySet).1).1).1

/-- The example set after the first two of these inventories. -/
def storeDirtyOnce : DB :=
  (exampleLoad.Invoke [{ Key := some [97], ETag := some [121] }]
    (exampleLoad.Invoke [{ Key := some [97], ETag := some [120] }] exampleEmptySet).1).1

/-! ### Referential integrity (I3) -/

/-- The row `id` carries the marker `is_destination_object = 0x01`. -/
def Table.isDestination (t : Table) (id : Bytes) : Prop :=
  t.cell .is_destination_object id = some valueTrue

/-- The row `id` carries the marker `is_source_object = 0x01`. -/
def Table.isSource (t : Table) (id : Bytes) : Prop :=
  t.cell .is_source_object id = some valueTrue

/-- I3 for a table: the non-empty `destination_object_id` of every source row names a row
that carries the destination marker. -/
def Referential (t : Table) : Prop :=
  ∀ id d, t.isSource id → t.cell .destination_object id = some d → d ≠ [] → t.isDestination d

/-- The invariant behind I3: every non-empty cell of the column `destination_object` names
a row that carries the destination marker. -/
def RefInv (t : Table) : Prop :=
  ∀ id d, t.cell .destination_object id = some d → d ≠ [] → t.isDestination d

/-- The stores reachable from the empty database through put-set, load-inventory, plan-new
and update-state. A command that fails in a transaction leaves what was committed before:
put-set and update-state run one transaction, load-inventory one per buffer and plan-new
one per page. -/
inductive Reachable : DB → Prop
  | init : Reachable none
  | putSet (decode : Bytes → Option Bytes) (p : PutObjectSet) {db db' : DB} :
      Reachable db → p.Invoke decode db = .ok db' → Reachable db'
  | load (l : LoadInventory) (inventory : List S3Object) {db : DB} :
      Reachable db → Reachable (l.Invoke inventory db).1
  | plan (p : PlanNewObjects) (keys : Nat → Bytes) (fuel : Nat) {db : DB}
      {r : DB × Option Err} :
      Reachable db → p.Invoke keys fuel db = some r → Reachable r.1
  | update (ToUpper : String → String) (decode : Bytes → Option Bytes)
      (u : UpdateObjectsState) {db db' : DB} :
      Reachable db → u.Invoke ToUpper decode db = .ok db' → Reachable db'

/-! ### The writes of plan-new in closed form -/

/-- The in-memory row of a block that plan-new opens with the key `key`. -/
def newBlock (set : ObjectSet) (key : Bytes) : DestinationObject :=
  { NewDestinationObject set with Key := some key, State := StateNew }

/-- The table after plan-new assigned the source row `id`, whose state was `oldState` and
whose destination was `oldDest`, to the block `blockID`. -/
def assignT (b : Table) (id : Bytes) (oldState : Nat) (oldDest blockID : Option Bytes) : Table :=
  putValueT
    (putValueT b sourceObjectIndexes id .state (some (Uint16tol StateInSync))
      (some (Uint16tol oldState)))
    sourceObjectIndexes id .destination_object blockID oldDest

/-- The table after plan-new appended a block whose key cell is `keyCell`. -/
def openT (b : Table) (set : ObjectSet) (key keyCell : Bytes) : Table :=
  appendT b.bump destinationObjectIndexes b.nextID ((newBlock set key).values (some keyCell))

/-- The source object plan-new writes back for the source `s`. -/
def planned (s : SourceObject) (blockID : Option Bytes) : SourceObject :=
  { s with DestinationObjectID := blockID, State := StateInSync }

/-- The running size of the open block after the source `s` joined it. -/
def runningSize (set : ObjectSet) (n : Int) (s : SourceObject) : Int :=
  addInt64 n (addInt64 (Int64Value s.Size) ((StringValue set.Delimiter).length : Int))

/-- A property that holds of the table of a database, if it has one. -/
def DB.All (P : Table → Prop) (db : DB) : Prop := ∀ t, db = some t → P t

/-- While a block is open, its in-memory row is the one `openBlock` built. -/
def PlanState.Open (set : ObjectSet) (st : PlanState) : Prop :=
  ∀ bid, st.blockID = some bid → ∃ key, st.block = some (newBlock set key)

/-- The invariant of plan-new behind I3: the invariant of the table, and an open block
carries the destination marker. -/
def PlanState.RefInv (set : ObjectSet) (st : PlanState) : Prop :=
  S3fc.RefInv st.b ∧ (∀ bid, st.blockID = some bid → st.b.isDestination bid) ∧ st.Open set

/-- The store after load-inventory and plan-new on the example set with two objects of
sizes 40 and 80: both sources are IN_SYNC in one block of size 122. -/
def storePlanned : DB :=
  ((PlanNewObjects.Invoke { Bucket := [98], Prefix := [] }
    (fun k => [111, 117, 116, 47, 117, k]) 1
    (exampleLoad.Invoke
      [{ Key := some [97], ETag := some [120], Size := some 40 },
       { Key := some [98], ETag := some [121], Size := some 80 }] exampleEmptySet).1).map
    Prod.fst).getD none

/-- The table of `storePlanned`. -/
def tablePlanned : Table := storePlanned.getD Table.empty

/-! ### Planning: the stores plan-new runs on, and what a pass leaves -/

/-- The encoded state NEW, the prefix plan-new queries `idx_source_state` with. -/
def encNew : Bytes := Uint16tol StateNew

/-- The encoded state IN_SYNC. -/
def encInSync : Bytes := Uint16tol StateInSync

/-- The sequence number an id encodes (zero for a slice that is too short). -/
def idNum (id : Bytes) : Nat :=
  match Uint64 id with
  | .ok n => n
  | .error _ => 0

/-- The id was handed out by the sequence of the table: it encodes a number between 1 and
`seq`. -/
def Allocated (seq : Nat) (id : Bytes) : Prop :=
  1 ≤ idNum id ∧ idNum id ≤ seq ∧ id = PutUint64 (idNum id)

/-- The ids listed under the state NEW in `idx_source_state`, in the order of the index:
the scan order of plan-new. -/
def Table.newIDs (t : Table) : List Bytes :=
  (KV.matching (t.idxs .idx_source_state) encNew).map fun e => idOf e.1

/-- The size of the source row `id` as plan-new reads it: zero for a missing size cell. -/
def Table.sizeOf (t : Table) (id : Bytes) : Int :=
  match t.cell .size id with
  | some v =>
    match Ltoi v with
    | .ok n => n
    | .error _ => 0
  | none => 0

/-- A store that plan-new can run on: its buckets are in key order; the entries listed
under NEW in `idx_source_state` are `NEW ++ id` for rows whose state cell is NEW (I1 for
these entries) and every NEW source row is listed; every id that holds a cell, and every
stored destination id, was handed out by the sequence; and the sequence has room for one
block per listed row. -/
def PlanReady (t : Table) : Prop :=
  t.Sorted ∧
  (∀ e ∈ t.index .idx_source_state, HasPrefix e encNew = true →
    e.length = 10 ∧ t.cell .state (idOf e) = some encNew) ∧
  (∀ kv ∈ t.cols .state, kv.2 = encNew → t.cell .is_source_object kv.1 = some valueTrue →
    encNew ++ kv.1 ∈ t.index .idx_source_state) ∧
  (∀ c ∈ Col.all, ∀ kv ∈ t.cols c, Allocated t.sequence kv.1) ∧
  (∀ kv ∈ t.cols .destination_object, Allocated t.sequence kv.2) ∧
  t.sequence + t.newIDs.length < 2 ^ 64

/-- The id of the `j`-th row appended after the table `t0`. -/
def blockIDAt (t0 : Table) (j : Nat) : Bytes := PutUint64 (t0.sequence + j)

/-- The value of an `int64` computation: the result wrapped to 64 bits. -/
def wrap64 (v : Int) : Int := toInt64 (toUint64 v)

/-- The sum over the source rows of `t` whose `destination_object_id` is `blockID` of size
plus delimiter length. -/
def memberTotal (t : Table) (set : ObjectSet) (blockID : Bytes) : Int :=
  (((t.cols .destination_object).filter fun kv => kv.2 = blockID).map fun kv =>
    t.sizeOf kv.1 + ((StringValue set.Delimiter).length : Int)).sum

/-- The sources that the ghost list `done` assigns to block `j`, in scan order. -/
def membersOf (done : List (Bytes × Nat)) (j : Nat) : List (Bytes × Nat) :=
  done.filter fun x => x.2 = j

/-- The planned size of a list of sources. -/
def sizeSum (t0 : Table) (set : ObjectSet) (l : List (Bytes × Nat)) : Int :=
  (l.map fun x => t0.sizeOf x.1 + ((StringValue set.Delimiter).length : Int)).sum

/-- The invariant of plan-new, started on the table `t0`, at every point of the loop. The
ghost list `done` holds the source ids processed so far, in scan order, each with the number
of the block it was assigned to (the `j`-th block created has the id `blockIDAt t0 j`). -/
structure PlanCore (t0 : Table) (set : ObjectSet) (done : List (Bytes × Nat))
    (st : PlanState) : Prop where
  seq : st.b.sequence = t0.sequence + st.created
  room : t0.sequence + st.created < 2 ^ 64
  sorted : st.b.Sorted
  listed : ∀ e, e ∈ st.b.index .idx_source_state → HasPrefix e encNew = true →
    e ∈ t0.index .idx_source_state ∧ idOf e ∉ done.map Prod.fst
  relisted : ∀ e, e ∈ t0.index .idx_source_state → HasPrefix e encNew = true →
    idOf e ∉ done.map Prod.fst → e ∈ st.b.index .idx_source_state
  cells : ∀ c x, x ∉ done.map Prod.fst →
    (∀ j, 1 ≤ j → j ≤ st.created → x ≠ blockIDAt t0 j) → st.b.cell c x = t0.cell c x
  idx : ∀ i e, idOf e ∉ done.map Prod.fst →
    (∀ j, 1 ≤ j → j ≤ st.created → idOf e ≠ blockIDAt t0 j) →
    (e ∈ st.b.index i ↔ e ∈ t0.index i)
  doneRows : ∀ x ∈ done, t0.isSource x.1 ∧ t0.cell .state x.1 = some encNew ∧
    1 ≤ x.2 ∧ x.2 ≤ st.created ∧ st.b.cell .state x.1 = some encInSync ∧
    st.b.cell .destination_object x.1 = some (blockIDAt t0 x.2) ∧
    ∀ c, c ≠ .state → c ≠ .destination_object → st.b.cell c x.1 = t0.cell c x.1
  doneNodup : (done.map Prod.fst).Nodup
  grouped : (done.map Prod.snd).Pairwise (· ≤ ·)
  blocks : ∀ j, 1 ≤ j → j ≤ st.created →
    st.b.isDestination (blockIDAt t0 j) ∧
    st.b.cell .destination_object (blockIDAt t0 j) = none ∧
    st.b.cell .is_source_object (blockIDAt t0 j) = none
  closed : ∀ j, 1 ≤ j → (j < st.created ∨ (j = st.created ∧ st.blockID = none)) →
    st.b.cell .size (blockIDAt t0 j) = some (Itol (sizeSum t0 set (membersOf done j))) ∧
    set.BlockSize ≤ wrap64 (sizeSum t0 set (membersOf done j))
  opened : ∀ bid, st.blockID = some bid → 1 ≤ st.created ∧ bid = blockIDAt t0 st.created ∧
    (∃ key, st.block = some (newBlock set key)) ∧
    st.n = wrap64 (sizeSum t0 set (membersOf done st.created)) ∧
    st.b.cell .size bid = none
  minimal : ∀ j m1 m2, membersOf done j = m1 ++ m2 → m1 ≠ [] → m2 ≠ [] →
    wrap64 (sizeSum t0 set m1) < set.BlockSize
  ordered : (done.map Prod.fst).Pairwise fun a b => bytesLt a b = true
  root : st.b.root = t0.root

/-- The invariant of plan-new between two sources: every block created so far has a member,
and an open block is below the block size. -/
structure PlanInv (t0 : Table) (set : ObjectSet) (done : List (Bytes × Nat))
    (st : PlanState) : Prop where
  core : PlanCore t0 set done st
  created_le : st.created ≤ done.length
  nonempty : ∀ j, 1 ≤ j → j ≤ st.created → membersOf done j ≠ []
  openLt : ∀ bid, st.blockID = some bid → st.n < set.BlockSize

/-- The invariant of plan-new between two pages: the sources processed so far come before
every NEW source that is still listed, in the order of the ids. -/
structure PlanPage (t0 : Table) (set : ObjectSet) (done : List (Bytes × Nat))
    (st : PlanState) : Prop where
  inv : PlanInv t0 set done st
  lower : ∀ e, e ∈ t0.index .idx_source_state → HasPrefix e encNew = true →
    idOf e ∉ done.map Prod.fst → ∀ x ∈ done, bytesLt x.1 (idOf e) = true

/-- The outcome of a successful plan-new pass on the table `t0`: `done` lists the sources that
were NEW, in scan order, each with the number of its block, `cr` blocks were created, and `t`
is the table after the pass. -/
structure PlanDone (t0 : Table) (set : ObjectSet) (done : List (Bytes × Nat)) (cr : Nat)
    (t : Table) : Prop where
  seq : t.sequence = t0.sequence + cr
  room : t0.sequence + cr < 2 ^ 64
  sorted : t.Sorted
  noNew : ∀ e, e ∈ t.index .idx_source_state → HasPrefix e encNew = false
  cells : ∀ c x, x ∉ done.map Prod.fst →
    (∀ j, 1 ≤ j → j ≤ cr → x ≠ blockIDAt t0 j) → t.cell c x = t0.cell c x
  idx : ∀ i e, idOf e ∉ done.map Prod.fst →
    (∀ j, 1 ≤ j → j ≤ cr → idOf e ≠ blockIDAt t0 j) → (e ∈ t.index i ↔ e ∈ t0.index i)
  allDone : ∀ x, t0.isSource x → t0.cell .state x = some encNew → x ∈ done.map Prod.fst
  doneRows : ∀ x ∈ done, t0.isSource x.1 ∧ t0.cell .state x.1 = some encNew ∧
    1 ≤ x.2 ∧ x.2 ≤ cr ∧ t.cell .state x.1 = some encInSync ∧
    t.cell .destination_object x.1 = some (blockIDAt t0 x.2) ∧
    ∀ c, c ≠ .state → c ≠ .destination_object → t.cell c x.1 = t0.cell c x.1
  doneNodup : (done.map Prod.fst).Nodup
  ordered : (done.map Prod.fst).Pairwise fun a b => bytesLt a b = true
  blocks : ∀ j, 1 ≤ j → j ≤ cr →
    t.isDestination (blockIDAt t0 j) ∧ t.cell .destination_object (blockIDAt t0 j) = none ∧
    t.cell .is_source_object (blockIDAt t0 j) = none ∧
    t.cell .size (blockIDAt t0 j) = some (Itol (sizeSum t0 set (membersOf done j))) ∧
    membersOf done j ≠ []
  full : ∀ j, 1 ≤ j → j < cr → set.BlockSize ≤ wrap64 (sizeSum t0 set (membersOf done j))
  minimal : ∀ j m1 m2, membersOf done j = m1 ++ m2 → m1 ≠ [] → m2 ≠ [] →
    wrap64 (sizeSum t0 set m1) < set.BlockSize
  root : t.root = t0.root

/-! ### Planning: example stores -/

/-- The plan-new request for the example set. -/
def examplePlan : PlanNewObjects := { Bucket := [98], Prefix := [] }

/-- Block keys for the examples: `out/u` followed by one byte, the number of the block. -/
def exampleKeys (k : Nat) : Bytes := [111, 117, 116, 47, 117, k]

/-- The example set as plan-new reads it from the root of the table. -/
def exampleSetRead : ObjectSet :=
  { Bucket := [98], Prefix := [], DestinationBucket := [100],
    DestinationPath := [111, 117, 116, 47], Delimiter := some [10], BlockSize := 100 }

/-- The table of the example set after loading an inventory of two objects: `a` of size 500,
then `b` of size 10. -/
def tableBigSmall : Table :=
  (exampleLoad.Invoke
    [{ Key := some [97], ETag := some [120], Size := some 500 },
     { Key := some [98], ETag := some [121], Size := some 10 }] exampleEmptySet).1.getD
    Table.empty

/-- The table `tableBigSmall` after plan-new. -/
def tableBigSmallPlanned : Table :=
  (((examplePlan.Invoke exampleKeys 1 (some tableBigSmall)).map Prod.fst).getD none).getD
    Table.empty

/-- The table of the example set after loading an inventory of two objects: `a` of size 10,
then `b` of size 500. -/
def tableSmallBig : Table :=
  (exampleLoad.Invoke
    [{ Key := some [97], ETag := some [120], Size := some 10 },
     { Key := some [98], ETag := some [121], Size := some 500 }] exampleEmptySet).1.getD
    Table.empty

/-- The table `tableSmallBig` after plan-new. -/
def tableSmallBigPlanned : Table :=
  (((examplePlan.Invoke exampleKeys 1 (some tableSmallBig)).map Prod.fst).getD none).getD
    Table.empty

instance (seq : Nat) (id : Bytes) : Decidable (Allocated seq id) := by
  unfold Allocated
  exact inferInstance

/-! ### Merge and queries: example inputs -/

/-- A fetch for the examples: the object with key `a` has the body `A`, every other object
the body `B`. -/
def exampleGet (_ : Bytes) (key : Option Bytes) : Bytes × Option Err :=
  if key = some [97] then ([65], none) else ([66], none)

/-- A destination object of a set with bucket `b`, destination bucket `d` and delimiter
`|`. -/
def exampleBlock : DestinationObject :=
  { Parent := { Bucket := [98], Prefix := [], DestinationBucket := [100],
                DestinationPath := [111, 117, 116, 47], Delimiter := some [124],
                BlockSize := 100 }
    Key := some [111, 117, 116, 47, 117, 0] }

/-- Two source objects with the keys `a` and `b`. -/
def exampleSources : List SourceObject :=
  [{ Parent := exampleBlock.Parent, Key := some [97] },
   { Parent := exampleBlock.Parent, Key := some [98] }]

/-! ### Pagination of `PrefixQuery` -/

/-- The ids of the entries of an index whose key starts with `p`, in key order. -/
def Table.matchingIDs (b : Table) (index : Idx) (p : Bytes) : List Bytes :=
  (KV.matching (b.idxs index) p).map fun e => idOf e.1

/-- The `exclusiveStart` of the page that follows `offset` returned ids: none for the first
page, and otherwise the full index key of the last entry of the previous page, the matching
entry number `offset` in key order. -/
def pageStart (b : Table) (index : Idx) (p : Bytes) : Nat → Option Bytes
  | 0 => none
  | j + 1 => ((KV.matching (b.idxs index) p).get? j).map Prod.fst

/-- The pagination of a prefix query with page size `k`, for at most `fuel` pages, after
`offset` ids were returned. The pages are concatenated; a page with fewer than `k` ids is
the last. -/
def pagedQuery (b : Table) (index : Idx) (p : Bytes) (k : Int) : Nat → Nat → Option (List Bytes)
  | 0, _ => none
  | fuel + 1, offset =>
    match PrefixQuery b index p k (pageStart b index p offset) with
    | .error _ => none
    | .ok ids =>
      if (ids.length : Int) < k then some ids
      else (pagedQuery b index p k fuel (offset + ids.length)).map fun rest => ids ++ rest

/-! ### list-by-state: following `next_page` -/

/-- The marker column of the rows of a type, as `ListObjectByState.Invoke` reads them: a
source row for the type `source` and a destination row otherwise. -/
def typeMarker (type : String) : Col :=
  if type = "source" then .is_source_object else .is_destination_object

/-- I1 for a state index: its entries are `state ++ id` for the rows with the marker and
their state cell, state cells hold a `uint16`, and the ids of the rows have 8 bytes. -/
def StateIndexConsistent (t : Table) (marker : Col) (index : Idx) : Prop :=
  (∀ e, e ∈ t.index index ↔
    ∃ id v, t.cell marker id = some valueTrue ∧ t.cell .state id = some v ∧ e = v ++ id) ∧
  (∀ id v, t.cell .state id = some v → ∃ s, s < 2 ^ 16 ∧ v = Uint16tol s) ∧
  (∀ id, t.cell marker id = some valueTrue → id.length = 8)

/-- The row `id` can be read as a row of the type. -/
def rowReadable (t : Table) (set : ObjectSet) (type : String) (id : Bytes) : Prop :=
  if type = "source" then ∃ row, LookupSourceRow t id set = .ok row
  else ∃ row, LookupDestinationRow t id set = .ok row

/-- The request `l` with another `exclusive_start`. -/
def ListObjectByState.withStart (l : ListObjectByState) (start : Option Bytes) :
    ListObjectByState :=
  { l with ExclusiveStart := start }

/-- A client of list-by-state that follows `next_page`: it repeats the request with the
`next_page` of the last response as `exclusive_start` until a response has none, for at most
`fuel` requests, and collects the items. -/
def listAll (ToLower ToUpper : String → String) (decode : Bytes → Option Bytes)
    (encode : Bytes → Bytes) (l : ListObjectByState) (db : DB) :
    Nat → Option Bytes → Option (List ListObjectByStateItem)
  | 0, _ => none
  | fuel + 1, start =>
    match ListObjectByState.Invoke ToLower ToUpper decode encode (l.withStart start) db with
    | .error _ => none
    | .ok out =>
      match out.NextPage with
      | none => some out.Items
      | some next =>
        (listAll ToLower ToUpper decode encode l db fuel (some next)).map fun rest =>
          out.Items ++ rest

/-- The `exclusive_start` of the request that follows `offset` listed ids of `ids`: the
base64 of the last of them. -/
def listStart (encode : Bytes → Bytes) (ids : List Bytes) : Nat → Option Bytes
  | 0 => none
  | j + 1 => (ids.get? j).map encode

/-- A list-by-state request for the example set: the sources in state `IN_SYNC`, one per
page. In the examples ids are passed as they are, without base64. -/
def exampleList : ListObjectByState :=
  { Bucket := [98], Prefix := [], Type_ := "source", State := "IN_SYNC", Limit := 1 }

/-- The request `exampleList` with the limit `2 ^ 62`. -/
def exampleListHuge : ListObjectByState := { exampleList with Limit := 4611686018427387904 }

/-! ### update-state: the invariant of the loop -/

/-- The invariant of the loop of update-state, started on the table `t`, after the ids `done`:
outside the state cells and the state index entries of these rows the table is as it was, and
each of these rows has the target state and exactly the entry `target ++ id` in the state
index. -/
structure UpdateInv (t : Table) (marker : Col) (index : Idx) (target : Bytes)
    (done : List Bytes) (b : Table) : Prop where
  frameC : ∀ c x, (c ≠ .state ∨ x ∉ done) → b.cell c x = t.cell c x
  frameI : ∀ i e, (i ≠ index ∨ idOf e ∉ done) → (e ∈ b.index i ↔ e ∈ t.index i)
  rows : ∀ id ∈ done, b.cell .state id = some target ∧ t.cell marker id = some valueTrue ∧
    ∀ e, (e ∈ b.index index ∧ idOf e = id) ↔ e = target ++ id

/-- An update-state request for the example set: the source row 1 to the state `EXPIRED`. -/
def exampleUpdate : UpdateObjectsState :=
  { Bucket := [98], Prefix := [], Type_ := "source", IDS := [PutUint64 1], State := "EXPIRED" }

/-- The table of `storePlanned` after `exampleUpdate`. -/
def tableExpired : Table :=
  match exampleUpdate.Invoke (fun s => s) some storePlanned with
  | .ok (some t) => t
  | _ => Table.empty

/-! ### write-destination: a block of 2049 members -/

/-- The ids `1 .. n`, for `n < 2304`, in the byte order of their little-endian encoding. -/
def manyIDs (n : Nat) : List Bytes :=
  (List.range 256).flatMap fun lo => (List.range 9).filterMap fun hi =>
    if 1 ≤ lo + 256 * hi ∧ lo + 256 * hi ≤ n then some (PutUint64 (lo + 256 * hi)) else none

/-- The id of the block of `manyTable`: row 2050. -/
def manyBlock : Bytes := PutUint64 2050

/-- The ids of the sources of `manyTable`: the rows `1 .. 2049`. -/
def manySources : List Bytes := manyIDs 2049

/-- A table with 2049 source rows of size 1, all IN_SYNC and members of the one destination
row 2050, for a set with bucket `b`, empty prefix, delimiter `|` and a block size of one
million. The key of the source `id` is its id, and the key of the block is `out/u`. -/
def manyTable : Table :=
  { sequence := 2050
    root := fun c =>
      match c with
      | .block_size => some (Itol 1000000)
      | .destination_bucket => some [100]
      | .destination_path => some [111, 117, 116, 47]
      | .delimiter => some [124]
    cols := fun c =>
      match c with
      | .key => (manyIDs 2050).map fun id => (id, if id = manyBlock then [117] else id)
      | .state => (manyIDs 2050).map fun id =>
          (id, if id = manyBlock then Uint16tol StateNew else Uint16tol StateInSync)
      | .size => (manyIDs 2050).map fun id =>
          (id, if id = manyBlock then Itol 4098 else Itol 1)
      | .destination_object => manySources.map fun id => (id, manyBlock)
      | .is_source_object => manySources.map fun id => (id, valueTrue)
      | .is_destination_object => [(manyBlock, valueTrue)]
      | _ => []
    idxs := fun i =>
      match i with
      | .idx_destination => manySources.map fun id => (manyBlock ++ id, [])
      | .idx_source_state => manySources.map fun id => (Uint16tol StateInSync ++ id, [])
      | .idx_source_key => manySources.map fun id => (id ++ id, [])
      | .idx_destination_state => [(Uint16tol StateNew ++ manyBlock, [])]
      | .idx_destination_key => [([117] ++ manyBlock, [])] }

/-- The set of `manyTable` as read from its root. -/
def manySet : ObjectSet :=
  { Bucket := [98], Prefix := [], DestinationBucket := [100],
    DestinationPath := [111, 117, 116, 47], Delimiter := some [124], BlockSize := 1000000 }

/-- The write-destination request for the block of `manyTable`; in the examples ids are
passed as they are, without base64. -/
def manyRequest : WriteDestinationObject := { Bucket := [98], Prefix := [], ID := manyBlock }

/-- The row of the source `id` of `manyTable` as `LookupRow` reads it. -/
def manyRow (id : Bytes) : SourceObject :=
  { Parent := manySet, Key := some id, Size := some 1, State := StateInSync,
    DestinationObjectID := some manyBlock }

/-- The row of the block of `manyTable` as `LookupRow` reads it. -/
def manyDest : DestinationObject :=
  { Parent := manySet, Key := some [111, 117, 116, 47, 117], Size := some 4098,
    State := StateNew }

/-- Whether each element of the list is below the next one in byte order. -/
def chainLt : List Bytes → Bool
  | [] => true
  | [_] => true
  | a :: b :: rest => bytesLt a b && chainLt (b :: rest)

/-! ### Requests and column maps of the examples -/

/-- The value of a character of the standard base64 alphabet. -/
def b64Value (c : Nat) : Option Nat :=
  if 65 ≤ c ∧ c ≤ 90 then some (c - 65)
  else if 97 ≤ c ∧ c ≤ 122 then some (c - 71)
  else if 48 ≤ c ∧ c ≤ 57 then some (c + 4)
  else if c = 43 then some 62
  else if c = 47 then some 63
  else none

/-- Go `base64.StdEncoding.DecodeString` on padded input without line breaks: `none` is a
`CorruptInputError`. -/
def stdDecode : Bytes → Option Bytes
  | [] => some []
  | [a, b, 61, 61] =>
    match b64Value a, b64Value b with
    | some x, some y => some [(x * 4 + y / 16) % 256]
    | _, _ => none
  | [a, b, c, 61] =>
    match b64Value a, b64Value b, b64Value c with
    | some x, some y, some z => some [(x * 4 + y / 16) % 256, (y * 16 + z / 4) % 256]
    | _, _, _ => none
  | a :: b :: c :: d :: rest =>
    match b64Value a, b64Value b, b64Value c, b64Value d, stdDecode rest with
    | some x, some y, some z, some w, some r =>
      some ((x * 4 + y / 16) % 256 :: (y * 16 + z / 4) % 256 :: (z * 64 + w) % 256 :: r)
    | _, _, _, _, _ => none
  | _ => none

/-- The put-set request of the example set with the delimiter given as the base64 string
`Cg==` only. -/
def examplePutSetB64 : PutObjectSet :=
  { Bucket := [98], Prefix := [], DestinationBucket := [100], DestinationPath := [111, 117, 116],
    BlockSize := 100, DelimiterB64 := some [67, 103, 61, 61] }

/-- A request in which two action fields are set: load-inventory and plan-new. -/
def exampleTwoActions : S3CatEvent :=
  { LoadInventory := some exampleLoad, PlanNewObjects := some examplePlan }

/-- An action runner that succeeds with an empty output. -/
def exampleRun (_ : Action) : Except Err S3CatOutput := .ok {}

/-- The action fields of a request that are set, in the order of the cases of the first
switch of `HandleRequest`. -/
def setActions (event : S3CatEvent) : List Action :=
  (event.LoadInventory.map Action.loadInventory).toList ++
  (event.PlanNewObjects.map Action.planNewObjects).toList ++
  (event.PutObjectSet.map Action.putObjectSet).toList ++
  (event.TakeInventory.map Action.takeInventory).toList ++
  (event.UpdateObjectsState.map Action.updateObjectsState).toList ++
  (event.WriteDestinationObject.map Action.writeDestinationObject).toList ++
  (event.ListObjectByState.map Action.listObjectByState).toList ++
  (event.GetSourceStats.map Action.getSourceStats).toList

/-- The column map of a destination row: the first block plan-new opens in the example
set, in state NEW. -/
def exampleBlockValues : Values := (newBlock exampleSetRead (exampleKeys 0)).values (some [117, 0])

/-- The numbers of the list are bytes. -/
def IsBytes (v : Bytes) : Prop := ∀ x ∈ v, x < 256

instance (v : Bytes) : Decidable (IsBytes v) := by
  unfold IsBytes
  infer_instance

/-- A column map over the schema of a source object that has the source marker and a key
cell and no state cell. -/
def exampleStatelessValues : Values :=
  [(.etag, none), (.key, some [97]), (.storage_class, none), (.last_modified, none),
   (.owner_id, none), (.owner_display_name, none), (.size, none), (.state, none),
   (.destination_object, none), (.is_source_object, some valueTrue)]

/-- The values at the root of the table of the example set. -/
def exampleRoot : SetValues :=
  [(.block_size, some (Itol 100)), (.destination_bucket, some [100]),
   (.destination_path, some [111, 117, 116, 47]), (.delimiter, some [10])]

/-- The values `exampleRoot` with a nil destination bucket. -/
def exampleRootNoBucket : SetValues :=
  [(.block_size, some (Itol 100)), (.destination_bucket, none),
   (.destination_path, some [111, 117, 116, 47]), (.delimiter, some [10])]

/-! ### Planning: the order of a page -/

/-- The table of the example set after loading an inventory of two objects: `b` of size 500,
then `a` of size 10. The row of `b` has the id 1 and the row of `a` the id 2. -/
def tableBA : Table :=
  (exampleLoad.Invoke
    [{ Key := some [98], ETag := some [120], Size := some 500 },
     { Key := some [97], ETag := some [121], Size := some 10 }] exampleEmptySet).1.getD
    Table.empty

/-! ### Rows, their markers and their states (I2) -/

/-- The row `id` carries one of the two markers. -/
def Table.isRow (t : Table) (id : Bytes) : Prop := t.isSource id ∨ t.isDestination id

/-- I2 for a table: every id that holds a cell carries exactly one of the markers
`is_source_object = 0x01` and `is_destination_object = 0x01`. -/
def TypeDisjoint (t : Table) : Prop :=
  ∀ id, (∃ c v, t.cell c id = some v) →
    (t.isSource id ∧ ¬ t.isDestination id) ∨ (t.isDestination id ∧ ¬ t.isSource id)

/-- Every source and destination row has a state cell that encodes one of the states NEW,
DIRTY, IN_SYNC, EXPIRED and DELETED, the codes 1 to 5. -/
def StatesKnown (t : Table) : Prop :=
  ∀ id, t.isRow id → ∃ s, 1 ≤ s ∧ s ≤ 5 ∧ t.cell .state id = some (Uint16tol s)

/-- What a write of a command does to the cells of a table: it writes cells of one row
`id`, which gets or keeps the marker `marker` while the column of the other marker is left
as it is; the row is one that carries the marker already, and its state cell is left as it
is or set to a known state, or it is the row of the id that the sequence hands out next,
and its state cell is set to a known state. -/
def RowWrite (b b' : Table) : Prop :=
  ∃ (id : Bytes) (marker other : Col),
    ((marker = .is_source_object ∧ other = .is_destination_object) ∨
      (marker = .is_destination_object ∧ other = .is_source_object)) ∧
    (∀ c x, x ≠ id → b'.cell c x = b.cell c x) ∧
    b'.cell marker id = some valueTrue ∧
    (∀ x, b'.cell other x = b.cell other x) ∧
    ((b'.sequence = b.sequence ∧ b.cell marker id = some valueTrue ∧
        (b'.cell .state id = b.cell .state id ∨
          ∃ s, 1 ≤ s ∧ s ≤ 5 ∧ b'.cell .state id = some (Uint16tol s))) ∨
      (b'.sequence = (b.sequence + 1) % 2 ^ 64 ∧ id = b.nextID ∧
        ∃ s, 1 ≤ s ∧ s ≤ 5 ∧ b'.cell .state id = some (Uint16tol s)))

/-- The invariant behind I2 while the sequence has not wrapped: the ids that hold a cell
were handed out by the sequence, every id handed out is a row, every id that holds a cell
is a row, and no row carries both markers. -/
structure RowsInv (t : Table) : Prop where
  bound : t.sequence < 2 ^ 64
  alloc : ∀ c id v, t.cell c id = some v → ∃ s, 1 ≤ s ∧ s ≤ t.sequence ∧ id = PutUint64 s
  dense : ∀ s, 1 ≤ s → s ≤ t.sequence → t.isRow (PutUint64 s)
  marked : ∀ c id v, t.cell c id = some v → t.isRow id
  disjoint : ∀ id, ¬ (t.isSource id ∧ t.isDestination id)

/-- Every id that the 64-bit sequence can hand out before it wraps is a row. -/
def RowsFull (t : Table) : Prop := ∀ s, 1 ≤ s → s < 2 ^ 64 → t.isRow (PutUint64 s)

/-- The invariant of plan-new for a property `P` of tables: the table has the property, an
open block is a destination row, and its in-memory row is the one `openBlock` built. -/
def PlanState.Holds (P : Table → Prop) (set : ObjectSet) (st : PlanState) : Prop :=
  P st.b ∧ (∀ bid, st.blockID = some bid → st.b.isDestination bid) ∧ st.Open set

/-- The put-set request `examplePutSetB64` for the empty bucket and the empty prefix, whose
table name is empty. -/
def examplePutSetNoName : PutObjectSet := { examplePutSetB64 with Bucket := [], Prefix := [] }

/-- A put-set request of the example set that gives both the delimiter `|` and the string
`!` as `delimiter_b64`, which is not base64. -/
def examplePutSetBoth : PutObjectSet :=
  { Bucket := [98], Prefix := [], DestinationBucket := [100], DestinationPath := [111, 117, 116],
    BlockSize := 100, Delimiter := some [124], DelimiterB64 := some [33] }

/-! ### Inputs of the examples: requests, levels and reloaded stores -/

/-- The update-state request of the example with the type `Source`, which is not one of
`source` and `destination`. -/
def exampleUpdateCapital : UpdateObjectsState := { exampleUpdate with Type_ := "Source" }

/-- The update-state request of the example with an empty type. -/
def exampleUpdateNoType : UpdateObjectsState := { exampleUpdate with Type_ := "" }

/-- The table of `storePlanned` after another load-inventory in which the object `a` has a
new etag `z`. -/
def tableReloaded : Table :=
  (exampleLoad.Invoke [{ Key := some [97], ETag := some [122], Size := some 40 }]
    storePlanned).1.getD Table.empty

/-! ### `UpdateRow`: nil and missing values -/

/-- The map `currValues` of `UpdateRow`: the marshalled `current` when one is passed,
otherwise the cells of the row over the schema. -/
def currValues (b : Table) (id : Bytes) (row : Row) (current : Option Values) : Values :=
  match current with
  | some c => c
  | none => lookupRow b id row.Schema

/-- The example set after loading an inventory of the single object `a` with an empty
etag: the etag cell of the row 1 is the empty string. -/
def tableEmptyEtag : Table :=
  (exampleLoad.Invoke [{ Key := some [97], ETag := some [] }] exampleEmptySet).1.getD
    Table.empty

/-- The row 1 of `tableEmptyEtag` as `LookupRow` reads it. -/
def rowEmptyEtag : SourceObject :=
  { Parent := exampleSet, ETag := some [], Key := some [97], State := StateNew }

/-- The same row without etag. -/
def rowNoEtag : SourceObject := { rowEmptyEtag with ETag := none }

/-- A row that marshals a new state and a nil destination, and no other column. -/
def rowUnplanned : Row :=
  { Marshal := [(.state, some (Uint16tol StateDirty)), (.destination_object, none)]
    Schema := sourceObjectSchema
    Indexes := sourceObjectIndexes }

/-- The table of `storePlanned` after `UpdateRow` of the row 1 with `rowUnplanned`, the
current values being read from the table. -/
def tableUnplanned : Table :=
  match UpdateRow tablePlanned (PutUint64 1) rowUnplanned none with
  | .ok t => t
  | .error _ => Table.empty

/-! ### The batches of load-inventory -/

/-- The buffers that the loop of `LoadInventory.Invoke` hands to `flushBuffer`, in order,
when no flush fails: `loadLoop` with the flushes recorded instead of run. -/
def loadBatches (cap : Nat) : List S3Object → List S3Object → List (List S3Object)
  | [], buf => [buf]
  | o :: rest, buf =>
    if (buf ++ [o]).length = cap then (buf ++ [o]) :: loadBatches cap rest []
    else loadBatches cap rest (buf ++ [o])

/-- The transactions of `flushBuffer` over a list of batches, one after the other, up to
the first one that fails: the store that is left and the error returned, if any. -/
def flushAll (objectSet : ObjectSet) : List (List S3Object) → DB → DB × Option Err
  | [], db => (db, none)
  | buf :: rest, db =>
    match flushBuffer objectSet db buf with
    | .error e => (db, some e)
    | .ok db1 => flushAll objectSet rest db1

/-! ### get-source-stats: what the scan reads -/

/-- The ids under the cursor of `GetSourceStats.Invoke`: the keys of the column
`is_source_object`. -/
def Table.sourceIDs (b : Table) : List Bytes := KV.keys (b.cols .is_source_object)

/-- The string of the state of the row `id`, as `GetSourceStats.Invoke` reads it. -/
def Table.stateName (b : Table) (id : Bytes) : String :=
  match Ltouint16 ((b.cell .state id).getD []) with
  | .ok s => State.String s
  | .error _ => ""

/-- The count of a state string in the map `States` of the output: zero if it has no
entry. -/
def stateCount (m : List (String × Int)) (k : String) : Int := (mapGet m k).getD 0

/-- The invariant of the loop of `GetSourceStats.Invoke` after the ids `l`. -/
structure StatsInv (b : Table) (l : List Bytes) (output : GetSourceStatsOutput) : Prop where
  count : output.Count = l.length
  size : output.size = wrap64 ((l.map b.sizeOf).sum)
  pos : ∀ p ∈ output.States, 1 ≤ p.2
  total : (output.States.map Prod.snd).sum = l.length
  tally : ∀ s, stateCount output.States s = (l.filter fun id => b.stateName id = s).length

/-- The get-source-stats request for the example set. -/
def exampleStats : GetSourceStats := { Bucket := [98], Prefix := [] }

/-! ### Planning: a set of large sources -/

/-- The put-set request of the example set with the block size 10. -/
def examplePutSetTen : PutObjectSet := { examplePutSet with BlockSize := 10 }

/-- The example set with the block size 10 as plan-new reads it from the root of the
table. -/
def exampleSetTen : ObjectSet := { exampleSetRead with BlockSize := 10 }

/-- The table of the example set with block size 10, delimiter of one byte, after loading an
inventory of three objects `a`, `b`, `c` of size 20 each. -/
def tableThree : Table :=
  (exampleLoad.Invoke
    [{ Key := some [97], ETag := some [120], Size := some 20 },
     { Key := some [98], ETag := some [121], Size := some 20 },
     { Key := some [99], ETag := some [122], Size := some 20 }]
    (match examplePutSetTen.Invoke (fun _ => none) none with
      | .ok db => db
      | .error _ => none)).1.getD Table.empty

/-- The table `tableThree` after plan-new. -/
def tableThreePlanned : Table :=
  (((examplePlan.Invoke exampleKeys 1 (some tableThree)).map Prod.fst).getD none).getD
    Table.empty

/-! # Theorems -/

/-! ### The order of keys -/

theorem bytesLt_irrefl (a : Bytes) : bytesLt a a = false := by
  induction a with
  | nil => rfl
  | cons x xs ih => simp [bytesLt, ih]

theorem bytesLt_trans : ∀ (a b c : Bytes), bytesLt a b = true → bytesLt b c = true → bytesLt a c = true
  | [], [], _, h, _ => by simp [bytesLt] at h
  | [], _ :: _, [], _, h => by simp [bytesLt] at h
  | [], _ :: _, _ :: _, _, _ => by simp [bytesLt]
  | _ :: _, [], _, h, _ => by simp [bytesLt] at h
  | _ :: _, _ :: _, [], _, h => by simp [bytesLt] at h
  | x :: xs, y :: ys, z :: zs, h1, h2 => by
    simp only [bytesLt, Bool.or_eq_true, Bool.and_eq_true, decide_eq_true_eq] at h1 h2 ⊢
    rcases h1 with h1 | ⟨h1, h1'⟩
    · rcases h2 with h2 | ⟨h2, _⟩
      · exact Or.inl (lt_trans h1 h2)
      · exact Or.inl (h2 ▸ h1)
    · rcases h2 with h2 | ⟨h2, h2'⟩
      · exact Or.inl (h1 ▸ h2)
      · exact Or.inr ⟨h1.trans h2, bytesLt_trans xs ys zs h1' h2'⟩

theorem bytesLt_total : ∀ (a b : Bytes), bytesLt a b = false → a ≠ b → bytesLt b a = true
  | [], [], _, h => absurd rfl h
  | [], _ :: _, h, _ => by simp [bytesLt] at h
  | _ :: _, [], _, _ => by simp [bytesLt]
  | x :: xs, y :: ys, h, hne => by
    simp only [bytesLt, Bool.or_eq_false_iff, Bool.and_eq_false_imp, decide_eq_false_iff_not,
      decide_eq_true_eq, not_lt] at h
    simp only [bytesLt, Bool.or_eq_true, Bool.and_eq_true, decide_eq_true_eq]
    rcases Nat.lt_or_ge y x with hlt | hge
    · exact Or.inl hlt
    · have hxy : x = y := le_antisymm hge h.1
      refine Or.inr ⟨hxy.symm, bytesLt_total xs ys (h.2 hxy) ?_⟩
      intro hxs
      exact hne (by rw [hxy, hxs])

theorem bytesLt_asymm (a b : Bytes) (h : bytesLt a b = true) : bytesLt b a = false := by
  cases hba : bytesLt b a with
  | false => rfl
  | true => have := bytesLt_trans a b a h hba; rw [bytesLt_irrefl] at this; cases this

theorem bytesLt_ne (a b : Bytes) (h : bytesLt a b = true) : a ≠ b := by
  intro hab; rw [hab, bytesLt_irrefl] at h; cases h

/-- A key with prefix `p` is not below `p`. -/
theorem bytesLt_of_hasPrefix : ∀ (k p : Bytes), HasPrefix k p = true → bytesLt k p = false
  | k, [], _ => by cases k <;> simp [bytesLt]
  | [], _ :: _, h => by simp [HasPrefix, List.isPrefixOf] at h
  | x :: xs, y :: ys, h => by
    simp only [HasPrefix, List.isPrefixOf, Bool.and_eq_true, beq_iff_eq] at h
    have := bytesLt_of_hasPrefix xs ys h.2
    simp [bytesLt, h.1, this]


/-- A key that is not below `p` and lacks the prefix `p` lies above every key with
that prefix. -/
theorem bytesLt_of_prefix_gap : ∀ (p a q : Bytes), bytesLt a p = false →
    HasPrefix a p = false → HasPrefix q p = true → bytesLt q a = true
  | [], a, _, _, h, _ => by simp [HasPrefix] at h
  | _ :: _, [], _, h, _, _ => by simp [bytesLt] at h
  | _ :: _, _ :: _, [], _, _, h => by simp [HasPrefix] at h
  | y :: ys, x :: xs, z :: qs, h1, h2, h3 => by
    simp only [HasPrefix, List.isPrefixOf, Bool.and_eq_true, beq_iff_eq] at h3
    simp only [bytesLt, Bool.or_eq_false_iff, Bool.and_eq_false_imp, decide_eq_false_iff_not,
      decide_eq_true_eq, not_lt] at h1
    simp only [HasPrefix, List.isPrefixOf, Bool.and_eq_false_imp, beq_iff_eq] at h2
    simp only [bytesLt, Bool.or_eq_true, Bool.and_eq_true, decide_eq_true_eq]
    obtain ⟨h3a, h3b⟩ := h3
    subst h3a
    rcases Nat.lt_or_ge y x with hlt | hge
    · exact Or.inl hlt
    · have hxy : x = y := le_antisymm hge h1.1
      exact Or.inr ⟨hxy.symm, bytesLt_of_prefix_gap ys xs qs (h1.2 hxy) (h2 hxy.symm) h3b⟩

/-! ### Buckets -/

theorem KV.Get_Put (m : KV) (k v k' : Bytes) :
    KV.Get (KV.Put m k v) k' = if k = k' then some v else KV.Get m k' := by
  induction m with
  | nil => simp [KV.Put, KV.Get]
  | cons e m ih =>
    obtain ⟨a, w⟩ := e
    simp only [KV.Put]
    by_cases h1 : a = k
    · subst h1
      by_cases h3 : a = k' <;> simp [KV.Get, h3]
    · simp only [h1, if_false]
      cases h2 : bytesLt k a
      · simp only [Bool.false_eq_true, if_false, KV.Get, ih]
        by_cases h3 : a = k'
        · have : ¬ k = k' := fun h => h1 (h3.trans h.symm)
          simp [h3, this]
        · simp [h3]
      · simp only [if_true, KV.Get]

theorem KV.Get_Delete (m : KV) (k k' : Bytes) :
    KV.Get (KV.Delete m k) k' = if k = k' then none else KV.Get m k' := by
  induction m with
  | nil => simp [KV.Delete, KV.Get]
  | cons e m ih =>
    obtain ⟨a, w⟩ := e
    simp only [KV.Delete]
    by_cases h1 : a = k
    · subst h1
      simp only [if_true, ih, KV.Get]
      by_cases h2 : a = k' <;> simp [h2]
    · simp only [h1, if_false, KV.Get, ih]
      by_cases h3 : a = k'
      · have : ¬ k = k' := fun h => h1 (h3.trans h.symm)
        simp [h3, this]
      · simp [h3]

theorem KV.mem_keys_Put (m : KV) (k v x : Bytes) :
    x ∈ KV.keys (KV.Put m k v) ↔ x = k ∨ x ∈ KV.keys m := by
  induction m with
  | nil => simp [KV.Put, KV.keys]
  | cons e m ih =>
    obtain ⟨a, w⟩ := e
    simp only [KV.Put]
    by_cases h1 : a = k
    · subst h1; simp [KV.keys]
    · simp only [h1, if_false]
      cases h2 : bytesLt k a
      · simp only [KV.keys] at ih
        simp only [Bool.false_eq_true, if_false, KV.keys, List.map_cons, List.mem_cons, ih]
        tauto
      · simp [KV.keys]

theorem KV.mem_keys_Delete (m : KV) (k x : Bytes) :
    x ∈ KV.keys (KV.Delete m k) ↔ x ≠ k ∧ x ∈ KV.keys m := by
  induction m with
  | nil => simp [KV.Delete, KV.keys]
  | cons e m ih =>
    obtain ⟨a, w⟩ := e
    simp only [KV.Delete]
    simp only [KV.keys] at ih
    by_cases h1 : a = k
    · subst h1
      simp only [if_true, KV.keys, ih, List.map_cons, List.mem_cons]
      constructor
      · rintro ⟨h, h'⟩; exact ⟨h, Or.inr h'⟩
      · rintro ⟨h, h' | h'⟩
        · exact absurd h' h
        · exact ⟨h, h'⟩
    · simp only [h1, if_false, KV.keys, List.map_cons, List.mem_cons, ih]
      constructor
      · rintro (h | ⟨h, h'⟩)
        · exact ⟨fun hx => h1 (h.symm.trans hx), Or.inl h⟩
        · exact ⟨h, Or.inr h'⟩
      · rintro ⟨h, h' | h'⟩
        · exact Or.inl h'
        · exact Or.inr ⟨h, h'⟩

theorem KV.mem_Put (m : KV) (k v : Bytes) (e : Bytes × Bytes) (h : e ∈ KV.Put m k v) :
    e = (k, v) ∨ e ∈ m := by
  induction m with
  | nil => simpa [KV.Put] using h
  | cons f m ih =>
    obtain ⟨a, w⟩ := f
    simp only [KV.Put] at h
    by_cases h1 : a = k
    · simp only [h1, if_true, List.mem_cons] at h
      rcases h with h | h
      · exact Or.inl h
      · exact Or.inr (List.mem_cons_of_mem _ h)
    · simp only [h1, if_false] at h
      cases h2 : bytesLt k a
      · simp only [h2, Bool.false_eq_true, if_false, List.mem_cons] at h
        rcases h with h | h
        · exact Or.inr (h ▸ List.mem_cons_self _ _)
        · rcases ih h with h | h
          · exact Or.inl h
          · exact Or.inr (List.mem_cons_of_mem _ h)
      · simp only [h2, if_true, List.mem_cons] at h
        rcases h with h | h | h
        · exact Or.inl h
        · exact Or.inr (h ▸ List.mem_cons_self _ _)
        · exact Or.inr (List.mem_cons_of_mem _ h)

theorem KV.mem_Delete (m : KV) (k : Bytes) (e : Bytes × Bytes) (h : e ∈ KV.Delete m k) :
    e ∈ m ∧ e.1 ≠ k := by
  induction m with
  | nil => simp [KV.Delete] at h
  | cons f m ih =>
    obtain ⟨a, w⟩ := f
    simp only [KV.Delete] at h
    by_cases h1 : a = k
    · simp only [h1, if_true] at h
      exact ⟨List.mem_cons_of_mem _ (ih h).1, (ih h).2⟩
    · simp only [h1, if_false, List.mem_cons] at h
      rcases h with h | h
      · subst h; exact ⟨List.mem_cons_self _ _, h1⟩
      · exact ⟨List.mem_cons_of_mem _ (ih h).1, (ih h).2⟩

theorem KV.Sorted_Put (m : KV) (k v : Bytes) (h : KV.Sorted m) : KV.Sorted (KV.Put m k v) := by
  induction m with
  | nil => simp [KV.Put, KV.Sorted]
  | cons f m ih =>
    obtain ⟨a, w⟩ := f
    simp only [KV.Sorted, List.pairwise_cons] at h
    simp only [KV.Put]
    by_cases h1 : a = k
    · subst h1
      simp only [if_true, KV.Sorted, List.pairwise_cons]
      exact ⟨h.1, h.2⟩
    · simp only [h1, if_false]
      cases h2 : bytesLt k a
      · simp only [Bool.false_eq_true, if_false, KV.Sorted, List.pairwise_cons]
        refine ⟨?_, ih h.2⟩
        intro b hb
        rcases KV.mem_Put m k v b hb with hb | hb
        · subst hb
          exact bytesLt_total _ _ h2 (fun hka => h1 hka.symm)
        · exact h.1 b hb
      · simp only [if_true, KV.Sorted, List.pairwise_cons, List.mem_cons]
        refine ⟨?_, h.1, h.2⟩
        rintro b (hb | hb)
        · subst hb; exact h2
        · exact bytesLt_trans _ _ _ h2 (h.1 b hb)

theorem KV.Sorted_Delete (m : KV) (k : Bytes) (h : KV.Sorted m) : KV.Sorted (KV.Delete m k) := by
  induction m with
  | nil => simp [KV.Delete, KV.Sorted]
  | cons f m ih =>
    obtain ⟨a, w⟩ := f
    simp only [KV.Sorted, List.pairwise_cons] at h
    simp only [KV.Delete]
    by_cases h1 : a = k
    · simp only [h1, if_true]; exact ih h.2
    · simp only [h1, if_false, KV.Sorted, List.pairwise_cons]
      exact ⟨fun b hb => h.1 b (KV.mem_Delete m k b hb).1, ih h.2⟩


theorem prefixScan_eq (p : Bytes) (limit : Int) : ∀ (c : KV) (rows : List Bytes),
    (∀ e ∈ c, HasPrefix e.1 p = true → idSize ≤ e.1.length) → (rows.length : Int) < limit →
    prefixScan p limit c rows = .ok (rows ++
      ((c.takeWhile fun e => HasPrefix e.1 p).map fun e => idOf e.1).take
        (limit.toNat - rows.length))
  | [], rows, _, _ => by simp [prefixScan]
  | (idx, v) :: c, rows, hlen, hlt => by
    simp only [prefixScan]
    cases hp : HasPrefix idx p
    · simp [List.takeWhile, hp]
    · have h8 : idSize ≤ idx.length := hlen (idx, v) (List.mem_cons_self _ _) hp
      have hid : idFromIndex idx = .ok (idOf idx) := by
        simp [idFromIndex, idOf, Nat.not_lt.mpr h8]
      simp only [if_true, hid, List.takeWhile, hp, List.map_cons]
      have hpos : rows.length < limit.toNat := by omega
      obtain ⟨d, hd⟩ : ∃ d, limit.toNat - rows.length = d + 1 := ⟨limit.toNat - rows.length - 1, by omega⟩
      rw [hd, List.take_succ_cons]
      by_cases hfull : (((rows ++ [idOf idx]).length : Nat) : Int) = limit
      · rw [if_pos hfull]
        have : d = 0 := by simp at hfull; omega
        subst this
        simp
      · rw [if_neg hfull]
        have hlt2 : (((rows ++ [idOf idx]).length : Nat) : Int) < limit := by
          simp at hfull ⊢; omega
        rw [prefixScan_eq p limit c (rows ++ [idOf idx])
          (fun e he => hlen e (List.mem_cons_of_mem _ he)) hlt2]
        have : limit.toNat - (rows ++ [idOf idx]).length = d := by simp; omega
        rw [this]
        simp

theorem KV.takeWhile_of_ge (p : Bytes) : ∀ (m : KV), KV.Sorted m →
    (∀ e ∈ m, bytesLt e.1 p = false) →
    (m.takeWhile fun e => HasPrefix e.1 p) = KV.matching m p
  | [], _, _ => by simp [KV.matching]
  | (a, w) :: m, hs, hge => by
    simp only [KV.Sorted, List.pairwise_cons] at hs
    have ih := KV.takeWhile_of_ge p m hs.2 (fun e he => hge e (List.mem_cons_of_mem _ he))
    cases hp : HasPrefix a p
    · have hnone : ∀ e ∈ m, HasPrefix e.1 p = false := by
        intro e he
        cases hq : HasPrefix e.1 p
        · rfl
        · have h1 := bytesLt_of_prefix_gap p a e.1 (hge (a, w) (List.mem_cons_self _ _)) hp hq
          have h2 := bytesLt_asymm _ _ (hs.1 e he)
          rw [h1] at h2; cases h2
      have : KV.matching m p = [] := by
        simp only [KV.matching, List.filter_eq_nil_iff]
        intro e he; simp [hnone e he]
      simp [List.takeWhile, KV.matching, hp, List.filter_cons]
      simpa [KV.matching] using this
    · simp only [List.takeWhile, hp, KV.matching, List.filter_cons, if_true]
      rw [ih]; rfl

theorem KV.Seek_takeWhile (p : Bytes) : ∀ (m : KV), KV.Sorted m →
    ((KV.Seek m p).takeWhile fun e => HasPrefix e.1 p) = KV.matching m p
  | [], _ => by simp [KV.Seek, KV.matching]
  | (a, w) :: m, hs => by
    have hs' := hs
    simp only [KV.Sorted, List.pairwise_cons] at hs
    simp only [KV.Seek]
    cases hlt : bytesLt a p
    · simp only [Bool.false_eq_true, if_false]
      refine KV.takeWhile_of_ge p _ hs' ?_
      intro e he
      rcases List.mem_cons.mp he with he | he
      · subst he; exact hlt
      · cases hep : bytesLt e.1 p
        · rfl
        · have := bytesLt_trans _ _ _ (hs.1 e he) hep
          rw [hlt] at this; cases this
    · simp only [if_true]
      rw [KV.Seek_takeWhile p m hs.2]
      have hp : HasPrefix a p = false := by
        cases hq : HasPrefix a p
        · rfl
        · have := bytesLt_of_hasPrefix a p hq; rw [hlt] at this; cases this
      simp [KV.matching, List.filter_cons, hp]

theorem KV.mem_Seek (m : KV) (p : Bytes) (e : Bytes × Bytes) (h : e ∈ KV.Seek m p) : e ∈ m := by
  induction m with
  | nil => simp [KV.Seek] at h
  | cons f m ih =>
    obtain ⟨a, w⟩ := f
    simp only [KV.Seek] at h
    cases hlt : bytesLt a p
    · simpa [hlt] using h
    · simp only [hlt, if_true] at h
      exact List.mem_cons_of_mem _ (ih h)

theorem makeSlicePanics_of_range {n : Int} (h0 : 0 ≤ n) (hc : n ≤ maxSliceCap) :
    makeSlicePanics n = false := by
  unfold makeSlicePanics
  rw [decide_eq_false_iff_not]
  omega

/-- On a bucket in key order whose matching keys hold an id, `PrefixQuery` without
`exclusiveStart` returns the ids of the first `limit` matching entries. -/
theorem PrefixQuery_eq (b : Table) (index : Idx) (p : Bytes) (limit : Int) (hl : 0 < limit)
    (hc : limit ≤ maxSliceCap) (hs : KV.Sorted (b.idxs index))
    (hlen : ∀ e ∈ b.idxs index, HasPrefix e.1 p = true → idSize ≤ e.1.length) :
    PrefixQuery b index p limit none =
      .ok (((KV.matching (b.idxs index) p).map fun e => idOf e.1).take limit.toNat) := by
  have h0 : makeSlicePanics limit = false := makeSlicePanics_of_range (by omega) hc
  simp only [PrefixQuery, h0, Bool.false_eq_true, if_false]
  rw [prefixScan_eq p limit _ [] (fun e he => hlen e (KV.mem_Seek _ _ _ he)) (by simpa using hl)]
  simp [KV.Seek_takeWhile p _ hs]

/-! ### Cells and index entries under the primitive writes -/

@[simp] theorem Table.cell_putCell (b : Table) (c : Col) (id v : Bytes) (c' : Col) (x : Bytes) :
    (b.putCell c id v).cell c' x = if c' = c ∧ x = id then some v else b.cell c' x := by
  unfold Table.putCell Table.cell
  by_cases hc : c' = c
  · subst hc
    simp only [Function.update_same, KV.Get_Put, true_and]
    by_cases hx : x = id
    · simp [hx]
    · have : ¬ id = x := fun h => hx h.symm
      simp [hx, this]
  · simp [Function.update_noteq hc, hc]

@[simp] theorem Table.cell_deleteCell (b : Table) (c : Col) (id : Bytes) (c' : Col) (x : Bytes) :
    (b.deleteCell c id).cell c' x = if c' = c ∧ x = id then none else b.cell c' x := by
  unfold Table.deleteCell Table.cell
  by_cases hc : c' = c
  · subst hc
    simp only [Function.update_same, KV.Get_Delete, true_and]
    by_cases hx : x = id
    · simp [hx]
    · have : ¬ id = x := fun h => hx h.symm
      simp [hx, this]
  · simp [Function.update_noteq hc, hc]

@[simp] theorem Table.cell_putIndex (b : Table) (i : Idx) (k : Bytes) (c : Col) (x : Bytes) :
    (b.putIndex i k).cell c x = b.cell c x := rfl

@[simp] theorem Table.cell_deleteIndex (b : Table) (i : Idx) (k : Bytes) (c : Col) (x : Bytes) :
    (b.deleteIndex i k).cell c x = b.cell c x := rfl

@[simp] theorem Table.index_putCell (b : Table) (c : Col) (id v : Bytes) (i : Idx) :
    (b.putCell c id v).index i = b.index i := rfl

@[simp] theorem Table.index_deleteCell (b : Table) (c : Col) (id : Bytes) (i : Idx) :
    (b.deleteCell c id).index i = b.index i := rfl

theorem Table.mem_index_putIndex (b : Table) (i : Idx) (k : Bytes) (i' : Idx) (e : Bytes) :
    e ∈ (b.putIndex i k).index i' ↔ (i' = i ∧ e = k) ∨ e ∈ b.index i' := by
  unfold Table.putIndex Table.index
  by_cases hi : i' = i
  · subst hi; simp [KV.mem_keys_Put]
  · simp [Function.update_noteq hi, hi]

theorem Table.mem_index_deleteIndex (b : Table) (i : Idx) (k : Bytes) (i' : Idx) (e : Bytes) :
    e ∈ (b.deleteIndex i k).index i' ↔ ¬ (i' = i ∧ e = k) ∧ e ∈ b.index i' := by
  unfold Table.deleteIndex Table.index
  by_cases hi : i' = i
  · subst hi; simp [KV.mem_keys_Delete]
  · simp [Function.update_noteq hi, hi]

theorem Table.Sorted_putCell (b : Table) (c : Col) (id v : Bytes) (h : b.Sorted) :
    (b.putCell c id v).Sorted := by
  refine ⟨fun c' => ?_, h.2⟩
  by_cases hc : c' = c
  · subst hc; simpa [Table.putCell] using KV.Sorted_Put _ _ _ (h.1 c')
  · simpa [Table.putCell, Function.update_noteq hc] using h.1 c'

theorem Table.Sorted_deleteCell (b : Table) (c : Col) (id : Bytes) (h : b.Sorted) :
    (b.deleteCell c id).Sorted := by
  refine ⟨fun c' => ?_, h.2⟩
  by_cases hc : c' = c
  · subst hc; simpa [Table.deleteCell] using KV.Sorted_Delete _ _ (h.1 c')
  · simpa [Table.deleteCell, Function.update_noteq hc] using h.1 c'

theorem Table.Sorted_putIndex (b : Table) (i : Idx) (k : Bytes) (h : b.Sorted) :
    (b.putIndex i k).Sorted := by
  refine ⟨h.1, fun i' => ?_⟩
  by_cases hi : i' = i
  · subst hi; simpa [Table.putIndex] using KV.Sorted_Put _ _ _ (h.2 i')
  · simpa [Table.putIndex, Function.update_noteq hi] using h.2 i'

theorem Table.Sorted_deleteIndex (b : Table) (i : Idx) (k : Bytes) (h : b.Sorted) :
    (b.deleteIndex i k).Sorted := by
  refine ⟨h.1, fun i' => ?_⟩
  by_cases hi : i' = i
  · subst hi; simpa [Table.deleteIndex] using KV.Sorted_Delete _ _ (h.2 i')
  · simpa [Table.deleteIndex, Function.update_noteq hi] using h.2 i'

@[simp] theorem bytesEqual_self (v : Option Bytes) : bytesEqual v v = true := by
  simp [bytesEqual]

/-! ### One column of `UpdateRow` -/

theorem putValue_ok {b b' : Table} {row : Row} {id : Bytes} {k : Col} {v : Option Bytes}
    {curr : Values} (h : putValue b row id k v curr = .ok b') :
    b' = putValueT b row.Indexes id k v (curr.get k) := by
  unfold putValue at h
  unfold putValueT
  cases heq : bytesEqual v (curr.get k)
  · simp only [heq, Bool.false_eq_true, if_false] at h ⊢
    cases hs : row.Schema k
    · simp [hs] at h
    · simp only [hs, if_true] at h
      cases hix : row.Indexes k <;> cases v <;> simp only [hix] at h ⊢ <;>
        exact (Except.ok.inj h).symm
  · simp only [heq, if_true] at h ⊢
    exact (Except.ok.inj h).symm

theorem putValue_of_schema (b : Table) (row : Row) (id : Bytes) (k : Col) (v : Option Bytes)
    (curr : Values) (hs : row.Schema k = true) :
    putValue b row id k v curr = .ok (putValueT b row.Indexes id k v (curr.get k)) := by
  unfold putValue putValueT
  cases heq : bytesEqual v (curr.get k)
  · simp only [Bool.false_eq_true, if_false, hs, if_true]
    cases hix : row.Indexes k <;> cases v <;> rfl
  · simp

@[simp] theorem putValueT_sequence (b : Table) (ix : Col → Option Idx) (id : Bytes) (k : Col)
    (v cur : Option Bytes) : (putValueT b ix id k v cur).sequence = b.sequence := by
  unfold putValueT
  split
  · rfl
  · cases ix k <;> cases v <;> rfl

@[simp] theorem putValueT_root (b : Table) (ix : Col → Option Idx) (id : Bytes) (k : Col)
    (v cur : Option Bytes) : (putValueT b ix id k v cur).root = b.root := by
  unfold putValueT
  split
  · rfl
  · cases ix k <;> cases v <;> rfl

theorem putValueT_sorted (b : Table) (ix : Col → Option Idx) (id : Bytes) (k : Col)
    (v cur : Option Bytes) (h : b.Sorted) : (putValueT b ix id k v cur).Sorted := by
  unfold putValueT
  split
  · exact h
  · cases ix k <;> cases v <;>
      simp only [] <;>
      first
        | exact Table.Sorted_deleteCell _ _ _ h
        | exact Table.Sorted_putCell _ _ _ _ h
        | exact Table.Sorted_deleteIndex _ _ _ (Table.Sorted_deleteCell _ _ _ h)
        | exact Table.Sorted_putIndex _ _ _
            (Table.Sorted_deleteIndex _ _ _ (Table.Sorted_putCell _ _ _ _ h))

theorem cell_putValueT (b : Table) (ix : Col → Option Idx) (id : Bytes) (k : Col)
    (v cur : Option Bytes) (c : Col) (x : Bytes) :
    (putValueT b ix id k v cur).cell c x =
      if c = k ∧ x = id ∧ bytesEqual v cur = false then v else b.cell c x := by
  unfold putValueT
  cases heq : bytesEqual v cur
  · simp only [Bool.false_eq_true, if_false, and_true]
    cases ix k <;> cases v <;> simp
  · simp

theorem mem_index_putValueT (b : Table) (ix : Col → Option Idx) (id : Bytes) (k : Col)
    (v cur : Option Bytes) (i : Idx) (e : Bytes) :
    e ∈ (putValueT b ix id k v cur).index i ↔
      if ix k = some i ∧ bytesEqual v cur = false then
        (∃ w, v = some w ∧ e = w ++ id) ∨ (e ≠ cur.getD [] ++ id ∧ e ∈ b.index i)
      else e ∈ b.index i := by
  unfold putValueT
  cases heq : bytesEqual v cur
  · simp only [Bool.false_eq_true, if_false, and_true]
    cases hix : ix k with
    | none => cases v <;> simp
    | some j =>
      by_cases hj : j = i
      · subst hj
        cases v with
        | none => simp [Table.mem_index_deleteIndex, MakeIndex]
        | some w =>
          simp only [Table.mem_index_putIndex, Table.mem_index_deleteIndex, MakeIndex,
            Table.index_putCell, true_and, if_true, Option.some.injEq, exists_eq_left']
      · have hji : ¬ i = j := fun h => hj h.symm
        cases v <;>
          simp [Table.mem_index_putIndex, Table.mem_index_deleteIndex, hj, hji]
  · simp

/-! ### `UpdateRow` as a fold of column updates -/

theorem foldlM_putValue_ok {row : Row} {id : Bytes} {curr : Values} :
    ∀ (values : Values) (b b' : Table),
      values.foldlM (fun b1 kv => putValue b1 row id kv.1 kv.2 curr) b = .ok b' →
      b' = updateT b row.Indexes id values curr
  | [], b, b', h => by
    simp only [List.foldlM, pure, Except.pure] at h
    simpa [updateT] using (Except.ok.inj h).symm
  | kv :: values, b, b', h => by
    simp only [List.foldlM, bind, Except.bind] at h
    cases h1 : putValue b row id kv.1 kv.2 curr with
    | error e => simp [h1] at h
    | ok b1 =>
      simp only [h1] at h
      have := foldlM_putValue_ok values b1 b' h
      rw [putValue_ok h1] at this
      simpa [updateT] using this

theorem UpdateRow_ok {b b' : Table} {id : Bytes} {row : Row} {curr : Values}
    (h : UpdateRow b id row (some curr) = .ok b') :
    b' = updateT b row.Indexes id row.Marshal curr :=
  foldlM_putValue_ok row.Marshal b b' h

theorem foldlM_putValue_of_schema (row : Row) (id : Bytes) (curr : Values) :
    ∀ (values : Values) (b : Table), (∀ kv ∈ values, row.Schema kv.1 = true) →
      values.foldlM (fun b1 kv => putValue b1 row id kv.1 kv.2 curr) b =
        .ok (updateT b row.Indexes id values curr)
  | [], b, _ => by simp [List.foldlM, updateT, pure, Except.pure]
  | kv :: values, b, hs => by
    simp only [List.foldlM, bind, Except.bind]
    rw [putValue_of_schema b row id kv.1 kv.2 curr (hs kv (List.mem_cons_self _ _))]
    simp only []
    rw [foldlM_putValue_of_schema row id curr values _
      (fun kv' h' => hs kv' (List.mem_cons_of_mem _ h'))]
    simp [updateT]

theorem UpdateRow_of_schema (b : Table) (id : Bytes) (row : Row) (curr : Values)
    (hs : ∀ kv ∈ row.Marshal, row.Schema kv.1 = true) :
    UpdateRow b id row (some curr) = .ok (updateT b row.Indexes id row.Marshal curr) :=
  foldlM_putValue_of_schema row id curr row.Marshal b hs

theorem updateT_cons (b : Table) (ix : Col → Option Idx) (id : Bytes) (kv : Col × Option Bytes)
    (values curr : Values) :
    updateT b ix id (kv :: values) curr =
      updateT (putValueT b ix id kv.1 kv.2 (curr.get kv.1)) ix id values curr := rfl

@[simp] theorem updateT_nil (b : Table) (ix : Col → Option Idx) (id : Bytes) (curr : Values) :
    updateT b ix id [] curr = b := rfl

@[simp] theorem updateT_sequence (ix : Col → Option Idx) (id : Bytes) (curr : Values) :
    ∀ (values : Values) (b : Table), (updateT b ix id values curr).sequence = b.sequence
  | [], _ => rfl
  | kv :: values, b => by rw [updateT_cons, updateT_sequence ix id curr values]; simp

@[simp] theorem updateT_root (ix : Col → Option Idx) (id : Bytes) (curr : Values) :
    ∀ (values : Values) (b : Table), (updateT b ix id values curr).root = b.root
  | [], _ => rfl
  | kv :: values, b => by rw [updateT_cons, updateT_root ix id curr values]; simp

theorem updateT_sorted (ix : Col → Option Idx) (id : Bytes) (curr : Values) :
    ∀ (values : Values) (b : Table), b.Sorted → (updateT b ix id values curr).Sorted
  | [], _, h => h
  | kv :: values, b, h => by
    rw [updateT_cons]
    exact updateT_sorted ix id curr values _ (putValueT_sorted _ _ _ _ _ _ h)

/-- `UpdateRow` writes no cell of another row. -/
theorem cell_updateT_of_ne (ix : Col → Option Idx) (id : Bytes) (curr : Values) (c : Col)
    (x : Bytes) (hx : x ≠ id) :
    ∀ (values : Values) (b : Table), (updateT b ix id values curr).cell c x = b.cell c x
  | [], _ => rfl
  | kv :: values, b => by
    rw [updateT_cons, cell_updateT_of_ne ix id curr c x hx values, cell_putValueT]
    simp [hx]

/-- `UpdateRow` writes no cell of a column that the new row does not marshal. -/
theorem cell_updateT_of_not_mem (ix : Col → Option Idx) (id : Bytes) (curr : Values) (c : Col)
    (x : Bytes) :
    ∀ (values : Values) (b : Table), c ∉ values.keys →
      (updateT b ix id values curr).cell c x = b.cell c x
  | [], _, _ => rfl
  | kv :: values, b, hc => by
    simp only [Values.keys, List.map_cons, List.mem_cons, not_or] at hc
    rw [updateT_cons, cell_updateT_of_not_mem ix id curr c x values _ hc.2, cell_putValueT]
    simp [hc.1]

/-- The cell of a marshalled column after `UpdateRow`. -/
theorem cell_updateT (ix : Col → Option Idx) (id : Bytes) (curr : Values) (c : Col)
    (v : Option Bytes) :
    ∀ (values : Values) (b : Table), values.keys.Nodup → (c, v) ∈ values →
      (updateT b ix id values curr).cell c id =
        if bytesEqual v (curr.get c) then b.cell c id else v
  | [], _, _, h => by simp at h
  | kv :: values, b, hnd, hmem => by
    simp only [Values.keys, List.map_cons, List.nodup_cons] at hnd
    rw [updateT_cons]
    rcases List.mem_cons.mp hmem with h | h
    · subst h
      rw [cell_updateT_of_not_mem ix id curr c id values _ hnd.1, cell_putValueT]
      cases bytesEqual v (curr.get c) <;> simp
    · have hne : c ≠ kv.1 := by
        intro hc
        exact hnd.1 (hc ▸ List.mem_map_of_mem Prod.fst h)
      rw [cell_updateT ix id curr c v values _ hnd.2 h, cell_putValueT]
      simp [hne]

/-- An index that none of the marshalled columns feeds is left alone by `UpdateRow`. -/
theorem mem_index_updateT_of_not_mem (ix : Col → Option Idx) (id : Bytes) (curr : Values)
    (i : Idx) (e : Bytes) :
    ∀ (values : Values) (b : Table), (∀ k ∈ values.keys, ix k ≠ some i) →
      (e ∈ (updateT b ix id values curr).index i ↔ e ∈ b.index i)
  | [], _, _ => Iff.rfl
  | kv :: values, b, h => by
    simp only [Values.keys, List.map_cons, List.mem_cons, forall_eq_or_imp] at h
    rw [updateT_cons, mem_index_updateT_of_not_mem ix id curr i e values _ h.2,
      mem_index_putValueT]
    simp [h.1]

/-- The entries of an index after `UpdateRow`, when exactly the column `k` feeds it. -/
theorem mem_index_updateT (ix : Col → Option Idx) (id : Bytes) (curr : Values) (k : Col)
    (v : Option Bytes) (i : Idx) (e : Bytes) (hk : ix k = some i) :
    ∀ (values : Values) (b : Table), values.keys.Nodup → (k, v) ∈ values →
      (∀ k' ∈ values.keys, ix k' = some i → k' = k) →
      (e ∈ (updateT b ix id values curr).index i ↔
        if bytesEqual v (curr.get k) then e ∈ b.index i
        else (∃ w, v = some w ∧ e = w ++ id) ∨
          (e ≠ (curr.get k).getD [] ++ id ∧ e ∈ b.index i))
  | [], _, _, h, _ => by simp at h
  | kv :: values, b, hnd, hmem, huniq => by
    simp only [Values.keys, List.map_cons, List.nodup_cons] at hnd
    have huniq' : ∀ k' ∈ Values.keys values, ix k' = some i → k' = k :=
      fun k' h' => huniq k' (List.mem_cons_of_mem _ h')
    rw [updateT_cons]
    rcases List.mem_cons.mp hmem with h | h
    · subst h
      have hno : ∀ k' ∈ Values.keys values, ix k' ≠ some i := by
        intro k' h' hi
        exact hnd.1 (huniq' k' h' hi ▸ h')
      rw [mem_index_updateT_of_not_mem ix id curr i e values _ hno, mem_index_putValueT]
      cases bytesEqual v (curr.get k) <;> simp [hk]
    · have hne : ¬ ix kv.1 = some i := by
        intro hi
        have : kv.1 = k := huniq kv.1 (List.mem_cons_self _ _) hi
        exact hnd.1 (this ▸ List.mem_map_of_mem Prod.fst h)
      rw [mem_index_updateT ix id curr k v i e hk values _ hnd.2 h huniq']
      have hstep : ∀ e', e' ∈ (putValueT b ix id kv.1 kv.2 (curr.get kv.1)).index i ↔
          e' ∈ b.index i := by
        intro e'; rw [mem_index_putValueT]; simp [hne]
      simp only [hstep]

/-! ### `AppendRow` as a fold of column writes -/

theorem appendValue_ok {b b' : Table} {row : Row} {id : Bytes} {kv : Col × Option Bytes}
    (h : appendValue row id b kv = .ok b') : b' = appendValueT b row.Indexes id kv.1 kv.2 := by
  obtain ⟨k, v⟩ := kv
  cases v with
  | none => simpa [appendValue, appendValueT] using (Except.ok.inj h).symm
  | some w =>
    simp only [appendValue] at h
    cases hs : row.Schema k
    · simp [hs] at h
    · simp only [hs, if_true] at h
      simp only [appendValueT]
      cases hix : row.Indexes k <;> simp only [hix] at h ⊢ <;> exact (Except.ok.inj h).symm

theorem appendValue_of_schema (b : Table) (row : Row) (id : Bytes) (kv : Col × Option Bytes)
    (hs : row.Schema kv.1 = true) :
    appendValue row id b kv = .ok (appendValueT b row.Indexes id kv.1 kv.2) := by
  obtain ⟨k, v⟩ := kv
  cases v with
  | none => rfl
  | some w =>
    simp only [appendValue, appendValueT]
    simp only [] at hs
    simp only [hs, if_true]
    cases row.Indexes k <;> rfl

theorem foldlM_appendValue_ok {row : Row} {id : Bytes} :
    ∀ (values : Values) (b b' : Table),
      values.foldlM (appendValue row id) b = .ok b' → b' = appendT b row.Indexes id values
  | [], b, b', h => by
    simp only [List.foldlM, pure, Except.pure] at h
    simpa [appendT] using (Except.ok.inj h).symm
  | kv :: values, b, b', h => by
    simp only [List.foldlM, bind, Except.bind] at h
    cases h1 : appendValue row id b kv with
    | error e => simp [h1] at h
    | ok b1 =>
      simp only [h1] at h
      have := foldlM_appendValue_ok values b1 b' h
      rw [appendValue_ok h1] at this
      simpa [appendT] using this

theorem foldlM_appendValue_of_schema (row : Row) (id : Bytes) :
    ∀ (values : Values) (b : Table), (∀ kv ∈ values, row.Schema kv.1 = true) →
      values.foldlM (appendValue row id) b = .ok (appendT b row.Indexes id values)
  | [], b, _ => by simp [List.foldlM, appendT, pure, Except.pure]
  | kv :: values, b, hs => by
    simp only [List.foldlM, bind, Except.bind]
    rw [appendValue_of_schema b row id kv (hs kv (List.mem_cons_self _ _))]
    simp only []
    rw [foldlM_appendValue_of_schema row id values _
      (fun kv' h' => hs kv' (List.mem_cons_of_mem _ h'))]
    simp [appendT]

theorem AppendRow_ok {b b' : Table} {row : Row} {id : Bytes}
    (h : AppendRow b row = .ok (id, b')) :
    id = b.nextID ∧ b' = appendT b.bump row.Indexes b.nextID row.Marshal := by
  have hdef : AppendRow b row =
      (row.Marshal.foldlM (appendValue row b.nextID) b.bump).map fun b2 => (b.nextID, b2) := rfl
  rw [hdef] at h
  cases h1 : row.Marshal.foldlM (appendValue row b.nextID) b.bump with
  | error e => rw [h1] at h; cases h
  | ok b2 =>
    rw [h1] at h
    have h2 : (b.nextID, b2) = (id, b') := Except.ok.inj h
    have := foldlM_appendValue_ok _ _ _ h1
    exact ⟨(congrArg Prod.fst h2).symm, (congrArg Prod.snd h2).symm.trans this⟩

theorem AppendRow_of_schema (b : Table) (row : Row)
    (hs : ∀ kv ∈ row.Marshal, row.Schema kv.1 = true) :
    AppendRow b row = .ok (b.nextID, appendT b.bump row.Indexes b.nextID row.Marshal) := by
  have hdef : AppendRow b row =
      (row.Marshal.foldlM (appendValue row b.nextID) b.bump).map fun b2 => (b.nextID, b2) := rfl
  rw [hdef, foldlM_appendValue_of_schema row _ row.Marshal _ hs]
  rfl

theorem appendT_cons (b : Table) (ix : Col → Option Idx) (id : Bytes) (kv : Col × Option Bytes)
    (values : Values) :
    appendT b ix id (kv :: values) = appendT (appendValueT b ix id kv.1 kv.2) ix id values := rfl

@[simp] theorem appendValueT_sequence (b : Table) (ix : Col → Option Idx) (id : Bytes) (k : Col)
    (v : Option Bytes) : (appendValueT b ix id k v).sequence = b.sequence := by
  cases v with
  | none => rfl
  | some w => simp only [appendValueT]; cases ix k <;> rfl

@[simp] theorem appendValueT_root (b : Table) (ix : Col → Option Idx) (id : Bytes) (k : Col)
    (v : Option Bytes) : (appendValueT b ix id k v).root = b.root := by
  cases v with
  | none => rfl
  | some w => simp only [appendValueT]; cases ix k <;> rfl

theorem appendValueT_sorted (b : Table) (ix : Col → Option Idx) (id : Bytes) (k : Col)
    (v : Option Bytes) (h : b.Sorted) : (appendValueT b ix id k v).Sorted := by
  cases v with
  | none => exact h
  | some w =>
    simp only [appendValueT]
    cases ix k with
    | none => exact Table.Sorted_putCell _ _ _ _ h
    | some j => exact Table.Sorted_putIndex _ _ _ (Table.Sorted_putCell _ _ _ _ h)

theorem cell_appendValueT (b : Table) (ix : Col → Option Idx) (id : Bytes) (k : Col)
    (v : Option Bytes) (c : Col) (x : Bytes) :
    (appendValueT b ix id k v).cell c x =
      if c = k ∧ x = id ∧ v.isSome then v else b.cell c x := by
  cases v with
  | none => simp [appendValueT]
  | some w => simp only [appendValueT]; cases ix k <;> simp

theorem mem_index_appendValueT (b : Table) (ix : Col → Option Idx) (id : Bytes) (k : Col)
    (v : Option Bytes) (i : Idx) (e : Bytes) :
    e ∈ (appendValueT b ix id k v).index i ↔
      (∃ w, v = some w ∧ ix k = some i ∧ e = w ++ id) ∨ e ∈ b.index i := by
  cases v with
  | none => simp [appendValueT]
  | some w =>
    simp only [appendValueT]
    cases hix : ix k with
    | none => simp
    | some j =>
      simp only [Table.mem_index_putIndex, Table.index_putCell, MakeIndex, Option.some.injEq,
        exists_eq_left']
      constructor
      · rintro (⟨h1, h2⟩ | h)
        · exact Or.inl ⟨h1.symm, h2⟩
        · exact Or.inr h
      · rintro (⟨h1, h2⟩ | h)
        · exact Or.inl ⟨h1.symm, h2⟩
        · exact Or.inr h

@[simp] theorem appendT_sequence (ix : Col → Option Idx) (id : Bytes) :
    ∀ (values : Values) (b : Table), (appendT b ix id values).sequence = b.sequence
  | [], _ => rfl
  | kv :: values, b => by rw [appendT_cons, appendT_sequence ix id values]; simp

@[simp] theorem appendT_root (ix : Col → Option Idx) (id : Bytes) :
    ∀ (values : Values) (b : Table), (appendT b ix id values).root = b.root
  | [], _ => rfl
  | kv :: values, b => by rw [appendT_cons, appendT_root ix id values]; simp

theorem appendT_sorted (ix : Col → Option Idx) (id : Bytes) :
    ∀ (values : Values) (b : Table), b.Sorted → (appendT b ix id values).Sorted
  | [], _, h => h
  | kv :: values, b, h => by
    rw [appendT_cons]
    exact appendT_sorted ix id values _ (appendValueT_sorted _ _ _ _ _ h)

/-- `AppendRow` writes no cell of another row. -/
theorem cell_appendT_of_ne (ix : Col → Option Idx) (id : Bytes) (c : Col) (x : Bytes)
    (hx : x ≠ id) :
    ∀ (values : Values) (b : Table), (appendT b ix id values).cell c x = b.cell c x
  | [], _ => rfl
  | kv :: values, b => by
    rw [appendT_cons, cell_appendT_of_ne ix id c x hx values, cell_appendValueT]
    simp [hx]

/-- `AppendRow` writes no cell of a column whose marshalled value is missing or nil. -/
theorem cell_appendT_of_not_mem (ix : Col → Option Idx) (id : Bytes) (c : Col) (x : Bytes) :
    ∀ (values : Values) (b : Table), (∀ w, (c, some w) ∉ values) →
      (appendT b ix id values).cell c x = b.cell c x
  | [], _, _ => rfl
  | (k, v) :: values, b, hc => by
    rw [appendT_cons, cell_appendT_of_not_mem ix id c x values _
      (fun w h => hc w (List.mem_cons_of_mem _ h)), cell_appendValueT]
    cases v with
    | none => simp
    | some w =>
      have : c ≠ k := fun h => hc w (h ▸ List.mem_cons_self _ _)
      simp [this]

/-- The cell of a marshalled column of the new row after `AppendRow`. -/
theorem cell_appendT (ix : Col → Option Idx) (id : Bytes) (c : Col) (w : Bytes) :
    ∀ (values : Values) (b : Table), values.keys.Nodup → (c, some w) ∈ values →
      (appendT b ix id values).cell c id = some w
  | [], _, _, h => by simp at h
  | kv :: values, b, hnd, hmem => by
    simp only [Values.keys, List.map_cons, List.nodup_cons] at hnd
    rw [appendT_cons]
    rcases List.mem_cons.mp hmem with h | h
    · subst h
      rw [cell_appendT_of_not_mem ix id c id values _
        (fun w' h' => hnd.1 (List.mem_map.mpr ⟨_, h', rfl⟩)), cell_appendValueT]
      simp
    · exact cell_appendT ix id c w values _ hnd.2 h

/-- The entries of an index after `AppendRow`. -/
theorem mem_index_appendT (ix : Col → Option Idx) (id : Bytes) (i : Idx) (e : Bytes) :
    ∀ (values : Values) (b : Table),
      (e ∈ (appendT b ix id values).index i ↔
        (∃ k w, (k, some w) ∈ values ∧ ix k = some i ∧ e = w ++ id) ∨ e ∈ b.index i)
  | [], _ => by simp [appendT]
  | (k, v) :: values, b => by
    rw [appendT_cons, mem_index_appendT ix id i e values, mem_index_appendValueT]
    constructor
    · rintro (⟨k', w, h1, h2, h3⟩ | ⟨w, h1, h2, h3⟩ | h)
      · exact Or.inl ⟨k', w, List.mem_cons_of_mem _ h1, h2, h3⟩
      · exact Or.inl ⟨k, w, by simp only [] at h1; rw [h1]; exact List.mem_cons_self _ _, h2, h3⟩
      · exact Or.inr h
    · rintro (⟨k', w, h1, h2, h3⟩ | h)
      · rcases List.mem_cons.mp h1 with h1 | h1
        · simp only [Prod.mk.injEq] at h1
          obtain ⟨rfl, rfl⟩ := h1
          exact Or.inr (Or.inl ⟨w, rfl, h2, h3⟩)
        · exact Or.inl ⟨k', w, h1, h2, h3⟩
      · exact Or.inr (Or.inr h)

/-! ### Row ids -/

theorem PutUint64_length (s : Nat) : (PutUint64 s).length = 8 := rfl

theorem Uint64_PutUint64 (s : Nat) (h : s < 2 ^ 64) : Uint64 (PutUint64 s) = .ok s := by
  simp only [PutUint64, Uint64, Except.ok.injEq]
  norm_num at h ⊢
  omega

theorem PutUint64_inj {s s' : Nat} (h : s < 2 ^ 64) (h' : s' < 2 ^ 64)
    (heq : PutUint64 s = PutUint64 s') : s = s' := by
  have h1 := Uint64_PutUint64 s h
  rw [heq, Uint64_PutUint64 s' h'] at h1
  exact (Except.ok.inj h1).symm

theorem idOf_append (v id : Bytes) (h : id.length = 8) : idOf (v ++ id) = id := by
  unfold idOf idSize
  rw [List.length_append, h, Nat.add_sub_cancel]
  simp

theorem idOf_eq {e id : Bytes} (h : idOf e = id) :
    e = e.take (e.length - idSize) ++ id := by
  rw [← h]; unfold idOf; exact (List.take_append_drop _ e).symm

/-! ### Index consistency is an invariant of the row store -/

theorem Consistent.empty : Consistent Table.empty [] where
  complete := by simp
  sound := by simp [Table.index, Table.empty, KV.keys]
  ids := by simp
  kinds := by simp
  inj := by simp
  cells := by simp [Table.cell, Table.empty, KV.Get]
  bound := by simp [Table.empty]

theorem Consistent.length_id {b : Table} {rows : Rows} (h : Consistent b rows) {id : Bytes}
    {ix : Col → Option Idx} (hm : (id, ix) ∈ rows) : id.length = 8 := by
  obtain ⟨s, _, _, hs⟩ := h.ids id ix hm
  rw [hs]; rfl

theorem Consistent.putValueT {b : Table} {rows : Rows} (h : Consistent b rows) {id : Bytes}
    {ix : Col → Option Idx} (hm : (id, ix) ∈ rows) (k : Col) (v cur : Option Bytes)
    (hcur : bytesEqual v cur = true ∨ cur.getD [] = (b.cell k id).getD []) :
    Consistent (putValueT b ix id k v cur) rows := by
  cases heq : bytesEqual v cur
  swap
  · have : S3fc.putValueT b ix id k v cur = b := by simp [S3fc.putValueT, heq]
    rw [this]; exact h
  have hagree : cur.getD [] = (b.cell k id).getD [] := by
    rcases hcur with h1 | h1
    · rw [heq] at h1; cases h1
    · exact h1
  have hid8 := h.length_id hm
  refine ⟨?_, ?_, ?_, h.kinds, h.inj, ?_, ?_⟩
  · intro id0 ix0 hm0 k0 i v0 hix0 hcell
    rw [cell_putValueT] at hcell
    rw [mem_index_putValueT]
    by_cases hsame : k0 = k ∧ id0 = id
    · obtain ⟨rfl, rfl⟩ := hsame
      have hixeq : ix0 = ix := h.kinds _ _ _ hm0 hm
      subst hixeq
      simp only [heq, and_self, if_true] at hcell
      simp only [hix0, heq, and_self, if_true]
      exact Or.inl ⟨v0, hcell, rfl⟩
    · have hcell' : b.cell k0 id0 = some v0 := by
        have : ¬ (k0 = k ∧ id0 = id ∧ bytesEqual v cur = false) := fun hh => hsame ⟨hh.1, hh.2.1⟩
        simpa [this] using hcell
      have hmem := h.complete id0 ix0 hm0 k0 i v0 hix0 hcell'
      by_cases hik : ix k = some i
      · simp only [hik, heq, and_self, if_true]
        refine Or.inr ⟨?_, hmem⟩
        intro happ
        have hid0 := h.length_id hm0
        obtain ⟨hv, hidd⟩ := List.append_inj' happ (by rw [hid0, hid8])
        subst hidd
        have hixeq : ix0 = ix := h.kinds _ _ _ hm0 hm
        subst hixeq
        exact hsame ⟨h.inj _ _ hm0 k0 k i hix0 hik, rfl⟩
      · simp only [hik, false_and, if_false]
        exact hmem
  · intro i e he
    rw [mem_index_putValueT] at he
    by_cases hik : ix k = some i
    · simp only [hik, heq, and_self, if_true] at he
      rcases he with ⟨w, hw, rfl⟩ | ⟨hne, he⟩
      · refine ⟨id, ix, k, w, hm, hik, ?_, rfl⟩
        rw [cell_putValueT, if_pos ⟨rfl, rfl, heq⟩, hw]
      · obtain ⟨id', ix', k', v', hm', hix', hcell', rfl⟩ := h.sound i e he
        refine ⟨id', ix', k', v', hm', hix', ?_, rfl⟩
        rw [cell_putValueT]
        have : ¬ (k' = k ∧ id' = id ∧ bytesEqual v cur = false) := by
          rintro ⟨rfl, rfl, _⟩
          apply hne
          rw [hagree, hcell']; rfl
        simpa [this] using hcell'
    · simp only [hik, false_and, if_false] at he
      obtain ⟨id', ix', k', v', hm', hix', hcell', rfl⟩ := h.sound i e he
      refine ⟨id', ix', k', v', hm', hix', ?_, rfl⟩
      rw [cell_putValueT]
      have : ¬ (k' = k ∧ id' = id ∧ bytesEqual v cur = false) := by
        rintro ⟨rfl, rfl, _⟩
        have hixeq : ix' = ix := h.kinds _ _ _ hm' hm
        subst hixeq
        exact hik hix'
      simpa [this] using hcell'
  · intro id0 ix0 hm0
    simpa using h.ids id0 ix0 hm0
  · intro k0 x v0 hcell
    rw [cell_putValueT] at hcell
    by_cases hsame : k0 = k ∧ x = id ∧ bytesEqual v cur = false
    · exact ⟨ix, hsame.2.1 ▸ hm⟩
    · simp only [hsame, if_false] at hcell
      exact h.cells k0 x v0 hcell
  · simpa using h.bound

theorem Consistent.updateT {rows : Rows} {id : Bytes} {ix : Col → Option Idx}
    (hm : (id, ix) ∈ rows) (curr : Values) :
    ∀ (values : Values) (b : Table), Consistent b rows → (Values.keys values).Nodup →
      (∀ kv ∈ values, bytesEqual kv.2 (curr.get kv.1) = true ∨
        (curr.get kv.1).getD [] = (b.cell kv.1 id).getD []) →
      Consistent (updateT b ix id values curr) rows
  | [], _, h, _, _ => h
  | kv :: values, b, h, hnd, hag => by
    simp only [Values.keys, List.map_cons, List.nodup_cons] at hnd
    rw [updateT_cons]
    refine Consistent.updateT hm curr values _
      (h.putValueT hm kv.1 kv.2 (curr.get kv.1) (hag kv (List.mem_cons_self _ _))) hnd.2 ?_
    intro kv' hkv'
    have hne : kv'.1 ≠ kv.1 := fun hc => hnd.1 (hc ▸ List.mem_map_of_mem Prod.fst hkv')
    rw [cell_putValueT]
    simpa [hne] using hag kv' (List.mem_cons_of_mem _ hkv')

theorem Consistent.appendT {b : Table} {rows : Rows} (h : Consistent b rows)
    (hseq : b.sequence + 1 < 2 ^ 64) (ix : Col → Option Idx) (values : Values)
    (hnd : (Values.keys values).Nodup)
    (hinj : ∀ k k' i, ix k = some i → ix k' = some i → k = k') :
    Consistent (appendT b.bump ix b.nextID values) ((b.nextID, ix) :: rows) := by
  have hmod : (b.sequence + 1) % 2 ^ 64 = b.sequence + 1 := Nat.mod_eq_of_lt hseq
  have hfresh : ∀ id' ix', (id', ix') ∈ rows → id' ≠ b.nextID := by
    intro id' ix' hm' heq
    obtain ⟨s, _, hs, rfl⟩ := h.ids id' ix' hm'
    unfold Table.nextID at heq
    rw [hmod] at heq
    have := PutUint64_inj (by omega) hseq heq
    omega
  have hnone : ∀ k, b.cell k b.nextID = none := by
    intro k
    cases hc : b.cell k b.nextID with
    | none => rfl
    | some v =>
      obtain ⟨ix', hm'⟩ := h.cells k _ v hc
      exact absurd rfl (hfresh _ _ hm')
  have hbump : ∀ k x, b.bump.cell k x = b.cell k x := fun _ _ => rfl
  have hbumpi : ∀ i, b.bump.index i = b.index i := fun _ => rfl
  refine ⟨?_, ?_, ?_, ?_, ?_, ?_, ?_⟩
  · intro id0 ix0 hm0 k i v0 hix0 hcell
    rw [mem_index_appendT, hbumpi]
    rcases List.mem_cons.mp hm0 with heq | hm0'
    · simp only [Prod.mk.injEq] at heq
      obtain ⟨rfl, rfl⟩ := heq
      by_cases hex : ∃ w, (k, some w) ∈ values
      · obtain ⟨w, hw⟩ := hex
        rw [cell_appendT ix0 _ k w values _ hnd hw] at hcell
        exact Or.inl ⟨k, w, hw, hix0, by rw [← Option.some.inj hcell]⟩
      · rw [cell_appendT_of_not_mem ix0 _ k _ values _ (fun w hw => hex ⟨w, hw⟩), hbump,
          hnone] at hcell
        cases hcell
    · rw [cell_appendT_of_ne ix _ k id0 (hfresh _ _ hm0'), hbump] at hcell
      exact Or.inr (h.complete id0 ix0 hm0' k i v0 hix0 hcell)
  · intro i e he
    rw [mem_index_appendT, hbumpi] at he
    rcases he with ⟨k, w, hw, hik, rfl⟩ | he
    · exact ⟨b.nextID, ix, k, w, List.mem_cons_self _ _, hik,
        cell_appendT ix _ k w values _ hnd hw, rfl⟩
    · obtain ⟨id', ix', k', v', hm', hix', hcell', rfl⟩ := h.sound i e he
      refine ⟨id', ix', k', v', List.mem_cons_of_mem _ hm', hix', ?_, rfl⟩
      rw [cell_appendT_of_ne ix _ k' id' (hfresh _ _ hm'), hbump]
      exact hcell'
  · intro id0 ix0 hm0
    have hs' : (S3fc.appendT b.bump ix b.nextID values).sequence = b.sequence + 1 := by
      rw [appendT_sequence]; exact hmod
    rw [hs']
    rcases List.mem_cons.mp hm0 with heq | hm0'
    · simp only [Prod.mk.injEq] at heq
      exact ⟨b.sequence + 1, by omega, le_refl _, by rw [heq.1, Table.nextID, hmod]⟩
    · obtain ⟨s, h1, h2, h3⟩ := h.ids id0 ix0 hm0'
      exact ⟨s, h1, by omega, h3⟩
  · intro id0 ix0 ix0' hm0 hm0'
    rcases List.mem_cons.mp hm0 with heq | hm1
    · simp only [Prod.mk.injEq] at heq
      rcases List.mem_cons.mp hm0' with heq' | hm1'
      · simp only [Prod.mk.injEq] at heq'
        rw [heq.2, heq'.2]
      · exact absurd heq.1 (hfresh _ _ hm1')
    · rcases List.mem_cons.mp hm0' with heq' | hm1'
      · simp only [Prod.mk.injEq] at heq'
        exact absurd heq'.1 (hfresh _ _ hm1)
      · exact h.kinds _ _ _ hm1 hm1'
  · intro id0 ix0 hm0
    rcases List.mem_cons.mp hm0 with heq | hm1
    · simp only [Prod.mk.injEq] at heq
      rw [heq.2]; exact hinj
    · exact h.inj _ _ hm1
  · intro k x v0 hcell
    by_cases hx : x = b.nextID
    · exact ⟨ix, hx ▸ List.mem_cons_self _ _⟩
    · rw [cell_appendT_of_ne ix _ k x hx, hbump] at hcell
      obtain ⟨ix', hm'⟩ := h.cells k x v0 hcell
      exact ⟨ix', List.mem_cons_of_mem _ hm'⟩
  · have hs' : (S3fc.appendT b.bump ix b.nextID values).sequence = b.sequence + 1 := by
      rw [appendT_sequence]; exact hmod
    rw [hs']; exact hseq

theorem Col.mem_all (k : Col) : k ∈ Col.all := by
  cases k <;> simp [Col.all]

theorem Values.get_map_filter (f : Col → Option Bytes) (schema : Col → Bool) (k : Col) :
    ∀ (l : List Col), Values.get ((l.filter schema).map fun c => (c, f c)) k =
      if k ∈ l ∧ schema k = true then f k else none
  | [] => by simp [Values.get]
  | c :: l => by
    cases hs : schema c
    · rw [List.filter_cons_of_neg (by simp [hs]), Values.get_map_filter f schema k l]
      by_cases hk : k = c
      · subst hk; simp [hs]
      · simp [hk]
    · rw [List.filter_cons_of_pos (by simp [hs])]
      simp only [List.map_cons, Values.get]
      by_cases hk : c = k
      · subst hk; simp [hs]
      · have hk' : ¬ k = c := fun h => hk h.symm
        rw [if_neg hk, Values.get_map_filter f schema k l]
        simp [hk']

/-- What `lookupRow` holds for a column: its cell when the schema declares the column. -/
theorem lookupRow_get (b : Table) (id : Bytes) (schema : Col → Bool) (k : Col) :
    (lookupRow b id schema).get k = if schema k = true then b.cell k id else none := by
  unfold lookupRow
  rw [Values.get_map_filter (fun c => b.cell c id) schema k Col.all]
  simp [Col.mem_all]

theorem putValue_schema {b b' : Table} {row : Row} {id : Bytes} {k : Col} {v : Option Bytes}
    {curr : Values} (h : putValue b row id k v curr = .ok b') :
    row.Schema k = true ∨ bytesEqual v (curr.get k) = true := by
  unfold putValue at h
  cases heq : bytesEqual v (curr.get k)
  · cases hs : row.Schema k
    · simp [heq, hs] at h
    · exact Or.inl rfl
  · exact Or.inr rfl

theorem foldlM_putValue_schema {row : Row} {id : Bytes} {curr : Values} :
    ∀ (values : Values) (b b' : Table),
      values.foldlM (fun b1 kv => putValue b1 row id kv.1 kv.2 curr) b = .ok b' →
      ∀ kv ∈ values, row.Schema kv.1 = true ∨ bytesEqual kv.2 (curr.get kv.1) = true
  | [], _, _, _ => by simp
  | kv :: values, b, b', h => by
    simp only [List.foldlM, bind, Except.bind] at h
    cases h1 : putValue b row id kv.1 kv.2 curr with
    | error e => simp [h1] at h
    | ok b1 =>
      simp only [h1] at h
      intro kv' hkv'
      rcases List.mem_cons.mp hkv' with rfl | hkv'
      · exact putValue_schema h1
      · exact foldlM_putValue_schema values b1 b' h kv' hkv'

/-- A successful `UpdateRow` without `current` is the fold over the values `lookupRow`
reads. -/
theorem UpdateRow_none_ok {b b' : Table} {id : Bytes} {row : Row}
    (h : UpdateRow b id row none = .ok b') :
    b' = updateT b row.Indexes id row.Marshal (lookupRow b id row.Schema) :=
  foldlM_putValue_ok row.Marshal b b' h

/-- Index consistency holds along every trace of the row store. -/
theorem Trace.consistent {b : Table} {rows : Rows} (h : Trace b rows) : Consistent b rows := by
  induction h with
  | empty => exact Consistent.empty
  | @append b b' rows row id _ hseq hwf hok ih =>
    obtain ⟨hid, hb'⟩ := AppendRow_ok hok
    rw [hid, hb']
    exact ih.appendT hseq row.Indexes row.Marshal hwf.1 hwf.2
  | @update b b' rows row id current _ hm hwf hag hok ih =>
    cases current with
    | some c =>
      rw [UpdateRow_ok hok]
      refine Consistent.updateT hm c row.Marshal b ih hwf.1 ?_
      intro kv hkv
      exact Or.inr (hag c rfl kv.1 (List.mem_map_of_mem Prod.fst hkv))
    | none =>
      rw [UpdateRow_none_ok hok]
      refine Consistent.updateT hm _ row.Marshal b ih hwf.1 ?_
      intro kv hkv
      rcases foldlM_putValue_schema row.Marshal b b' hok kv hkv with hs | he
      · right; rw [lookupRow_get, if_pos hs]
      · exact Or.inl he

/-- C1. Index consistency (I1): in every table built from the empty table of `EnsureTable`
by `AppendRow` and `UpdateRow` calls, for every row id and every indexed column whose cell
is non-null, the index bucket of the column holds the entry `cell_value ++ id`, and every
entry of that bucket whose last 8 bytes are the id is that entry. -/
theorem index_consistency (b : Table) (rows : Rows) (h : Trace b rows) (id : Bytes)
    (ix : Col → Option Idx) (hrow : (id, ix) ∈ rows) (k : Col) (i : Idx) (v : Bytes)
    (hindexed : ix k = some i) (hcell : b.cell k id = some v) :
    v ++ id ∈ b.index i ∧ ∀ e ∈ b.index i, idOf e = id → e = v ++ id := by
  have hc := h.consistent
  refine ⟨hc.complete id ix hrow k i v hindexed hcell, ?_⟩
  intro e he hid
  obtain ⟨id', ix', k', v', hm', hix', hcell', rfl⟩ := hc.sound i e he
  rw [idOf_append v' id' (hc.length_id hm')] at hid
  subst hid
  have hixeq : ix' = ix := hc.kinds _ _ _ hm' hrow
  subst hixeq
  have hk : k' = k := hc.inj _ _ hm' k' k i hix' hindexed
  subst hk
  rw [hcell] at hcell'
  rw [Option.some.inj hcell']

theorem sourceObjectIndexes_inj (k k' : Col) (i : Idx) (h : sourceObjectIndexes k = some i)
    (h' : sourceObjectIndexes k' = some i) : k = k' := by
  cases k <;> cases k' <;> simp [sourceObjectIndexes] at h h' ⊢ <;> (subst h; cases h')

theorem destinationObjectIndexes_inj (k k' : Col) (i : Idx)
    (h : destinationObjectIndexes k = some i) (h' : destinationObjectIndexes k' = some i) :
    k = k' := by
  cases k <;> cases k' <;> simp [destinationObjectIndexes] at h h' ⊢ <;> (subst h; cases h')

theorem traceTable_trace : Trace traceTable [(Table.empty.nextID, sourceObjectIndexes)] := by
  have h1 : Trace (appendT Table.empty.bump sourceObjectIndexes Table.empty.nextID
      traceRowNew.Marshal) [(Table.empty.nextID, sourceObjectIndexes)] :=
    @Trace.append _ _ _ traceRowNew _ Trace.empty (by decide)
      ⟨by decide, sourceObjectIndexes_inj⟩
      (AppendRow_of_schema _ traceRowNew (by decide))
  refine @Trace.update _ _ _ traceRowInSync _ (some traceRowNew.Marshal) h1
    (List.mem_cons_self _ _) ⟨by decide, sourceObjectIndexes_inj⟩ ?_
    (UpdateRow_of_schema _ _ traceRowInSync _ (by decide))
  intro c hc k hk
  cases hc
  simp only [traceRowInSync, Values.keys, List.map_cons, List.map_nil, List.mem_cons,
    List.mem_singleton, List.not_mem_nil, or_false] at hk
  rcases hk with rfl | rfl | rfl | rfl <;> rfl

/-- C1 at a concrete trace: one source row appended in state NEW and updated to IN_SYNC. -/
theorem index_consistency_witness :
    Uint16tol StateInSync ++ Table.empty.nextID ∈ traceTable.index .idx_source_state ∧
      ∀ e ∈ traceTable.index .idx_source_state, idOf e = Table.empty.nextID →
        e = Uint16tol StateInSync ++ Table.empty.nextID :=
  index_consistency traceTable [(Table.empty.nextID, sourceObjectIndexes)] traceTable_trace
    Table.empty.nextID sourceObjectIndexes (List.mem_cons_self _ _) .state .idx_source_state
    (Uint16tol StateInSync) rfl rfl

/-! ### `LookupID` matches by prefix -/

/-- C2 (the code at the failing input). The store holds one source row, with key `ab` and
id 1; no row has the key `a`, and yet `LookupID` with a `SourceObject` of key `a` returns
id 1 instead of none. -/
theorem LookupID_returns_row_of_longer_key :
    (storeWithAB.map fun t => (t.cols .key, t.cols .is_source_object)) =
        some ([(PutUint64 1, [97, 98])], [(PutUint64 1, [1])]) ∧
      candidateA.PK = .ok (.idx_source_key, [97]) ∧
      (storeWithAB.map fun t => LookupID t (.idx_source_key, [97])) =
        some (.ok (some (PutUint64 1))) := by
  refine ⟨rfl, rfl, rfl⟩

set_option maxRecDepth 8192 in
/-- C4 (the code at the failing input). The table `tableANul` holds the NEW source rows 1,
with key `a` and etag `x`, and 2, with key `a` followed by a zero byte and etag `y`. Loading
an inventory object with the key `a` of row 1 and another etag `z` succeeds and leaves every
cell and the state entry of row 1 as they were: its etag is still `x` and its state NEW.
`LookupID` returns the row 2, whose key entry comes first among those that start with `a`,
and it is row 2 that gets the etag `z`, the key `a` and the state DIRTY. -/
theorem load_inventory_dirties_row_of_longer_key :
    tableANul.cols .key = [(PutUint64 1, [97]), (PutUint64 2, [97, 0])] ∧
      tableANul.cols .etag = [(PutUint64 1, [120]), (PutUint64 2, [121])] ∧
      tableANul.cols .state =
        [(PutUint64 1, Uint16tol StateNew), (PutUint64 2, Uint16tol StateNew)] ∧
      LookupID tableANul (.idx_source_key, [97]) = .ok (some (PutUint64 2)) ∧
      (exampleLoad.Invoke [objectAChanged] (some tableANul)).2 = none ∧
      tableANulReloaded.cols .key = [(PutUint64 1, [97]), (PutUint64 2, [97])] ∧
      tableANulReloaded.cols .etag = [(PutUint64 1, [120]), (PutUint64 2, [122])] ∧
      tableANulReloaded.cols .state =
        [(PutUint64 1, Uint16tol StateNew), (PutUint64 2, Uint16tol StateDirty)] ∧
      tableANulReloaded.index .idx_source_state =
        [Uint16tol StateNew ++ PutUint64 1, Uint16tol StateDirty ++ PutUint64 2] :=
  ⟨rfl, rfl, rfl, rfl, rfl, rfl, rfl, rfl, rfl⟩

/-- C3 (the code at the failing input). Loading the inventory of the two distinct keys `ab`
and `a` into the empty example set succeeds and leaves one source row only: its key is `a`
and its state is DIRTY. -/
theorem load_inventory_merges_distinct_keys :
    (exampleLoad.Invoke inventoryABthenA exampleEmptySet).2 = none ∧
      ((exampleLoad.Invoke inventoryABthenA exampleEmptySet).1.map fun t =>
        (t.cols .is_source_object, t.cols .key, t.cols .etag, t.cols .state)) =
        some ([(PutUint64 1, [1])], [(PutUint64 1, [97])], [(PutUint64 1, [121])],
          [(PutUint64 1, Uint16tol StateDirty)]) := by
  refine ⟨rfl, rfl⟩

/-! ### Marshalling -/

theorem SourceObject.Marshal_eq (s : SourceObject) :
    s.Marshal = s.keyCell.map s.values := by
  unfold SourceObject.Marshal SourceObject.keyCell SourceObject.PK
  cases hk : s.Key with
  | none => simp [SourceObject.values, Object.Marshal, Values.set, hk, Except.map]
  | some key =>
    simp only [StringValue, Option.getD_some]
    cases hsl : sliceFrom key s.Parent.Prefix.length with
    | error e => simp [Except.map]
    | ok kc => simp [SourceObject.values, Object.Marshal, Values.set, hk, Except.map]

theorem DestinationObject.destMarshal_eq (d : DestinationObject) :
    d.Marshal = d.keyCell.map d.values := by
  unfold DestinationObject.Marshal DestinationObject.keyCell DestinationObject.PK
  cases hk : d.Key with
  | none => simp [DestinationObject.values, Object.Marshal, Values.set, hk, Except.map]
  | some key =>
    simp only [StringValue, Option.getD_some]
    cases hsl : sliceFrom key d.Parent.DestinationPath.length with
    | error e => simp [Except.map]
    | ok kc => simp [DestinationObject.values, Object.Marshal, Values.set, hk, Except.map]

theorem sliceFrom_append (p v : Bytes) : sliceFrom (p ++ v) p.length = .ok v := by
  simp [sliceFrom]

theorem toUint64_lt (v : Int) : toUint64 v < 2 ^ 64 := by
  unfold toUint64
  have h1 : 0 ≤ v % 2 ^ 64 := Int.emod_nonneg _ (by norm_num)
  have h2 : v % 2 ^ 64 < 2 ^ 64 := Int.emod_lt_of_pos _ (by norm_num)
  omega

theorem toUint64_toInt64 (u : Nat) (h : u < 2 ^ 64) : toUint64 (toInt64 u) = u := by
  unfold toUint64 toInt64
  rw [Nat.mod_eq_of_lt h]
  split <;> omega

theorem Ltoi_Itol (v : Int) : Ltoi (Itol v) = .ok (toInt64 (toUint64 v)) := by
  unfold Ltoi Itol
  rw [Uint64_PutUint64 _ (toUint64_lt v)]
  rfl

theorem Itol_wrap (v : Int) : Itol (toInt64 (toUint64 v)) = Itol v := by
  unfold Itol
  rw [toUint64_toInt64 _ (toUint64_lt v)]

theorem Ltouint16_Uint16tol (s : Nat) : Ltouint16 (Uint16tol s) = .ok (s % 2 ^ 16) := by
  simp only [Uint16tol, Ltouint16, Except.ok.injEq]
  omega

theorem Uint16tol_mod (s : Nat) : Uint16tol (s % 2 ^ 16) = Uint16tol s := by
  simp only [Uint16tol, List.cons.injEq, and_true]
  omega

/-! ### Unmarshalling -/

theorem Object.Unmarshal_fields {o c : Object} {values : Values} (h : o.Unmarshal values = .ok c) :
    c.Parent = o.Parent ∧ c.ETag = values.get .etag ∧ c.Key = values.get .key ∧
      c.StorageClass = values.get .storage_class ∧
      (match values.get .last_modified with
        | some v => ∃ n, Ltoi v = .ok n ∧ c.LastModified = some n
        | none => c.LastModified = none) ∧
      c.Owner = (if (values.get .owner_id).isSome || (values.get .owner_display_name).isSome
        then some { ID := values.get .owner_id, DisplayName := values.get .owner_display_name }
        else none) ∧
      (match values.get .size with
        | some v => ∃ n, Ltoi v = .ok n ∧ c.Size = some n
        | none => c.Size = none) ∧
      (match values.get .state with
        | some v => Ltouint16 v = .ok c.State
        | none => c.State = StateUnknown) := by
  unfold Object.Unmarshal at h
  cases hlm : values.get .last_modified with
  | none =>
    cases hsz : values.get .size with
    | none =>
      cases hst : values.get .state with
      | none =>
        simp only [hlm, hsz, hst] at h
        cases h; simp [*]
      | some v =>
        simp only [hlm, hsz, hst] at h
        cases hv : Ltouint16 v with
        | error e => simp [hv] at h
        | ok n => simp only [hv] at h; cases h; simp [*]
    | some w =>
      simp only [hlm, hsz] at h
      cases hw : Ltoi w with
      | error e => simp [hw, Except.map] at h
      | ok m =>
        simp only [hw, Except.map] at h
        cases hst : values.get .state with
        | none => simp only [hst] at h; cases h; simp [*]
        | some v =>
          simp only [hst] at h
          cases hv : Ltouint16 v with
          | error e => simp [hv] at h
          | ok n => simp only [hv] at h; cases h; simp [*]
  | some u =>
    simp only [hlm] at h
    cases hu : Ltoi u with
    | error e => simp [hu, Except.map] at h
    | ok l =>
      simp only [hu, Except.map] at h
      cases hsz : values.get .size with
      | none =>
        cases hst : values.get .state with
        | none =>
          simp only [hsz, hst] at h
          cases h; simp [*]
        | some v =>
          simp only [hsz, hst] at h
          cases hv : Ltouint16 v with
          | error e => simp [hv] at h
          | ok n => simp only [hv] at h; cases h; simp [*]
      | some w =>
        simp only [hsz] at h
        cases hw : Ltoi w with
        | error e => simp [hw] at h
        | ok m =>
          simp only [hw] at h
          cases hst : values.get .state with
          | none => simp only [hst] at h; cases h; simp [*]
          | some v =>
            simp only [hst] at h
            cases hv : Ltouint16 v with
            | error e => simp [hv] at h
            | ok n => simp only [hv] at h; cases h; simp [*]

theorem bytesEqual_valueTrue {v : Option Bytes}
    (h : (bytesEqual v (some valueTrue) && v.isSome) = true) : v = some valueTrue := by
  cases v with
  | none => simp at h
  | some w => simpa [bytesEqual] using h

theorem SourceObject.Unmarshal_ok {s c : SourceObject} {values : Values}
    (h : s.Unmarshal values = .ok c) :
    (∃ o, s.toObject.Unmarshal values = .ok o ∧
      c.toObject = { o with Key := (values.get .key).map fun v => s.Parent.Prefix ++ v }) ∧
      c.DestinationObjectID = (if values.has .destination_object
        then values.get .destination_object else s.DestinationObjectID) ∧
      values.get .is_source_object = some valueTrue := by
  unfold SourceObject.Unmarshal at h
  cases ho : s.toObject.Unmarshal values with
  | error e => simp [ho] at h
  | ok o =>
    simp only [ho] at h
    split at h
    · rename_i hm
      cases h
      exact ⟨⟨o, rfl, rfl⟩, rfl, bytesEqual_valueTrue hm⟩
    · cases h

theorem DestinationObject.destUnmarshal_ok {d c : DestinationObject} {values : Values}
    (h : d.Unmarshal values = .ok c) :
    (∃ o, d.toObject.Unmarshal values = .ok o ∧
      c.toObject =
        { o with Key := (values.get .key).map fun v => d.Parent.DestinationPath ++ v }) ∧
      values.get .is_destination_object = some valueTrue := by
  unfold DestinationObject.Unmarshal at h
  cases ho : d.toObject.Unmarshal values with
  | error e => simp [ho] at h
  | ok o =>
    simp only [ho] at h
    split at h
    · rename_i hm
      cases h
      exact ⟨⟨o, rfl, rfl⟩, bytesEqual_valueTrue hm⟩
    · cases h

/-- The key cell of an unmarshalled source object is the key it was given. -/
theorem SourceObject.keyCell_of_Unmarshal {s c : SourceObject} {values : Values}
    (h : s.Unmarshal values = .ok c) : c.keyCell = .ok (values.get .key) := by
  obtain ⟨⟨o, ho, hc⟩, _, _⟩ := SourceObject.Unmarshal_ok h
  have hp : c.Parent = s.Parent := by
    have := (Object.Unmarshal_fields ho).1
    rw [show c.Parent = c.toObject.Parent from rfl, hc]; exact this
  have hk : c.Key = (values.get .key).map fun v => s.Parent.Prefix ++ v := by
    rw [show c.Key = c.toObject.Key from rfl, hc]
  unfold SourceObject.keyCell
  rw [hk, hp]
  cases values.get .key with
  | none => rfl
  | some v => simp [sliceFrom_append, Except.map]

theorem DestinationObject.destKeyCell_of_Unmarshal {d c : DestinationObject} {values : Values}
    (h : d.Unmarshal values = .ok c) : c.keyCell = .ok (values.get .key) := by
  obtain ⟨⟨o, ho, hc⟩, _⟩ := DestinationObject.destUnmarshal_ok h
  have hp : c.Parent = d.Parent := by
    have := (Object.Unmarshal_fields ho).1
    rw [show c.Parent = c.toObject.Parent from rfl, hc]; exact this
  have hk : c.Key = (values.get .key).map fun v => d.Parent.DestinationPath ++ v := by
    rw [show c.Key = c.toObject.Key from rfl, hc]
  unfold DestinationObject.keyCell
  rw [hk, hp]
  cases values.get .key with
  | none => rfl
  | some v => simp [sliceFrom_append, Except.map]

/-! ### `Copy` -/

theorem Except.map_ok_iff {α β : Type} {f : α → β} {x : Except Err α} {y : β}
    (h : x.map f = .ok y) : ∃ a, x = .ok a ∧ f a = y := by
  cases x with
  | error e => cases h
  | ok a => exact ⟨a, rfl, Except.ok.inj h⟩

theorem SourceObject.Unmarshal_values_eq (s : SourceObject) (kc : Option Bytes) :
    (NewSourceObject s.Parent).Unmarshal (s.values kc) = .ok
      { Parent := s.Parent
        ETag := s.ETag
        Key := kc.map fun v => s.Parent.Prefix ++ v
        StorageClass := s.StorageClass
        LastModified := s.LastModified.map fun x => toInt64 (toUint64 x)
        Owner := if (s.Owner.bind (·.ID)).isSome || (s.Owner.bind (·.DisplayName)).isSome then
            some { ID := s.Owner.bind (·.ID), DisplayName := s.Owner.bind (·.DisplayName) }
          else none
        Size := s.Size.map fun x => toInt64 (toUint64 x)
        State := s.State % 2 ^ 16
        DestinationObjectID := s.DestinationObjectID } := by
  obtain ⟨⟨⟨etag, key, lm, owner, size, sc⟩, parent, state⟩, dest⟩ := s
  cases lm <;> cases size <;>
    simp [SourceObject.Unmarshal, Object.Unmarshal, SourceObject.values, Values.get, Values.has,
      Ltoi_Itol, Ltouint16_Uint16tol, Except.map, NewSourceObject, bytesEqual]

/-- Unmarshalling what a source object marshals succeeds, and the result marshals to the
same map. -/
theorem SourceObject.Unmarshal_values (s : SourceObject) (kc : Option Bytes) :
    ∃ c, (NewSourceObject s.Parent).Unmarshal (s.values kc) = .ok c ∧ c.Parent = s.Parent ∧
      c.keyCell = .ok kc ∧ c.values kc = s.values kc ∧
      c.DestinationObjectID = s.DestinationObjectID ∧ c.State = s.State % 2 ^ 16 ∧
      c.Size = s.Size.map fun x => toInt64 (toUint64 x) := by
  refine ⟨_, SourceObject.Unmarshal_values_eq s kc, rfl, ?_, ?_, rfl, rfl, rfl⟩
  · simp only [SourceObject.keyCell]
    cases kc with
    | none => rfl
    | some v => simp [sliceFrom_append, Except.map]
  · simp only [SourceObject.values, Uint16tol_mod, Option.map_map]
    have h1 : ∀ o : Option Int, Option.map (Itol ∘ fun x => toInt64 (toUint64 x)) o =
        Option.map Itol o := by
      intro o; cases o <;> simp [Itol_wrap]
    rw [h1, h1]
    cases hO : s.Owner with
    | none => simp
    | some ow =>
      obtain ⟨dn, oid⟩ := ow
      cases dn <;> cases oid <;> simp

/-- The method `Copy` of a source object succeeds when its key cell is defined, and the
copy marshals to the same map. -/
theorem SourceObject.Copy_values {s : SourceObject} {kc : Option Bytes}
    (h : s.keyCell = .ok kc) :
    ∃ c, s.Copy = .ok c ∧ c.Parent = s.Parent ∧ c.keyCell = .ok kc ∧
      c.values kc = s.values kc ∧ c.DestinationObjectID = s.DestinationObjectID ∧
      c.State = s.State % 2 ^ 16 ∧ c.Size = s.Size.map fun x => toInt64 (toUint64 x) := by
  unfold SourceObject.Copy
  rw [SourceObject.Marshal_eq, h]
  exact SourceObject.Unmarshal_values s kc

theorem DestinationObject.destUnmarshal_values_eq (d : DestinationObject) (kc : Option Bytes) :
    (NewDestinationObject d.Parent).Unmarshal (d.values kc) = .ok
      { Parent := d.Parent
        ETag := d.ETag
        Key := kc.map fun v => d.Parent.DestinationPath ++ v
        StorageClass := d.StorageClass
        LastModified := d.LastModified.map fun x => toInt64 (toUint64 x)
        Owner := if (d.Owner.bind (·.ID)).isSome || (d.Owner.bind (·.DisplayName)).isSome then
            some { ID := d.Owner.bind (·.ID), DisplayName := d.Owner.bind (·.DisplayName) }
          else none
        Size := d.Size.map fun x => toInt64 (toUint64 x)
        State := d.State % 2 ^ 16 } := by
  obtain ⟨⟨⟨etag, key, lm, owner, size, sc⟩, parent, state⟩⟩ := d
  cases lm <;> cases size <;>
    simp [DestinationObject.Unmarshal, Object.Unmarshal, DestinationObject.values, Values.get,
      Ltoi_Itol, Ltouint16_Uint16tol, Except.map, NewDestinationObject, bytesEqual]

/-- The method `Copy` of a destination object succeeds when its key cell is defined, and
the copy marshals to the same map. -/
theorem DestinationObject.destCopy_values {d : DestinationObject} {kc : Option Bytes}
    (h : d.keyCell = .ok kc) :
    ∃ c, d.Copy = .ok c ∧ c.Parent = d.Parent ∧ c.keyCell = .ok kc ∧
      c.values kc = d.values kc ∧ c.State = d.State % 2 ^ 16 := by
  unfold DestinationObject.Copy
  rw [DestinationObject.destMarshal_eq, h]
  refine ⟨_, DestinationObject.destUnmarshal_values_eq d kc, rfl, ?_, ?_, rfl⟩
  · simp only [DestinationObject.keyCell]
    cases kc with
    | none => rfl
    | some v => simp [sliceFrom_append, Except.map]
  · simp only [DestinationObject.values, Uint16tol_mod, Option.map_map]
    have h1 : ∀ o : Option Int, Option.map (Itol ∘ fun x => toInt64 (toUint64 x)) o =
        Option.map Itol o := by
      intro o; cases o <;> simp [Itol_wrap]
    rw [h1, h1]
    cases hO : d.Owner with
    | none => simp
    | some ow =>
      obtain ⟨dn, oid⟩ := ow
      cases dn <;> cases oid <;> simp

/-! ### Rows of source and destination objects -/

theorem SourceObject.values_keys (s : SourceObject) (kc : Option Bytes) :
    Values.keys (s.values kc) =
      [.etag, .key, .storage_class, .last_modified, .owner_id, .owner_display_name, .size,
       .state, .destination_object, .is_source_object] := rfl

theorem DestinationObject.destValues_keys (d : DestinationObject) (kc : Option Bytes) :
    Values.keys (d.values kc) =
      [.etag, .key, .storage_class, .last_modified, .owner_id, .owner_display_name, .size,
       .state, .is_destination_object] := rfl

theorem SourceObject.values_schema (s : SourceObject) (kc : Option Bytes) :
    ∀ kv ∈ s.values kc, sourceObjectSchema kv.1 = true := by
  intro kv hkv
  have : kv.1 ∈ Values.keys (s.values kc) := List.mem_map_of_mem Prod.fst hkv
  rw [SourceObject.values_keys] at this
  simp only [List.mem_cons, List.mem_singleton, List.not_mem_nil, or_false] at this
  rcases this with h | h | h | h | h | h | h | h | h | h <;> rw [h] <;> rfl

theorem DestinationObject.destValues_schema (d : DestinationObject) (kc : Option Bytes) :
    ∀ kv ∈ d.values kc, destinationObjectSchema kv.1 = true := by
  intro kv hkv
  have : kv.1 ∈ Values.keys (d.values kc) := List.mem_map_of_mem Prod.fst hkv
  rw [DestinationObject.destValues_keys] at this
  simp only [List.mem_cons, List.mem_singleton, List.not_mem_nil, or_false] at this
  rcases this with h | h | h | h | h | h | h | h | h <;> rw [h] <;> rfl

theorem SourceObject.values_nodup (s : SourceObject) (kc : Option Bytes) :
    (Values.keys (s.values kc)).Nodup := by
  rw [SourceObject.values_keys]; decide

theorem DestinationObject.destValues_nodup (d : DestinationObject) (kc : Option Bytes) :
    (Values.keys (d.values kc)).Nodup := by
  rw [DestinationObject.destValues_keys]; decide

theorem SourceObject.Row_eq (s : SourceObject) :
    s.Row = s.keyCell.map fun kc => sourceRow (s.values kc) := by
  unfold SourceObject.Row
  rw [SourceObject.Marshal_eq]
  cases s.keyCell <;> rfl

theorem DestinationObject.destRow_eq (d : DestinationObject) :
    d.Row = d.keyCell.map fun kc => destinationRow (d.values kc) := by
  unfold DestinationObject.Row
  rw [DestinationObject.destMarshal_eq]
  cases d.keyCell <;> rfl

/-- `UpdateRow` of a source row with the marshalled map `values` against `curr`. -/
theorem UpdateRow_source (b : Table) (id : Bytes) (s : SourceObject) (kc : Option Bytes)
    (curr : Values) :
    UpdateRow b id (sourceRow (s.values kc)) (some curr) =
      .ok (updateT b sourceObjectIndexes id (s.values kc) curr) :=
  UpdateRow_of_schema b id _ curr (SourceObject.values_schema s kc)

/-- `UpdateRow` of a destination row with the marshalled map `values` against `curr`. -/
theorem UpdateRow_destination (b : Table) (id : Bytes) (d : DestinationObject)
    (kc : Option Bytes) (curr : Values) :
    UpdateRow b id (destinationRow (d.values kc)) (some curr) =
      .ok (updateT b destinationObjectIndexes id (d.values kc) curr) :=
  UpdateRow_of_schema b id _ curr (DestinationObject.destValues_schema d kc)

/-! ### load-inventory on an existing row -/

theorem bytesEqual_eq_false {a b : Option Bytes} (h : a.getD [] ≠ b.getD []) :
    bytesEqual a b = false := by
  simp [bytesEqual, h]

theorem bytesEqual_some {a b : Bytes} : bytesEqual (some a) (some b) = decide (a = b) := rfl

/-- The row that `LookupID` returns for an inventory object. Let `LookupID` resolve the key of
the inventory object to the source row
`id`, read as `current`, whose state cell and state index entry are consistent. If the etags
are equal, `flushStep` leaves the table as it is. If they differ, afterwards the etag cell of
the row holds the inventory etag, its state cell is DIRTY, `idx_source_state` holds
`DIRTY ++ id` and, unless the old state was DIRTY, no longer holds `old_state ++ id`. -/
theorem flushStep_existing_row (objectSet : ObjectSet) (b : Table) (i : S3Object)
    (pk : Idx × Bytes) (id : Bytes) (current : SourceObject)
    (hpk : (candidate objectSet i).PK = .ok pk)
    (hid : LookupID b pk = .ok (some id))
    (hrow : LookupSourceRow b id objectSet = .ok current)
    (hstate : b.cell .state id = some (Uint16tol current.State))
    (hidx : Uint16tol current.State ++ id ∈ b.index .idx_source_state) :
    (StringValue i.ETag = StringValue current.ETag → flushStep objectSet b i = .ok b) ∧
    (StringValue i.ETag ≠ StringValue current.ETag →
      ∃ b', flushStep objectSet b i = .ok b' ∧
        b'.cell .etag id = i.ETag ∧
        b'.cell .state id = some (Uint16tol StateDirty) ∧
        Uint16tol StateDirty ++ id ∈ b'.index .idx_source_state ∧
        (Uint16tol current.State ≠ Uint16tol StateDirty →
          Uint16tol current.State ++ id ∉ b'.index .idx_source_state)) := by
  have hpk' : SourceObject.PK { NewSourceObject objectSet with toS3Object := i } = .ok pk := hpk
  have hrow' : LookupSourceRow b id
      ({ NewSourceObject objectSet with toS3Object := i } : SourceObject).Parent = .ok current :=
    hrow
  constructor
  · intro heq
    unfold flushStep
    simp only [hpk', hid, hrow', Object.IsDirty]
    rw [if_pos heq]
    simp
  · intro hne
    have hkc0 : current.keyCell = .ok ((lookupRow b id sourceObjectSchema).get .key) :=
      SourceObject.keyCell_of_Unmarshal hrow
    obtain ⟨kc1, hkc1⟩ : ∃ kc1, (dirtyCandidate objectSet i).keyCell = .ok kc1 := by
      unfold SourceObject.keyCell
      unfold SourceObject.PK at hpk
      cases hk : i.Key with
      | none => exact ⟨none, by simp [dirtyCandidate, candidate, hk]⟩
      | some key =>
        simp only [candidate, dirtyCandidate, hk, StringValue, Option.getD_some,
          NewSourceObject] at hpk ⊢
        obtain ⟨a, ha, _⟩ := Except.map_ok_iff hpk
        exact ⟨some a, by rw [ha]; rfl⟩
    have hgs : (current.values ((lookupRow b id sourceObjectSchema).get .key)).get .state =
        some (Uint16tol current.State) := by simp [SourceObject.values, Values.get]
    have hflush : flushStep objectSet b i = .ok (updateT b sourceObjectIndexes id
        ((dirtyCandidate objectSet i).values kc1)
        (current.values ((lookupRow b id sourceObjectSchema).get .key))) := by
      unfold flushStep
      simp only [hpk', hid, hrow', Object.IsDirty]
      rw [if_neg hne]
      simp only [if_true]
      have hrowd : SourceObject.Row (dirtyCandidate objectSet i) =
          .ok (sourceRow ((dirtyCandidate objectSet i).values kc1)) := by
        rw [SourceObject.Row_eq, hkc1]; rfl
      have hd : SourceObject.Row (dirtyCandidate objectSet i) = SourceObject.Row
          { toObject := { ({ NewSourceObject objectSet with toS3Object := i } :
              SourceObject).toObject with State := StateDirty }
            DestinationObjectID :=
              ({ NewSourceObject objectSet with toS3Object := i } :
                SourceObject).DestinationObjectID } := rfl
      rw [← hd, hrowd]
      simp only []
      rw [SourceObject.Marshal_eq, hkc0]
      exact UpdateRow_source b id _ kc1 _
    refine ⟨_, hflush, ?_, ?_, ?_⟩
    · rw [cell_updateT sourceObjectIndexes id _ .etag i.ETag _ b
        (SourceObject.values_nodup _ _)
        (by simp [SourceObject.values, dirtyCandidate, candidate])]
      have : bytesEqual i.ETag
          ((current.values ((lookupRow b id sourceObjectSchema).get .key)).get .etag) = false := by
        apply bytesEqual_eq_false
        simpa [SourceObject.values, Values.get, StringValue] using hne
      rw [this]; rfl
    · rw [cell_updateT sourceObjectIndexes id _ .state (some (Uint16tol StateDirty)) _ b
        (SourceObject.values_nodup _ _)
        (by simp [SourceObject.values, dirtyCandidate, candidate])]
      rw [hgs, bytesEqual_some]
      by_cases hs : Uint16tol StateDirty = Uint16tol current.State
      · simp only [hs, decide_True, if_true]; exact hstate
      · simp [hs]
    · have hmem : ∀ e, e ∈ (updateT b sourceObjectIndexes id
          ((dirtyCandidate objectSet i).values kc1)
          (current.values ((lookupRow b id sourceObjectSchema).get .key))).index
            .idx_source_state ↔
          if bytesEqual (some (Uint16tol StateDirty)) (some (Uint16tol current.State)) then
            e ∈ b.index .idx_source_state
          else (∃ w, some (Uint16tol StateDirty) = some w ∧ e = w ++ id) ∨
            (e ≠ Uint16tol current.State ++ id ∧ e ∈ b.index .idx_source_state) := by
        intro e
        have := mem_index_updateT sourceObjectIndexes id
          (current.values ((lookupRow b id sourceObjectSchema).get .key)) .state
          (some (Uint16tol StateDirty)) .idx_source_state e rfl _ b
          (SourceObject.values_nodup (dirtyCandidate objectSet i) kc1)
          (by simp [SourceObject.values, dirtyCandidate, candidate])
          (fun k' _ hk' => sourceObjectIndexes_inj k' .state _ hk' rfl)
        rw [hgs] at this
        exact this
      rw [bytesEqual_some] at hmem
      by_cases hs : Uint16tol StateDirty = Uint16tol current.State
      · simp only [hs, decide_True, if_true] at hmem
        refine ⟨(hmem _).mpr (hs ▸ hidx), fun h => absurd hs.symm h⟩
      · simp only [hs, decide_False, Bool.false_eq_true, if_false] at hmem
        refine ⟨(hmem _).mpr (Or.inl ⟨_, rfl, rfl⟩), fun _ hin => ?_⟩
        rcases (hmem _).mp hin with ⟨w, hw, happ⟩ | ⟨hne', _⟩
        · have := List.append_cancel_right happ
          exact hs (by rw [Option.some.inj hw, ← this])
        · exact hne' rfl

/-- The update of the row that `LookupID` returns, at a concrete input: the row with key `ab`
of `tableWithAB` and an inventory object with the same key and another etag. -/
theorem flushStep_existing_row_witness :
    (StringValue objectABChanged.ETag = StringValue rowAB.ETag →
        flushStep exampleSet tableWithAB objectABChanged = .ok tableWithAB) ∧
    (StringValue objectABChanged.ETag ≠ StringValue rowAB.ETag →
      ∃ b', flushStep exampleSet tableWithAB objectABChanged = .ok b' ∧
        b'.cell .etag (PutUint64 1) = objectABChanged.ETag ∧
        b'.cell .state (PutUint64 1) = some (Uint16tol StateDirty) ∧
        Uint16tol StateDirty ++ PutUint64 1 ∈ b'.index .idx_source_state ∧
        (Uint16tol rowAB.State ≠ Uint16tol StateDirty →
          Uint16tol rowAB.State ++ PutUint64 1 ∉ b'.index .idx_source_state)) :=
  flushStep_existing_row exampleSet tableWithAB objectABChanged (.idx_source_key, [97, 98])
    (PutUint64 1) rowAB rfl rfl rfl rfl (by decide)

/-- A row that is already DIRTY keeps its state entry: the third inventory changes the
etag of the DIRTY row of `storeDirtyOnce`, and afterwards `idx_source_state` still holds the
entry `old_state ++ id`, which is `DIRTY ++ id`. -/
theorem dirty_row_keeps_old_state_entry :
    (storeDirtyOnce.map fun t => (t.cell .state (PutUint64 1), t.cell .etag (PutUint64 1))) =
        some (some (Uint16tol StateDirty), some [121]) ∧
      (storeDirtyTwice.map fun t => (t.cell .etag (PutUint64 1), t.index .idx_source_state)) =
        some (some [122], [Uint16tol StateDirty ++ PutUint64 1]) := by
  refine ⟨rfl, rfl⟩

/-! ### Referential integrity is an invariant -/

theorem RefInv.of_frame {b b' : Table} (h : RefInv b)
    (hmark : ∀ d, b.isDestination d → b'.isDestination d)
    (hdest : ∀ x d, b'.cell .destination_object x = some d →
      b.cell .destination_object x = some d ∨ d = [] ∨ b'.isDestination d) : RefInv b' := by
  intro id d hc hne
  rcases hdest id d hc with h1 | h1 | h1
  · exact hmark d (h id d h1 hne)
  · exact absurd h1 hne
  · exact h1

theorem SourceObject.values_get_dest (s : SourceObject) (kc : Option Bytes) :
    (s.values kc).get .destination_object = s.DestinationObjectID := by
  simp [SourceObject.values, Values.get]

theorem SourceObject.values_get_state (s : SourceObject) (kc : Option Bytes) :
    (s.values kc).get .state = some (Uint16tol s.State) := by
  simp [SourceObject.values, Values.get]

theorem SourceObject.mem_values_dest (s : SourceObject) (kc : Option Bytes) :
    (Col.destination_object, s.DestinationObjectID) ∈ s.values kc := by
  simp [SourceObject.values]

theorem SourceObject.mem_values_state (s : SourceObject) (kc : Option Bytes) :
    (Col.state, some (Uint16tol s.State)) ∈ s.values kc := by
  simp [SourceObject.values]

/-- Updating a source row keeps the invariant when the destination it marshals is nil,
carries the destination marker, or is the destination already stored. -/
theorem RefInv.updateT_source {b : Table} (h : RefInv b) (id : Bytes) (s : SourceObject)
    (kc : Option Bytes) (curr : Values)
    (hd : ∀ d, s.DestinationObjectID = some d →
      b.isDestination d ∨ b.cell .destination_object id = some d) :
    RefInv (updateT b sourceObjectIndexes id (s.values kc) curr) := by
  have hmark : ∀ d, (updateT b sourceObjectIndexes id (s.values kc) curr).isDestination d ↔
      b.isDestination d := by
    intro d
    unfold Table.isDestination
    rw [cell_updateT_of_not_mem _ _ _ _ _ _ _ (by rw [SourceObject.values_keys]; decide)]
  refine h.of_frame (fun d hm => (hmark d).mpr hm) ?_
  intro x d hc
  by_cases hx : x = id
  · subst hx
    rw [cell_updateT sourceObjectIndexes x curr .destination_object s.DestinationObjectID _ b
      (SourceObject.values_nodup s kc) (SourceObject.mem_values_dest s kc)] at hc
    split at hc
    · exact Or.inl hc
    · rcases hd d hc with h1 | h1
      · exact Or.inr (Or.inr ((hmark d).mpr h1))
      · exact Or.inl h1
  · rw [cell_updateT_of_ne _ _ _ _ _ hx] at hc
    exact Or.inl hc

theorem DestinationObject.mem_values_marker (d : DestinationObject) (kc : Option Bytes) :
    (Col.is_destination_object, some valueTrue) ∈ d.values kc := by
  simp [DestinationObject.values]

/-- Updating a destination row keeps the invariant. -/
theorem RefInv.updateT_destination {b : Table} (h : RefInv b) (id : Bytes)
    (d : DestinationObject) (kc : Option Bytes) (curr : Values) :
    RefInv (updateT b destinationObjectIndexes id (d.values kc) curr) := by
  refine h.of_frame ?_ ?_
  · intro x hm
    unfold Table.isDestination at hm ⊢
    by_cases hx : x = id
    · subst hx
      rw [cell_updateT destinationObjectIndexes x curr .is_destination_object (some valueTrue)
        _ b (DestinationObject.destValues_nodup d kc) (DestinationObject.mem_values_marker d kc)]
      split
      · exact hm
      · rfl
    · rw [cell_updateT_of_ne _ _ _ _ _ hx]; exact hm
  · intro x d' hc
    rw [cell_updateT_of_not_mem _ _ _ _ _ _ _
      (by rw [DestinationObject.destValues_keys]; decide)] at hc
    exact Or.inl hc

/-- Appending a source row without destination keeps the invariant. -/
theorem RefInv.appendT_source {b : Table} (h : RefInv b) (s : SourceObject)
    (kc : Option Bytes) (hd : s.DestinationObjectID = none) :
    RefInv (appendT b.bump sourceObjectIndexes b.nextID (s.values kc)) := by
  refine h.of_frame ?_ ?_
  · intro x hm
    unfold Table.isDestination at hm ⊢
    rw [cell_appendT_of_not_mem _ _ _ _ _ _ (by simp [SourceObject.values])]
    exact hm
  · intro x d hc
    rw [cell_appendT_of_not_mem _ _ _ _ _ _ (by simp [SourceObject.values, hd])] at hc
    exact Or.inl hc

/-- Appending a destination row keeps the invariant and marks the new row. -/
theorem RefInv.appendT_destination {b : Table} (h : RefInv b) (d : DestinationObject)
    (kc : Option Bytes) :
    RefInv (appendT b.bump destinationObjectIndexes b.nextID (d.values kc)) ∧
      (appendT b.bump destinationObjectIndexes b.nextID (d.values kc)).isDestination
        b.nextID := by
  have hnew : (appendT b.bump destinationObjectIndexes b.nextID (d.values kc)).isDestination
      b.nextID :=
    cell_appendT _ _ _ _ _ _ (DestinationObject.destValues_nodup d kc)
      (DestinationObject.mem_values_marker d kc)
  refine ⟨h.of_frame ?_ ?_, hnew⟩
  · intro x hm
    by_cases hx : x = b.nextID
    · rw [hx]; exact hnew
    · unfold Table.isDestination at hm ⊢
      rw [cell_appendT_of_ne _ _ _ _ hx]; exact hm
  · intro x d' hc
    rw [cell_appendT_of_not_mem _ _ _ _ _ _ (by simp [DestinationObject.values])] at hc
    exact Or.inl hc

/-! ### The shape of the writes of load-inventory -/

theorem Values.get_of_not_has : ∀ (m : Values) (k : Col), m.has k = false → m.get k = none
  | [], _, _ => rfl
  | (k', v) :: m, k, h => by
    simp only [Values.has] at h
    simp only [Values.get]
    by_cases hk : k' = k
    · simp [hk] at h
    · simp only [hk, if_false] at h ⊢
      exact Values.get_of_not_has m k h

/-- What `LookupRow` reads into a fresh source object. -/
theorem LookupSourceRow_ok {b : Table} {id : Bytes} {p : ObjectSet} {o : SourceObject}
    (h : LookupSourceRow b id p = .ok o) :
    o.keyCell = .ok (b.cell .key id) ∧ o.DestinationObjectID = b.cell .destination_object id ∧
      b.isSource id ∧ o.Parent = p ∧
      (match b.cell .state id with
        | some v => Ltouint16 v = .ok o.State
        | none => o.State = StateUnknown) ∧
      (match b.cell .size id with
        | some v => ∃ n, Ltoi v = .ok n ∧ o.Size = some n
        | none => o.Size = none) := by
  unfold LookupSourceRow at h
  have hk := SourceObject.keyCell_of_Unmarshal h
  obtain ⟨⟨o', ho', hc⟩, hd, hm⟩ := SourceObject.Unmarshal_ok h
  have hf := Object.Unmarshal_fields ho'
  rw [lookupRow_get] at hk hm
  simp only [lookupRow_get] at hf
  have hst : o.State = o'.State := by rw [show o.State = o.toObject.State from rfl, hc]
  have hsz : o.Size = o'.Size := by rw [show o.Size = o.toObject.Size from rfl, hc]
  have hpar : o.Parent = o'.Parent := by rw [show o.Parent = o.toObject.Parent from rfl, hc]
  refine ⟨hk, ?_, hm, ?_, ?_, ?_⟩
  · rw [hd]
    cases hh : (lookupRow b id sourceObjectSchema).has .destination_object
    · have := Values.get_of_not_has _ _ hh
      rw [lookupRow_get] at this
      simp only [Bool.false_eq_true, if_false]
      exact this.symm
    · simp only [if_true]
      rw [lookupRow_get]; rfl
  · rw [hpar, hf.1]; rfl
  · rw [hst]; exact hf.2.2.2.2.2.2.2
  · rw [hsz]; exact hf.2.2.2.2.2.2.1

/-- The three outcomes of a successful `flushStep`: nothing is written (equal etags), the
row that `LookupID` found is updated with the candidate flagged DIRTY, or the candidate is
appended in state NEW. -/
theorem flushStep_shape {objectSet : ObjectSet} {b b' : Table} {i : S3Object}
    (h : flushStep objectSet b i = .ok b') :
    b' = b ∨
    (∃ id current kc kc0, LookupSourceRow b id objectSet = .ok current ∧
      (dirtyCandidate objectSet i).keyCell = .ok kc ∧ current.keyCell = .ok kc0 ∧
      b' = updateT b sourceObjectIndexes id ((dirtyCandidate objectSet i).values kc)
        (current.values kc0)) ∨
    (∃ kc, (newCandidate objectSet i).keyCell = .ok kc ∧
      b' = appendT b.bump sourceObjectIndexes b.nextID
        ((newCandidate objectSet i).values kc)) := by
  unfold flushStep at h
  simp only [] at h
  split at h
  · cases h
  · split at h
    · cases h
    · rename_i id hid
      split at h
      · cases h
      · rename_i current hcur
        split at h
        · rename_i hdirty
          have hobj : ({ toObject := (Object.IsDirty
              ({ NewSourceObject objectSet with toS3Object := i } : SourceObject).toObject
              current.toObject).2, DestinationObjectID :=
                ({ NewSourceObject objectSet with toS3Object := i } :
                  SourceObject).DestinationObjectID } : SourceObject) =
              dirtyCandidate objectSet i := by
            unfold Object.IsDirty at hdirty ⊢
            split
            · rename_i he; simp [he] at hdirty
            · rfl
          rw [hobj] at h
          split at h
          · cases h
          · rename_i row hrow
            split at h
            · cases h
            · rename_i currValues hcv
              right; left
              rw [SourceObject.Row_eq] at hrow
              obtain ⟨kc, hkc, hr⟩ := Except.map_ok_iff hrow
              rw [SourceObject.Marshal_eq] at hcv
              obtain ⟨kc0, hkc0, hr0⟩ := Except.map_ok_iff hcv
              refine ⟨id, current, kc, kc0, hcur, hkc, hkc0, ?_⟩
              rw [UpdateRow_ok h, ← hr, ← hr0]
              rfl
        · left; exact (Except.ok.inj h).symm
    · split at h
      · cases h
      · rename_i row hrow
        right; right
        have hrow' : (newCandidate objectSet i).Row = .ok row := hrow
        rw [SourceObject.Row_eq] at hrow'
        replace hrow := hrow'
        obtain ⟨kc, hkc, hr⟩ := Except.map_ok_iff hrow
        obtain ⟨x, hx, hxb⟩ := Except.map_ok_iff h
        obtain ⟨xid, xb⟩ := x
        obtain ⟨_, hb⟩ := AppendRow_ok hx
        simp only [] at hxb
        refine ⟨kc, hkc, ?_⟩
        rw [← hxb, hb, ← hr]
        rfl

/-! ### The writes of plan-new in closed form -/

@[simp] theorem putValueT_self (b : Table) (ix : Col → Option Idx) (id : Bytes) (k : Col)
    (v : Option Bytes) : putValueT b ix id k v v = b := by
  simp [putValueT]

/-- Writing back a source row with a new state and destination touches these two columns
only. -/
theorem updateT_planned (b : Table) (id : Bytes) (s : SourceObject) (kc : Option Bytes)
    (blockID : Option Bytes) :
    updateT b sourceObjectIndexes id ((planned s blockID).values kc) (s.values kc) =
      assignT b id s.State s.DestinationObjectID blockID := by
  simp [updateT, planned, assignT, SourceObject.values, Values.get, List.foldl]

theorem Itol_ne_nil (n : Int) : Itol n ≠ [] := by
  simp [Itol, PutUint64]

/-- Writing the size of a block whose in-memory row has none touches the size cell only. -/
theorem flushDestination_ok {b b' : Table} {blockID : Bytes} {block : DestinationObject}
    {n : Int} (hsize : block.Size = none)
    (h : flushDestination b blockID (some block) n = .ok b') :
    b' = b.putCell .size blockID (Itol n) := by
  unfold flushDestination at h
  simp only [] at h
  split at h
  · cases h
  · rename_i newBlock hcopy
    split at h
    · cases h
    · rename_i row hrow
      split at h
      · cases h
      · rename_i currValues hcv
        rw [DestinationObject.destMarshal_eq] at hcv
        obtain ⟨kc, hkc, hr0⟩ := Except.map_ok_iff hcv
        obtain ⟨c, hc, _, hckc, hvals, _⟩ := DestinationObject.destCopy_values hkc
        rw [hc] at hcopy
        have hcn : c = newBlock := Except.ok.inj hcopy
        subst hcn
        have hrow' : DestinationObject.Row { c with Size := some n } = .ok row := hrow
        rw [DestinationObject.destRow_eq] at hrow'
        have hkc' : DestinationObject.keyCell { c with Size := some n } = .ok kc := hckc
        rw [hkc'] at hrow'
        have hr : destinationRow (DestinationObject.values { c with Size := some n } kc) = row :=
          Except.ok.inj hrow'
        rw [UpdateRow_ok h, ← hr, ← hr0]
        simp only [DestinationObject.values, List.cons.injEq, Prod.mk.injEq, true_and,
          and_true] at hvals
        obtain ⟨h1, h2, h3, h4, h5, _, h7⟩ := hvals
        simp only [destinationRow, updateT, DestinationObject.values, List.foldl, Values.get,
          h1, h2, h3, h4, h5, h7, hsize, putValueT_self]
        simp [putValueT, bytesEqual, Itol_ne_nil, destinationObjectIndexes]

/-- Writing the size succeeds for a block whose key cell is defined. -/
theorem flushDestination_of_keyCell (b : Table) (blockID : Bytes) (block : DestinationObject)
    (n : Int) (kc : Option Bytes) (hkc : block.keyCell = .ok kc) :
    ∃ b', flushDestination b blockID (some block) n = .ok b' := by
  obtain ⟨c, hc, _, hckc, _, _⟩ := DestinationObject.destCopy_values hkc
  have hkc' : DestinationObject.keyCell { c with Size := some n } = .ok kc := hckc
  have hrow : DestinationObject.Row { c with Size := some n } =
      .ok (destinationRow (DestinationObject.values { c with Size := some n } kc)) := by
    rw [DestinationObject.destRow_eq, hkc']; rfl
  unfold flushDestination
  simp only [hc, hrow, DestinationObject.destMarshal_eq, hkc, Except.map]
  exact ⟨_, UpdateRow_destination b blockID _ kc _⟩

theorem newBlock_keyCell (set : ObjectSet) (key : Bytes) :
    (newBlock set key).keyCell = (sliceFrom key set.DestinationPath.length).map some := rfl

/-- The two outcomes of a successful `openBlock`. -/
theorem openBlock_ok {set : ObjectSet} {keys : Nat → Bytes} {st st1 : PlanState}
    (h : openBlock set keys st = .ok st1) :
    (st.blockID.isSome ∧ st1 = st) ∨
    (st.blockID = none ∧ ∃ kc, sliceFrom (keys st.created) set.DestinationPath.length = .ok kc ∧
      st1 = { b := openT st.b set (keys st.created) kc, blockID := some st.b.nextID,
              block := some (newBlock set (keys st.created)), n := 0,
              created := st.created + 1 }) := by
  unfold openBlock at h
  split at h
  · rename_i x hx
    left; exact ⟨by rw [hx]; rfl, (Except.ok.inj h).symm⟩
  · rename_i hx
    right
    refine ⟨hx, ?_⟩
    simp only [] at h
    have hrow : DestinationObject.Row
        { NewDestinationObject set with Key := some (keys st.created), State := StateNew } =
        (newBlock set (keys st.created)).Row := rfl
    rw [hrow, DestinationObject.destRow_eq, newBlock_keyCell] at h
    cases hs : sliceFrom (keys st.created) set.DestinationPath.length with
    | error e => simp [hs, Except.map] at h
    | ok kc =>
      simp only [hs, Except.map] at h
      refine ⟨kc, rfl, ?_⟩
      rw [AppendRow_of_schema _ _ (DestinationObject.destValues_schema _ _)] at h
      simp only [] at h
      exact (Except.ok.inj h).symm

/-- A successful `planStep`: the row is read, a block is open after `openBlock`, the row is
assigned to it, and the block is closed when its running size reaches the block size. -/
theorem planStep_ok {set : ObjectSet} {keys : Nat → Bytes} {st st' : PlanState} {id : Bytes}
    (h : planStep set keys st id = .ok st') :
    ∃ source st1, LookupSourceRow st.b id set = .ok source ∧
      openBlock set keys st = .ok st1 ∧
      (set.BlockSize ≤ runningSize set st1.n source →
        ∃ b3, flushDestination
            (assignT st1.b id source.State source.DestinationObjectID st1.blockID)
            (st1.blockID.getD []) st1.block (runningSize set st1.n source) = .ok b3 ∧
          st' = { b := b3, blockID := none, block := none, n := 0, created := st1.created }) ∧
      (¬ set.BlockSize ≤ runningSize set st1.n source →
        st' = { st1 with
          b := assignT st1.b id source.State source.DestinationObjectID st1.blockID
          n := runningSize set st1.n source }) := by
  unfold planStep at h
  split at h
  · cases h
  · rename_i source hsrc
    split at h
    · cases h
    · rename_i st1 hopen
      split at h
      · cases h
      · rename_i current hcopy
        simp only [] at h
        have hkc := (LookupSourceRow_ok hsrc).1
        obtain ⟨c, hc, _, hckc, hvals, _⟩ := SourceObject.Copy_values hkc
        rw [hc] at hcopy
        have hcn : c = current := Except.ok.inj hcopy
        subst hcn
        have hrow : SourceObject.Row
            { source with DestinationObjectID := st1.blockID, State := StateInSync } =
            .ok (sourceRow ((planned source st1.blockID).values (st.b.cell .key id))) := by
          have : SourceObject.Row
              { source with DestinationObjectID := st1.blockID, State := StateInSync } =
              (planned source st1.blockID).Row := rfl
          rw [this, SourceObject.Row_eq]
          have : (planned source st1.blockID).keyCell = .ok (st.b.cell .key id) := hkc
          rw [this]; rfl
        rw [hrow] at h
        simp only [] at h
        rw [SourceObject.Marshal_eq, hckc] at h
        simp only [Except.map] at h
        rw [hvals, UpdateRow_source, updateT_planned] at h
        simp only [] at h
        refine ⟨source, st1, hsrc, hopen, ?_, ?_⟩
        · intro hfull
          have hfull' : set.BlockSize ≤ addInt64 st1.n (addInt64 (Int64Value source.Size)
              ((StringValue set.Delimiter).length : Int)) := hfull
          rw [if_pos hfull'] at h
          split at h
          · cases h
          · rename_i b3 hb3
            exact ⟨b3, hb3, (Except.ok.inj h).symm⟩
        · intro hfull
          have hfull' : ¬ set.BlockSize ≤ addInt64 st1.n (addInt64 (Int64Value source.Size)
              ((StringValue set.Delimiter).length : Int)) := hfull
          rw [if_neg hfull'] at h
          exact (Except.ok.inj h).symm

/-! ### Invariants of folds and loops -/

theorem foldlM_inv {α β : Type} (f : β → α → Except Err β) (P : β → Prop)
    (hstep : ∀ b a b', P b → f b a = .ok b' → P b') :
    ∀ (l : List α) (b b' : β), P b → l.foldlM f b = .ok b' → P b'
  | [], b, b', hb, h => by
    simp only [List.foldlM, pure, Except.pure] at h
    exact Except.ok.inj h ▸ hb
  | a :: l, b, b', hb, h => by
    simp only [List.foldlM, bind, Except.bind] at h
    cases h1 : f b a with
    | error e => simp [h1] at h
    | ok b1 =>
      simp only [h1] at h
      exact foldlM_inv f P hstep l b1 b' (hstep b a b1 hb h1) h

/-- A property of tables that `flushStep` preserves holds after load-inventory. -/
theorem loadLoop_inv (P : Table → Prop) (objectSet : ObjectSet) (cap : Nat)
    (hstep : ∀ b i b', P b → flushStep objectSet b i = .ok b' → P b') :
    ∀ (inventory buf : List S3Object) (db : DB), DB.All P db →
      DB.All P (loadLoop objectSet cap inventory buf db).1 := by
  have hflush : ∀ (db db' : DB) (buf : List S3Object), DB.All P db →
      flushBuffer objectSet db buf = .ok db' → DB.All P db' := by
    intro db db' buf hdb h
    cases db with
    | none => cases h
    | some b =>
      simp only [flushBuffer] at h
      obtain ⟨b', hb', hsome⟩ := Except.map_ok_iff h
      intro t ht
      rw [← hsome] at ht
      cases ht
      exact foldlM_inv _ P hstep buf b _ (hdb b rfl) hb'
  intro inventory
  induction inventory with
  | nil =>
    intro buf db hdb
    simp only [loadLoop]
    cases h : flushBuffer objectSet db buf with
    | error e => exact hdb
    | ok db1 => exact hflush db db1 buf hdb h
  | cons o rest ih =>
    intro buf db hdb
    simp only [loadLoop]
    split
    · cases h : flushBuffer objectSet db (buf ++ [o]) with
      | error e => exact hdb
      | ok db1 => exact ih [] db1 (hflush db db1 _ hdb h)
    · exact ih _ db hdb

/-- A property of plan states that `planStep` and the closing write preserve holds of the
table plan-new leaves. -/
theorem planLoop_inv (P : PlanState → Prop) (set : ObjectSet) (keys : Nat → Bytes)
    (limit : Int)
    (hstep : ∀ st id st', P st → planStep set keys st id = .ok st' → P st')
    (hflush : ∀ st bid b', P st → st.blockID = some bid →
      flushDestination st.b bid st.block st.n = .ok b' → P { st with b := b' }) :
    ∀ (fuel : Nat) (st : PlanState) (r : Table × Option Err), P st →
      planLoop set keys limit fuel st = some r → ∃ st', P st' ∧ r.1 = st'.b := by
  intro fuel
  induction fuel with
  | zero => intro st r _ h; cases h
  | succ fuel ih =>
    intro st r hst h
    simp only [planLoop] at h
    split at h
    · exact ⟨st, hst, by rw [← Option.some.inj h]⟩
    · rename_i objectIds hq
      split at h
      · exact ⟨st, hst, by rw [← Option.some.inj h]⟩
      · rename_i st1 hpage
        have hP1 : P st1 := by
          unfold planPage at hpage
          split at hpage
          · cases hpage
          · rename_i st2 hfold
            have hP2 : P st2 := foldlM_inv _ P hstep objectIds st st2 hst hfold
            split at hpage
            · rename_i bid hbid
              split at hpage
              · obtain ⟨b2, hb2, hst1⟩ := Except.map_ok_iff hpage
                rw [← hst1]
                exact hflush st2 bid b2 hP2 hbid hb2
              · exact Except.ok.inj hpage ▸ hP2
            · exact Except.ok.inj hpage ▸ hP2
        split at h
        · exact ⟨st1, hP1, by rw [← Option.some.inj h]⟩
        · exact ih st1 r hP1 h

/-! ### The writes of update-state and put-set -/

/-- What `LookupRow` reads into a fresh destination object. -/
theorem LookupDestinationRow_ok {b : Table} {id : Bytes} {p : ObjectSet}
    {o : DestinationObject} (h : LookupDestinationRow b id p = .ok o) :
    o.keyCell = .ok (b.cell .key id) ∧ b.isDestination id ∧
      (match b.cell .state id with
        | some v => Ltouint16 v = .ok o.State
        | none => o.State = StateUnknown) := by
  unfold LookupDestinationRow at h
  have hk := DestinationObject.destKeyCell_of_Unmarshal h
  obtain ⟨⟨o', ho', hc⟩, hm⟩ := DestinationObject.destUnmarshal_ok h
  have hf := Object.Unmarshal_fields ho'
  rw [lookupRow_get] at hk hm
  simp only [lookupRow_get] at hf
  have hst : o.State = o'.State := by rw [show o.State = o.toObject.State from rfl, hc]
  refine ⟨hk, hm, ?_⟩
  rw [hst]; exact hf.2.2.2.2.2.2.2

/-- Writing back a copy of a source row with a new state touches the state column only. -/
theorem updateT_source_state (b : Table) (id : Bytes) (o c : SourceObject)
    (kc : Option Bytes) (state : Nat) (hvals : c.values kc = o.values kc) :
    updateT b sourceObjectIndexes id
        (SourceObject.values { c with State := state } kc) (o.values kc) =
      putValueT b sourceObjectIndexes id .state (some (Uint16tol state))
        (some (Uint16tol o.State)) := by
  simp only [SourceObject.values, List.cons.injEq, Prod.mk.injEq, true_and, and_true] at hvals
  obtain ⟨h1, h2, h3, h4, h5, h6, _, h8⟩ := hvals
  simp only [updateT, SourceObject.values, List.foldl, Values.get, h1, h2, h3, h4, h5, h6, h8,
    putValueT_self]
  simp

/-- Writing back a copy of a destination row with a new state touches the state column
only. -/
theorem updateT_destination_state (b : Table) (id : Bytes) (o c : DestinationObject)
    (kc : Option Bytes) (state : Nat) (hvals : c.values kc = o.values kc) :
    updateT b destinationObjectIndexes id
        (DestinationObject.values { c with State := state } kc) (o.values kc) =
      putValueT b destinationObjectIndexes id .state (some (Uint16tol state))
        (some (Uint16tol o.State)) := by
  simp only [DestinationObject.values, List.cons.injEq, Prod.mk.injEq, true_and, and_true]
    at hvals
  obtain ⟨h1, h2, h3, h4, h5, h6, _⟩ := hvals
  simp only [updateT, DestinationObject.values, List.foldl, Values.get, h1, h2, h3, h4, h5, h6,
    putValueT_self]
  simp

/-- The outcomes of a successful `updateStep`: the row is in the target state already and
nothing is written, or its state column is rewritten from the state read. -/
theorem updateStep_ok {set : ObjectSet} {type : String} {state : Nat} {b b' : Table}
    {id : Bytes} (h : updateStep set type state b id = .ok b') :
    (type = "source" ∧ ∃ o, LookupSourceRow b id set = .ok o ∧
      ((o.State = state ∧ b' = b) ∨ (o.State ≠ state ∧
        b' = putValueT b sourceObjectIndexes id .state (some (Uint16tol state))
          (some (Uint16tol o.State))))) ∨
    (type = "destination" ∧ ∃ o, LookupDestinationRow b id set = .ok o ∧
      ((o.State = state ∧ b' = b) ∨ (o.State ≠ state ∧
        b' = putValueT b destinationObjectIndexes id .state (some (Uint16tol state))
          (some (Uint16tol o.State))))) := by
  unfold updateStep at h
  split at h
  · rename_i htype
    left
    refine ⟨htype, ?_⟩
    split at h
    · cases h
    · rename_i o ho
      refine ⟨o, ho, ?_⟩
      split at h
      · rename_i hs
        exact Or.inl ⟨hs, (Except.ok.inj h).symm⟩
      · rename_i hs
        right
        refine ⟨hs, ?_⟩
        split at h
        · cases h
        · rename_i newO hcopy
          simp only [] at h
          have hkc := (LookupSourceRow_ok ho).1
          obtain ⟨c, hc, _, hckc, hvals, _⟩ := SourceObject.Copy_values hkc
          rw [hc] at hcopy
          have hcn : c = newO := Except.ok.inj hcopy
          subst hcn
          have hrow : SourceObject.Row { c with State := state } =
              .ok (sourceRow (SourceObject.values { c with State := state }
                (b.cell .key id))) := by
            rw [SourceObject.Row_eq]
            have : SourceObject.keyCell { c with State := state } = .ok (b.cell .key id) := hckc
            rw [this]; rfl
          rw [hrow] at h
          simp only [] at h
          rw [SourceObject.Marshal_eq, hkc] at h
          simp only [Except.map] at h
          rw [UpdateRow_source, updateT_source_state b id o c _ state hvals] at h
          exact (Except.ok.inj h).symm
  · split at h
    · rename_i htype
      right
      refine ⟨htype, ?_⟩
      split at h
      · cases h
      · rename_i o ho
        refine ⟨o, ho, ?_⟩
        split at h
        · rename_i hs
          exact Or.inl ⟨hs, (Except.ok.inj h).symm⟩
        · rename_i hs
          right
          refine ⟨hs, ?_⟩
          split at h
          · cases h
          · rename_i newO hcopy
            simp only [] at h
            have hkc := (LookupDestinationRow_ok ho).1
            obtain ⟨c, hc, _, hckc, hvals, _⟩ := DestinationObject.destCopy_values hkc
            rw [hc] at hcopy
            have hcn : c = newO := Except.ok.inj hcopy
            subst hcn
            have hrow : DestinationObject.Row { c with State := state } =
                .ok (destinationRow (DestinationObject.values { c with State := state }
                  (b.cell .key id))) := by
              rw [DestinationObject.destRow_eq]
              have : DestinationObject.keyCell { c with State := state } =
                  .ok (b.cell .key id) := hckc
              rw [this]; rfl
            rw [hrow] at h
            simp only [] at h
            rw [DestinationObject.destMarshal_eq, hkc] at h
            simp only [Except.map] at h
            rw [UpdateRow_destination, updateT_destination_state b id o c _ state hvals] at h
            exact (Except.ok.inj h).symm
    · cases h

/-- A property of tables that `updateStep` preserves holds after update-state. -/
theorem updateState_inv (P : Table → Prop) (ToUpper : String → String)
    (decode : Bytes → Option Bytes) (u : UpdateObjectsState) (db db' : DB)
    (hstep : ∀ set state b id b', P b → updateStep set u.Type_ state b id = .ok b' → P b')
    (hdb : DB.All P db) (h : u.Invoke ToUpper decode db = .ok db') : DB.All P db' := by
  unfold UpdateObjectsState.Invoke at h
  simp only [] at h
  split at h
  · cases h
  · split at h
    · cases h
    · rename_i b set hlt
      obtain ⟨b', hb', hsome⟩ := Except.map_ok_iff h
      have hb : db = some b := by
        unfold LookupTable at hlt
        cases db with
        | none => cases hlt
        | some t =>
          simp only [] at hlt
          split at hlt
          · cases hlt
          · rw [(Prod.mk.inj (Except.ok.inj hlt)).1]
      intro t ht
      rw [← hsome] at ht
      cases ht
      refine foldlM_inv _ P ?_ u.IDS b _ (hdb b hb) hb'
      intro b1 idB64 b2 hb1 hstep1
      cases hd : decode idB64 with
      | none => simp [hd] at hstep1
      | some id =>
        simp only [hd] at hstep1
        exact hstep _ _ b1 id b2 hb1 hstep1

theorem putSetValues_cols (values : List (SetCol × Option Bytes)) :
    ∀ (b : Table), (putSetValues b values).cols = b.cols ∧
      (putSetValues b values).idxs = b.idxs ∧ (putSetValues b values).sequence = b.sequence := by
  induction values with
  | nil => intro b; exact ⟨rfl, rfl, rfl⟩
  | cons kv values ih =>
    intro b
    simp only [putSetValues, List.foldl] at ih ⊢
    obtain ⟨h1, h2, h3⟩ := ih { b with root := Function.update b.root kv.1 (some (kv.2.getD [])) }
    exact ⟨h1, h2, h3⟩

/-- A successful put-set creates the table if it is missing and writes its root only. -/
theorem PutObjectSet_ok {decode : Bytes → Option Bytes} {p : PutObjectSet} {db db' : DB}
    (h : p.Invoke decode db = .ok db') :
    ∃ t', db' = some t' ∧ t'.cols = (db.getD Table.empty).cols ∧
      t'.idxs = (db.getD Table.empty).idxs ∧ t'.sequence = (db.getD Table.empty).sequence := by
  unfold PutObjectSet.Invoke at h
  simp only [] at h
  split at h
  · cases h
  · split at h
    · cases h
    · rename_i b hb
      refine ⟨_, (Except.ok.inj h).symm, ?_⟩
      have hbe : b = db.getD Table.empty := by
        unfold EnsureTable at hb
        split at hb
        · cases hb
        · cases db with
          | none => exact (Except.ok.inj hb).symm
          | some t => exact (Except.ok.inj hb).symm
      rw [← hbe]
      exact putSetValues_cols _ b

/-! ### Referential integrity of the reachable stores -/

theorem isDestination_putValueT_state (b : Table) (ix : Col → Option Idx) (id : Bytes)
    (v cur : Option Bytes) (d : Bytes) :
    (putValueT b ix id .state v cur).isDestination d ↔ b.isDestination d := by
  unfold Table.isDestination
  rw [cell_putValueT]
  simp

theorem RefInv.putValueT_state {b : Table} (h : RefInv b) (ix : Col → Option Idx) (id : Bytes)
    (v cur : Option Bytes) : RefInv (putValueT b ix id .state v cur) := by
  refine h.of_frame (fun d hd => (isDestination_putValueT_state b ix id v cur d).mpr hd) ?_
  intro x d hc
  rw [cell_putValueT, if_neg (by simp)] at hc
  exact Or.inl hc

theorem isDestination_assignT (b : Table) (id : Bytes) (oldState : Nat)
    (oldDest blockID : Option Bytes) (d : Bytes) :
    (assignT b id oldState oldDest blockID).isDestination d ↔ b.isDestination d := by
  unfold Table.isDestination assignT
  rw [cell_putValueT, cell_putValueT]
  simp

theorem RefInv.assignT {b : Table} (h : RefInv b) (id : Bytes) (oldState : Nat)
    (oldDest blockID : Option Bytes) (hb : ∀ d, blockID = some d → b.isDestination d) :
    RefInv (assignT b id oldState oldDest blockID) := by
  refine h.of_frame (fun d hd => (isDestination_assignT b id oldState oldDest blockID d).mpr hd) ?_
  intro x d hc
  unfold S3fc.assignT at hc
  rw [cell_putValueT, cell_putValueT] at hc
  simp only [false_and, if_false, true_and] at hc
  split at hc
  · exact Or.inr (Or.inr ((isDestination_assignT b id oldState oldDest blockID d).mpr (hb d hc)))
  · exact Or.inl hc

theorem RefInv.putCell_size {b : Table} (h : RefInv b) (id v : Bytes) :
    RefInv (b.putCell .size id v) := by
  refine h.of_frame ?_ ?_
  · intro d hd
    unfold Table.isDestination at hd ⊢
    simpa using hd
  · intro x d hc
    simp only [Table.cell_putCell, false_and, if_false] at hc
    exact Or.inl hc

theorem RefInv.flushStep {objectSet : ObjectSet} {b b' : Table} {i : S3Object} (h : RefInv b)
    (hs : flushStep objectSet b i = .ok b') : RefInv b' := by
  rcases flushStep_shape hs with rfl | ⟨id, current, kc, kc0, _, _, _, rfl⟩ | ⟨kc, _, rfl⟩
  · exact h
  · exact h.updateT_source id _ kc _ (fun d hd => by cases hd)
  · exact h.appendT_source _ kc rfl

theorem RefInv.updateStep {set : ObjectSet} {type : String} {state : Nat} {b b' : Table}
    {id : Bytes} (h : RefInv b) (hs : updateStep set type state b id = .ok b') : RefInv b' := by
  rcases updateStep_ok hs with ⟨_, o, _, ⟨_, rfl⟩ | ⟨_, rfl⟩⟩ | ⟨_, o, _, ⟨_, rfl⟩ | ⟨_, rfl⟩⟩
  · exact h
  · exact h.putValueT_state _ _ _ _
  · exact h
  · exact h.putValueT_state _ _ _ _

theorem PlanState.RefInv_openBlock {set : ObjectSet} {keys : Nat → Bytes} {st st1 : PlanState}
    (h : st.RefInv set) (ho : openBlock set keys st = .ok st1) :
    st1.RefInv set ∧ ∃ bid, st1.blockID = some bid := by
  rcases openBlock_ok ho with ⟨hsome, rfl⟩ | ⟨_, kc, _, rfl⟩
  · exact ⟨h, Option.isSome_iff_exists.mp hsome⟩
  · obtain ⟨h1, h2⟩ := h.1.appendT_destination (newBlock set (keys st.created)) (some kc)
    refine ⟨⟨h1, ⟨?_, ?_⟩⟩, _, rfl⟩
    · intro bid hb
      rw [← Option.some.inj hb]; exact h2
    · intro bid _
      exact ⟨_, rfl⟩

theorem PlanState.RefInv_planStep {set : ObjectSet} {keys : Nat → Bytes} {st st' : PlanState}
    {id : Bytes} (h : st.RefInv set) (hs : planStep set keys st id = .ok st') :
    st'.RefInv set := by
  obtain ⟨source, st1, _, hopen, hfull, hnot⟩ := planStep_ok hs
  obtain ⟨h1, bid, hbid⟩ := PlanState.RefInv_openBlock h hopen
  have h2 : S3fc.RefInv (assignT st1.b id source.State source.DestinationObjectID st1.blockID) :=
    h1.1.assignT id _ _ _ h1.2.1
  by_cases hf : set.BlockSize ≤ runningSize set st1.n source
  · obtain ⟨b3, hb3, rfl⟩ := hfull hf
    obtain ⟨key, hkey⟩ := h1.2.2 bid hbid
    rw [hkey] at hb3
    rw [flushDestination_ok rfl hb3]
    exact ⟨h2.putCell_size _ _, ⟨fun _ hb => Option.noConfusion hb,
      fun _ hb => Option.noConfusion hb⟩⟩
  · rw [hnot hf]
    exact ⟨h2, ⟨fun d hd => (isDestination_assignT _ _ _ _ _ d).mpr (h1.2.1 d hd), h1.2.2⟩⟩

theorem PlanState.RefInv_flush {set : ObjectSet} {st : PlanState} {bid : Bytes} {b' : Table}
    (h : st.RefInv set) (hbid : st.blockID = some bid)
    (hf : flushDestination st.b bid st.block st.n = .ok b') :
    PlanState.RefInv set { st with b := b' } := by
  obtain ⟨key, hkey⟩ := h.2.2 bid hbid
  rw [hkey] at hf
  rw [flushDestination_ok rfl hf]
  refine ⟨h.1.putCell_size _ _, ⟨?_, h.2.2⟩⟩
  intro d hd
  have := h.2.1 d hd
  unfold Table.isDestination at this ⊢
  simpa using this

theorem LookupTable_ok {db : DB} {set set1 : ObjectSet} {b : Table}
    (h : LookupTable db set = .ok (b, set1)) : db = some b := by
  unfold LookupTable at h
  cases db with
  | none => cases h
  | some t =>
    simp only [] at h
    split at h
    · cases h
    · rw [(Prod.mk.inj (Except.ok.inj h)).1]

theorem RefInv.of_empty : RefInv Table.empty := by
  intro id d hc
  simp [Table.cell, Table.empty, KV.Get] at hc

/-- The invariant behind I3 holds in every reachable store. -/
theorem Reachable.refInv {db : DB} (h : Reachable db) : DB.All RefInv db := by
  induction h with
  | init => intro t ht; cases ht
  | @putSet decode p db db' _ hok ih =>
    obtain ⟨t', rfl, hcols, _, _⟩ := PutObjectSet_ok hok
    intro t ht
    cases ht
    have hbase : RefInv (db.getD Table.empty) := by
      cases db with
      | none => exact RefInv.of_empty
      | some t0 => exact ih t0 rfl
    intro id d hc hne
    have hcell : ∀ c x, t'.cell c x = (db.getD Table.empty).cell c x := by
      intro c x; unfold Table.cell; rw [hcols]
    unfold Table.isDestination
    rw [hcell] at hc ⊢
    exact hbase id d hc hne
  | @load l inventory db _ ih =>
    exact loadLoop_inv RefInv _ _ (fun b i b' hb hs => hb.flushStep hs) inventory [] db ih
  | @plan p keys fuel db r _ hok ih =>
    unfold PlanNewObjects.Invoke at hok
    split at hok
    · rw [← Option.some.inj hok]; exact ih
    · rename_i b set hlt
      have hdb := LookupTable_ok hlt
      cases hl : planLoop set keys 2048 fuel { b := b } with
      | none => simp [hl] at hok
      | some r' =>
        simp only [hl, Option.map_some', Option.some.injEq] at hok
        obtain ⟨st', hst', hr'⟩ := planLoop_inv (PlanState.RefInv set) set keys 2048
          (fun st id st' hst hs => PlanState.RefInv_planStep hst hs)
          (fun st bid b' hst hb hf => PlanState.RefInv_flush hst hb hf) fuel { b := b } r'
          ⟨ih b hdb, ⟨fun _ hb => Option.noConfusion hb, fun _ hb => Option.noConfusion hb⟩⟩ hl
        intro t ht
        rw [← hok] at ht
        cases ht
        rw [hr']
        exact hst'.1
  | @update ToUpper decode u db db' _ hok ih =>
    exact updateState_inv RefInv ToUpper decode u db db'
      (fun set state b id b' hb hs => hb.updateStep hs) ih hok

/-- C9. Referential integrity (I3): in every store reachable from the empty database
through put-set, load-inventory, plan-new and update-state, every source row with a
non-empty `destination_object_id` names an id whose row carries
`is_destination_object = 0x01` in the same set table. -/
theorem referential_integrity (db : DB) (t : Table) (hreach : Reachable db)
    (ht : db = some t) : Referential t := by
  intro id d _ hc hne
  exact hreach.refInv t ht id d hc hne

set_option maxRecDepth 8192 in
theorem storePlanned_reachable : Reachable storePlanned := by
  have h0 : Reachable exampleEmptySet :=
    Reachable.putSet (fun _ => none) examplePutSet Reachable.init rfl
  have h1 := Reachable.load exampleLoad
    [{ Key := some [97], ETag := some [120], Size := some 40 },
     { Key := some [98], ETag := some [121], Size := some 80 }] h0
  exact @Reachable.plan { Bucket := [98], Prefix := [] }
    (fun k => [111, 117, 116, 47, 117, k]) 1 _ (storePlanned, none) h1 rfl

set_option maxRecDepth 8192 in
/-- C9 at a concrete store: after put-set, load-inventory of two objects and plan-new, the
source row 1 names the row 3, which is a destination row. -/
theorem referential_integrity_witness :
    tablePlanned.isSource (PutUint64 1) ∧
      tablePlanned.cell .destination_object (PutUint64 1) = some (PutUint64 3) ∧
      tablePlanned.isDestination (PutUint64 3) :=
  ⟨rfl, rfl, referential_integrity storePlanned tablePlanned storePlanned_reachable rfl
    (PutUint64 1) (PutUint64 3) rfl rfl (by decide)⟩

/-! ### Planning: arithmetic and ids -/

theorem wrap64_add_wrap64 (a b : Int) : wrap64 (a + wrap64 b) = wrap64 (a + b) := by
  unfold wrap64 toInt64 toUint64
  have h1 : 0 ≤ b % 2 ^ 64 := Int.emod_nonneg _ (by norm_num)
  have h2 : b % 2 ^ 64 < 2 ^ 64 := Int.emod_lt_of_pos _ (by norm_num)
  have key : toUint64 (a + toInt64 (toUint64 b)) = toUint64 (a + b) := by
    unfold toInt64 toUint64
    have : ((b % 2 ^ 64).toNat % 2 ^ 64 : Nat) = (b % 2 ^ 64).toNat := by omega
    rw [this]
    split <;> (congr 1; omega)
  unfold toUint64 toInt64 at key
  rw [key]

theorem addInt64_eq (a b : Int) : addInt64 a b = wrap64 (a + b) := rfl

theorem runningSize_eq (set : ObjectSet) (n : Int) (s : SourceObject) :
    runningSize set n s =
      wrap64 (n + (Int64Value s.Size + ((StringValue set.Delimiter).length : Int))) := by
  unfold runningSize
  rw [addInt64_eq, addInt64_eq, wrap64_add_wrap64]

theorem wrap64_wrap64 (a : Int) : wrap64 (wrap64 a) = wrap64 a := by
  have := wrap64_add_wrap64 0 a
  simpa using this

theorem Itol_wrap64 (a : Int) : Itol (wrap64 a) = Itol a := Itol_wrap a

theorem Ltoi_Itol_wrap64 (a : Int) : Ltoi (Itol (wrap64 a)) = .ok (wrap64 a) := by
  rw [Ltoi_Itol]
  exact congrArg Except.ok (wrap64_wrap64 a)

theorem idNum_PutUint64 (s : Nat) (h : s < 2 ^ 64) : idNum (PutUint64 s) = s := by
  unfold idNum
  rw [Uint64_PutUint64 s h]

theorem Allocated.length {seq : Nat} {id : Bytes} (h : Allocated seq id) : id.length = 8 := by
  rw [h.2.2]; rfl

theorem Allocated.ne_blockIDAt {t0 : Table} {id : Bytes} (h : Allocated t0.sequence id)
    (j : Nat) (hj : 1 ≤ j) (hlt : t0.sequence + j < 2 ^ 64) : id ≠ blockIDAt t0 j := by
  intro heq
  have h1 := congrArg idNum heq
  unfold blockIDAt at h1
  rw [idNum_PutUint64 _ hlt] at h1
  have := h.2.1
  omega

theorem blockIDAt_inj {t0 : Table} {j j' : Nat} (h : t0.sequence + j < 2 ^ 64)
    (h' : t0.sequence + j' < 2 ^ 64) (heq : blockIDAt t0 j = blockIDAt t0 j') : j = j' := by
  have := PutUint64_inj h h' heq
  omega

theorem KV.Get_mem : ∀ (m : KV) (k v : Bytes), KV.Get m k = some v → (k, v) ∈ m
  | [], _, _, h => by simp [KV.Get] at h
  | (k', v') :: m, k, v, h => by
    simp only [KV.Get] at h
    by_cases hk : k' = k
    · simp only [hk, if_true, Option.some.injEq] at h
      rw [hk, h]; exact List.mem_cons_self _ _
    · simp only [hk, if_false] at h
      exact List.mem_cons_of_mem _ (KV.Get_mem m k v h)

theorem KV.mem_Get : ∀ (m : KV), KV.Sorted m → ∀ (k v : Bytes), (k, v) ∈ m →
    KV.Get m k = some v
  | [], _, _, _, h => by simp at h
  | (k', v') :: m, hs, k, v, h => by
    simp only [KV.Sorted, List.pairwise_cons] at hs
    simp only [KV.Get]
    rcases List.mem_cons.mp h with h | h
    · simp only [Prod.mk.injEq] at h
      rw [h.1, h.2]; simp
    · have hlt := hs.1 (k, v) h
      have hne : k' ≠ k := bytesLt_ne _ _ hlt
      rw [if_neg hne]
      exact KV.mem_Get m hs.2 k v h

theorem Table.cell_mem {t : Table} {c : Col} {id v : Bytes} (h : t.cell c id = some v) :
    (id, v) ∈ t.cols c := KV.Get_mem _ _ _ h

/-! ### Planning: the effect of the writes on cells and index entries -/

theorem encNew_ne_encInSync : encNew ≠ encInSync := by decide

theorem cell_openT (b : Table) (set : ObjectSet) (key kc : Bytes) (c : Col) (x : Bytes) :
    (openT b set key kc).cell c x =
      if x = b.nextID then
        (match c with
          | .key => some kc
          | .state => some encNew
          | .is_destination_object => some valueTrue
          | _ => b.cell c x)
      else b.cell c x := by
  unfold openT
  by_cases hx : x = b.nextID
  · subst hx
    rw [if_pos rfl]
    cases c with
    | key =>
      exact cell_appendT _ _ _ _ _ _ (DestinationObject.destValues_nodup _ _)
        (by simp [DestinationObject.values])
    | state =>
      exact cell_appendT _ _ _ _ _ _ (DestinationObject.destValues_nodup _ _)
        (by simp [DestinationObject.values, newBlock, encNew])
    | is_destination_object =>
      exact cell_appendT _ _ _ _ _ _ (DestinationObject.destValues_nodup _ _)
        (by simp [DestinationObject.values])
    | _ =>
      exact cell_appendT_of_not_mem _ _ _ _ _ _
        (by simp [DestinationObject.values, newBlock, NewDestinationObject])
  · rw [if_neg hx]
    exact cell_appendT_of_ne _ _ _ _ hx _ _

theorem mem_index_openT (b : Table) (set : ObjectSet) (key kc : Bytes) (i : Idx) (e : Bytes) :
    e ∈ (openT b set key kc).index i ↔
      (i = .idx_destination_key ∧ e = kc ++ b.nextID) ∨
      (i = .idx_destination_state ∧ e = encNew ++ b.nextID) ∨ e ∈ b.index i := by
  unfold openT
  rw [mem_index_appendT]
  have hb : b.bump.index i = b.index i := rfl
  rw [hb]
  constructor
  · rintro (⟨k, w, hmem, hix, rfl⟩ | h)
    · simp only [DestinationObject.values, newBlock, NewDestinationObject, List.mem_cons,
        Prod.mk.injEq, List.mem_singleton, List.not_mem_nil, or_false] at hmem
      rcases hmem with h | h | h | h | h | h | h | h | h <;> obtain ⟨rfl, hv⟩ := h <;>
        simp [destinationObjectIndexes] at hix
      · subst hix
        have : w = kc := by simpa using hv
        exact Or.inl ⟨rfl, by rw [this]⟩
      · subst hix
        have : w = encNew := by simpa [encNew] using hv
        exact Or.inr (Or.inl ⟨rfl, by rw [this]⟩)
    · exact Or.inr (Or.inr h)
  · rintro (⟨rfl, rfl⟩ | ⟨rfl, rfl⟩ | h)
    · exact Or.inl ⟨.key, kc, by simp [DestinationObject.values], rfl, rfl⟩
    · exact Or.inl ⟨.state, encNew,
        by simp [DestinationObject.values, newBlock, encNew], rfl, rfl⟩
    · exact Or.inr h

theorem openT_sequence (b : Table) (set : ObjectSet) (key kc : Bytes) :
    (openT b set key kc).sequence = (b.sequence + 1) % 2 ^ 64 := by
  unfold openT; rw [appendT_sequence]; rfl

theorem Table.Sorted_bump {b : Table} (h : b.Sorted) : b.bump.Sorted := h

theorem openT_sorted (b : Table) (set : ObjectSet) (key kc : Bytes) (h : b.Sorted) :
    (openT b set key kc).Sorted :=
  appendT_sorted _ _ _ _ (Table.Sorted_bump h)

theorem assignT_sorted (b : Table) (id : Bytes) (oldState : Nat) (oldDest blockID : Option Bytes)
    (h : b.Sorted) : (assignT b id oldState oldDest blockID).Sorted :=
  putValueT_sorted _ _ _ _ _ _ (putValueT_sorted _ _ _ _ _ _ h)

theorem assignT_sequence (b : Table) (id : Bytes) (oldState : Nat)
    (oldDest blockID : Option Bytes) :
    (assignT b id oldState oldDest blockID).sequence = b.sequence := by
  simp [assignT]

/-- The cells after a NEW row without the block as destination is assigned to a block. -/
theorem cell_assignT (b : Table) (id : Bytes) (oldState : Nat) (oldDest : Option Bytes)
    (bid : Bytes) (hs : Uint16tol oldState = encNew)
    (hd : bytesEqual (some bid) oldDest = false) (c : Col) (x : Bytes) :
    (assignT b id oldState oldDest (some bid)).cell c x =
      if x = id ∧ c = .state then some encInSync
      else if x = id ∧ c = .destination_object then some bid
      else b.cell c x := by
  unfold assignT
  rw [cell_putValueT, cell_putValueT, hs, hd]
  have h1 : bytesEqual (some (Uint16tol StateInSync)) (some encNew) = false := by decide
  rw [h1]
  by_cases hx : x = id
  · subst hx
    cases c <;> simp [encInSync]
  · simp [hx]

/-- The index entries after a NEW row is assigned to a block. -/
theorem mem_index_assignT (b : Table) (id : Bytes) (oldState : Nat) (oldDest : Option Bytes)
    (bid : Bytes) (hs : Uint16tol oldState = encNew)
    (hd : bytesEqual (some bid) oldDest = false) (i : Idx) (e : Bytes) :
    e ∈ (assignT b id oldState oldDest (some bid)).index i ↔
      (i = .idx_source_state ∧ (e = encInSync ++ id ∨ (e ≠ encNew ++ id ∧ e ∈ b.index i))) ∨
      (i = .idx_destination ∧
        (e = bid ++ id ∨ (e ≠ oldDest.getD [] ++ id ∧ e ∈ b.index i))) ∨
      (i ≠ .idx_source_state ∧ i ≠ .idx_destination ∧ e ∈ b.index i) := by
  unfold assignT
  rw [mem_index_putValueT, hd]
  have h1 : bytesEqual (some (Uint16tol StateInSync)) (some (Uint16tol oldState)) = false := by
    rw [hs]; decide
  have hmem : ∀ e', e' ∈ (putValueT b sourceObjectIndexes id .state
      (some (Uint16tol StateInSync)) (some (Uint16tol oldState))).index i ↔
      if i = .idx_source_state then (e' = encInSync ++ id ∨ (e' ≠ encNew ++ id ∧ e' ∈ b.index i))
      else e' ∈ b.index i := by
    intro e'
    rw [mem_index_putValueT, h1, hs]
    by_cases hi : i = .idx_source_state
    · subst hi
      simp [sourceObjectIndexes, encInSync]
    · have : ¬ (sourceObjectIndexes .state = some i) := by
        simp only [sourceObjectIndexes, Option.some.injEq]
        exact fun h => hi h.symm
      simp [this, hi]
  by_cases hi : i = .idx_destination
  · subst hi
    simp only [sourceObjectIndexes, true_and, if_true, hmem]
    simp
  · have : ¬ (sourceObjectIndexes .destination_object = some i) := by
      simp only [sourceObjectIndexes, Option.some.injEq]
      exact fun h => hi h.symm
    simp only [this, false_and, if_false, hmem]
    by_cases hi2 : i = .idx_source_state
    · subst hi2; simp
    · simp [hi, hi2]

/-! ### Planning: the invariant through `openBlock` -/

theorem PlanReady.allocated {t : Table} (h : PlanReady t) {c : Col} {id : Bytes}
    (hc : t.cell c id ≠ none) : Allocated t.sequence id := by
  cases hv : t.cell c id with
  | none => exact absurd hv hc
  | some v => exact h.2.2.2.1 c (Col.mem_all c) (id, v) (Table.cell_mem hv)

theorem PlanReady.cell_blockIDAt {t : Table} (h : PlanReady t) (c : Col) (j : Nat)
    (hj : 1 ≤ j) (hlt : t.sequence + j < 2 ^ 64) : t.cell c (blockIDAt t j) = none := by
  cases hv : t.cell c (blockIDAt t j) with
  | none => rfl
  | some v =>
    have := @PlanReady.allocated t h c (blockIDAt t j) (by rw [hv]; simp)
    exact absurd rfl (this.ne_blockIDAt j hj hlt)

theorem PlanCore.done_allocated {t0 : Table} {set : ObjectSet} {done : List (Bytes × Nat)}
    {st : PlanState} (h : PlanCore t0 set done st) (hready : PlanReady t0) {x : Bytes}
    (hx : x ∈ done.map Prod.fst) : Allocated t0.sequence x := by
  obtain ⟨p, hp, rfl⟩ := List.mem_map.mp hx
  have := (h.doneRows p hp).2.1
  exact hready.allocated (c := .state) (by rw [this]; simp)

theorem membersOf_of_lt {done : List (Bytes × Nat)} {j : Nat}
    (h : ∀ x ∈ done, x.2 < j) : membersOf done j = [] := by
  unfold membersOf
  rw [List.filter_eq_nil_iff]
  intro x hx
  have := h x hx
  simp only [decide_eq_true_eq]
  omega

/-- After `openBlock` a block is open: the invariant holds with the open block
`blockIDAt t0 st1.created`, which either was open before or is new and has no member. -/
theorem PlanInv.openBlock {t0 : Table} {set : ObjectSet} {keys : Nat → Bytes}
    {done : List (Bytes × Nat)} {st st1 : PlanState} (h : PlanInv t0 set done st)
    (hready : PlanReady t0) (hroom : t0.sequence + (done.length + 1) < 2 ^ 64)
    (ho : openBlock set keys st = .ok st1) :
    PlanCore t0 set done st1 ∧ st1.blockID = some (blockIDAt t0 st1.created) ∧
      st1.created ≤ done.length + 1 ∧
      (∀ j, 1 ≤ j → j < st1.created → membersOf done j ≠ []) ∧
      (membersOf done st1.created = [] ∨ st1.n < set.BlockSize) ∧
      (∀ c x, x ≠ blockIDAt t0 st1.created → st1.b.cell c x = st.b.cell c x) := by
  rcases openBlock_ok ho with ⟨hsome, rfl⟩ | ⟨hnone, kc, _, rfl⟩
  · obtain ⟨bid, hbid⟩ := Option.isSome_iff_exists.mp hsome
    obtain ⟨_, hb, _⟩ := h.core.opened bid hbid
    refine ⟨h.core, by rw [hbid, hb], by have := h.created_le; omega, ?_, ?_, fun _ _ _ => rfl⟩
    · intro j h1 h2; exact h.nonempty j h1 (by omega)
    · exact Or.inr (h.openLt bid hbid)
  · have hc := h.core
    have hcr := h.created_le
    have hlt : t0.sequence + (st.created + 1) < 2 ^ 64 := by omega
    have hnext : st.b.nextID = blockIDAt t0 (st.created + 1) := by
      unfold Table.nextID blockIDAt
      rw [hc.seq, Nat.mod_eq_of_lt (by omega)]
      rfl
    have hnotdone : blockIDAt t0 (st.created + 1) ∉ done.map Prod.fst := by
      intro hx
      exact (hc.done_allocated hready hx).ne_blockIDAt _ (by omega) hlt rfl
    have hnotblock : ∀ j, 1 ≤ j → j ≤ st.created →
        blockIDAt t0 (st.created + 1) ≠ blockIDAt t0 j := by
      intro j _ hj heq
      have := blockIDAt_inj hlt (by omega) heq
      omega
    have hold : ∀ c, st.b.cell c (blockIDAt t0 (st.created + 1)) = none := by
      intro c
      rw [hc.cells c _ hnotdone hnotblock]
      exact hready.cell_blockIDAt c _ (by omega) hlt
    have hmem0 : membersOf done (st.created + 1) = [] :=
      membersOf_of_lt (fun x hx => by have := (hc.doneRows x hx).2.2.2.1; omega)
    have hcell : ∀ c x, x ≠ blockIDAt t0 (st.created + 1) →
        (openT st.b set (keys st.created) kc).cell c x = st.b.cell c x := by
      intro c x hx
      rw [cell_openT, hnext, if_neg hx]
    have hidxss : ∀ e, e ∈ (openT st.b set (keys st.created) kc).index .idx_source_state ↔
        e ∈ st.b.index .idx_source_state := by
      intro e; rw [mem_index_openT]; simp
    refine ⟨⟨?_, hlt, openT_sorted _ _ _ _ hc.sorted, ?_, ?_, ?_, ?_, ?_, hc.doneNodup,
      hc.grouped, ?_, ?_, ?_, hc.minimal, hc.ordered,
      (appendT_root _ _ _ _).trans hc.root⟩, by rw [hnext], by simp only []; omega, ?_,
      Or.inl hmem0, hcell⟩
    · show (openT st.b set (keys st.created) kc).sequence = t0.sequence + (st.created + 1)
      rw [openT_sequence, hc.seq, Nat.mod_eq_of_lt (by omega)]
      omega
    · intro e he hp
      exact hc.listed e ((hidxss e).mp he) hp
    · intro e he hp hd
      exact (hidxss e).mpr (hc.relisted e he hp hd)
    · intro c x hx hj
      have hxne : x ≠ blockIDAt t0 (st.created + 1) := hj _ (by omega) (le_refl _)
      show (openT st.b set (keys st.created) kc).cell c x = t0.cell c x
      rw [hcell c x hxne]
      exact hc.cells c x hx (fun j h1 h2 => hj j h1 (by simp only []; omega))
    · intro i e hx hj
      have hene : idOf e ≠ blockIDAt t0 (st.created + 1) := hj _ (by omega) (le_refl _)
      show e ∈ (openT st.b set (keys st.created) kc).index i ↔ e ∈ t0.index i
      rw [mem_index_openT, hnext]
      have h8 : (blockIDAt t0 (st.created + 1)).length = 8 := rfl
      constructor
      · rintro (⟨_, rfl⟩ | ⟨_, rfl⟩ | he)
        · exact absurd (idOf_append _ _ h8) hene
        · exact absurd (idOf_append _ _ h8) hene
        · exact (hc.idx i e hx (fun j h1 h2 => hj j h1 (by simp only []; omega))).mp he
      · intro he
        exact Or.inr (Or.inr
          ((hc.idx i e hx (fun j h1 h2 => hj j h1 (by simp only []; omega))).mpr he))
    · intro x hx
      obtain ⟨h1, h2, h3, h4, h5, h6, h7⟩ := hc.doneRows x hx
      have hxne : x.1 ≠ blockIDAt t0 (st.created + 1) := by
        intro heq
        exact hnotdone (heq ▸ List.mem_map_of_mem Prod.fst hx)
      refine ⟨h1, h2, h3, by simp only []; omega, ?_, ?_, ?_⟩
      · show (openT st.b set (keys st.created) kc).cell .state x.1 = _
        rw [hcell _ _ hxne]; exact h5
      · show (openT st.b set (keys st.created) kc).cell .destination_object x.1 = _
        rw [hcell _ _ hxne]; exact h6
      · intro c hc1 hc2
        show (openT st.b set (keys st.created) kc).cell c x.1 = _
        rw [hcell _ _ hxne]; exact h7 c hc1 hc2
    · intro j h1 h2
      simp only [] at h2
      show (openT st.b set (keys st.created) kc).isDestination _ ∧
        (openT st.b set (keys st.created) kc).cell _ _ = none ∧
        (openT st.b set (keys st.created) kc).cell _ _ = none
      by_cases hj : j = st.created + 1
      · subst hj
        unfold Table.isDestination
        rw [cell_openT, cell_openT, cell_openT, hnext]
        simp only [if_true]
        exact ⟨trivial, hold _, hold _⟩
      · have hne : blockIDAt t0 j ≠ blockIDAt t0 (st.created + 1) := by
          intro heq
          exact hj (blockIDAt_inj (by omega) hlt heq)
        unfold Table.isDestination
        rw [hcell _ _ hne, hcell _ _ hne, hcell _ _ hne]
        exact hc.blocks j h1 (by omega)
    · intro j h1 h2
      simp only [] at h2
      have hj : j ≤ st.created := by
        rcases h2 with h2 | ⟨_, h2⟩
        · omega
        · cases h2
      have hne : blockIDAt t0 j ≠ blockIDAt t0 (st.created + 1) := by
        intro heq
        have := blockIDAt_inj (by omega) hlt heq
        omega
      show (openT st.b set (keys st.created) kc).cell .size _ = _ ∧ _
      rw [hcell _ _ hne]
      refine hc.closed j h1 ?_
      rcases Nat.lt_or_ge j st.created with h | h
      · exact Or.inl h
      · exact Or.inr ⟨by omega, hnone⟩
    · intro bid hbid
      simp only [Option.some.injEq] at hbid
      subst hbid
      refine ⟨by simp only []; omega, hnext, ⟨_, rfl⟩, ?_, ?_⟩
      · show (0 : Int) = wrap64 (sizeSum t0 set (membersOf done (st.created + 1)))
        rw [hmem0]
        rfl
      · show (openT st.b set (keys st.created) kc).cell .size st.b.nextID = none
        rw [cell_openT, if_pos rfl]
        simp only []
        rw [hnext]; exact hold _
    · intro j h1 h2
      simp only [] at h2
      exact h.nonempty j h1 (by omega)

/-! ### Planning: the invariant through the assignment of a source to the open block -/

theorem eq_encNew_append {e : Bytes} (hp : HasPrefix e encNew = true) (hl : e.length = 10) :
    e = encNew ++ idOf e := by
  unfold HasPrefix at hp
  obtain ⟨t, rfl⟩ := List.isPrefixOf_iff_prefix.mp hp
  have ht : t.length = 8 := by
    rw [List.length_append] at hl
    have : encNew.length = 2 := rfl
    omega
  rw [idOf_append _ _ ht]

theorem hasPrefix_encInSync (id : Bytes) : HasPrefix (encInSync ++ id) encNew = false := by
  unfold HasPrefix encInSync encNew
  simp [Uint16tol, StateInSync, StateNew, List.isPrefixOf]

theorem hasPrefix_encNew (id : Bytes) : HasPrefix (encNew ++ id) encNew = true := by
  unfold HasPrefix
  exact List.isPrefixOf_iff_prefix.mpr (List.prefix_append _ _)

theorem PlanReady.listed {t : Table} (h : PlanReady t) {id : Bytes}
    (he : encNew ++ id ∈ t.index .idx_source_state) :
    id.length = 8 ∧ t.cell .state id = some encNew ∧ Allocated t.sequence id := by
  obtain ⟨hl, hc⟩ := h.2.1 _ he (hasPrefix_encNew id)
  have h8 : id.length = 8 := by
    rw [List.length_append] at hl
    have : encNew.length = 2 := rfl
    omega
  rw [idOf_append _ _ h8] at hc
  exact ⟨h8, hc, h.allocated (c := .state) (by rw [hc]; simp)⟩

theorem mem_index_assignT_of_ne (b : Table) (id : Bytes) (oldState : Nat)
    (oldDest : Option Bytes) (bid : Bytes) (hs : Uint16tol oldState = encNew)
    (hd : bytesEqual (some bid) oldDest = false) (h8 : id.length = 8) (i : Idx) (e : Bytes)
    (hne : idOf e ≠ id) :
    e ∈ (assignT b id oldState oldDest (some bid)).index i ↔ e ∈ b.index i := by
  rw [mem_index_assignT b id oldState oldDest bid hs hd]
  have h1 : ∀ v : Bytes, e ≠ v ++ id := by
    intro v heq
    exact hne (heq ▸ idOf_append v id h8)
  constructor
  · rintro (⟨_, h | ⟨_, h⟩⟩ | ⟨_, h | ⟨_, h⟩⟩ | ⟨_, _, h⟩)
    · exact absurd h (h1 _)
    · exact h
    · exact absurd h (h1 _)
    · exact h
    · exact h
  · intro h
    by_cases hi : i = .idx_source_state
    · exact Or.inl ⟨hi, Or.inr ⟨h1 _, h⟩⟩
    · by_cases hi2 : i = .idx_destination
      · exact Or.inr (Or.inl ⟨hi2, Or.inr ⟨h1 _, h⟩⟩)
      · exact Or.inr (Or.inr ⟨hi, hi2, h⟩)

theorem membersOf_append (done : List (Bytes × Nat)) (x : Bytes × Nat) (j : Nat) :
    membersOf (done ++ [x]) j = membersOf done j ++ (if x.2 = j then [x] else []) := by
  unfold membersOf
  rw [List.filter_append]
  by_cases h : x.2 = j <;> simp [List.filter, h]

theorem sizeSum_append (t0 : Table) (set : ObjectSet) (l1 l2 : List (Bytes × Nat)) :
    sizeSum t0 set (l1 ++ l2) = sizeSum t0 set l1 + sizeSum t0 set l2 := by
  unfold sizeSum
  rw [List.map_append, List.sum_append]

theorem sizeSum_singleton (t0 : Table) (set : ObjectSet) (x : Bytes × Nat) :
    sizeSum t0 set [x] = t0.sizeOf x.1 + ((StringValue set.Delimiter).length : Int) := by
  simp [sizeSum]

theorem wrap64_wrap64_add (a b : Int) : wrap64 (wrap64 a + b) = wrap64 (a + b) := by
  rw [add_comm, wrap64_add_wrap64, add_comm]

/-- Assigning a fresh NEW source `id` to the open block keeps the invariant, with `id`
appended to the processed list. -/
theorem PlanCore.assign {t0 : Table} {set : ObjectSet} {done : List (Bytes × Nat)}
    {st1 : PlanState} {id : Bytes} {oldState : Nat} {size : Option Int}
    (h : PlanCore t0 set done st1) (hready : PlanReady t0)
    (hbid : st1.blockID = some (blockIDAt t0 st1.created))
    (hlisted : encNew ++ id ∈ t0.index .idx_source_state) (hfresh : id ∉ done.map Prod.fst)
    (hsource : t0.isSource id) (hafter : ∀ x ∈ done, bytesLt x.1 id = true)
    (hs : Uint16tol oldState = encNew) (hsize : Int64Value size = t0.sizeOf id)
    (hmin : membersOf done st1.created = [] ∨ st1.n < set.BlockSize) (n2 : Int)
    (hn2 : n2 = wrap64 (st1.n + (Int64Value size + ((StringValue set.Delimiter).length : Int)))) :
    PlanCore t0 set (done ++ [(id, st1.created)])
      { st1 with
        b := assignT st1.b id oldState (t0.cell .destination_object id) st1.blockID
        n := n2 } := by
  obtain ⟨h8, hstate, halloc⟩ := hready.listed hlisted
  obtain ⟨hcr, _, hblock, hn, hsz⟩ := h.opened _ hbid
  have hidne : ∀ j, 1 ≤ j → j ≤ st1.created → id ≠ blockIDAt t0 j := by
    intro j h1 h2
    exact halloc.ne_blockIDAt j h1 (by have := h.room; omega)
  have hd : bytesEqual (some (blockIDAt t0 st1.created)) (t0.cell .destination_object id) =
      false := by
    cases hv : t0.cell .destination_object id with
    | none => rfl
    | some d =>
      have hdal : Allocated t0.sequence d := hready.2.2.2.2.1 (id, d) (Table.cell_mem hv)
      have := hdal.ne_blockIDAt st1.created hcr h.room
      exact bytesEqual_eq_false (fun heq => this heq.symm)
  rw [hbid]
  have hcell := cell_assignT st1.b id oldState (t0.cell .destination_object id)
    (blockIDAt t0 st1.created) hs hd
  have hcell_ne : ∀ c x, x ≠ id →
      (assignT st1.b id oldState (t0.cell .destination_object id)
        (some (blockIDAt t0 st1.created))).cell c x = st1.b.cell c x := by
    intro c x hx
    rw [hcell, if_neg (fun hh => hx hh.1), if_neg (fun hh => hx hh.1)]
  have hidx := mem_index_assignT_of_ne st1.b id oldState (t0.cell .destination_object id)
    (blockIDAt t0 st1.created) hs hd h8
  have hmap : (done ++ [(id, st1.created)]).map Prod.fst = done.map Prod.fst ++ [id] := by
    simp
  have hnot : ∀ x, x ∉ (done ++ [(id, st1.created)]).map Prod.fst →
      x ∉ done.map Prod.fst ∧ x ≠ id := by
    intro x hx
    rw [hmap, List.mem_append, List.mem_singleton] at hx
    exact ⟨fun hh => hx (Or.inl hh), fun hh => hx (Or.inr hh)⟩
  have hmem : ∀ j, j ≠ st1.created →
      membersOf (done ++ [(id, st1.created)]) j = membersOf done j := by
    intro j hj
    rw [membersOf_append, if_neg (fun hh => hj hh.symm), List.append_nil]
  refine ⟨?_, h.room, assignT_sorted _ _ _ _ _ h.sorted, ?_, ?_, ?_, ?_, ?_, ?_, ?_, ?_, ?_, ?_,
    ?_, ?_, ?_⟩
  · show (assignT _ _ _ _ _).sequence = _
    rw [assignT_sequence]; exact h.seq
  · intro e he hp
    have he' : e ∈ (assignT st1.b id oldState (t0.cell .destination_object id)
        (some (blockIDAt t0 st1.created))).index .idx_source_state := he
    rw [mem_index_assignT _ _ _ _ _ hs hd] at he'
    rcases he' with ⟨_, he' | ⟨hne, he'⟩⟩ | ⟨hi, _⟩ | ⟨hi, _⟩
    · rw [he', hasPrefix_encInSync] at hp; cases hp
    · obtain ⟨h1, h2⟩ := h.listed e he' hp
      refine ⟨h1, ?_⟩
      rw [hmap, List.mem_append, List.mem_singleton]
      rintro (hh | hh)
      · exact h2 hh
      · have hl := (hready.2.1 e h1 hp).1
        have := eq_encNew_append hp hl
        rw [hh] at this
        exact hne this
    · cases hi
    · exact absurd rfl hi
  · intro e he hp hd'
    obtain ⟨h1, h2⟩ := hnot _ hd'
    show e ∈ (assignT _ _ _ _ _).index _
    rw [hidx _ e h2]
    exact h.relisted e he hp h1
  · intro c x hx hj
    obtain ⟨h1, h2⟩ := hnot _ hx
    show (assignT _ _ _ _ _).cell c x = _
    rw [hcell_ne c x h2]
    exact h.cells c x h1 hj
  · intro i e hx hj
    obtain ⟨h1, h2⟩ := hnot _ hx
    show e ∈ (assignT _ _ _ _ _).index i ↔ _
    rw [hidx i e h2]
    exact h.idx i e h1 hj
  · intro x hx
    rw [List.mem_append, List.mem_singleton] at hx
    rcases hx with hx | rfl
    · obtain ⟨h1, h2, h3, h4, h5, h6, h7⟩ := h.doneRows x hx
      have hxne : x.1 ≠ id := fun hh => hfresh (hh ▸ List.mem_map_of_mem Prod.fst hx)
      refine ⟨h1, h2, h3, h4, ?_, ?_, ?_⟩
      · show (assignT _ _ _ _ _).cell _ _ = _
        rw [hcell_ne _ _ hxne]; exact h5
      · show (assignT _ _ _ _ _).cell _ _ = _
        rw [hcell_ne _ _ hxne]; exact h6
      · intro c hc1 hc2
        show (assignT _ _ _ _ _).cell _ _ = _
        rw [hcell_ne _ _ hxne]; exact h7 c hc1 hc2
    · refine ⟨hsource, hstate, hcr, le_refl _, ?_, ?_, ?_⟩
      · show (assignT _ _ _ _ _).cell _ _ = _
        rw [hcell, if_pos ⟨rfl, rfl⟩]
      · show (assignT _ _ _ _ _).cell _ _ = _
        rw [hcell, if_neg (by simp), if_pos ⟨rfl, rfl⟩]
      · intro c hc1 hc2
        show (assignT _ _ _ _ _).cell _ _ = _
        rw [hcell, if_neg (fun hh => hc1 hh.2), if_neg (fun hh => hc2 hh.2)]
        exact h.cells c id hfresh hidne
  · rw [hmap]
    exact List.nodup_append.mpr ⟨h.doneNodup, List.nodup_singleton _, by
      intro a ha hb
      rw [List.mem_singleton] at hb
      exact hfresh (hb ▸ ha)⟩
  · rw [List.map_append, List.pairwise_append]
    refine ⟨h.grouped, by simp, ?_⟩
    intro a ha b hb
    obtain ⟨x, hx, rfl⟩ := List.mem_map.mp ha
    simp only [List.map_cons, List.map_nil, List.mem_singleton] at hb
    rw [hb]
    exact (h.doneRows x hx).2.2.2.1
  · intro j h1 h2
    have hne : blockIDAt t0 j ≠ id := fun hh => hidne j h1 h2 hh.symm
    show (assignT _ _ _ _ _).isDestination _ ∧ (assignT _ _ _ _ _).cell _ _ = none ∧
      (assignT _ _ _ _ _).cell _ _ = none
    unfold Table.isDestination
    rw [hcell_ne _ _ hne, hcell_ne _ _ hne, hcell_ne _ _ hne]
    exact h.blocks j h1 h2
  · intro j h1 h2
    have hj : j < st1.created := by
      rcases h2 with h2 | ⟨_, h2⟩
      · exact h2
      · cases h2
    have hne : blockIDAt t0 j ≠ id := fun hh => hidne j h1 (by omega) hh.symm
    show (assignT _ _ _ _ _).cell _ _ = _ ∧ _
    rw [hcell_ne _ _ hne, hmem j (by omega)]
    exact h.closed j h1 (Or.inl hj)
  · intro bid hb
    have hb' : bid = blockIDAt t0 st1.created := (Option.some.inj hb).symm
    subst hb'
    refine ⟨hcr, rfl, hblock, ?_, ?_⟩
    · show n2 = _
      rw [hn2, membersOf_append, if_pos rfl, sizeSum_append, sizeSum_singleton, hn,
        wrap64_wrap64_add, hsize]
    · show (assignT _ _ _ _ _).cell _ _ = _
      rw [hcell_ne _ _ (fun hh => hidne _ hcr (le_refl _) hh.symm)]
      exact hsz
  · intro j m1 m2 hm hm1 hm2
    by_cases hj : j = st1.created
    · subst hj
      rw [membersOf_append, if_pos rfl] at hm
      rcases List.eq_nil_or_concat m2 with h0 | ⟨m2', y, rfl⟩
      · exact absurd h0 hm2
      · rw [List.concat_eq_append, ← List.append_assoc] at hm
        have hm' : membersOf done st1.created = m1 ++ m2' := List.append_inj_left' hm rfl
        by_cases h0 : m2' = []
        · subst h0
          rw [List.append_nil] at hm'
          rcases hmin with hmin | hmin
          · rw [hmin] at hm'; exact absurd hm'.symm hm1
          · rw [← hm', ← hn]; exact hmin
        · exact h.minimal _ m1 m2' hm' hm1 h0
    · rw [hmem j hj] at hm
      exact h.minimal j m1 m2 hm hm1 hm2
  · rw [hmap, List.pairwise_append]
    refine ⟨h.ordered, by simp, ?_⟩
    intro a ha b hb
    obtain ⟨x, hx, rfl⟩ := List.mem_map.mp ha
    rw [List.mem_singleton] at hb
    rw [hb]
    exact hafter x hx
  · show (assignT _ _ _ _ _).root = _
    unfold assignT
    rw [putValueT_root, putValueT_root]
    exact h.root

/-- Closing the open block once its running size has reached the block size keeps the
invariant. -/
theorem PlanCore.close {t0 : Table} {set : ObjectSet} {done : List (Bytes × Nat)}
    {st2 : PlanState} {bid : Bytes} (h : PlanCore t0 set done st2) (hready : PlanReady t0)
    (hbid : st2.blockID = some bid) (hfull : set.BlockSize ≤ st2.n) :
    PlanCore t0 set done
      { b := st2.b.putCell .size bid (Itol st2.n), blockID := none, block := none, n := 0,
        created := st2.created } := by
  obtain ⟨hcr, hb, _, hn, _⟩ := h.opened _ hbid
  subst hb
  have hroom := h.room
  have hcell : ∀ c x, x ≠ blockIDAt t0 st2.created →
      (st2.b.putCell .size (blockIDAt t0 st2.created) (Itol st2.n)).cell c x =
        st2.b.cell c x := by
    intro c x hx
    rw [Table.cell_putCell, if_neg (fun hh => hx hh.2)]
  have hcol : ∀ c x, c ≠ .size →
      (st2.b.putCell .size (blockIDAt t0 st2.created) (Itol st2.n)).cell c x =
        st2.b.cell c x := by
    intro c x hx
    rw [Table.cell_putCell, if_neg (fun hh => hx hh.1)]
  refine ⟨h.seq, h.room, Table.Sorted_putCell _ _ _ _ h.sorted, h.listed, h.relisted, ?_, h.idx,
    ?_, h.doneNodup, h.grouped, ?_, ?_, ?_, h.minimal, h.ordered, h.root⟩
  · intro c x hx hj
    show (st2.b.putCell _ _ _).cell c x = _
    rw [hcell c x (hj _ hcr (le_refl _))]
    exact h.cells c x hx hj
  · intro x hx
    obtain ⟨h1, h2, h3, h4, h5, h6, h7⟩ := h.doneRows x hx
    have hxne : x.1 ≠ blockIDAt t0 st2.created :=
      (h.done_allocated hready (List.mem_map_of_mem Prod.fst hx)).ne_blockIDAt _ hcr hroom
    refine ⟨h1, h2, h3, h4, ?_, ?_, ?_⟩
    · show (st2.b.putCell _ _ _).cell _ _ = _
      rw [hcell _ _ hxne]; exact h5
    · show (st2.b.putCell _ _ _).cell _ _ = _
      rw [hcell _ _ hxne]; exact h6
    · intro c hc1 hc2
      show (st2.b.putCell _ _ _).cell _ _ = _
      rw [hcell _ _ hxne]; exact h7 c hc1 hc2
  · intro j h1 h2
    show (st2.b.putCell _ _ _).isDestination _ ∧ (st2.b.putCell _ _ _).cell _ _ = none ∧
      (st2.b.putCell _ _ _).cell _ _ = none
    unfold Table.isDestination
    rw [hcol _ _ (by simp), hcol _ _ (by simp), hcol _ _ (by simp)]
    exact h.blocks j h1 h2
  · intro j h1 h2
    show (st2.b.putCell _ _ _).cell _ _ = _ ∧ _
    by_cases hj : j = st2.created
    · subst hj
      rw [Table.cell_putCell, if_pos ⟨rfl, rfl⟩, hn, Itol_wrap64]
      exact ⟨rfl, hn ▸ hfull⟩
    · have hlt : j < st2.created := by
        rcases h2 with h2 | ⟨h2, _⟩
        · exact h2
        · exact absurd h2 hj
      have hne : blockIDAt t0 j ≠ blockIDAt t0 st2.created :=
        fun hh => hj (blockIDAt_inj (by omega) hroom hh)
      rw [hcell _ _ hne]
      exact h.closed j h1 (Or.inl hlt)
  · intro bid hb
    cases hb

/-! ### Planning: one source -/

/-- What `LookupSourceRow` reads for a listed NEW source that has not been processed yet:
the cells of the row as they were before the pass. -/
theorem PlanCore.source_facts {t0 : Table} {set : ObjectSet} {done : List (Bytes × Nat)}
    {st : PlanState} {id : Bytes} {source : SourceObject} (h : PlanCore t0 set done st)
    (hready : PlanReady t0) (hlisted : encNew ++ id ∈ t0.index .idx_source_state)
    (hfresh : id ∉ done.map Prod.fst) (hsrc : LookupSourceRow st.b id set = .ok source) :
    Uint16tol source.State = encNew ∧
      source.DestinationObjectID = t0.cell .destination_object id ∧
      Int64Value source.Size = t0.sizeOf id ∧ t0.isSource id := by
  obtain ⟨h8, hstate, halloc⟩ := hready.listed hlisted
  have hcells : ∀ c, st.b.cell c id = t0.cell c id := fun c =>
    h.cells c id hfresh (fun j h1 h2 => halloc.ne_blockIDAt j h1 (by have := h.room; omega))
  obtain ⟨_, hd, hsource, _, hst, hsz⟩ := LookupSourceRow_ok hsrc
  rw [hcells] at hd
  unfold Table.isSource at hsource ⊢
  rw [hcells] at hsource hst hsz
  refine ⟨?_, hd, ?_, hsource⟩
  · rw [hstate] at hst
    simp only [] at hst
    have h1 : Ltouint16 encNew = .ok StateNew := rfl
    rw [h1] at hst
    rw [← Except.ok.inj hst]
    rfl
  · unfold Table.sizeOf
    cases hv : t0.cell .size id with
    | none =>
      rw [hv] at hsz
      simp only [] at hsz
      rw [hsz]; rfl
    | some v =>
      rw [hv] at hsz
      simp only [] at hsz
      obtain ⟨n, hn, hsn⟩ := hsz
      rw [hsn]
      simp only [hn]
      rfl

/-- The invariant through one source: a listed NEW source that has not been processed is
assigned to the open block, or to a new block when none is open. -/
theorem PlanInv.planStep {t0 : Table} {set : ObjectSet} {keys : Nat → Bytes}
    {done : List (Bytes × Nat)} {st st' : PlanState} {id : Bytes}
    (h : PlanInv t0 set done st) (hready : PlanReady t0)
    (hroom : t0.sequence + (done.length + 1) < 2 ^ 64)
    (hlisted : encNew ++ id ∈ t0.index .idx_source_state)
    (hfresh : id ∉ done.map Prod.fst) (hafter : ∀ x ∈ done, bytesLt x.1 id = true)
    (hs : planStep set keys st id = .ok st') :
    ∃ j, PlanInv t0 set (done ++ [(id, j)]) st' := by
  obtain ⟨source, st1, hsrc, hopen, hfull, hnot⟩ := planStep_ok hs
  obtain ⟨hst, hdest, hsize, hsource⟩ := h.core.source_facts hready hlisted hfresh hsrc
  obtain ⟨hc1, hbid, hcr, hne, hmin, _⟩ := h.openBlock hready hroom hopen
  have hc2 := hc1.assign hready hbid hlisted hfresh hsource hafter hst hsize hmin
    (runningSize set st1.n source) (runningSize_eq set st1.n source)
  rw [← hdest] at hc2
  have hnonempty : ∀ j, 1 ≤ j → j ≤ st1.created →
      membersOf (done ++ [(id, st1.created)]) j ≠ [] := by
    intro j h1 h2
    rw [membersOf_append]
    by_cases hj : j = st1.created
    · subst hj; simp
    · have := hne j h1 (by omega)
      simp [this]
  refine ⟨st1.created, ?_⟩
  by_cases hf : set.BlockSize ≤ runningSize set st1.n source
  · obtain ⟨b3, hb3, rfl⟩ := hfull hf
    obtain ⟨_, _, ⟨key, hblock⟩, _, _⟩ := hc1.opened _ hbid
    rw [hblock, hbid] at hb3
    have hb3' := flushDestination_ok rfl hb3
    rw [hbid] at hc2
    have hc3 := hc2.close hready rfl hf
    subst hb3'
    exact ⟨hc3, by simp only [List.length_append, List.length_singleton]; exact hcr,
      hnonempty, fun bid hb => by cases hb⟩
  · rw [hnot hf]
    exact ⟨hc2, by simp only [List.length_append, List.length_singleton]; exact hcr,
      hnonempty, fun bid _ => by simpa using hf⟩

/-! ### Planning: the NEW sources listed in the state index -/

theorem bytesLt_append_left : ∀ (p a b : Bytes), bytesLt (p ++ a) (p ++ b) = bytesLt a b
  | [], _, _ => rfl
  | x :: p, a, b => by
    simp [bytesLt, bytesLt_append_left p a b]

theorem mem_newIDs {t : Table} {id : Bytes} :
    id ∈ t.newIDs ↔ ∃ e, e ∈ t.index .idx_source_state ∧ HasPrefix e encNew = true ∧
      idOf e = id := by
  unfold Table.newIDs Table.index KV.keys KV.matching
  simp only [List.mem_map, List.mem_filter]
  constructor
  · rintro ⟨e, ⟨he, hp⟩, rfl⟩
    exact ⟨e.1, ⟨e, he, rfl⟩, hp, rfl⟩
  · rintro ⟨_, ⟨e, he, rfl⟩, hp, rfl⟩
    exact ⟨e, ⟨he, hp⟩, rfl⟩

theorem newIDs_pairwise {t : Table} (hs : t.Sorted)
    (hl : ∀ e, e ∈ t.index .idx_source_state → HasPrefix e encNew = true → e.length = 10) :
    t.newIDs.Pairwise fun a b => bytesLt a b = true := by
  unfold Table.newIDs
  rw [List.pairwise_map]
  have h1 : (KV.matching (t.idxs .idx_source_state) encNew).Pairwise
      fun a b => bytesLt a.1 b.1 = true :=
    List.Pairwise.sublist (List.filter_sublist _) (hs.2 .idx_source_state)
  refine List.Pairwise.imp_of_mem ?_ h1
  intro a b ha hb hab
  unfold KV.matching at ha hb
  rw [List.mem_filter] at ha hb
  have hla := hl a.1 (List.mem_map_of_mem Prod.fst ha.1) ha.2
  have hlb := hl b.1 (List.mem_map_of_mem Prod.fst hb.1) hb.2
  rw [eq_encNew_append ha.2 hla, eq_encNew_append hb.2 hlb, bytesLt_append_left] at hab
  exact hab

theorem PlanCore.done_listed {t0 : Table} {set : ObjectSet} {done : List (Bytes × Nat)}
    {st : PlanState} (h : PlanCore t0 set done st) (hready : PlanReady t0) {x : Bytes × Nat}
    (hx : x ∈ done) : encNew ++ x.1 ∈ t0.index .idx_source_state := by
  obtain ⟨h1, h2, _⟩ := h.doneRows x hx
  exact hready.2.2.1 (x.1, encNew) (Table.cell_mem h2) rfl h1

theorem mem_newIDs_of_listed {t : Table} (hready : PlanReady t) {id : Bytes}
    (h : encNew ++ id ∈ t.index .idx_source_state) : id ∈ t.newIDs :=
  mem_newIDs.mpr ⟨_, h, hasPrefix_encNew id, idOf_append _ _ (hready.listed h).1⟩

/-- The sequence has room for one more block while a listed NEW source is unprocessed. -/
theorem PlanCore.room_of_fresh {t0 : Table} {set : ObjectSet} {done : List (Bytes × Nat)}
    {st : PlanState} (h : PlanCore t0 set done st) (hready : PlanReady t0) {id : Bytes}
    (hlisted : encNew ++ id ∈ t0.index .idx_source_state) (hfresh : id ∉ done.map Prod.fst) :
    t0.sequence + (done.length + 1) < 2 ^ 64 := by
  have hnd : (id :: done.map Prod.fst).Nodup := List.nodup_cons.mpr ⟨hfresh, h.doneNodup⟩
  have hsub : id :: done.map Prod.fst ⊆ t0.newIDs := by
    intro y hy
    rcases List.mem_cons.mp hy with rfl | hy
    · exact mem_newIDs_of_listed hready hlisted
    · obtain ⟨x, hx, rfl⟩ := List.mem_map.mp hy
      exact mem_newIDs_of_listed hready (h.done_listed hready hx)
  have hle := (List.subperm_of_subset hnd hsub).length_le
  simp only [List.length_cons, List.length_map] at hle
  have := hready.2.2.2.2.2
  omega

/-- The invariant through the sources of a page, taken in the order of their ids. -/
theorem PlanInv.fold {t0 : Table} {set : ObjectSet} {keys : Nat → Bytes}
    (hready : PlanReady t0) : ∀ (l : List Bytes) (done : List (Bytes × Nat))
    (st st' : PlanState), PlanInv t0 set done st →
    (∀ id ∈ l, encNew ++ id ∈ t0.index .idx_source_state) →
    (∀ id ∈ l, id ∉ done.map Prod.fst) →
    (l.Pairwise fun a b => bytesLt a b = true) →
    (∀ x ∈ done, ∀ id ∈ l, bytesLt x.1 id = true) →
    l.foldlM (S3fc.planStep set keys) st = .ok st' →
    ∃ done', PlanInv t0 set done' st' ∧ done'.map Prod.fst = done.map Prod.fst ++ l
  | [], done, st, st', h, _, _, _, _, hf => by
    simp only [List.foldlM, pure, Except.pure] at hf
    exact ⟨done, Except.ok.inj hf ▸ h, by simp⟩
  | id :: l, done, st, st', h, hlisted, hfresh, hpw, hafter, hf => by
    simp only [List.foldlM, bind, Except.bind] at hf
    cases h1 : S3fc.planStep set keys st id with
    | error e => simp [h1] at hf
    | ok st1 =>
      simp only [h1] at hf
      have hl0 := hlisted id (List.mem_cons_self _ _)
      have hf0 := hfresh id (List.mem_cons_self _ _)
      obtain ⟨j, hinv⟩ := h.planStep hready (h.core.room_of_fresh hready hl0 hf0) hl0 hf0
        (fun x hx => hafter x hx id (List.mem_cons_self _ _)) h1
      rw [List.pairwise_cons] at hpw
      obtain ⟨done', hd, hmap⟩ := PlanInv.fold hready l (done ++ [(id, j)]) st1 st' hinv
        (fun y hy => hlisted y (List.mem_cons_of_mem _ hy))
        (by
          intro y hy hmem
          simp only [List.map_append, List.map_cons, List.map_nil, List.mem_append,
            List.mem_singleton] at hmem
          rcases hmem with hmem | hmem
          · exact hfresh y (List.mem_cons_of_mem _ hy) hmem
          · exact bytesLt_ne _ _ (hpw.1 y hy) hmem.symm)
        hpw.2
        (by
          intro x hx y hy
          rw [List.mem_append, List.mem_singleton] at hx
          rcases hx with hx | rfl
          · exact hafter x hx y (List.mem_cons_of_mem _ hy)
          · exact hpw.1 y hy)
        hf
      exact ⟨done', hd, by rw [hmap]; simp⟩

/-! ### Planning: the end of the pass -/

/-- When no NEW source is listed any more, the invariant gives the outcome of the pass for a
table `t` that differs from the state at most by the size cell of the open block. -/
theorem PlanInv.finish {t0 : Table} {set : ObjectSet} {done : List (Bytes × Nat)}
    {st : PlanState} (h : PlanInv t0 set done st) (hready : PlanReady t0)
    (hall : ∀ e, e ∈ t0.index .idx_source_state → HasPrefix e encNew = true →
      idOf e ∈ done.map Prod.fst)
    (t : Table) (hidx : ∀ i, t.index i = st.b.index i) (hseq : t.sequence = st.b.sequence)
    (hroot : t.root = st.b.root) (hsorted : t.Sorted)
    (hcell : ∀ c x, (c ≠ .size ∨ x ≠ blockIDAt t0 st.created ∨ st.blockID = none) →
      t.cell c x = st.b.cell c x)
    (hsize : ∀ bid, st.blockID = some bid → t.cell .size bid = some (Itol st.n)) :
    PlanDone t0 set done st.created t := by
  have hc := h.core
  have hroom := hc.room
  have hdone_ne : ∀ x ∈ done, ∀ j, 1 ≤ j → j ≤ st.created → x.1 ≠ blockIDAt t0 j := by
    intro x hx j h1 h2
    exact (hc.done_allocated hready (List.mem_map_of_mem Prod.fst hx)).ne_blockIDAt j h1
      (by omega)
  refine ⟨by rw [hseq]; exact hc.seq, hroom, hsorted, ?_, ?_, ?_, ?_, ?_, hc.doneNodup,
    hc.ordered, ?_, ?_, hc.minimal, hroot.trans hc.root⟩
  · intro e he
    cases hp : HasPrefix e encNew with
    | false => rfl
    | true =>
      rw [hidx] at he
      obtain ⟨h1, h2⟩ := hc.listed e he hp
      exact absurd (hall e h1 hp) h2
  · intro c x hx hj
    by_cases hcr : 1 ≤ st.created
    · rw [hcell c x (Or.inr (Or.inl (hj _ hcr (le_refl _))))]
      exact hc.cells c x hx hj
    · have hnone : st.blockID = none := by
        cases hb : st.blockID with
        | none => rfl
        | some bid => exact absurd (hc.opened bid hb).1 hcr
      rw [hcell c x (Or.inr (Or.inr hnone))]
      exact hc.cells c x hx hj
  · intro i e hx hj
    rw [hidx]
    exact hc.idx i e hx hj
  · intro x hs hst
    have hl := hready.2.2.1 (x, encNew) (Table.cell_mem hst) rfl hs
    have := hall _ hl (hasPrefix_encNew x)
    rwa [idOf_append _ _ (hready.listed hl).1] at this
  · intro x hx
    obtain ⟨h1, h2, h3, h4, h5, h6, h7⟩ := hc.doneRows x hx
    have hne := hdone_ne x hx st.created (by omega) (le_refl _)
    refine ⟨h1, h2, h3, h4, ?_, ?_, ?_⟩
    · rw [hcell _ _ (Or.inr (Or.inl hne))]; exact h5
    · rw [hcell _ _ (Or.inr (Or.inl hne))]; exact h6
    · intro c hc1 hc2
      rw [hcell _ _ (Or.inr (Or.inl hne))]; exact h7 c hc1 hc2
  · intro j h1 h2
    obtain ⟨hb1, hb2, hb3⟩ := hc.blocks j h1 h2
    unfold Table.isDestination at hb1 ⊢
    rw [hcell _ _ (Or.inl (by simp)), hcell _ _ (Or.inl (by simp)),
      hcell _ _ (Or.inl (by simp))]
    refine ⟨hb1, hb2, hb3, ?_, h.nonempty j h1 h2⟩
    by_cases hj : j = st.created
    · subst hj
      cases hb : st.blockID with
      | none =>
        rw [hcell _ _ (Or.inr (Or.inr hb))]
        exact (hc.closed _ h1 (Or.inr ⟨rfl, hb⟩)).1
      | some bid =>
        obtain ⟨_, hbid, _, hn, _⟩ := hc.opened bid hb
        rw [← hbid, hsize bid hb, hn, Itol_wrap64]
    · have hne : blockIDAt t0 j ≠ blockIDAt t0 st.created :=
        fun hh => hj (blockIDAt_inj (by omega) hroom hh)
      rw [hcell _ _ (Or.inr (Or.inl hne))]
      exact (hc.closed j h1 (Or.inl (by omega))).1
  · intro j h1 h2
    exact (hc.closed j h1 (Or.inl h2)).2

/-- The invariant holds before the first page. -/
theorem PlanPage.start (t0 : Table) (set : ObjectSet) (hready : PlanReady t0) :
    PlanPage t0 set [] { b := t0 } := by
  refine ⟨⟨⟨rfl, ?_, hready.1, ?_, ?_, ?_, ?_, ?_, List.nodup_nil, List.Pairwise.nil, ?_, ?_,
    ?_, ?_, List.Pairwise.nil, rfl⟩, le_refl _, ?_, ?_⟩, ?_⟩
  · have := hready.2.2.2.2.2
    show t0.sequence + 0 < 2 ^ 64
    omega
  · intro e he _
    exact ⟨he, by simp⟩
  · intro e he _ _
    exact he
  · intro c x _ _
    rfl
  · intro i e _ _
    exact Iff.rfl
  · intro x hx
    cases hx
  · intro j h1 h2
    exact absurd h2 (by show ¬ j ≤ 0; omega)
  · intro j h1 h2
    rcases h2 with h2 | ⟨h2, _⟩
    · exact absurd h2 (by show ¬ j < 0; omega)
    · exact absurd h2 (by show ¬ j = 0; omega)
  · intro bid hb
    cases hb
  · intro j m1 m2 hm hm1 _
    have : m1 = [] := by
      have h0 : membersOf [] j = [] := rfl
      rw [h0] at hm
      exact (List.append_eq_nil.mp hm.symm).1
    exact absurd this hm1
  · intro j h1 h2
    exact absurd h2 (by show ¬ j ≤ 0; omega)
  · intro bid hb
    cases hb
  · intro e _ _ _ x hx
    cases hx

/-! ### Planning: pages and the whole pass -/

/-- A successful `planPage`: the sources of the page are processed in order, and the open block
is flushed after a short page. -/
theorem planPage_ok {set : ObjectSet} {keys : Nat → Bytes} {limit : Int} {st st1 : PlanState}
    {ids : List Bytes} (h : planPage set keys limit st ids = .ok st1) :
    ∃ st2, ids.foldlM (planStep set keys) st = .ok st2 ∧
      ((∃ bid b2, st2.blockID = some bid ∧ (ids.length : Int) < limit ∧
          flushDestination st2.b bid st2.block st2.n = .ok b2 ∧ st1 = { st2 with b := b2 }) ∨
        ((st2.blockID = none ∨ ¬ (ids.length : Int) < limit) ∧ st1 = st2)) := by
  unfold planPage at h
  split at h
  · cases h
  · rename_i st2 hfold
    refine ⟨st2, hfold, ?_⟩
    split at h
    · rename_i bid hb
      split at h
      · rename_i hlt
        cases hfl : flushDestination st2.b bid st2.block st2.n with
        | error e => rw [hfl] at h; cases h
        | ok b2 =>
          rw [hfl] at h
          exact Or.inl ⟨bid, b2, hb, hlt, hfl, (Except.ok.inj h).symm⟩
      · rename_i hlt
        exact Or.inr ⟨Or.inr hlt, (Except.ok.inj h).symm⟩
    · rename_i hb
      exact Or.inr ⟨Or.inl hb, (Except.ok.inj h).symm⟩

/-- The query of a page returns the first ids of the NEW sources still listed. -/
theorem PlanCore.query {t0 : Table} {set : ObjectSet} {done : List (Bytes × Nat)}
    {st : PlanState} (h : PlanCore t0 set done st) (hready : PlanReady t0) (limit : Int)
    (hl : 0 < limit) (hcap : limit ≤ maxSliceCap) :
    PrefixQuery st.b .idx_source_state (Uint16tol StateNew) limit none =
      .ok (st.b.newIDs.take limit.toNat) := by
  refine PrefixQuery_eq st.b .idx_source_state (Uint16tol StateNew) limit hl hcap
    (h.sorted.2 .idx_source_state) ?_
  intro e he hp
  have he' : e.1 ∈ st.b.index .idx_source_state := List.mem_map_of_mem Prod.fst he
  have := (hready.2.1 e.1 (h.listed e.1 he' hp).1 hp).1
  unfold idSize
  omega

/-- A successful pass on a table that is ready for planning ends in the outcome described by
`PlanDone`. -/
theorem planLoop_done {t0 : Table} {set : ObjectSet} {keys : Nat → Bytes}
    (hready : PlanReady t0) (limit : Int) (hl : 0 < limit) (hcap : limit ≤ maxSliceCap) :
    ∀ (fuel : Nat) (done : List (Bytes × Nat)) (st : PlanState) (t : Table),
      PlanPage t0 set done st → planLoop set keys limit fuel st = some (t, none) →
      ∃ done1 cr, PlanDone t0 set done1 cr t := by
  intro fuel
  induction fuel with
  | zero => intro done st t _ h; cases h
  | succ fuel ih =>
    intro done st t hpage h
    have hc := hpage.inv.core
    simp only [planLoop] at h
    rw [hc.query hready limit hl hcap] at h
    simp only [] at h
    split at h
    · cases h
    · rename_i st1 hp
      obtain ⟨st2, hfold, hshape⟩ := planPage_ok hp
      have hmemL : ∀ id, id ∈ st.b.newIDs →
          encNew ++ id ∈ t0.index .idx_source_state ∧ id ∉ done.map Prod.fst := by
        intro id hid
        obtain ⟨e, he, hpfx, rfl⟩ := mem_newIDs.mp hid
        obtain ⟨h1, h2⟩ := hc.listed e he hpfx
        have := eq_encNew_append hpfx (hready.2.1 e h1 hpfx).1
        exact ⟨this ▸ h1, h2⟩
      have hLpw : st.b.newIDs.Pairwise fun a b => bytesLt a b = true :=
        newIDs_pairwise hc.sorted
          (fun e he hpfx => (hready.2.1 e (hc.listed e he hpfx).1 hpfx).1)
      have htake : ∀ id, id ∈ st.b.newIDs.take limit.toNat → id ∈ st.b.newIDs :=
        fun id hid => List.mem_of_mem_take hid
      obtain ⟨done1, hinv1, hmap1⟩ := hpage.inv.fold hready _ done st st2
        (fun id hid => (hmemL id (htake id hid)).1)
        (fun id hid => (hmemL id (htake id hid)).2)
        (List.Pairwise.sublist (List.take_sublist _ _) hLpw)
        (by
          intro x hx id hid
          have := hpage.lower _ (hmemL id (htake id hid)).1 (hasPrefix_encNew id)
          rw [idOf_append _ _ (hready.listed (hmemL id (htake id hid)).1).1] at this
          exact this (hmemL id (htake id hid)).2 x hx)
        hfold
      have hrel : ∀ e, e ∈ t0.index .idx_source_state → HasPrefix e encNew = true →
          idOf e ∉ done.map Prod.fst → idOf e ∈ st.b.newIDs := by
        intro e he hpfx hnd
        exact mem_newIDs.mpr ⟨e, hc.relisted e he hpfx hnd, hpfx, rfl⟩
      by_cases hlt : ((st.b.newIDs.take limit.toNat).length : Int) < limit
      · rw [if_pos hlt] at h
        have ht : st1.b = t := by
          have := Option.some.inj h
          exact congrArg Prod.fst this
        have hfull : st.b.newIDs.take limit.toNat = st.b.newIDs := by
          apply List.take_of_length_le
          rw [List.length_take] at hlt
          omega
        have hall : ∀ e, e ∈ t0.index .idx_source_state → HasPrefix e encNew = true →
            idOf e ∈ done1.map Prod.fst := by
          intro e he hpfx
          rw [hmap1, hfull, List.mem_append]
          by_cases hd : idOf e ∈ done.map Prod.fst
          · exact Or.inl hd
          · exact Or.inr (hrel e he hpfx hd)
        rcases hshape with ⟨bid, b2, hb, _, hfl, rfl⟩ | ⟨hor, rfl⟩
        · obtain ⟨_, hbid, ⟨key, hblock⟩, _, _⟩ := hinv1.core.opened bid hb
          rw [hblock] at hfl
          have hb2 := flushDestination_ok rfl hfl
          subst hb2
          subst ht
          refine ⟨done1, st2.created, hinv1.finish hready hall _ (fun i => rfl) rfl rfl
            (Table.Sorted_putCell _ _ _ _ hinv1.core.sorted) ?_ ?_⟩
          · intro c x hx
            show (st2.b.putCell _ _ _).cell c x = _
            rw [Table.cell_putCell, if_neg]
            rintro ⟨h1, h2⟩
            rcases hx with hx | hx | hx
            · exact hx h1
            · exact hx (h2.trans hbid)
            · rw [hb] at hx; cases hx
          · intro bid1 hb1
            rw [hb] at hb1
            cases hb1
            show (st2.b.putCell _ _ _).cell _ _ = _
            rw [Table.cell_putCell, if_pos ⟨rfl, rfl⟩]
        · subst ht
          rcases hor with hnone | hor
          · exact ⟨done1, st1.created, hinv1.finish hready hall _ (fun i => rfl) rfl rfl
              hinv1.core.sorted (fun _ _ _ => rfl) (fun bid hb => by rw [hnone] at hb; cases hb)⟩
          · exact absurd hlt hor
      · rw [if_neg hlt] at h
        have hst : st1 = st2 := by
          rcases hshape with ⟨_, _, _, hlt1, _, _⟩ | ⟨_, rfl⟩
          · exact absurd hlt1 hlt
          · rfl
        subst hst
        refine ih done1 st1 t ⟨hinv1, ?_⟩ h
        intro e he hpfx hnd x hx
        have hx1 : x.1 ∈ done1.map Prod.fst := List.mem_map_of_mem Prod.fst hx
        rw [hmap1, List.mem_append] at hx1 hnd
        have hnd1 : idOf e ∉ done.map Prod.fst := fun hh => hnd (Or.inl hh)
        rcases hx1 with hx1 | hx1
        · obtain ⟨y, hy, hyx⟩ := List.mem_map.mp hx1
          rw [← hyx]
          exact hpage.lower e he hpfx hnd1 y hy
        · have heL := hrel e he hpfx hnd1
          rw [← List.take_append_drop limit.toNat st.b.newIDs] at heL hLpw
          rw [List.pairwise_append] at hLpw
          rcases List.mem_append.mp heL with heL | heL
          · exact absurd (Or.inr heL) hnd
          · exact hLpw.2.2 x.1 hx1 (idOf e) heL

/-! ### Planning: what the outcome says about the tables -/

/-- A successful plan-new on a store with a table: the set is read from the root of the table
and the loop runs on the table. -/
theorem PlanNewObjects.Invoke_ok {p : PlanNewObjects} {keys : Nat → Bytes} {fuel : Nat}
    {t0 t : Table} (h : p.Invoke keys fuel (some t0) = some (some t, none)) :
    ∃ set, (NewObjectSet p.Bucket p.Prefix).Unmarshal t0.rootValues = .ok set ∧
      planLoop set keys 2048 fuel { b := t0 } = some (t, none) := by
  unfold PlanNewObjects.Invoke LookupTable at h
  simp only [] at h
  cases hu : (NewObjectSet p.Bucket p.Prefix).Unmarshal t0.rootValues with
  | error e => rw [hu] at h; cases h
  | ok set =>
    rw [hu] at h
    replace h : (planLoop set keys 2048 fuel { b := t0 }).map (fun r => (some r.1, r.2)) =
        some (some t, none) := h
    refine ⟨set, rfl, ?_⟩
    cases hl : planLoop set keys 2048 fuel { b := t0 } with
    | none => rw [hl] at h; cases h
    | some r =>
      rw [hl] at h
      obtain ⟨t1, e⟩ := r
      cases h
      rfl

/-- The outcome of a successful plan-new on a table that is ready for planning. -/
theorem plan_outcome {p : PlanNewObjects} {keys : Nat → Bytes} {fuel : Nat} {t0 t : Table}
    {set : ObjectSet} (hready : PlanReady t0)
    (hset : (NewObjectSet p.Bucket p.Prefix).Unmarshal t0.rootValues = .ok set)
    (h : p.Invoke keys fuel (some t0) = some (some t, none)) :
    ∃ done cr, PlanDone t0 set done cr t := by
  obtain ⟨set1, hset1, hloop⟩ := PlanNewObjects.Invoke_ok h
  rw [hset] at hset1
  cases Except.ok.inj hset1
  exact planLoop_done hready 2048 (by norm_num) (by decide) fuel [] _ t
    (PlanPage.start t0 set hready) hloop

/-- The rows plan-new created are the blocks `blockIDAt t0 1 .. blockIDAt t0 cr`. -/
theorem PlanDone.created {t0 t : Table} {set : ObjectSet} {done : List (Bytes × Nat)}
    {cr : Nat} (h : PlanDone t0 set done cr t) {bid : Bytes} (hd : t.isDestination bid)
    (hn : ¬ t0.isDestination bid) : ∃ j, 1 ≤ j ∧ j ≤ cr ∧ bid = blockIDAt t0 j := by
  by_contra hne
  push_neg at hne
  unfold Table.isDestination at hd hn
  by_cases hx : bid ∈ done.map Prod.fst
  · obtain ⟨x, hmem, rfl⟩ := List.mem_map.mp hx
    rw [(h.doneRows x hmem).2.2.2.2.2.2 .is_destination_object (by simp) (by simp)] at hd
    exact hn hd
  · rw [h.cells _ _ hx hne] at hd
    exact hn hd

/-- The members of the `j`-th block: the rows of the final table whose `destination_object`
cell is the id of the block are the sources the pass assigned to it. -/
theorem PlanDone.members {t0 t : Table} {set : ObjectSet} {done : List (Bytes × Nat)}
    {cr : Nat} (h : PlanDone t0 set done cr t) (hready : PlanReady t0) {j : Nat} (h1 : 1 ≤ j)
    (h2 : j ≤ cr) (a : Bytes) :
    t.cell .destination_object a = some (blockIDAt t0 j) ↔ (a, j) ∈ membersOf done j := by
  have hroom := h.room
  constructor
  · intro hc
    by_cases hx : a ∈ done.map Prod.fst
    · obtain ⟨x, hmem, rfl⟩ := List.mem_map.mp hx
      obtain ⟨_, _, h3, h4, _, h6, _⟩ := h.doneRows x hmem
      rw [h6] at hc
      have hj := blockIDAt_inj (by omega) (by omega) (Option.some.inj hc)
      unfold membersOf
      rw [List.mem_filter]
      obtain ⟨x1, x2⟩ := x
      simp only at hj
      subst hj
      exact ⟨hmem, by simp⟩
    · by_cases hb : ∃ j1, 1 ≤ j1 ∧ j1 ≤ cr ∧ a = blockIDAt t0 j1
      · obtain ⟨j1, hj1, hj2, rfl⟩ := hb
        rw [(h.blocks j1 hj1 hj2).2.1] at hc
        cases hc
      · push_neg at hb
        rw [h.cells _ _ hx hb] at hc
        have := hready.2.2.2.2.1 (a, blockIDAt t0 j) (Table.cell_mem hc)
        exact absurd rfl (this.ne_blockIDAt j h1 (by omega))
  · intro hm
    unfold membersOf at hm
    rw [List.mem_filter] at hm
    exact (h.doneRows _ hm.1).2.2.2.2.2.1

theorem KV.keys_nodup {m : KV} (h : KV.Sorted m) : (KV.keys m).Nodup := by
  unfold KV.keys KV.Sorted at *
  rw [List.Nodup, List.pairwise_map]
  exact List.Pairwise.imp (fun hab => bytesLt_ne _ _ hab) h

/-- The sum over the members of a block, read off the final table, is the sum over the sources
the pass assigned to the block. -/
theorem PlanDone.memberTotal_eq {t0 t : Table} {set : ObjectSet} {done : List (Bytes × Nat)}
    {cr : Nat} (h : PlanDone t0 set done cr t) (hready : PlanReady t0) {j : Nat} (h1 : 1 ≤ j)
    (h2 : j ≤ cr) :
    memberTotal t set (blockIDAt t0 j) = sizeSum t0 set (membersOf done j) := by
  have hperm : (((t.cols .destination_object).filter
      fun kv => kv.2 = blockIDAt t0 j).map Prod.fst).Perm ((membersOf done j).map Prod.fst) := by
    rw [List.perm_ext_iff_of_nodup]
    · intro a
      rw [List.mem_map, List.mem_map]
      constructor
      · rintro ⟨kv, hkv, rfl⟩
        rw [List.mem_filter] at hkv
        have hv : kv.2 = blockIDAt t0 j := by simpa using hkv.2
        have hc : t.cell .destination_object kv.1 = some (blockIDAt t0 j) := by
          rw [← hv]
          exact KV.mem_Get _ (h.sorted.1 _) _ _ hkv.1
        exact ⟨_, (h.members hready h1 h2 kv.1).mp hc, rfl⟩
      · rintro ⟨x, hx, rfl⟩
        have hxj : x.2 = j := by
          unfold membersOf at hx
          rw [List.mem_filter] at hx
          simpa using hx.2
        have hx1 : (x.1, j) ∈ membersOf done j := by
          obtain ⟨x1, x2⟩ := x
          simp only at hxj
          subst hxj
          exact hx
        have hc := (h.members hready h1 h2 x.1).mpr hx1
        exact ⟨(x.1, blockIDAt t0 j), List.mem_filter.mpr ⟨Table.cell_mem hc, by simp⟩, rfl⟩
    · exact List.Nodup.sublist (List.Sublist.map _ (List.filter_sublist _))
        (KV.keys_nodup (h.sorted.1 _))
    · exact List.Nodup.sublist (List.Sublist.map _ (List.filter_sublist _)) h.doneNodup
  have hsum := (hperm.map fun a => t.sizeOf a + ((StringValue set.Delimiter).length : Int)).sum_eq
  rw [List.map_map, List.map_map] at hsum
  unfold memberTotal sizeSum
  refine Eq.trans hsum (congrArg List.sum (List.map_congr_left ?_))
  intro x hx
  have hxd : x ∈ done := by
    unfold membersOf at hx
    exact (List.mem_filter.mp hx).1
  have hs : t.cell .size x.1 = t0.cell .size x.1 :=
    (h.doneRows x hxd).2.2.2.2.2.2 .size (by simp) (by simp)
  show t.sizeOf x.1 + _ = t0.sizeOf x.1 + _
  unfold Table.sizeOf
  rw [hs]

/-! ### Planning: int64 values that do not wrap -/

theorem toInt64_range (u : Nat) : -(2 ^ 63 : Int) ≤ toInt64 u ∧ toInt64 u < 2 ^ 63 := by
  unfold toInt64
  have : u % 2 ^ 64 < 2 ^ 64 := Nat.mod_lt _ (by norm_num)
  split <;> constructor <;> omega

theorem wrap64_of_range (v : Int) (h1 : -(2 ^ 63 : Int) ≤ v) (h2 : v < 2 ^ 63) :
    wrap64 v = v := by
  unfold wrap64 toInt64 toUint64
  have h3 : 0 ≤ v % 2 ^ 64 := Int.emod_nonneg _ (by norm_num)
  have h4 : v % 2 ^ 64 < 2 ^ 64 := Int.emod_lt_of_pos _ (by norm_num)
  have h5 : ((v % 2 ^ 64).toNat % 2 ^ 64 : Nat) = (v % 2 ^ 64).toNat := by omega
  rw [h5]
  split <;> omega

theorem Table.sizeOf_range (t : Table) (id : Bytes) :
    -(2 ^ 63 : Int) ≤ t.sizeOf id ∧ t.sizeOf id < 2 ^ 63 := by
  unfold Table.sizeOf
  cases t.cell .size id with
  | none => simp only []; constructor <;> norm_num
  | some v =>
    simp only []
    unfold Ltoi
    cases Uint64 v with
    | error e => simp only [Except.map]; constructor <;> norm_num
    | ok n => simp only [Except.map]; exact toInt64_range n

/-! ### Planning: the claims on a successful pass -/

/-- C5 (I4, state monotonicity under planning): a successful plan-new on a store that is ready
for planning moves every source row that was NEW to IN_SYNC and gives it a non-empty
`destination_object_id`, and it leaves every cell and every index entry of a source row that
was not NEW as it was. -/
theorem plan_new_moves_exactly_new_sources (p : PlanNewObjects) (keys : Nat → Bytes)
    (fuel : Nat) (t0 t : Table) (hready : PlanReady t0)
    (hrun : p.Invoke keys fuel (some t0) = some (some t, none)) :
    (∀ id, t0.isSource id → t0.cell .state id = some (Uint16tol StateNew) →
      t.cell .state id = some (Uint16tol StateInSync) ∧
      ∃ d, t.cell .destination_object id = some d ∧ d ≠ []) ∧
    (∀ id, t0.isSource id → t0.cell .state id ≠ some (Uint16tol StateNew) →
      (∀ c, t.cell c id = t0.cell c id) ∧
      ∀ i e, idOf e = id → (e ∈ t.index i ↔ e ∈ t0.index i)) := by
  obtain ⟨set, hset, _⟩ := PlanNewObjects.Invoke_ok hrun
  obtain ⟨done, cr, D⟩ := plan_outcome hready hset hrun
  constructor
  · intro id hs hn
    obtain ⟨x, hx, rfl⟩ := List.mem_map.mp (D.allDone id hs hn)
    obtain ⟨_, _, _, _, h5, h6, _⟩ := D.doneRows x hx
    refine ⟨h5, _, h6, ?_⟩
    intro h0
    have := congrArg List.length h0
    simp [blockIDAt, PutUint64_length] at this
  · intro id hs hn
    have hnd : id ∉ done.map Prod.fst := by
      intro hmem
      obtain ⟨x, hx, rfl⟩ := List.mem_map.mp hmem
      exact hn (D.doneRows x hx).2.1
    have hal : Allocated t0.sequence id :=
      hready.allocated (c := .is_source_object) (by
        unfold Table.isSource at hs
        rw [hs]; simp)
    have hnb : ∀ j, 1 ≤ j → j ≤ cr → id ≠ blockIDAt t0 j :=
      fun j h1 h2 => hal.ne_blockIDAt j h1 (by have := D.room; omega)
    refine ⟨fun c => D.cells c id hnd hnb, ?_⟩
    intro i e he
    subst he
    exact D.idx i e hnd hnb

/-- C6 (I5): after a successful plan-new on a store that is ready for planning, the size cell
of every destination row the pass created holds the sum, over the rows whose
`destination_object_id` is the id of that row, of size plus delimiter length. -/
theorem plan_new_block_size_is_member_sum (p : PlanNewObjects) (keys : Nat → Bytes)
    (fuel : Nat) (t0 t : Table) (set : ObjectSet) (hready : PlanReady t0)
    (hset : (NewObjectSet p.Bucket p.Prefix).Unmarshal t0.rootValues = .ok set)
    (hrun : p.Invoke keys fuel (some t0) = some (some t, none)) (bid : Bytes)
    (hdest : t.isDestination bid) (hnew : ¬ t0.isDestination bid) :
    t.cell .size bid = some (Itol (memberTotal t set bid)) := by
  obtain ⟨done, cr, D⟩ := plan_outcome hready hset hrun
  obtain ⟨j, h1, h2, rfl⟩ := D.created hdest hnew
  rw [D.memberTotal_eq hready h1 h2]
  exact (D.blocks j h1 h2).2.2.2.1

/-- C7: after a successful plan-new on a store that is ready for planning, every destination
row the pass created, except the row created last (the row whose id is the sequence of the
table), has a recorded size of at least the block size of the set. -/
theorem plan_new_blocks_but_last_reach_block_size (p : PlanNewObjects) (keys : Nat → Bytes)
    (fuel : Nat) (t0 t : Table) (set : ObjectSet) (hready : PlanReady t0)
    (hset : (NewObjectSet p.Bucket p.Prefix).Unmarshal t0.rootValues = .ok set)
    (hrun : p.Invoke keys fuel (some t0) = some (some t, none)) (bid : Bytes)
    (hdest : t.isDestination bid) (hnew : ¬ t0.isDestination bid)
    (hlast : bid ≠ PutUint64 t.sequence) :
    ∃ v n, t.cell .size bid = some v ∧ Ltoi v = .ok n ∧ set.BlockSize ≤ n := by
  obtain ⟨done, cr, D⟩ := plan_outcome hready hset hrun
  obtain ⟨j, h1, h2, rfl⟩ := D.created hdest hnew
  have hj : j < cr := by
    rcases Nat.lt_or_ge j cr with h | h
    · exact h
    · have : j = cr := by omega
      subst this
      exact absurd (by rw [D.seq]; rfl) hlast
  refine ⟨_, _, (D.blocks j h1 h2).2.2.2.1, ?_, D.full j h1 hj⟩
  rw [← Itol_wrap64]
  exact Ltoi_Itol_wrap64 _

/-- C8, amended: after a successful plan-new on a store that is ready for planning, a source
that was NEW, whose size is strictly larger than the block size (size plus delimiter length
within int64), and whose block holds no source that precedes it in the byte order of the row
ids, the order in which plan-new scans the sources, is the only member of its block. -/
theorem oversized_source_alone_when_first (p : PlanNewObjects) (keys : Nat → Bytes)
    (fuel : Nat) (t0 t : Table) (set : ObjectSet) (hready : PlanReady t0)
    (hset : (NewObjectSet p.Bucket p.Prefix).Unmarshal t0.rootValues = .ok set)
    (hrun : p.Invoke keys fuel (some t0) = some (some t, none)) (x : Bytes)
    (hsource : t0.isSource x) (hnew : t0.cell .state x = some (Uint16tol StateNew))
    (hbig : set.BlockSize < t0.sizeOf x)
    (hfit : t0.sizeOf x + ((StringValue set.Delimiter).length : Int) < 2 ^ 63)
    (hfirst : ∀ y, bytesLt y x = true →
      t.cell .destination_object y ≠ t.cell .destination_object x) :
    ∀ y, t.cell .destination_object y = t.cell .destination_object x → y = x := by
  obtain ⟨done, cr, D⟩ := plan_outcome hready hset hrun
  obtain ⟨x0, hx0, hx0x⟩ := List.mem_map.mp (D.allDone x hsource hnew)
  obtain ⟨x1, j⟩ := x0
  simp only at hx0x
  subst hx0x
  obtain ⟨_, _, h1, h2, _, hdx, _⟩ := D.doneRows _ hx0
  simp only at h1 h2 hdx
  have hxM : (x1, j) ∈ membersOf done j := (D.members hready h1 h2 x1).mp hdx
  obtain ⟨m1, m2, hM⟩ := List.append_of_mem hxM
  have hpw : ((membersOf done j).map Prod.fst).Pairwise fun a b => bytesLt a b = true :=
    List.Pairwise.sublist (List.Sublist.map _ (List.filter_sublist _)) D.ordered
  have hm1 : m1 = [] := by
    cases m1 with
    | nil => rfl
    | cons a m1 =>
      exfalso
      have haM : a ∈ membersOf done j := by rw [hM]; simp
      have ha2 : a.2 = j := by
        unfold membersOf at haM
        simpa using (List.mem_filter.mp haM).2
      have had : t.cell .destination_object a.1 = some (blockIDAt t0 j) := by
        have := (D.doneRows a (List.mem_filter.mp haM).1).2.2.2.2.2.1
        rwa [ha2] at this
      rw [hM] at hpw
      simp only [List.map_append, List.map_cons, List.cons_append, List.pairwise_cons,
        List.mem_append, List.mem_cons] at hpw
      exact hfirst a.1 (hpw.1 x1 (Or.inr (Or.inl rfl))) (by rw [had, hdx])
  subst hm1
  have hm2 : m2 = [] := by
    by_contra hne
    have hlt := D.minimal j [(x1, j)] m2 hM (by simp) hne
    rw [sizeSum_singleton] at hlt
    have hr := t0.sizeOf_range x1
    rw [wrap64_of_range _ (by have := hr.1; omega) hfit] at hlt
    omega
  subst hm2
  intro y hy
  rw [hdx] at hy
  have hyM := (D.members hready h1 h2 y).mp hy
  rw [hM] at hyM
  simp only [List.nil_append, List.mem_singleton, Prod.mk.injEq] at hyM
  exact hyM.1

/-- C10: plan-new is idempotent. After a successful plan-new on a store that is ready for
planning, the query for NEW sources returns no id, and a second plan-new, with any block keys
and any fuel for at least one page, succeeds and returns the table unchanged. -/
theorem plan_new_idempotent (p : PlanNewObjects) (keys : Nat → Bytes) (fuel : Nat)
    (t0 t : Table) (hready : PlanReady t0)
    (hrun : p.Invoke keys fuel (some t0) = some (some t, none)) :
    PrefixQuery t .idx_source_state (Uint16tol StateNew) 2048 none = .ok [] ∧
      ∀ (keys2 : Nat → Bytes) (fuel2 : Nat),
        p.Invoke keys2 (fuel2 + 1) (some t) = some (some t, none) := by
  obtain ⟨set, hset, _⟩ := PlanNewObjects.Invoke_ok hrun
  obtain ⟨done, cr, D⟩ := plan_outcome hready hset hrun
  have hnone : ∀ e ∈ t.idxs .idx_source_state, HasPrefix e.1 (Uint16tol StateNew) = false :=
    fun e he => D.noNew e.1 (List.mem_map_of_mem Prod.fst he)
  have hq : PrefixQuery t .idx_source_state (Uint16tol StateNew) 2048 none = .ok [] := by
    rw [PrefixQuery_eq t .idx_source_state (Uint16tol StateNew) 2048 (by norm_num) (by decide)
      (D.sorted.2 _) (fun e he hp => by rw [hnone e he] at hp; cases hp)]
    have : KV.matching (t.idxs .idx_source_state) (Uint16tol StateNew) = [] := by
      unfold KV.matching
      rw [List.filter_eq_nil_iff]
      intro e he
      rw [hnone e he]
      simp
    rw [this]
    rfl
  refine ⟨hq, ?_⟩
  intro keys2 fuel2
  unfold PlanNewObjects.Invoke LookupTable
  simp only []
  rw [(by unfold Table.rootValues; rw [D.root] : t.rootValues = t0.rootValues), hset]
  simp only [planLoop, hq, planPage, List.foldlM, pure, Except.pure]
  rfl

/-! ### Planning: the claims at the example stores -/

set_option maxRecDepth 8192 in
theorem tableBigSmall_ready : PlanReady tableBigSmall := by
  refine ⟨⟨fun c => ?_, fun i => ?_⟩, ?_, ?_, ?_, ?_, ?_⟩
  · cases c <;> (unfold KV.Sorted; decide)
  · cases i <;> (unfold KV.Sorted; decide)
  · decide
  · decide
  · decide
  · decide
  · decide

set_option maxRecDepth 8192 in
theorem tableSmallBig_ready : PlanReady tableSmallBig := by
  refine ⟨⟨fun c => ?_, fun i => ?_⟩, ?_, ?_, ?_, ?_, ?_⟩
  · cases c <;> (unfold KV.Sorted; decide)
  · cases i <;> (unfold KV.Sorted; decide)
  · decide
  · decide
  · decide
  · decide
  · decide

set_option maxRecDepth 8192 in
theorem tableBigSmall_run :
    examplePlan.Invoke exampleKeys 1 (some tableBigSmall) =
      some (some tableBigSmallPlanned, none) := rfl

set_option maxRecDepth 8192 in
theorem tableSmallBig_run :
    examplePlan.Invoke exampleKeys 1 (some tableSmallBig) =
      some (some tableSmallBigPlanned, none) := rfl

theorem tableBigSmall_set :
    (NewObjectSet examplePlan.Bucket examplePlan.Prefix).Unmarshal tableBigSmall.rootValues =
      .ok exampleSetRead := rfl

theorem tableSmallBig_set :
    (NewObjectSet examplePlan.Bucket examplePlan.Prefix).Unmarshal tableSmallBig.rootValues =
      .ok exampleSetRead := rfl

set_option maxRecDepth 8192 in
/-- In `tableBigSmallPlanned` no row that precedes row 1 in the byte order of the ids has the
`destination_object_id` of row 1. -/
theorem tableBigSmall_first (y : Bytes) (hlt : bytesLt y (PutUint64 1) = true) :
    tableBigSmallPlanned.cell .destination_object y ≠
      tableBigSmallPlanned.cell .destination_object (PutUint64 1) := by
  intro heq
  have h1 : tableBigSmallPlanned.cell .destination_object (PutUint64 1) = some (PutUint64 3) :=
    rfl
  have hm := Table.cell_mem (heq.trans h1)
  have hcols : tableBigSmallPlanned.cols .destination_object =
      [(PutUint64 1, PutUint64 3), (PutUint64 2, PutUint64 4)] := rfl
  rw [hcols] at hm
  simp only [List.mem_cons, Prod.mk.injEq, List.mem_singleton, List.not_mem_nil, or_false] at hm
  rcases hm with ⟨rfl, _⟩ | ⟨_, h34⟩
  · rw [bytesLt_irrefl] at hlt
    cases hlt
  · exact absurd h34 (by decide)

set_option maxRecDepth 8192 in
/-- C5 at a concrete store: two NEW sources of sizes 500 and 10. After plan-new the row 1 is
IN_SYNC and names a block. -/
theorem plan_new_moves_exactly_new_sources_witness :
    tableBigSmall.cell .state (PutUint64 1) = some (Uint16tol StateNew) ∧
      tableBigSmallPlanned.cell .state (PutUint64 1) = some (Uint16tol StateInSync) ∧
      ∃ d, tableBigSmallPlanned.cell .destination_object (PutUint64 1) = some d ∧ d ≠ [] :=
  ⟨rfl, (plan_new_moves_exactly_new_sources examplePlan exampleKeys 1 tableBigSmall
    tableBigSmallPlanned tableBigSmall_ready tableBigSmall_run).1 (PutUint64 1) rfl rfl⟩

set_option maxRecDepth 8192 in
/-- C6 at a concrete store: the block of the source of size 500 records 501, the size of its
one member plus the length of the delimiter. -/
theorem plan_new_block_size_is_member_sum_witness :
    memberTotal tableBigSmallPlanned exampleSetRead (PutUint64 3) = 501 ∧
      tableBigSmallPlanned.cell .size (PutUint64 3) =
        some (Itol (memberTotal tableBigSmallPlanned exampleSetRead (PutUint64 3))) :=
  ⟨by decide, plan_new_block_size_is_member_sum examplePlan exampleKeys 1 tableBigSmall
    tableBigSmallPlanned exampleSetRead tableBigSmall_ready tableBigSmall_set tableBigSmall_run
    (PutUint64 3) rfl (by unfold Table.isDestination; decide)⟩

set_option maxRecDepth 8192 in
/-- C7 at a concrete store: of the two blocks plan-new creates, rows 3 and 4, the first has a
recorded size of at least the block size 100. -/
theorem plan_new_blocks_but_last_reach_block_size_witness :
    tableBigSmallPlanned.sequence = 4 ∧
      ∃ v n, tableBigSmallPlanned.cell .size (PutUint64 3) = some v ∧ Ltoi v = .ok n ∧
        exampleSetRead.BlockSize ≤ n :=
  ⟨rfl, plan_new_blocks_but_last_reach_block_size examplePlan exampleKeys 1 tableBigSmall
    tableBigSmallPlanned exampleSetRead tableBigSmall_ready tableBigSmall_set tableBigSmall_run
    (PutUint64 3) rfl (by unfold Table.isDestination; decide) (by decide)⟩

set_option maxRecDepth 8192 in
/-- C8 as stated fails on the code: with block size 100, a source of size 10 followed by a
source of size 500 are planned into the same block, row 3, so the source that is larger than
the block size is not the only member of its block. -/
theorem oversized_source_shares_block :
    PlanReady tableSmallBig ∧
      examplePlan.Invoke exampleKeys 1 (some tableSmallBig) =
        some (some tableSmallBigPlanned, none) ∧
      tableSmallBig.isSource (PutUint64 2) ∧
      tableSmallBig.cell .state (PutUint64 2) = some (Uint16tol StateNew) ∧
      exampleSetRead.BlockSize < tableSmallBig.sizeOf (PutUint64 2) ∧
      ¬ ∀ y, tableSmallBigPlanned.cell .destination_object y =
        tableSmallBigPlanned.cell .destination_object (PutUint64 2) → y = PutUint64 2 :=
  ⟨tableSmallBig_ready, tableSmallBig_run, rfl, rfl, by decide,
    fun h => absurd (h (PutUint64 1) rfl) (by decide)⟩

set_option maxRecDepth 8192 in
/-- The amended C8 at a concrete store: the source of size 500 comes first and is the only
member of its block. -/
theorem oversized_source_alone_when_first_witness :
    exampleSetRead.BlockSize < tableBigSmall.sizeOf (PutUint64 1) ∧
      ∀ y, tableBigSmallPlanned.cell .destination_object y =
        tableBigSmallPlanned.cell .destination_object (PutUint64 1) → y = PutUint64 1 :=
  ⟨by decide, oversized_source_alone_when_first examplePlan exampleKeys 1 tableBigSmall
    tableBigSmallPlanned exampleSetRead tableBigSmall_ready tableBigSmall_set tableBigSmall_run
    (PutUint64 1) rfl rfl (by decide) (by decide) tableBigSmall_first⟩

set_option maxRecDepth 8192 in
/-- C10 at a concrete store: a second plan-new on `tableBigSmallPlanned` finds no NEW source
and returns the table as it is. -/
theorem plan_new_idempotent_witness :
    PrefixQuery tableBigSmallPlanned .idx_source_state (Uint16tol StateNew) 2048 none = .ok [] ∧
      examplePlan.Invoke exampleKeys 1 (some tableBigSmallPlanned) =
        some (some tableBigSmallPlanned, none) :=
  ⟨(plan_new_idempotent examplePlan exampleKeys 1 tableBigSmall tableBigSmallPlanned
      tableBigSmall_ready tableBigSmall_run).1,
    (plan_new_idempotent examplePlan exampleKeys 1 tableBigSmall tableBigSmallPlanned
      tableBigSmall_ready tableBigSmall_run).2 exampleKeys 0⟩

/-! ### update-state: unknown state strings -/

theorem ParseState_unknown (s : String)
    (h : s ∉ ["NEW", "DIRTY", "IN_SYNC", "EXPIRED", "DELETED"]) :
    ParseState s = StateUnknown := by
  simp only [List.mem_cons, List.mem_singleton, List.not_mem_nil, or_false, not_or] at h
  obtain ⟨h1, h2, h3, h4, h5⟩ := h
  unfold ParseState
  simp only [h1, h2, h3, h4, h5, if_false, ite_self]

/-- C19: an update-state request whose state string, upper-cased, is none of `NEW`, `DIRTY`,
`IN_SYNC`, `EXPIRED`, `DELETED` fails with the error for an invalid state, whatever the ids,
the type and the store: the transaction returns before the table is looked up, and no store
is committed. -/
theorem update_state_rejects_unknown_state (ToUpper : String → String)
    (decode : Bytes → Option Bytes) (u : UpdateObjectsState) (db : DB)
    (h : ToUpper u.State ∉ ["NEW", "DIRTY", "IN_SYNC", "EXPIRED", "DELETED"]) :
    UpdateObjectsState.Invoke ToUpper decode u db = .error .invalidState := by
  unfold UpdateObjectsState.Invoke
  simp only [ParseState_unknown _ h, if_true]

/-- C19 at a concrete request: the state `UNKNOWN`, which upper-casing leaves as it is, for
two ids of the example store. -/
theorem update_state_rejects_unknown_state_witness :
    UpdateObjectsState.Invoke (fun s => s) some
      { Bucket := [98], Prefix := [], Type_ := "source", IDS := [PutUint64 1, PutUint64 2],
        State := "UNKNOWN" } storePlanned = .error .invalidState :=
  update_state_rejects_unknown_state (fun s => s) some _ storePlanned (by decide)

/-! ### `PrefixQuery`: the limit zero and the id as exclusive start -/

set_option maxRecDepth 8192 in
/-- C17 (the code at the failing input): with `limit = 0` the loop of `PrefixQuery` never
meets `len(rows) == limit`, and the query returns the ids of both entries under NEW of
`tableBigSmall` instead of none. -/
theorem PrefixQuery_limit_zero_returns_all :
    PrefixQuery tableBigSmall .idx_source_state (Uint16tol StateNew) 0 none =
      .ok [PutUint64 1, PutUint64 2] := rfl

set_option maxRecDepth 8192 in
/-- C16 (the code at the failing input): `idx_source_state` of `tableBigSmall` holds
`NEW ++ id` for the ids 1 and 2. The query with limit 1 returns the id 1, and the query
continued with `exclusiveStart` set to that id returns the id 1 again, not the id 2: the
cursor seeks the bare id among keys that start with the state. -/
theorem PrefixQuery_from_last_id_repeats :
    tableBigSmall.index .idx_source_state =
        [Uint16tol StateNew ++ PutUint64 1, Uint16tol StateNew ++ PutUint64 2] ∧
      PrefixQuery tableBigSmall .idx_source_state (Uint16tol StateNew) 1 none =
        .ok [PutUint64 1] ∧
      PrefixQuery tableBigSmall .idx_source_state (Uint16tol StateNew) 1 (some (PutUint64 1)) =
        .ok [PutUint64 1] := ⟨rfl, rfl, rfl⟩

/-! ### load-inventory: the second run -/

set_option maxRecDepth 8192 in
/-- C11 (the code at the failing input): the inventory of the keys `ab` and `a` is loaded
twice into the empty example set. Both runs succeed; the first leaves one row, with key `a`,
and the second appends a row with key `ab`. -/
theorem load_inventory_second_run_appends_row :
    (exampleLoad.Invoke inventoryABthenA exampleEmptySet).2 = none ∧
      ((exampleLoad.Invoke inventoryABthenA exampleEmptySet).1.map fun t =>
        (t.sequence, t.cols .key)) = some (1, [(PutUint64 1, [97])]) ∧
      (exampleLoad.Invoke inventoryABthenA
        (exampleLoad.Invoke inventoryABthenA exampleEmptySet).1).2 = none ∧
      ((exampleLoad.Invoke inventoryABthenA
        (exampleLoad.Invoke inventoryABthenA exampleEmptySet).1).1.map fun t =>
        (t.sequence, t.cols .key)) =
          some (2, [(PutUint64 1, [97]), (PutUint64 2, [97, 98])]) := ⟨rfl, rfl, rfl, rfl⟩

/-! ### The streaming merge -/

/-- C14 (the code at the failing input): for a destination object of a set with bucket `b`
and destination bucket `d`, `MergeObjects` hands the uploader the bucket `b`, the bucket of
the sources, with the key of the destination object. -/
theorem MergeObjects_uploads_to_source_bucket :
    exampleBlock.Parent.Bucket = [98] ∧ exampleBlock.Parent.DestinationBucket = [100] ∧
      (mergeInput exampleGet exampleBlock exampleSources).Bucket = [98] ∧
      (mergeInput exampleGet exampleBlock exampleSources).Key = exampleBlock.Key :=
  ⟨rfl, rfl, rfl, rfl⟩

theorem mergeWrite_ok (get : Bytes → Option Bytes → Bytes × Option Err)
    (delimiter : Option Bytes) :
    ∀ (sources : List SourceObject) (bodies : List Bytes) (body : Bytes) (m : Int),
      List.Forall₂ (fun s b => get s.Parent.Bucket s.Key = (b, none)) sources bodies →
      mergeWrite get delimiter sources body (wrap64 m) =
        (body ++ (bodies.map fun b => b ++ StringValue delimiter).flatten,
          .ok (wrap64 (m + (bodies.map fun b =>
            (b.length : Int) + ((StringValue delimiter).length : Int)).sum)))
  | [], _, body, m, h => by
    cases h
    simp [mergeWrite]
  | s :: sources, _, body, m, h => by
    cases h with
    | cons h1 h2 =>
      rename_i b bodies
      simp only [mergeWrite, h1]
      rw [addInt64_eq, addInt64_eq, wrap64_add_wrap64, wrap64_wrap64_add,
        mergeWrite_ok get delimiter sources bodies _ _ h2]
      simp only [List.map_cons, List.flatten_cons, List.sum_cons, List.append_assoc, add_assoc]

/-- C13: when the fetch of every source succeeds, with the bodies `bodies`, and the upload
succeeds, `MergeObjects` hands the uploader the body `b1 ++ d ++ ... ++ bn ++ d`, with the
delimiter `d` after every source, and returns the count `sum (len bi + len d)` (a count
within int64) and no error. -/
theorem MergeObjects_concatenates (get : Bytes → Option Bytes → Bytes × Option Err)
    (upload : UploadInput → Option (Err × Bool)) (destination : DestinationObject)
    (sources : List SourceObject) (bodies : List Bytes)
    (hget : List.Forall₂ (fun s b => get s.Parent.Bucket s.Key = (b, none)) sources bodies)
    (hup : upload (mergeInput get destination sources) = none)
    (hfit : (bodies.map fun b => (b.length : Int) +
      ((StringValue destination.Parent.Delimiter).length : Int)).sum < 2 ^ 63) :
    (mergeInput get destination sources).Body =
        (bodies.map fun b => b ++ StringValue destination.Parent.Delimiter).flatten ∧
      (mergeInput get destination sources).BodyErr = none ∧
      MergeObjects get upload destination sources =
        ((bodies.map fun b => (b.length : Int) +
          ((StringValue destination.Parent.Delimiter).length : Int)).sum, none) := by
  have h0 : (0 : Int) = wrap64 0 := rfl
  have hw := mergeWrite_ok get destination.Parent.Delimiter sources bodies [] 0 hget
  rw [← h0, zero_add] at hw
  have hnonneg : (0 : Int) ≤ (bodies.map fun b => (b.length : Int) +
      ((StringValue destination.Parent.Delimiter).length : Int)).sum := by
    apply List.sum_nonneg
    intro x hx
    obtain ⟨b, _, rfl⟩ := List.mem_map.mp hx
    positivity
  rw [wrap64_of_range _ (by omega) hfit] at hw
  refine ⟨?_, ?_, ?_⟩
  · unfold mergeInput
    simp only [hw, List.nil_append]
  · unfold mergeInput
    simp only [hw]
  · unfold MergeObjects
    rw [hup]
    simp only [hw]

/-- C13 at the example of the specification: the bodies `A` and `B` with the delimiter `|`
give the body `A|B|` and the count 4. -/
theorem MergeObjects_concatenates_witness :
    (mergeInput exampleGet exampleBlock exampleSources).Body = [65, 124, 66, 124] ∧
      (mergeInput exampleGet exampleBlock exampleSources).BodyErr = none ∧
      MergeObjects exampleGet (fun _ => none) exampleBlock exampleSources = (4, none) :=
  MergeObjects_concatenates exampleGet (fun _ => none) exampleBlock exampleSources
    [[65], [66]] (List.Forall₂.cons rfl (List.Forall₂.cons rfl List.Forall₂.nil)) rfl
    (by decide)

/-! ### `PrefixQuery` continued from an index key -/

theorem KV.Seek_split (k v : Bytes) (rest : KV) : ∀ (pre : KV),
    (∀ e ∈ pre, bytesLt e.1 k = true) → KV.Seek (pre ++ (k, v) :: rest) k = (k, v) :: rest
  | [], _ => by simp [KV.Seek, bytesLt_irrefl]
  | e :: pre, h => by
    obtain ⟨k1, v1⟩ := e
    have h1 : bytesLt k1 k = true := h (k1, v1) (List.mem_cons_self _ _)
    simp only [List.cons_append, KV.Seek, h1, if_true]
    exact KV.Seek_split k v rest pre (fun e he => h e (List.mem_cons_of_mem _ he))

theorem KV.matching_split (p : Bytes) (pre rest : KV) (k v : Bytes)
    (hp : HasPrefix k p = true) :
    KV.matching (pre ++ (k, v) :: rest) p =
      KV.matching pre p ++ (k, v) :: KV.matching rest p := by
  unfold KV.matching
  rw [List.filter_append, List.filter_cons_of_pos (by simpa using hp)]

/-- Two splits of a list without repeats at the same element have the same tail. -/
theorem split_unique {α : Type} {x : α} : ∀ {A A1 B B1 : List α},
    (A ++ x :: B).Nodup → A ++ x :: B = A1 ++ x :: B1 → B = B1
  | [], [], _, _, _, h => by simpa using h
  | [], a :: A1, B, B1, hnd, h => by
    simp only [List.nil_append, List.cons_append, List.cons.injEq] at h
    obtain ⟨rfl, rfl⟩ := h
    simp at hnd
  | a :: A, [], B, B1, hnd, h => by
    simp only [List.nil_append, List.cons_append, List.cons.injEq] at h
    obtain ⟨rfl, rfl⟩ := h
    simp at hnd
  | a :: A, a1 :: A1, B, B1, hnd, h => by
    simp only [List.cons_append, List.cons.injEq] at h
    simp only [List.cons_append, List.nodup_cons] at hnd
    exact split_unique hnd.2 h.2

theorem KV.Sorted.nodup {m : KV} (h : KV.Sorted m) : m.Nodup := by
  unfold KV.Sorted at h
  refine List.Pairwise.imp ?_ h
  intro a b hab heq
  rw [heq, bytesLt_irrefl] at hab
  cases hab

/-- Continued from the key of an entry that starts with the prefix, `PrefixQuery` returns
the ids of the next matching entries. -/
theorem PrefixQuery_after (b : Table) (index : Idx) (p : Bytes) (limit : Int)
    (hl : 0 < limit) (hc : limit ≤ maxSliceCap) (hs : KV.Sorted (b.idxs index))
    (hlen : ∀ e ∈ b.idxs index, HasPrefix e.1 p = true → idSize ≤ e.1.length)
    (pre rest : KV) (k v : Bytes) (hsplit : b.idxs index = pre ++ (k, v) :: rest)
    (hp : HasPrefix k p = true) :
    PrefixQuery b index p limit (some k) =
      .ok (((KV.matching rest p).map fun e => idOf e.1).take limit.toNat) := by
  have hs1 := hs
  unfold KV.Sorted at hs1
  rw [hsplit, List.pairwise_append, List.pairwise_cons] at hs1
  obtain ⟨_, ⟨hrest, hsr⟩, hpre⟩ := hs1
  have hseek : KV.Seek (b.idxs index) k = (k, v) :: rest := by
    rw [hsplit]
    exact KV.Seek_split k v rest pre (fun e he => hpre e he (k, v) (List.mem_cons_self _ _))
  have h0 : makeSlicePanics limit = false := makeSlicePanics_of_range (by omega) hc
  simp only [PrefixQuery, h0, Bool.false_eq_true, if_false, hseek, if_true]
  have hlen1 : ∀ e ∈ rest, HasPrefix e.1 p = true → idSize ≤ e.1.length := by
    intro e he
    exact hlen e (by rw [hsplit]; simp [he])
  rw [prefixScan_eq p limit rest [] hlen1 (by simpa using hl)]
  have hge : ∀ e ∈ rest, bytesLt e.1 p = false := by
    intro e he
    cases hlt : bytesLt e.1 p with
    | false => rfl
    | true =>
      have := bytesLt_trans _ _ _ (hrest e he) hlt
      rw [bytesLt_of_hasPrefix k p hp] at this
      cases this
  rw [KV.takeWhile_of_ge p rest hsr hge]
  simp

/-- The window of a prefix query: continued from the key of the matching entry number
`j + 1`, the query returns the ids of the matching entries that follow, up to `limit`. -/
theorem PrefixQuery_window (b : Table) (index : Idx) (p : Bytes) (limit : Int)
    (hl : 0 < limit) (hc : limit ≤ maxSliceCap) (hs : KV.Sorted (b.idxs index))
    (hlen : ∀ e ∈ b.idxs index, HasPrefix e.1 p = true → idSize ≤ e.1.length)
    (j : Nat) (e : Bytes × Bytes) (hj : (KV.matching (b.idxs index) p).get? j = some e) :
    PrefixQuery b index p limit (some e.1) =
      .ok (((b.matchingIDs index p).drop (j + 1)).take limit.toNat) := by
  obtain ⟨hlt, hget⟩ := List.get?_eq_some.mp hj
  have hmem : e ∈ KV.matching (b.idxs index) p := hget ▸ List.get_mem _ _ _
  have hmem' := hmem
  unfold KV.matching at hmem'
  rw [List.mem_filter] at hmem'
  obtain ⟨pre, rest, hsplit⟩ := List.append_of_mem hmem'.1
  obtain ⟨k, v⟩ := e
  rw [PrefixQuery_after b index p limit hl hc hs hlen pre rest k v hsplit hmem'.2]
  have hM : KV.matching (b.idxs index) p =
      (KV.matching (b.idxs index) p).take j ++
        (k, v) :: (KV.matching (b.idxs index) p).drop (j + 1) := by
    have h1 := (List.take_append_drop j (KV.matching (b.idxs index) p)).symm
    rw [List.drop_eq_getElem_cons hlt] at h1
    have h2 : (KV.matching (b.idxs index) p)[j] = (k, v) := hget
    rw [h2] at h1
    exact h1
  have hM2 := KV.matching_split p pre rest k v hmem'.2
  rw [← hsplit] at hM2
  have hnd : (KV.matching (b.idxs index) p).Nodup :=
    List.Nodup.sublist (List.filter_sublist _) hs.nodup
  have hrest : KV.matching rest p = (KV.matching (b.idxs index) p).drop (j + 1) := by
    refine split_unique ?_ (hM2.symm.trans hM)
    rw [← hM2]; exact hnd
  rw [hrest]
  unfold Table.matchingIDs
  rw [List.map_drop]

/-- The first page of a prefix query with a limit of at least one. -/
theorem PrefixQuery_first (b : Table) (index : Idx) (p : Bytes) (limit : Int)
    (hl : 0 < limit) (hc : limit ≤ maxSliceCap) (hs : KV.Sorted (b.idxs index))
    (hlen : ∀ e ∈ b.idxs index, HasPrefix e.1 p = true → idSize ≤ e.1.length) :
    PrefixQuery b index p limit none = .ok ((b.matchingIDs index p).take limit.toNat) :=
  PrefixQuery_eq b index p limit hl hc hs hlen

theorem pagedQuery_eq (b : Table) (index : Idx) (p : Bytes) (k : Int) (hk : 1 ≤ k)
    (hc : k ≤ maxSliceCap) (hs : KV.Sorted (b.idxs index))
    (hlen : ∀ e ∈ b.idxs index, HasPrefix e.1 p = true → idSize ≤ e.1.length) :
    ∀ (fuel offset : Nat), offset ≤ (b.matchingIDs index p).length →
      (b.matchingIDs index p).length < offset + fuel →
      pagedQuery b index p k fuel offset = some ((b.matchingIDs index p).drop offset)
  | 0, offset, h1, h2 => by omega
  | fuel + 1, offset, h1, h2 => by
    have hlenM : (b.matchingIDs index p).length = (KV.matching (b.idxs index) p).length := by
      unfold Table.matchingIDs; simp
    have hq : PrefixQuery b index p k (pageStart b index p offset) =
        .ok (((b.matchingIDs index p).drop offset).take k.toNat) := by
      cases offset with
      | zero => simpa [pageStart] using PrefixQuery_first b index p k (by omega) hc hs hlen
      | succ j =>
        have hj : j < (KV.matching (b.idxs index) p).length := by omega
        have hget : (KV.matching (b.idxs index) p).get? j =
            some ((KV.matching (b.idxs index) p).get ⟨j, hj⟩) := List.get?_eq_get hj
        simp only [pageStart, hget, Option.map_some']
        exact PrefixQuery_window b index p k (by omega) hc hs hlen j _ hget
    simp only [pagedQuery, hq]
    by_cases hshort : ((((b.matchingIDs index p).drop offset).take k.toNat).length : Int) < k
    · rw [if_pos hshort]
      rw [List.length_take, List.length_drop] at hshort
      rw [List.take_of_length_le (by rw [List.length_drop]; omega)]
    · rw [if_neg hshort]
      rw [List.length_take, List.length_drop] at hshort
      have hfull : (((b.matchingIDs index p).drop offset).take k.toNat).length = k.toNat := by
        rw [List.length_take, List.length_drop]; omega
      rw [hfull, pagedQuery_eq b index p k hk hc hs hlen fuel (offset + k.toNat) (by omega)
        (by omega)]
      simp only [Option.map_some', Option.some.injEq]
      rw [← List.drop_drop, List.take_append_drop]

set_option maxRecDepth 8192 in
/-- C15 as stated fails on the code: with the limit `2 ^ 62`, which is at least 1, the first
statement of `PrefixQuery`, `make([][]byte, 0, limit)`, panics, whatever the index holds, so
the very first page over the two NEW entries of `tableBigSmall` is not returned. -/
theorem PrefixQuery_huge_limit_panics :
    (1 : Int) ≤ 4611686018427387904 ∧
      tableBigSmall.matchingIDs .idx_source_state (Uint16tol StateNew) =
        [PutUint64 1, PutUint64 2] ∧
      PrefixQuery tableBigSmall .idx_source_state (Uint16tol StateNew) 4611686018427387904
        none = .error .panic ∧
      pagedQuery tableBigSmall .idx_source_state (Uint16tol StateNew) 4611686018427387904 3 0 =
        none :=
  ⟨by decide, rfl, rfl, rfl⟩

/-- C15, amended: over an index in key order whose matching keys end in an id, and for a
limit `k ≥ 1` that `make` accepts as a capacity, the pages of `PrefixQuery`, the first without
`exclusiveStart` and every other one continued from the full index key of the last entry of
the page before, until a page has fewer than `k` ids, concatenate to the ids of all entries
that start with the prefix, each once and in key order. -/
theorem PrefixQuery_pages_cover (b : Table) (index : Idx) (p : Bytes) (k : Int) (hk : 1 ≤ k)
    (hcap : k ≤ maxSliceCap) (hs : KV.Sorted (b.idxs index))
    (hlen : ∀ e ∈ b.idxs index, HasPrefix e.1 p = true → idSize ≤ e.1.length) :
    pagedQuery b index p k ((b.matchingIDs index p).length + 1) 0 =
      some (b.matchingIDs index p) :=
  pagedQuery_eq b index p k hk hcap hs hlen _ 0 (Nat.zero_le _) (by omega)

set_option maxRecDepth 8192 in
/-- The amended C15 at a concrete index: `idx_source_state` of `tableBigSmall` under NEW,
with pages of one id. -/
theorem PrefixQuery_pages_cover_witness :
    pagedQuery tableBigSmall .idx_source_state (Uint16tol StateNew) 1 3 0 =
      some [PutUint64 1, PutUint64 2] :=
  PrefixQuery_pages_cover tableBigSmall .idx_source_state (Uint16tol StateNew) 1 (by decide)
    (by decide) (by unfold KV.Sorted; decide) (by decide)

/-! ### list-by-state -/

theorem prefixScan_length (p : Bytes) (limit : Int) : ∀ (c : KV) (rows r : List Bytes),
    (rows.length : Int) < limit → prefixScan p limit c rows = .ok r → (r.length : Int) ≤ limit
  | [], rows, r, hlt, h => by
    simp only [prefixScan] at h
    cases h
    omega
  | (idx, v) :: c, rows, r, hlt, h => by
    simp only [prefixScan] at h
    split at h
    · split at h
      · cases h
      · rename_i id _
        split at h
        · rename_i hfull
          cases h
          omega
        · rename_i hfull
          refine prefixScan_length p limit c (rows ++ [id]) r ?_ h
          simp only [List.length_append, List.length_singleton, Nat.cast_add, Nat.cast_one]
            at hfull ⊢
          omega
    · cases h
      omega

theorem PrefixQuery_length {b : Table} {index : Idx} {p : Bytes} {limit : Int}
    {start : Option Bytes} {ids : List Bytes} (hl : 1 ≤ limit)
    (h : PrefixQuery b index p limit start = .ok ids) : (ids.length : Int) ≤ limit := by
  unfold PrefixQuery at h
  cases h0 : makeSlicePanics limit with
  | true => rw [h0] at h; cases h
  | false =>
  simp only [h0, Bool.false_eq_true, if_false] at h
  have hz : (([] : List Bytes).length : Int) < limit := by simpa using hl
  split at h
  · split at h
    · cases h
      simpa using (by omega : (0 : Int) ≤ limit)
    · split at h
      · exact prefixScan_length p limit _ [] ids hz h
      · exact prefixScan_length p limit _ [] ids hz h
  · exact prefixScan_length p limit _ [] ids hz h

theorem collectM_ok {α β : Type} {f : α → Except Err β} : ∀ {l : List α} {acc r : List β},
    collectM f l acc = .ok r → ∃ xs, r = acc ++ xs ∧ List.Forall₂ (fun a x => f a = .ok x) l xs
  | [], acc, r, h => by
    simp only [collectM, List.foldlM, pure, Except.pure] at h
    exact ⟨[], by rw [← Except.ok.inj h]; simp, List.Forall₂.nil⟩
  | a :: l, acc, r, h => by
    simp only [collectM, List.foldlM, bind, Except.bind] at h
    cases hf : f a with
    | error e => simp [hf] at h
    | ok x =>
      simp only [hf] at h
      obtain ⟨xs, hr, hall⟩ := @collectM_ok α β f l (acc ++ [x]) r h
      exact ⟨x :: xs, by rw [hr]; simp, List.Forall₂.cons hf hall⟩

theorem collectM_of_forall₂ {α β : Type} {f : α → Except Err β} : ∀ {l : List α}
    {xs : List β} (acc : List β), List.Forall₂ (fun a x => f a = .ok x) l xs →
    collectM f l acc = .ok (acc ++ xs)
  | _, _, acc, .nil => by simp [collectM, List.foldlM, pure, Except.pure]
  | _, _, acc, @List.Forall₂.cons _ _ _ a x l xs hf hall => by
    have := @collectM_of_forall₂ α β f l xs (acc ++ [x]) hall
    simp only [collectM, List.foldlM, bind, Except.bind, hf] at this ⊢
    rw [this]
    simp

theorem listItem_ID {encode : Bytes → Bytes} {b : Table} {set : ObjectSet} {type : String}
    {id : Bytes} {item : ListObjectByStateItem}
    (h : listItem encode b set type id = .ok item) : item.ID = encode id := by
  unfold listItem at h
  split at h
  · split at h
    · cases h
    · cases h; rfl
  · split at h
    · cases h
    · cases h; rfl

theorem listItem_of_readable {encode : Bytes → Bytes} {b : Table} {set : ObjectSet}
    {type : String} {id : Bytes} (h : rowReadable b set type id) :
    ∃ item, listItem encode b set type id = .ok item := by
  unfold rowReadable at h
  unfold listItem
  by_cases ht : type = "source"
  · rw [if_pos ht] at h ⊢
    obtain ⟨row, hrow⟩ := h
    rw [hrow]
    exact ⟨_, rfl⟩
  · rw [if_neg ht] at h ⊢
    obtain ⟨row, hrow⟩ := h
    rw [hrow]
    exact ⟨_, rfl⟩

theorem listItems_of_readable {encode : Bytes → Bytes} {b : Table} {set : ObjectSet}
    {type : String} : ∀ (ids : List Bytes), (∀ id ∈ ids, rowReadable b set type id) →
    ∃ xs, List.Forall₂ (fun id item => listItem encode b set type id = .ok item) ids xs
  | [], _ => ⟨[], List.Forall₂.nil⟩
  | id :: ids, h => by
    obtain ⟨item, hitem⟩ := @listItem_of_readable encode b set type id
      (h id (List.mem_cons_self _ _))
    obtain ⟨xs, hxs⟩ := @listItems_of_readable encode b set type ids
      (fun x hx => h x (List.mem_cons_of_mem _ hx))
    exact ⟨item :: xs, List.Forall₂.cons hitem hxs⟩

theorem listItems_IDs {encode : Bytes → Bytes} {b : Table} {set : ObjectSet} {type : String} :
    ∀ {ids : List Bytes} {xs : List ListObjectByStateItem},
    List.Forall₂ (fun id item => listItem encode b set type id = .ok item) ids xs →
    xs.map (·.ID) = ids.map encode
  | _, _, .nil => rfl
  | _, _, .cons h hall => by
    simp only [List.map_cons, listItem_ID h, listItems_IDs hall]

/-- The shape of a response of list-by-state. -/
theorem ListObjectByState.listInvoke_ok {ToLower ToUpper : String → String}
    {decode : Bytes → Option Bytes} {encode : Bytes → Bytes} {l : ListObjectByState}
    {t : Table} {out : ListObjectByStateOutput}
    (h : ListObjectByState.Invoke ToLower ToUpper decode encode l (some t) = .ok out) :
    ∃ set index start ids,
      stateIndex (ToLower l.Type_) = some index ∧
      PrefixQuery t index (Uint16tol (ParseState (ToUpper l.State))) l.Limit start = .ok ids ∧
      List.Forall₂ (fun id item => listItem encode t set (ToLower l.Type_) id = .ok item)
        ids out.Items ∧
      out.NextPage = (match ids.getLast? with
        | some lastID =>
          if l.Limit ≤ (out.Items.length : Int) then some (encode lastID) else none
        | none => none) := by
  unfold ListObjectByState.Invoke LookupTable at h
  simp only [] at h
  split at h
  · cases h
  · rename_i b set hlt
    split at hlt
    · cases hlt
    · rename_i set1 _
      cases hlt
      split at h
      · cases h
      · rename_i start _
        split at h
        · cases h
        · rename_i index hidx
          split at h
          · cases h
          · rename_i ids hq
            split at h
            · cases h
            · rename_i items hitems
              cases h
              obtain ⟨xs, hxs, hall⟩ := collectM_ok hitems
              simp only [List.nil_append] at hxs
              subst hxs
              exact ⟨_, index, start, ids, hidx, hq, hall, rfl⟩

theorem eq_append_idOf {e p : Bytes} (hp : HasPrefix e p = true)
    (hl : e.length = p.length + 8) : e = p ++ idOf e := by
  unfold HasPrefix at hp
  obtain ⟨t, rfl⟩ := List.isPrefixOf_iff_prefix.mp hp
  have ht : t.length = 8 := by
    rw [List.length_append] at hl
    omega
  rw [idOf_append _ _ ht]

theorem getLast?_take_drop {α : Type} (M : List α) (offset n : Nat) (hn : 1 ≤ n)
    (h : offset + n ≤ M.length) :
    ((M.drop offset).take n).getLast? = M.get? (offset + n - 1) := by
  have hlen : ((M.drop offset).take n).length = n := by
    rw [List.length_take, List.length_drop]; omega
  rw [List.getLast?_eq_getElem?, hlen, List.getElem?_take_of_lt (by omega), List.getElem?_drop,
    List.get?_eq_getElem?]
  congr 1
  omega

/-- One request of list-by-state, given what its query and its lookups return. -/
theorem ListObjectByState.Invoke_page {ToLower ToUpper : String → String}
    {decode : Bytes → Option Bytes} {encode : Bytes → Bytes} {l : ListObjectByState}
    {t : Table} {set : ObjectSet} {index : Idx} {ids : List Bytes}
    {xs : List ListObjectByStateItem}
    (hset : (NewObjectSet l.Bucket l.Prefix).Unmarshal t.rootValues = .ok set)
    (hidx : stateIndex (ToLower l.Type_) = some index) (start sk : Option Bytes)
    (hstart : (start = none ∧ sk = none) ∨ ∃ s d, start = some s ∧ decode s = some d ∧
      sk = some (MakeIndex (Uint16tol (ParseState (ToUpper l.State))) d))
    (hq : PrefixQuery t index (Uint16tol (ParseState (ToUpper l.State))) l.Limit sk = .ok ids)
    (hall : List.Forall₂
      (fun id item => listItem encode t set (ToLower l.Type_) id = .ok item) ids xs) :
    ListObjectByState.Invoke ToLower ToUpper decode encode (l.withStart start) (some t) =
      .ok { Type_ := ToLower l.Type_
            Items := xs
            Length := xs.length
            NextPage :=
              match ids.getLast? with
              | some lastID => if l.Limit ≤ (xs.length : Int) then some (encode lastID) else none
              | none => none } := by
  have hitems : listItems encode t set (ToLower l.Type_) ids = .ok xs := by
    unfold listItems
    rw [collectM_of_forall₂ [] hall]
    rfl
  unfold ListObjectByState.Invoke LookupTable ListObjectByState.withStart
  simp only [hset, hidx]
  rcases hstart with ⟨rfl, rfl⟩ | ⟨s, d, rfl, hd, rfl⟩
  · simp only [hq, hitems]
  · simp only [hd, hq, hitems]

/-- Following `next_page` from the request that comes after `offset` listed ids returns the
rows of the remaining matching ids. -/
theorem listAll_eq {ToLower ToUpper : String → String} {decode : Bytes → Option Bytes}
    {encode : Bytes → Bytes} {l : ListObjectByState} {t : Table} {set : ObjectSet}
    {index : Idx}
    (hset : (NewObjectSet l.Bucket l.Prefix).Unmarshal t.rootValues = .ok set)
    (hidx : stateIndex (ToLower l.Type_) = some index)
    (hs : KV.Sorted (t.idxs index))
    (hlen : ∀ e ∈ t.idxs index,
      HasPrefix e.1 (Uint16tol (ParseState (ToUpper l.State))) = true → e.1.length = 10)
    (hread : ∀ id ∈ t.matchingIDs index (Uint16tol (ParseState (ToUpper l.State))),
      rowReadable t set (ToLower l.Type_) id)
    (hcodec : ∀ id, decode (encode id) = some id) (hk : 1 ≤ l.Limit)
    (hcap : l.Limit ≤ maxSliceCap) :
    ∀ (fuel offset : Nat),
      offset ≤ (t.matchingIDs index (Uint16tol (ParseState (ToUpper l.State)))).length →
      (t.matchingIDs index (Uint16tol (ParseState (ToUpper l.State)))).length < offset + fuel →
      ∃ items, listAll ToLower ToUpper decode encode l (some t) fuel
          (listStart encode
            (t.matchingIDs index (Uint16tol (ParseState (ToUpper l.State)))) offset) =
          some items ∧
        items.map (·.ID) =
          ((t.matchingIDs index (Uint16tol (ParseState (ToUpper l.State)))).drop offset).map
            encode
  | 0, offset, h1, h2 => by omega
  | fuel + 1, offset, h1, h2 => by
    have hlen8 : ∀ e ∈ t.idxs index,
        HasPrefix e.1 (Uint16tol (ParseState (ToUpper l.State))) = true →
        idSize ≤ e.1.length := by
      intro e he hp
      have := hlen e he hp
      unfold idSize
      omega
    have hk0 : (0 : Int) < l.Limit := by omega
    -- the query of this request
    obtain ⟨sk, hstart, hq⟩ : ∃ sk,
        ((listStart encode (t.matchingIDs index (Uint16tol (ParseState (ToUpper l.State))))
            offset = none ∧ sk = none) ∨
          ∃ s d, listStart encode
              (t.matchingIDs index (Uint16tol (ParseState (ToUpper l.State)))) offset = some s ∧
            decode s = some d ∧
            sk = some (MakeIndex (Uint16tol (ParseState (ToUpper l.State))) d)) ∧
        PrefixQuery t index (Uint16tol (ParseState (ToUpper l.State))) l.Limit sk =
          .ok (((t.matchingIDs index (Uint16tol (ParseState (ToUpper l.State)))).drop
            offset).take l.Limit.toNat) := by
      cases offset with
      | zero =>
        exact ⟨none, Or.inl ⟨rfl, rfl⟩, by
          simpa using PrefixQuery_first t index _ l.Limit hk0 hcap hs hlen8⟩
      | succ j =>
        have hj : j < (KV.matching (t.idxs index)
            (Uint16tol (ParseState (ToUpper l.State)))).length := by
          have : (t.matchingIDs index (Uint16tol (ParseState (ToUpper l.State)))).length =
              (KV.matching (t.idxs index) (Uint16tol (ParseState (ToUpper l.State)))).length := by
            unfold Table.matchingIDs; simp
          omega
        have hget : (KV.matching (t.idxs index)
            (Uint16tol (ParseState (ToUpper l.State)))).get? j =
            some ((KV.matching (t.idxs index)
              (Uint16tol (ParseState (ToUpper l.State)))).get ⟨j, hj⟩) := List.get?_eq_get hj
        generalize hE : (KV.matching (t.idxs index)
          (Uint16tol (ParseState (ToUpper l.State)))).get ⟨j, hj⟩ = e at hget
        have hmem : e ∈ KV.matching (t.idxs index)
            (Uint16tol (ParseState (ToUpper l.State))) := hE ▸ List.get_mem _ _ _
        unfold KV.matching at hmem
        rw [List.mem_filter] at hmem
        have hkey : e.1 = Uint16tol (ParseState (ToUpper l.State)) ++ idOf e.1 :=
          eq_append_idOf hmem.2 (by rw [hlen e hmem.1 hmem.2]; rfl)
        have hM : (t.matchingIDs index (Uint16tol (ParseState (ToUpper l.State)))).get? j =
            some (idOf e.1) := by
          unfold Table.matchingIDs
          rw [List.get?_eq_getElem?, List.getElem?_map, ← List.get?_eq_getElem?, hget]
          rfl
        refine ⟨some e.1, Or.inr ⟨encode (idOf e.1), idOf e.1, ?_, hcodec _, ?_⟩, ?_⟩
        · simp only [listStart, hM, Option.map_some']
        · unfold MakeIndex
          rw [← hkey]
        · exact PrefixQuery_window t index _ l.Limit hk0 hcap hs hlen8 j e hget
    -- the rows of the page
    obtain ⟨xs, hxs⟩ := @listItems_of_readable encode t set (ToLower l.Type_)
      (((t.matchingIDs index (Uint16tol (ParseState (ToUpper l.State)))).drop offset).take
        l.Limit.toNat)
      (fun id hid => hread id (List.mem_of_mem_drop (List.mem_of_mem_take hid)))
    have hids := listItems_IDs hxs
    have hxlen : xs.length = (((t.matchingIDs index
        (Uint16tol (ParseState (ToUpper l.State)))).drop offset).take l.Limit.toNat).length := by
      have := congrArg List.length hids
      simpa using this
    have hpage := ListObjectByState.Invoke_page hset hidx _ sk hstart hq hxs
    simp only [listAll, hpage]
    rw [List.length_take, List.length_drop] at hxlen
    by_cases hfull : offset + l.Limit.toNat ≤
        (t.matchingIDs index (Uint16tol (ParseState (ToUpper l.State)))).length
    · -- a full page
      have hlast := getLast?_take_drop
        (t.matchingIDs index (Uint16tol (ParseState (ToUpper l.State)))) offset l.Limit.toNat
        (by omega) hfull
      have hjlt : offset + l.Limit.toNat - 1 <
          (t.matchingIDs index (Uint16tol (ParseState (ToUpper l.State)))).length := by omega
      rw [List.get?_eq_get hjlt] at hlast
      have hle : l.Limit ≤ (xs.length : Int) := by omega
      simp only [hlast, if_pos hle]
      have hnext : listStart encode
          (t.matchingIDs index (Uint16tol (ParseState (ToUpper l.State))))
          (offset + l.Limit.toNat) = some (encode ((t.matchingIDs index
            (Uint16tol (ParseState (ToUpper l.State)))).get ⟨offset + l.Limit.toNat - 1, hjlt⟩)) := by
        obtain ⟨m, hm⟩ : ∃ m, offset + l.Limit.toNat = m + 1 :=
          ⟨offset + l.Limit.toNat - 1, by omega⟩
        simp only [hm, listStart, Nat.add_sub_cancel] at hjlt ⊢
        rw [List.get?_eq_get hjlt]
        rfl
      obtain ⟨items, hrec, hitems⟩ := listAll_eq hset hidx hs hlen hread hcodec hk hcap fuel
        (offset + l.Limit.toNat) hfull (by omega)
      rw [hnext] at hrec
      rw [hrec]
      refine ⟨xs ++ items, rfl, ?_⟩
      rw [List.map_append, hids, hitems, ← List.map_append, ← List.drop_drop,
        List.take_append_drop]
    · -- the last page
      have hnone : (match (((t.matchingIDs index
          (Uint16tol (ParseState (ToUpper l.State)))).drop offset).take
            l.Limit.toNat).getLast? with
          | some lastID => if l.Limit ≤ (xs.length : Int) then some (encode lastID) else none
          | none => none) = none := by
        have hlt : ¬ l.Limit ≤ (xs.length : Int) := by omega
        cases (((t.matchingIDs index (Uint16tol (ParseState (ToUpper l.State)))).drop
          offset).take l.Limit.toNat).getLast? with
        | none => rfl
        | some x => simp only [if_neg hlt]
      simp only [hnone]
      refine ⟨xs, rfl, ?_⟩
      rw [hids, List.take_of_length_le (by rw [List.length_drop]; omega)]

theorem StateIndexConsistent.length_eq {t : Table} {marker : Col} {index : Idx}
    (h : StateIndexConsistent t marker index) {e : Bytes} (he : e ∈ t.index index) :
    e.length = 10 := by
  obtain ⟨id, v, hm, hv, rfl⟩ := (h.1 e).mp he
  obtain ⟨s, _, rfl⟩ := h.2.1 id v hv
  rw [List.length_append, h.2.2 id hm]
  rfl

theorem matchingIDs_nodup {t : Table} {index : Idx} {p : Bytes} (hs : KV.Sorted (t.idxs index))
    (hlen : ∀ e ∈ t.idxs index, HasPrefix e.1 p = true → e.1.length = p.length + 8) :
    (t.matchingIDs index p).Nodup := by
  unfold Table.matchingIDs
  have hkeys : ((KV.matching (t.idxs index) p).map Prod.fst).Nodup :=
    List.Nodup.sublist (List.Sublist.map _ (List.filter_sublist _)) (KV.keys_nodup hs)
  have : (KV.matching (t.idxs index) p).map (fun e => idOf e.1) =
      ((KV.matching (t.idxs index) p).map Prod.fst).map idOf := by
    rw [List.map_map]; rfl
  rw [this]
  refine List.Nodup.map_on ?_ hkeys
  intro x hx y hy hxy
  obtain ⟨ex, hex, rfl⟩ := List.mem_map.mp hx
  obtain ⟨ey, hey, rfl⟩ := List.mem_map.mp hy
  unfold KV.matching at hex hey
  rw [List.mem_filter] at hex hey
  rw [eq_append_idOf hex.2 (hlen ex hex.1 hex.2), eq_append_idOf hey.2 (hlen ey hey.1 hey.2),
    hxy]

/-- C18, amended: for a type with a state index, a limit `k ≥ 1` that `make` accepts as a
capacity, and a store whose state
index is in key order and consistent with its rows, all of them readable: a response carries
`next_page` iff it has exactly `k` items, and `next_page` is then the id of its last item, the
base64 of the last row id; and a client that follows `next_page` as `exclusive_start` until it
is null gets every row of the type in the state exactly once. -/
theorem list_by_state_pages (ToLower ToUpper : String → String)
    (decode : Bytes → Option Bytes) (encode : Bytes → Bytes) (l : ListObjectByState)
    (t : Table) (set : ObjectSet) (index : Idx)
    (hset : (NewObjectSet l.Bucket l.Prefix).Unmarshal t.rootValues = .ok set)
    (hidx : stateIndex (ToLower l.Type_) = some index)
    (hs : KV.Sorted (t.idxs index))
    (hcons : StateIndexConsistent t (typeMarker (ToLower l.Type_)) index)
    (hread : ∀ id ∈ t.matchingIDs index (Uint16tol (ParseState (ToUpper l.State))),
      rowReadable t set (ToLower l.Type_) id)
    (hcodec : ∀ id, decode (encode id) = some id) (hk : 1 ≤ l.Limit)
    (hcap : l.Limit ≤ maxSliceCap) :
    (∀ start out,
      ListObjectByState.Invoke ToLower ToUpper decode encode (l.withStart start) (some t) =
        .ok out →
      (out.NextPage ≠ none ↔ (out.Items.length : Int) = l.Limit) ∧
      ∀ next, out.NextPage = some next → out.Items.getLast?.map (·.ID) = some next) ∧
    ∃ items,
      listAll ToLower ToUpper decode encode l (some t)
        ((t.matchingIDs index (Uint16tol (ParseState (ToUpper l.State)))).length + 1) none =
        some items ∧
      items.map (·.ID) =
        (t.matchingIDs index (Uint16tol (ParseState (ToUpper l.State)))).map encode ∧
      (items.map (·.ID)).Nodup ∧
      ∀ id, t.cell (typeMarker (ToLower l.Type_)) id = some valueTrue →
        t.cell .state id = some (Uint16tol (ParseState (ToUpper l.State))) →
        encode id ∈ items.map (·.ID) := by
  have hlen : ∀ e ∈ t.idxs index,
      HasPrefix e.1 (Uint16tol (ParseState (ToUpper l.State))) = true → e.1.length = 10 :=
    fun e he _ => hcons.length_eq (List.mem_map_of_mem Prod.fst he)
  constructor
  · intro start out hout
    obtain ⟨set1, index1, sk, ids, _, hq, hall, hnext⟩ := ListObjectByState.listInvoke_ok hout
    have hq' : PrefixQuery t index1 (Uint16tol (ParseState (ToUpper l.State))) l.Limit sk =
        .ok ids := hq
    have hle := PrefixQuery_length hk hq'
    have hids := listItems_IDs hall
    have hxlen : out.Items.length = ids.length := by
      have := congrArg List.length hids
      simpa using this
    have hnext' : out.NextPage = (match ids.getLast? with
        | some lastID =>
          if l.Limit ≤ (out.Items.length : Int) then some (encode lastID) else none
        | none => none) := hnext
    have hlastmap : out.Items.getLast?.map (·.ID) = ids.getLast?.map encode := by
      rw [← List.getLast?_map, hids, List.getLast?_map]
    constructor
    · constructor
      · intro hne
        rw [hnext'] at hne
        cases hl : ids.getLast? with
        | none => rw [hl] at hne; exact absurd rfl hne
        | some x =>
          rw [hl] at hne
          by_cases hc : l.Limit ≤ (out.Items.length : Int)
          · omega
          · simp only [if_neg hc] at hne
            exact absurd rfl hne
      · intro heq
        rw [hnext']
        have hpos : ids ≠ [] := by
          intro h0
          rw [h0] at hxlen
          simp only [List.length_nil] at hxlen
          omega
        obtain ⟨x, hx⟩ : ∃ x, ids.getLast? = some x := by
          cases hl : ids.getLast? with
          | none => exact absurd (List.getLast?_eq_none_iff.mp hl) hpos
          | some x => exact ⟨x, rfl⟩
        rw [hx]
        simp only [if_pos (le_of_eq heq.symm)]
        exact Option.some_ne_none _
    · intro next hn
      rw [hnext'] at hn
      rw [hlastmap]
      cases hl : ids.getLast? with
      | none => rw [hl] at hn; cases hn
      | some x =>
        rw [hl] at hn
        by_cases hc : l.Limit ≤ (out.Items.length : Int)
        · simp only [if_pos hc] at hn
          rw [← Option.some.inj hn]
          rfl
        · simp only [if_neg hc] at hn
          cases hn
  · obtain ⟨items, hrun, hitems⟩ := listAll_eq hset hidx hs hlen hread hcodec hk hcap
      ((t.matchingIDs index (Uint16tol (ParseState (ToUpper l.State)))).length + 1) 0
      (Nat.zero_le _) (by omega)
    have hitems' : items.map (·.ID) =
        (t.matchingIDs index (Uint16tol (ParseState (ToUpper l.State)))).map encode := by
      simpa using hitems
    have hinj : Function.Injective encode := by
      intro a b hab
      have := congrArg decode hab
      rw [hcodec, hcodec] at this
      exact Option.some.inj this
    have hnd : ((t.matchingIDs index (Uint16tol (ParseState (ToUpper l.State)))).map
        encode).Nodup :=
      List.Nodup.map hinj (matchingIDs_nodup hs (fun e he hp => by rw [hlen e he hp]; rfl))
    refine ⟨items, hrun, hitems', hitems' ▸ hnd, ?_⟩
    intro id hm hst
    rw [hitems']
    refine List.mem_map_of_mem encode ?_
    have he : Uint16tol (ParseState (ToUpper l.State)) ++ id ∈ t.index index :=
      (hcons.1 _).mpr ⟨id, _, hm, hst, rfl⟩
    obtain ⟨e, he1, he2⟩ := List.mem_map.mp he
    unfold Table.matchingIDs
    refine List.mem_map.mpr ⟨e, ?_, ?_⟩
    · unfold KV.matching
      rw [List.mem_filter]
      refine ⟨he1, ?_⟩
      rw [he2]
      unfold HasPrefix
      exact List.isPrefixOf_iff_prefix.mpr (List.prefix_append _ _)
    · rw [he2]
      exact idOf_append _ _ (hcons.2.2 id hm)

theorem Except.exists_of_toBool {α : Type} {x : Except Err α} (h : x.toBool = true) :
    ∃ a, x = .ok a := by
  cases x with
  | error e => cases h
  | ok a => exact ⟨a, rfl⟩

set_option maxRecDepth 8192 in
theorem tablePlanned_stateIndex :
    StateIndexConsistent tablePlanned .is_source_object .idx_source_state := by
  have hidx : tablePlanned.index .idx_source_state =
      [Uint16tol StateInSync ++ PutUint64 1, Uint16tol StateInSync ++ PutUint64 2] := rfl
  have hmark : tablePlanned.cols .is_source_object =
      [(PutUint64 1, valueTrue), (PutUint64 2, valueTrue)] := rfl
  have hstate : tablePlanned.cols .state =
      [(PutUint64 1, Uint16tol StateInSync), (PutUint64 2, Uint16tol StateInSync),
       (PutUint64 3, Uint16tol StateNew)] := rfl
  have h1 : tablePlanned.cell .state (PutUint64 1) = some (Uint16tol StateInSync) := rfl
  have h2 : tablePlanned.cell .state (PutUint64 2) = some (Uint16tol StateInSync) := rfl
  refine ⟨?_, ?_, ?_⟩
  · intro e
    rw [hidx]
    constructor
    · intro he
      simp only [List.mem_cons, List.mem_singleton, List.not_mem_nil, or_false] at he
      rcases he with rfl | rfl
      · exact ⟨PutUint64 1, _, rfl, h1, rfl⟩
      · exact ⟨PutUint64 2, _, rfl, h2, rfl⟩
    · rintro ⟨id, v, hm, hv, rfl⟩
      have hmem := Table.cell_mem hm
      rw [hmark] at hmem
      simp only [List.mem_cons, Prod.mk.injEq, List.mem_singleton, List.not_mem_nil, or_false,
        and_true] at hmem
      rcases hmem with rfl | rfl
      · rw [h1] at hv
        cases hv
        simp
      · rw [h2] at hv
        cases hv
        simp
  · intro id v hv
    have hmem := Table.cell_mem hv
    rw [hstate] at hmem
    simp only [List.mem_cons, Prod.mk.injEq, List.mem_singleton, List.not_mem_nil, or_false]
      at hmem
    rcases hmem with ⟨_, rfl⟩ | ⟨_, rfl⟩ | ⟨_, rfl⟩
    · exact ⟨StateInSync, by decide, rfl⟩
    · exact ⟨StateInSync, by decide, rfl⟩
    · exact ⟨StateNew, by decide, rfl⟩
  · intro id hm
    have hmem := Table.cell_mem hm
    rw [hmark] at hmem
    simp only [List.mem_cons, Prod.mk.injEq, List.mem_singleton, List.not_mem_nil, or_false,
      and_true] at hmem
    rcases hmem with rfl | rfl <;> rfl

set_option maxRecDepth 8192 in
theorem tablePlanned_readable :
    ∀ id ∈ tablePlanned.matchingIDs .idx_source_state (Uint16tol StateInSync),
      rowReadable tablePlanned exampleSetRead "source" id := by
  have hM : tablePlanned.matchingIDs .idx_source_state (Uint16tol StateInSync) =
      [PutUint64 1, PutUint64 2] := rfl
  intro id hid
  rw [hM] at hid
  simp only [List.mem_cons, List.mem_singleton, List.not_mem_nil, or_false] at hid
  unfold rowReadable
  rw [if_pos rfl]
  rcases hid with rfl | rfl
  · exact Except.exists_of_toBool rfl
  · exact Except.exists_of_toBool rfl

set_option maxRecDepth 8192 in
/-- C18 as stated fails on the code: with two IN_SYNC sources and limit 1, the first response
has the item of row 1 and a `next_page`, and the second response has the item of row 2 and
again a `next_page`, because it has exactly `limit` items; only the third response, with no
item, has a null `next_page`. And with the limit `2 ^ 62` of the request there is no response:
`make([][]byte, 0, limit)` in `PrefixQuery` panics. -/
theorem second_page_carries_next_page :
    ((ListObjectByState.Invoke (fun s => s) (fun s => s) some (fun x => x)
        exampleList storePlanned).map fun o => (o.Items.map (·.ID), o.NextPage)) =
        .ok ([PutUint64 1], some (PutUint64 1)) ∧
      ((ListObjectByState.Invoke (fun s => s) (fun s => s) some (fun x => x)
        (exampleList.withStart (some (PutUint64 1))) storePlanned).map fun o =>
          (o.Items.map (·.ID), o.NextPage)) = .ok ([PutUint64 2], some (PutUint64 2)) ∧
      ((ListObjectByState.Invoke (fun s => s) (fun s => s) some (fun x => x)
        (exampleList.withStart (some (PutUint64 2))) storePlanned).map fun o =>
          (o.Items.map (·.ID), o.NextPage)) = .ok ([], none) ∧
      1 ≤ exampleListHuge.Limit ∧
      ((ListObjectByState.Invoke (fun s => s) (fun s => s) some (fun x => x)
        exampleListHuge storePlanned).map fun o => (o.Items.map (·.ID), o.NextPage)) =
        .error .panic := ⟨rfl, rfl, rfl, by decide, rfl⟩

set_option maxRecDepth 8192 in
/-- The amended C18 at the example store: following `next_page` with limit 1 takes three
requests and lists the rows 1 and 2. -/
theorem list_by_state_pages_witness :
    ∃ items, listAll (fun s => s) (fun s => s) some (fun x => x) exampleList storePlanned 3
        none = some items ∧ items.map (·.ID) = [PutUint64 1, PutUint64 2] := by
  obtain ⟨_, items, h1, h2, _⟩ := list_by_state_pages (fun s => s) (fun s => s) some
    (fun x => x) exampleList tablePlanned exampleSetRead .idx_source_state rfl rfl
    (by unfold KV.Sorted; decide) tablePlanned_stateIndex tablePlanned_readable
    (fun _ => rfl) (by decide) (by decide)
  exact ⟨items, h1, h2⟩

/-! ### update-state: the effect of a successful run -/

theorem Uint16tol_inj {a b : Nat} (ha : a < 2 ^ 16) (hb : b < 2 ^ 16)
    (h : Uint16tol a = Uint16tol b) : a = b := by
  simp only [Uint16tol, List.cons.injEq, and_true] at h
  omega

theorem ParseState_lt (s : String) : ParseState s < 2 ^ 16 := by
  unfold ParseState
  repeat' split
  all_goals decide

theorem Ltouint16_lt {v : Bytes} {s : Nat} (h : Ltouint16 v = .ok s) : s < 2 ^ 16 := by
  unfold Ltouint16 at h
  split at h
  · rw [← Except.ok.inj h]
    exact Nat.mod_lt _ (by norm_num)
  · cases h

/-- The effect of one successful step of update-state on a row of the type: the row has the
marker of the type, and either its state, as read, is the target and nothing is written, or
its state cell becomes the target and its entry in the state index is replaced. -/
theorem updateStep_effect {set : ObjectSet} {type : String} {state : Nat} {b b' : Table}
    {id : Bytes} {marker : Col} {index : Idx}
    (htype : (type = "source" ∧ marker = .is_source_object ∧ index = .idx_source_state) ∨
      (type = "destination" ∧ marker = .is_destination_object ∧
        index = .idx_destination_state))
    (hst : state < 2 ^ 16) (h : updateStep set type state b id = .ok b') :
    b.cell marker id = some valueTrue ∧
    ∃ s, s < 2 ^ 16 ∧
      (match b.cell .state id with
        | some v => Ltouint16 v = .ok s
        | none => s = StateUnknown) ∧
      ((s = state ∧ b' = b) ∨
        (s ≠ state ∧
          (∀ c x, b'.cell c x =
            if c = .state ∧ x = id then some (Uint16tol state) else b.cell c x) ∧
          ∀ i e, e ∈ b'.index i ↔
            if i = index then
              e = Uint16tol state ++ id ∨ (e ≠ Uint16tol s ++ id ∧ e ∈ b.index i)
            else e ∈ b.index i)) := by
  have key : ∀ (ix : Col → Option Idx) (s : Nat), s < 2 ^ 16 → s ≠ state →
      ix .state = some index →
      (∀ c x, (putValueT b ix id .state (some (Uint16tol state)) (some (Uint16tol s))).cell c x =
        if c = .state ∧ x = id then some (Uint16tol state) else b.cell c x) ∧
      ∀ i e, e ∈ (putValueT b ix id .state (some (Uint16tol state))
          (some (Uint16tol s))).index i ↔
        if i = index then
          e = Uint16tol state ++ id ∨ (e ≠ Uint16tol s ++ id ∧ e ∈ b.index i)
        else e ∈ b.index i := by
    intro ix s hs hne hix
    have hbe : bytesEqual (some (Uint16tol state)) (some (Uint16tol s)) = false := by
      rw [bytesEqual_some]
      exact decide_eq_false (fun heq => hne (Uint16tol_inj hs hst heq.symm))
    constructor
    · intro c x
      rw [cell_putValueT, hbe]
      simp
    · intro i e
      rw [mem_index_putValueT, hbe, hix]
      by_cases hi : i = index
      · subst hi
        simp
      · have : ¬ index = i := fun hh => hi hh.symm
        simp [hi, this]
  have hslt : ∀ (s : Nat), (match b.cell .state id with
      | some v => Ltouint16 v = .ok s
      | none => s = StateUnknown) → s < 2 ^ 16 := by
    intro s hs
    cases hc : b.cell .state id with
    | none => rw [hc] at hs; simp only at hs; rw [hs]; decide
    | some v => rw [hc] at hs; exact Ltouint16_lt hs
  rcases updateStep_ok h with ⟨ht, o, ho, hcase⟩ | ⟨ht, o, ho, hcase⟩
  · rcases htype with ⟨_, rfl, rfl⟩ | ⟨ht2, _, _⟩
    · obtain ⟨_, _, hm, _, hs, _⟩ := LookupSourceRow_ok ho
      refine ⟨hm, o.State, hslt _ hs, hs, ?_⟩
      rcases hcase with ⟨h1, h2⟩ | ⟨h1, h2⟩
      · exact Or.inl ⟨h1, h2⟩
      · exact Or.inr ⟨h1, h2 ▸ key sourceObjectIndexes o.State (hslt _ hs) h1 rfl⟩
    · rw [ht] at ht2
      exact absurd ht2 (by decide)
  · rcases htype with ⟨ht2, _, _⟩ | ⟨_, rfl, rfl⟩
    · rw [ht] at ht2
      exact absurd ht2 (by decide)
    · obtain ⟨_, hm, hs⟩ := LookupDestinationRow_ok ho
      refine ⟨hm, o.State, hslt _ hs, hs, ?_⟩
      rcases hcase with ⟨h1, h2⟩ | ⟨h1, h2⟩
      · exact Or.inl ⟨h1, h2⟩
      · exact Or.inr ⟨h1, h2 ▸ key destinationObjectIndexes o.State (hslt _ hs) h1 rfl⟩

/-- The invariant of update-state through one id. -/
theorem UpdateInv.step {t b b' : Table} {marker : Col} {index : Idx} {set : ObjectSet}
    {type : String} {state : Nat} {done : List Bytes} {id : Bytes}
    (hcons : StateIndexConsistent t marker index)
    (htype : (type = "source" ∧ marker = .is_source_object ∧ index = .idx_source_state) ∨
      (type = "destination" ∧ marker = .is_destination_object ∧
        index = .idx_destination_state))
    (hst : state < 2 ^ 16) (hne : state ≠ StateUnknown)
    (hinv : UpdateInv t marker index (Uint16tol state) done b)
    (h : updateStep set type state b id = .ok b') :
    UpdateInv t marker index (Uint16tol state) (id :: done) b' := by
  obtain ⟨hm, s, hs16, hs, hcase⟩ := updateStep_effect htype hst h
  by_cases hdone : id ∈ done
  · -- the row was updated before: nothing is written
    obtain ⟨hcell, _, _⟩ := hinv.rows id hdone
    rw [hcell] at hs
    simp only [Ltouint16_Uint16tol, Except.ok.injEq] at hs
    have hss : s = state := by rw [← hs]; exact Nat.mod_eq_of_lt hst
    have hb : b' = b := by
      rcases hcase with ⟨_, hb⟩ | ⟨hne', _⟩
      · exact hb
      · exact absurd hss hne'
    subst hb
    refine ⟨?_, ?_, ?_⟩
    · intro c x hx
      exact hinv.frameC c x (hx.imp (fun hh => hh) (fun hh hd => hh (List.mem_cons_of_mem _ hd)))
    · intro i e hx
      exact hinv.frameI i e (hx.imp (fun hh => hh) (fun hh hd => hh (List.mem_cons_of_mem _ hd)))
    · intro x hx
      rcases List.mem_cons.mp hx with rfl | hx
      · exact hinv.rows _ hdone
      · exact hinv.rows x hx
  · -- a row not met before: its cells and its entries are those of `t`
    have hcellt : ∀ c, b.cell c id = t.cell c id := fun c => hinv.frameC c id (Or.inr hdone)
    rw [hcellt] at hm hs
    have h8 : id.length = 8 := hcons.2.2 id hm
    have hidxt : ∀ e, idOf e = id → (e ∈ b.index index ↔ e ∈ t.index index) :=
      fun e he => hinv.frameI index e (Or.inr (he ▸ hdone))
    have hold : ∀ e, e ∈ t.index index → idOf e = id →
        t.cell .state id = some (Uint16tol s) ∧ e = Uint16tol s ++ id := by
      intro e he hid
      obtain ⟨id1, v, hm1, hv, rfl⟩ := (hcons.1 e).mp he
      rw [idOf_append _ _ (hcons.2.2 id1 hm1)] at hid
      subst hid
      obtain ⟨s0, hs0, rfl⟩ := hcons.2.1 id1 v hv
      rw [hv] at hs
      simp only [Ltouint16_Uint16tol, Except.ok.injEq] at hs
      rw [Nat.mod_eq_of_lt hs0] at hs
      subst hs
      exact ⟨hv, rfl⟩
    have hframeC : ∀ c x, (c ≠ .state ∨ x ∉ id :: done) → b.cell c x = t.cell c x := by
      intro c x hx
      exact hinv.frameC c x (hx.imp (fun hh => hh) (fun hh hd => hh (List.mem_cons_of_mem _ hd)))
    have hframeI : ∀ i e, (i ≠ index ∨ idOf e ∉ id :: done) →
        (e ∈ b.index i ↔ e ∈ t.index i) := by
      intro i e hx
      exact hinv.frameI i e (hx.imp (fun hh => hh) (fun hh hd => hh (List.mem_cons_of_mem _ hd)))
    rcases hcase with ⟨hss, rfl⟩ | ⟨hss, hcells, hidx⟩
    · -- already in the target state
      subst hss
      have hcell : t.cell .state id = some (Uint16tol s) := by
        cases hc : t.cell .state id with
        | none =>
          rw [hc] at hs
          exact absurd hs hne
        | some v =>
          obtain ⟨s0, hs0, rfl⟩ := hcons.2.1 id v hc
          rw [hc] at hs
          simp only [Ltouint16_Uint16tol, Except.ok.injEq] at hs
          rw [Nat.mod_eq_of_lt hs0] at hs
          rw [hs]
      refine ⟨hframeC, hframeI, ?_⟩
      intro x hx
      rcases List.mem_cons.mp hx with rfl | hx
      · refine ⟨by rw [hcellt]; exact hcell, hm, ?_⟩
        intro e
        constructor
        · rintro ⟨he, hid⟩
          exact (hold e ((hidxt e hid).mp he) hid).2
        · rintro rfl
          have hid := idOf_append (Uint16tol s) x h8
          exact ⟨(hidxt _ hid).mpr ((hcons.1 _).mpr ⟨x, _, hm, hcell, rfl⟩), hid⟩
      · exact hinv.rows x hx
    · -- the state cell and the index entry are rewritten
      have hidx1 : ∀ e, e ∈ b'.index index ↔
          (e = Uint16tol state ++ id ∨ (e ≠ Uint16tol s ++ id ∧ e ∈ b.index index)) := by
        intro e
        rw [hidx, if_pos rfl]
      have hidx2 : ∀ e, idOf e ≠ id → (e ∈ b'.index index ↔ e ∈ b.index index) := by
        intro e he
        rw [hidx1]
        constructor
        · rintro (rfl | ⟨_, he2⟩)
          · exact absurd (idOf_append _ _ h8) he
          · exact he2
        · intro he2
          refine Or.inr ⟨?_, he2⟩
          rintro rfl
          exact he (idOf_append _ _ h8)
      refine ⟨?_, ?_, ?_⟩
      · intro c x hx
        rw [hcells]
        have hno : ¬ (c = .state ∧ x = id) := by
          rintro ⟨hc, rfl⟩
          rcases hx with hx | hx
          · exact hx hc
          · exact hx (List.mem_cons_self _ _)
        rw [if_neg hno]
        exact hframeC c x hx
      · intro i e hx
        by_cases hi : i = index
        · subst hi
          have hx' : idOf e ∉ id :: done := by
            rcases hx with hx | hx
            · exact absurd rfl hx
            · exact hx
          have hne' : idOf e ≠ id := fun hh => hx' (hh ▸ List.mem_cons_self _ _)
          rw [hidx2 e hne']
          exact hframeI i e (Or.inr hx')
        · rw [hidx, if_neg hi]
          exact hframeI i e (Or.inl hi)
      · intro x hx
        rcases List.mem_cons.mp hx with rfl | hx
        · refine ⟨by rw [hcells, if_pos ⟨rfl, rfl⟩], hm, ?_⟩
          intro e
          constructor
          · rintro ⟨he, hid⟩
            rcases (hidx1 e).mp he with h1 | ⟨h1, h2⟩
            · exact h1
            · exact absurd (hold e ((hidxt e hid).mp h2) hid).2 h1
          · rintro rfl
            exact ⟨(hidx1 _).mpr (Or.inl rfl), idOf_append _ _ h8⟩
        · obtain ⟨h1, h2, h3⟩ := hinv.rows x hx
          have hxne : x ≠ id := fun hh => hdone (hh ▸ hx)
          refine ⟨by rw [hcells, if_neg (fun hh => hxne hh.2)]; exact h1, h2, ?_⟩
          intro e
          rw [← h3 e]
          constructor
          · rintro ⟨he, hid⟩
            exact ⟨(hidx2 e (hid ▸ hxne)).mp he, hid⟩
          · rintro ⟨he, hid⟩
            exact ⟨(hidx2 e (hid ▸ hxne)).mpr he, hid⟩

/-- The invariant of update-state through the ids of the request. -/
theorem UpdateInv.foldIDs {t : Table} {marker : Col} {index : Idx} {set : ObjectSet}
    {type : String} {state : Nat} (decode : Bytes → Option Bytes)
    (hcons : StateIndexConsistent t marker index)
    (htype : (type = "source" ∧ marker = .is_source_object ∧ index = .idx_source_state) ∨
      (type = "destination" ∧ marker = .is_destination_object ∧
        index = .idx_destination_state))
    (hst : state < 2 ^ 16) (hne : state ≠ StateUnknown) :
    ∀ (l : List Bytes) (done : List Bytes) (b b' : Table),
      UpdateInv t marker index (Uint16tol state) done b →
      l.foldlM (fun (b1 : Table) (idB64 : Bytes) =>
        match decode idB64 with
        | none => (Except.error Err.corruptInput : Except Err Table)
        | some id => updateStep set type state b1 id) b = .ok b' →
      ∃ done1, UpdateInv t marker index (Uint16tol state) done1 b' ∧
        ∀ x, x ∈ done1 ↔ (x ∈ done ∨ x ∈ l.filterMap decode)
  | [], done, b, b', hinv, h => by
    simp only [List.foldlM, pure, Except.pure] at h
    cases h
    exact ⟨done, hinv, by simp⟩
  | idB64 :: l, done, b, b', hinv, h => by
    simp only [List.foldlM, bind, Except.bind] at h
    cases hd : decode idB64 with
    | none => simp [hd] at h
    | some id =>
      simp only [hd] at h
      cases hs : updateStep set type state b id with
      | error e => simp [hs] at h
      | ok b1 =>
        simp only [hs] at h
        obtain ⟨done1, hinv1, hmem⟩ :=
          UpdateInv.foldIDs decode hcons htype hst hne l (id :: done) b1 b'
            (hinv.step hcons htype hst hne hs) h
        refine ⟨done1, hinv1, ?_⟩
        intro x
        rw [hmem, List.filterMap_cons, hd]
        simp only [List.mem_cons]
        tauto

/-- When every listed row is in the target state already, update-state writes nothing. -/
theorem updateFold_unchanged {t : Table} {marker : Col} {index : Idx} {set : ObjectSet}
    {type : String} {state : Nat} (decode : Bytes → Option Bytes)
    (htype : (type = "source" ∧ marker = .is_source_object ∧ index = .idx_source_state) ∨
      (type = "destination" ∧ marker = .is_destination_object ∧
        index = .idx_destination_state))
    (hst : state < 2 ^ 16) :
    ∀ (l : List Bytes) (b' : Table),
      (∀ id ∈ l.filterMap decode, t.cell .state id = some (Uint16tol state)) →
      l.foldlM (fun (b1 : Table) (idB64 : Bytes) =>
        match decode idB64 with
        | none => (Except.error Err.corruptInput : Except Err Table)
        | some id => updateStep set type state b1 id) t = .ok b' →
      b' = t
  | [], b', _, h => by
    simp only [List.foldlM, pure, Except.pure] at h
    exact (Except.ok.inj h).symm
  | idB64 :: l, b', hall, h => by
    simp only [List.foldlM, bind, Except.bind] at h
    cases hd : decode idB64 with
    | none => simp [hd] at h
    | some id =>
      simp only [hd] at h
      cases hs : updateStep set type state t id with
      | error e => simp [hs] at h
      | ok b1 =>
        simp only [hs] at h
        have hcell : t.cell .state id = some (Uint16tol state) :=
          hall id (by rw [List.filterMap_cons, hd]; exact List.mem_cons_self _ _)
        obtain ⟨_, s, _, hsm, hcase⟩ := updateStep_effect htype hst hs
        rw [hcell] at hsm
        simp only [Ltouint16_Uint16tol, Except.ok.injEq] at hsm
        have hss : s = state := by rw [← hsm]; exact Nat.mod_eq_of_lt hst
        have hb : b1 = t := by
          rcases hcase with ⟨_, hb⟩ | ⟨hne', _⟩
          · exact hb
          · exact absurd hss hne'
        subst hb
        exact updateFold_unchanged decode htype hst l b'
          (fun x hx => hall x (by
            rw [List.filterMap_cons, hd]
            exact List.mem_cons_of_mem _ hx)) h

/-- A successful update-state on a store with a table. -/
theorem UpdateObjectsState.updateInvoke_ok {ToUpper : String → String}
    {decode : Bytes → Option Bytes} {u : UpdateObjectsState} {t : Table} {db : DB}
    (h : u.Invoke ToUpper decode (some t) = .ok db) :
    ParseState (ToUpper u.State) ≠ StateUnknown ∧
    ∃ set b', db = some b' ∧
      u.IDS.foldlM (fun (b1 : Table) (idB64 : Bytes) =>
        match decode idB64 with
        | none => (Except.error Err.corruptInput : Except Err Table)
        | some id => updateStep set u.Type_ (ParseState (ToUpper u.State)) b1 id) t =
        .ok b' := by
  unfold UpdateObjectsState.Invoke LookupTable at h
  simp only [] at h
  split at h
  · cases h
  · rename_i hne
    refine ⟨hne, ?_⟩
    split at h
    · cases h
    · rename_i b set hlt
      split at hlt
      · cases hlt
      · cases hlt
        obtain ⟨b', hb', hsome⟩ := Except.map_ok_iff h
        exact ⟨_, b', hsome.symm, hb'⟩

/-- C20: after a successful update-state with type `source` or `destination` on a store whose
state index of that type is consistent with its rows, every listed row has the target state
and, in the state index, the entry `target ++ id` and no other entry for its id; a listed row
that was in the target state keeps every cell and every index entry, and when all listed rows
were in the target state the table is returned as it was; every cell other than the state
cells of the listed rows, and every index entry other than the entries of the listed rows in
the state index, is unchanged. -/
theorem update_state_frame (ToUpper : String → String) (decode : Bytes → Option Bytes)
    (u : UpdateObjectsState) (t t' : Table) (marker : Col) (index : Idx)
    (htype : (u.Type_ = "source" ∧ marker = .is_source_object ∧ index = .idx_source_state) ∨
      (u.Type_ = "destination" ∧ marker = .is_destination_object ∧
        index = .idx_destination_state))
    (hcons : StateIndexConsistent t marker index)
    (hrun : u.Invoke ToUpper decode (some t) = .ok (some t')) :
    (∀ id ∈ u.IDS.filterMap decode,
      t'.cell .state id = some (Uint16tol (ParseState (ToUpper u.State))) ∧
      Uint16tol (ParseState (ToUpper u.State)) ++ id ∈ t'.index index ∧
      ∀ e ∈ t'.index index, idOf e = id →
        e = Uint16tol (ParseState (ToUpper u.State)) ++ id) ∧
    (∀ id ∈ u.IDS.filterMap decode,
      t.cell .state id = some (Uint16tol (ParseState (ToUpper u.State))) →
      (∀ c, t'.cell c id = t.cell c id) ∧
      ∀ i e, idOf e = id → (e ∈ t'.index i ↔ e ∈ t.index i)) ∧
    ((∀ id ∈ u.IDS.filterMap decode,
      t.cell .state id = some (Uint16tol (ParseState (ToUpper u.State)))) → t' = t) ∧
    (∀ c x, (c ≠ .state ∨ x ∉ u.IDS.filterMap decode) → t'.cell c x = t.cell c x) ∧
    (∀ i e, (i ≠ index ∨ idOf e ∉ u.IDS.filterMap decode) →
      (e ∈ t'.index i ↔ e ∈ t.index i)) := by
  obtain ⟨hne, set, b', hb', hfold⟩ := UpdateObjectsState.updateInvoke_ok hrun
  cases hb'
  have hst := ParseState_lt (ToUpper u.State)
  have hinv0 : UpdateInv t marker index (Uint16tol (ParseState (ToUpper u.State))) [] t :=
    ⟨fun _ _ _ => rfl, fun _ _ _ => Iff.rfl, fun _ h => by cases h⟩
  obtain ⟨done, hinv, hmem⟩ := UpdateInv.foldIDs decode hcons htype hst hne u.IDS [] t t' hinv0
    hfold
  have hmem' : ∀ x, x ∈ done ↔ x ∈ u.IDS.filterMap decode := by
    intro x
    rw [hmem]
    simp
  refine ⟨?_, ?_, ?_, ?_, ?_⟩
  · intro id hid
    obtain ⟨h1, _, h3⟩ := hinv.rows id ((hmem' id).mpr hid)
    exact ⟨h1, ((h3 _).mpr rfl).1, fun e he hide => (h3 e).mp ⟨he, hide⟩⟩
  · intro id hid hcell
    obtain ⟨h1, h2, h3⟩ := hinv.rows id ((hmem' id).mpr hid)
    constructor
    · intro c
      by_cases hc : c = .state
      · subst hc
        rw [h1, hcell]
      · exact hinv.frameC c id (Or.inl hc)
    · intro i e hide
      by_cases hi : i = index
      · subst hi
        constructor
        · intro he
          rw [(h3 e).mp ⟨he, hide⟩]
          exact (hcons.1 _).mpr ⟨id, _, h2, hcell, rfl⟩
        · intro he
          obtain ⟨id1, v, hm1, hv, rfl⟩ := (hcons.1 e).mp he
          rw [idOf_append _ _ (hcons.2.2 id1 hm1)] at hide
          subst hide
          rw [hcell] at hv
          cases hv
          exact ((h3 _).mpr rfl).1
      · exact hinv.frameI i e (Or.inl hi)
  · intro hall
    exact updateFold_unchanged decode htype hst u.IDS t' hall hfold
  · intro c x hx
    exact hinv.frameC c x (hx.imp (fun hh => hh) (fun hh hd => hh ((hmem' x).mp hd)))
  · intro i e hx
    exact hinv.frameI i e (hx.imp (fun hh => hh) (fun hh hd => hh ((hmem' _).mp hd)))

set_option maxRecDepth 8192 in
theorem tableExpired_run :
    exampleUpdate.Invoke (fun s => s) some (some tablePlanned) = .ok (some tableExpired) := rfl

set_option maxRecDepth 8192 in
/-- C20 at the example store: update-state moves the source row 1 from `IN_SYNC` to
`EXPIRED`; its state index entry is replaced, and the state cell of row 2 is as before. -/
theorem update_state_frame_witness :
    tablePlanned.cell .state (PutUint64 1) = some (Uint16tol StateInSync) ∧
      (tableExpired.cell .state (PutUint64 1) = some (Uint16tol StateExpired) ∧
        Uint16tol StateExpired ++ PutUint64 1 ∈ tableExpired.index .idx_source_state ∧
        ∀ e ∈ tableExpired.index .idx_source_state, idOf e = PutUint64 1 →
          e = Uint16tol StateExpired ++ PutUint64 1) ∧
      tableExpired.cell .state (PutUint64 2) = tablePlanned.cell .state (PutUint64 2) :=
  ⟨rfl,
    (update_state_frame (fun s => s) some exampleUpdate tablePlanned tableExpired
      .is_source_object .idx_source_state (Or.inl ⟨rfl, rfl, rfl⟩) tablePlanned_stateIndex
      tableExpired_run).1 (PutUint64 1) (List.mem_cons_self _ _),
    (update_state_frame (fun s => s) some exampleUpdate tablePlanned tableExpired
      .is_source_object .idx_source_state (Or.inl ⟨rfl, rfl, rfl⟩) tablePlanned_stateIndex
      tableExpired_run).2.2.2.1 .state (PutUint64 2) (Or.inr (by decide))⟩

/-! ### write-destination: the second page -/

/-- When the block has at least `limit` members and the bare id of member number `limit`
lies above every key of `idx_destination`, the loop of write-destination ends after its
second query, which returns nothing: the source list holds the rows of the first `limit`
members only. -/
theorem collectSources_drops (b : Table) (set : ObjectSet) (pfx : Bytes) (limit : Int)
    (fuel : Nat) (hl : 1 ≤ limit) (hcap : limit ≤ maxSliceCap)
    (hs : KV.Sorted (b.idxs .idx_destination))
    (hlen : ∀ e ∈ b.idxs .idx_destination, HasPrefix e.1 pfx = true → idSize ≤ e.1.length)
    (hmany : limit.toNat ≤ (b.matchingIDs .idx_destination pfx).length) (last : Bytes)
    (hlast : (b.matchingIDs .idx_destination pfx).get? (limit.toNat - 1) = some last)
    (hseek : KV.Seek (b.idxs .idx_destination) last = []) (xs : List SourceObject)
    (hrows : List.Forall₂ (fun id s => LookupSourceRow b id set = .ok s)
      ((b.matchingIDs .idx_destination pfx).take limit.toNat) xs) :
    collectSources b set pfx limit (fuel + 2) none [] = some (.ok xs) := by
  have h1 := PrefixQuery_first b .idx_destination pfx limit (by omega) hcap hs hlen
  have hlen1 : (((b.matchingIDs .idx_destination pfx).take limit.toNat).length : Int) = limit := by
    rw [List.length_take, Nat.min_eq_left hmany]
    omega
  have hgl : ((b.matchingIDs .idx_destination pfx).take limit.toNat).getLast? = some last := by
    have := getLast?_take_drop (b.matchingIDs .idx_destination pfx) 0 limit.toNat (by omega)
      (by omega)
    simp only [List.drop_zero, Nat.zero_add] at this
    rw [this, hlast]
  have h2 : PrefixQuery b .idx_destination pfx limit (some last) = .ok [] := by
    have h0 : makeSlicePanics limit = false := makeSlicePanics_of_range (by omega) hcap
    simp only [PrefixQuery, h0, Bool.false_eq_true, if_false, hseek]
  have hl1 : lookupSources b set ((b.matchingIDs .idx_destination pfx).take limit.toNat) [] =
      .ok xs := by
    unfold lookupSources
    rw [collectM_of_forall₂ [] hrows]
    rfl
  have hl2 : lookupSources b set [] xs = .ok xs := rfl
  have hnot : ¬ (((b.matchingIDs .idx_destination pfx).take limit.toNat).length : Int) <
      limit := by omega
  have hshort : (([] : List Bytes).length : Int) < limit := by
    simp only [List.length_nil, Nat.cast_zero]
    omega
  simp only [collectSources, h1, hl1, if_neg hnot, hgl, h2, hl2, if_pos hshort]

theorem mem_manyIDs {n : Nat} {id : Bytes} :
    id ∈ manyIDs n ↔ ∃ lo hi, lo < 256 ∧ hi < 9 ∧ 1 ≤ lo + 256 * hi ∧ lo + 256 * hi ≤ n ∧
      id = PutUint64 (lo + 256 * hi) := by
  unfold manyIDs
  simp only [List.mem_flatMap, List.mem_filterMap, List.mem_range]
  constructor
  · rintro ⟨lo, hlo, hi, hhi, h⟩
    split at h
    · rename_i hc
      exact ⟨lo, hi, hlo, hhi, hc.1, hc.2, (Option.some.inj h).symm⟩
    · cases h
  · rintro ⟨lo, hi, hlo, hhi, h1, h2, rfl⟩
    exact ⟨lo, hlo, hi, hhi, by rw [if_pos ⟨h1, h2⟩]⟩

theorem manySources_length {id : Bytes} (h : id ∈ manySources) : id.length = 8 := by
  obtain ⟨lo, hi, _, _, _, _, rfl⟩ := mem_manyIDs.mp h
  exact PutUint64_length _

theorem manySources_ne_block {id : Bytes} (h : id ∈ manySources) : id ≠ manyBlock := by
  obtain ⟨lo, hi, _, _, _, h2, rfl⟩ := mem_manyIDs.mp h
  intro heq
  have := PutUint64_inj (by omega) (by norm_num) heq
  omega

theorem manySources_subset {id : Bytes} (h : id ∈ manySources) : id ∈ manyIDs 2050 := by
  obtain ⟨lo, hi, h1, h2, h3, h4, rfl⟩ := mem_manyIDs.mp h
  exact mem_manyIDs.mpr ⟨lo, hi, h1, h2, h3, by omega, rfl⟩

theorem chainLt_sorted : ∀ l : List Bytes, chainLt l = true →
    l.Pairwise fun a b => bytesLt a b = true
  | [], _ => List.Pairwise.nil
  | [_], _ => List.pairwise_singleton _ _
  | a :: b :: rest, h => by
    simp only [chainLt, Bool.and_eq_true] at h
    have ih := chainLt_sorted (b :: rest) h.2
    refine List.Pairwise.cons ?_ ih
    intro c hc
    rcases List.mem_cons.mp hc with rfl | hc
    · exact h.1
    · exact bytesLt_trans _ _ _ h.1 ((List.pairwise_cons.mp ih).1 c hc)

theorem manySources_sorted : manySources.Pairwise fun a b => bytesLt a b = true :=
  chainLt_sorted _ (by decide!)

theorem manyTable_sorted : KV.Sorted (manyTable.idxs .idx_destination) := by
  show List.Pairwise _ (manySources.map fun id => (manyBlock ++ id, ([] : Bytes)))
  rw [List.pairwise_map]
  refine manySources_sorted.imp ?_
  intro a b h
  show bytesLt (manyBlock ++ a) (manyBlock ++ b) = true
  rw [bytesLt_append_left]
  exact h

theorem manyTable_members : manyTable.matchingIDs .idx_destination manyBlock = manySources := by
  show (KV.matching (manySources.map fun id => (manyBlock ++ id, ([] : Bytes))) manyBlock).map
    (fun e => idOf e.1) = _
  have hf : KV.matching (manySources.map fun id => (manyBlock ++ id, ([] : Bytes))) manyBlock =
      manySources.map fun id => (manyBlock ++ id, ([] : Bytes)) := by
    unfold KV.matching
    rw [List.filter_eq_self]
    intro e he
    obtain ⟨id, _, rfl⟩ := List.mem_map.mp he
    show HasPrefix (manyBlock ++ id) manyBlock = true
    unfold HasPrefix
    exact List.isPrefixOf_iff_prefix.mpr (List.prefix_append _ _)
  rw [hf, List.map_map]
  conv_rhs => rw [← List.map_id manySources]
  refine List.map_congr_left ?_
  intro id hid
  exact idOf_append _ _ (manySources_length hid)

theorem manyTable_keyLength (e : Bytes × Bytes) (he : e ∈ manyTable.idxs .idx_destination) :
    idSize ≤ e.1.length := by
  obtain ⟨id, _, rfl⟩ := List.mem_map.mp
    (show e ∈ manySources.map fun id => (manyBlock ++ id, ([] : Bytes)) from he)
  simp only [List.length_append, idSize]
  have : manyBlock.length = 8 := rfl
  omega

theorem KV.Seek_above (m : KV) (k : Bytes) (h : ∀ e ∈ m, bytesLt e.1 k = true) :
    KV.Seek m k = [] := by
  induction m with
  | nil => rfl
  | cons e m ih =>
    have he := h e (List.mem_cons_self _ _)
    simp only [KV.Seek, he]
    exact ih fun e' he' => h e' (List.mem_cons_of_mem _ he')

theorem manyTable_seek :
    KV.Seek (manyTable.idxs .idx_destination) [255, 6, 0, 0, 0, 0, 0, 0] = [] := by
  refine KV.Seek_above _ _ ?_
  intro e he
  obtain ⟨id, _, rfl⟩ := List.mem_map.mp
    (show e ∈ manySources.map fun id => (manyBlock ++ id, ([] : Bytes)) from he)
  rfl

theorem KV.Get_map (f : Bytes → Bytes) (k : Bytes) :
    ∀ l : List Bytes, k ∈ l → KV.Get (l.map fun x => (x, f x)) k = some (f k)
  | [], h => by cases h
  | a :: l, h => by
    by_cases hak : a = k
    · simp only [List.map, KV.Get, hak, if_true]
    · simp only [List.map, KV.Get, hak, if_false]
      exact KV.Get_map f k l ((List.mem_cons.mp h).resolve_left fun hh => hak hh.symm)

theorem manyTable_row {id : Bytes} (h : id ∈ manySources) :
    LookupSourceRow manyTable id manySet = .ok (manyRow id) := by
  have hne := manySources_ne_block h
  have hsub := manySources_subset h
  have hkey : manyTable.cell .key id = some id := by
    have := KV.Get_map (fun id => if id = manyBlock then [117] else id) id _ hsub
    simp only [if_neg hne] at this
    exact this
  have hstate : manyTable.cell .state id = some (Uint16tol StateInSync) := by
    have := KV.Get_map
      (fun id => if id = manyBlock then Uint16tol StateNew else Uint16tol StateInSync) id _ hsub
    simp only [if_neg hne] at this
    exact this
  have hsize : manyTable.cell .size id = some (Itol 1) := by
    have := KV.Get_map (fun id => if id = manyBlock then Itol 4098 else Itol 1) id _ hsub
    simp only [if_neg hne] at this
    exact this
  have hdest : manyTable.cell .destination_object id = some manyBlock :=
    KV.Get_map (fun _ => manyBlock) id _ h
  have hmark : manyTable.cell .is_source_object id = some valueTrue :=
    KV.Get_map (fun _ => valueTrue) id _ h
  have hrow : lookupRow manyTable id sourceObjectSchema = (manyRow id).values (some id) := by
    show [(Col.etag, manyTable.cell .etag id), (Col.key, manyTable.cell .key id),
      (Col.storage_class, manyTable.cell .storage_class id),
      (Col.last_modified, manyTable.cell .last_modified id),
      (Col.owner_id, manyTable.cell .owner_id id),
      (Col.owner_display_name, manyTable.cell .owner_display_name id),
      (Col.size, manyTable.cell .size id), (Col.state, manyTable.cell .state id),
      (Col.destination_object, manyTable.cell .destination_object id),
      (Col.is_source_object, manyTable.cell .is_source_object id)] = _
    rw [hkey, hstate, hsize, hdest, hmark]
    rfl
  unfold LookupSourceRow
  rw [hrow]
  exact (SourceObject.Unmarshal_values_eq (manyRow id) (some id)).trans rfl

theorem manyTable_dest : LookupDestinationRow manyTable manyBlock manySet = .ok manyDest := by
  have hmem : manyBlock ∈ manyIDs 2050 :=
    mem_manyIDs.mpr ⟨2, 8, by norm_num, by norm_num, by norm_num, by norm_num, rfl⟩
  have hkey : manyTable.cell .key manyBlock = some [117] :=
    KV.Get_map (fun id => if id = manyBlock then [117] else id) manyBlock _ hmem
  have hstate : manyTable.cell .state manyBlock = some (Uint16tol StateNew) :=
    KV.Get_map (fun id => if id = manyBlock then Uint16tol StateNew else Uint16tol StateInSync)
      manyBlock _ hmem
  have hsize : manyTable.cell .size manyBlock = some (Itol 4098) :=
    KV.Get_map (fun id => if id = manyBlock then Itol 4098 else Itol 1) manyBlock _ hmem
  have hrow : lookupRow manyTable manyBlock destinationObjectSchema =
      manyDest.values (some [117]) := by
    show [(Col.etag, manyTable.cell .etag manyBlock), (Col.key, manyTable.cell .key manyBlock),
      (Col.storage_class, manyTable.cell .storage_class manyBlock),
      (Col.last_modified, manyTable.cell .last_modified manyBlock),
      (Col.owner_id, manyTable.cell .owner_id manyBlock),
      (Col.owner_display_name, manyTable.cell .owner_display_name manyBlock),
      (Col.size, manyTable.cell .size manyBlock), (Col.state, manyTable.cell .state manyBlock),
      (Col.is_destination_object, manyTable.cell .is_destination_object manyBlock)] = _
    rw [hkey, hstate, hsize]
    rfl
  unfold LookupDestinationRow
  rw [hrow]
  exact (DestinationObject.destUnmarshal_values_eq manyDest (some [117])).trans rfl

theorem WriteDestinationObject.sources_ok (decode : Bytes → Option Bytes)
    (w : WriteDestinationObject) (fuel : Nat) (b : Table) (set : ObjectSet) (id : Bytes)
    (dest : DestinationObject) (xs : List SourceObject)
    (h1 : LookupTable (some b) (NewObjectSet w.Bucket w.Prefix) = .ok (b, set))
    (h2 : decode w.ID = some id) (h3 : LookupDestinationRow b id set = .ok dest)
    (h4 : collectSources b set id 2048 fuel none [] = some (.ok xs)) :
    w.sources decode fuel (some b) = some (.ok (dest, xs)) := by
  simp only [WriteDestinationObject.sources, h1, h2, h3, h4, Option.map, Except.map]

/-- Claim C12, evaluated on the code: in `manyTable` the 2049 source rows `1 .. 2049` are
all members of block 2050, yet the source list write-destination builds for that block has
2048 entries and none for the member row 2047. The first query returns the 2048 members
that come first in `idx_destination`, ending with row 1791; the second query is started at
the bare id of row 1791, which is above every key `block ++ id` of the index, so it returns
nothing and the loop ends. -/
theorem write_destination_skips_member (fuel : Nat) :
    (manyTable.matchingIDs .idx_destination manyBlock).length = 2049 ∧
    PutUint64 2047 ∈ manyTable.matchingIDs .idx_destination manyBlock ∧
    manyTable.cell .destination_object (PutUint64 2047) = some manyBlock ∧
    manyTable.cell .is_source_object (PutUint64 2047) = some valueTrue ∧
    ∃ sources, manyRequest.sources some (fuel + 2) (some manyTable) =
        some (.ok (manyDest, sources)) ∧
      sources.length = 2048 ∧ ∀ s ∈ sources, s.Key ≠ some (PutUint64 2047) := by
  have hmem : PutUint64 2047 ∈ manySources :=
    mem_manyIDs.mpr ⟨255, 7, by norm_num, by norm_num, by norm_num, by norm_num, rfl⟩
  refine ⟨?_, ?_, KV.Get_map (fun _ => manyBlock) _ _ hmem,
    KV.Get_map (fun _ => valueTrue) _ _ hmem,
    (manySources.take 2048).map manyRow, ?_, ?_, ?_⟩
  · rw [manyTable_members]
    decide!
  · rw [manyTable_members]
    exact hmem
  · have hrows : List.Forall₂ (fun id s => LookupSourceRow manyTable id manySet = .ok s)
        ((manyTable.matchingIDs .idx_destination manyBlock).take (2048 : Int).toNat)
        ((manySources.take 2048).map manyRow) := by
      rw [manyTable_members, List.forall₂_map_right_iff]
      exact List.forall₂_same.mpr fun id hid => manyTable_row (List.mem_of_mem_take hid)
    have hrun := collectSources_drops manyTable manySet manyBlock 2048 fuel (by norm_num)
      (by decide)
      manyTable_sorted (fun e he _ => manyTable_keyLength e he)
      (by rw [manyTable_members]; decide!) [255, 6, 0, 0, 0, 0, 0, 0]
      (by rw [manyTable_members]; decide!) manyTable_seek _ hrows
    exact WriteDestinationObject.sources_ok some manyRequest (fuel + 2) manyTable manySet
      manyBlock manyDest _ rfl rfl manyTable_dest hrun
  · rw [List.length_map, List.length_take]
    decide!
  · intro s hs
    obtain ⟨id, hid, rfl⟩ := List.mem_map.mp hs
    intro hkey
    have hid2 : id = PutUint64 2047 := Option.some.inj hkey
    rw [hid2] at hid
    exact absurd hid (by decide!)

/-! ### State names and codes -/

/-- C30: state names and codes correspond one to one: parsing the name of a code in 0..5
gives the code back, the name of the code of each of the six names is that name, every
other string parses to UNKNOWN (0), and the name of every code above 5 is `UNKNOWN`. -/
theorem state_names_and_codes :
    (∀ s, s ≤ 5 → ParseState (State.String s) = s) ∧
    (∀ n ∈ ["UNKNOWN", "NEW", "DIRTY", "IN_SYNC", "EXPIRED", "DELETED"],
      State.String (ParseState n) = n) ∧
    (∀ n, n ∉ ["UNKNOWN", "NEW", "DIRTY", "IN_SYNC", "EXPIRED", "DELETED"] →
      ParseState n = StateUnknown) ∧
    (∀ s, 5 < s → State.String s = "UNKNOWN") := by
  refine ⟨?_, ?_, ?_, ?_⟩
  · intro s hs
    interval_cases s <;> decide
  · intro n hn
    simp only [List.mem_cons, List.mem_singleton, List.not_mem_nil, or_false] at hn
    rcases hn with rfl | rfl | rfl | rfl | rfl | rfl <;> decide
  · intro n hn
    simp only [List.mem_cons, List.mem_singleton, List.not_mem_nil, or_false, not_or] at hn
    obtain ⟨h0, h1, h2, h3, h4, h5⟩ := hn
    unfold ParseState
    simp only [h0, h1, h2, h3, h4, h5, if_false]
  · intro s hs
    unfold State.String StateUnknown StateNew StateDirty StateInSync StateExpired StateDeleted
    have h0 : s ≠ 0 := by omega
    have h1 : s ≠ 1 := by omega
    have h2 : s ≠ 2 := by omega
    have h3 : s ≠ 3 := by omega
    have h4 : s ≠ 4 := by omega
    have h5 : s ≠ 5 := by omega
    simp only [h0, h1, h2, h3, h4, h5, if_false]

/-- C30 at concrete values: the code 3 and the name `IN_SYNC`, the lower-case string
`in_sync`, and the code 6. -/
theorem state_names_and_codes_witness :
    ParseState (State.String 3) = 3 ∧ State.String (ParseState "IN_SYNC") = "IN_SYNC" ∧
      ParseState "in_sync" = StateUnknown ∧ State.String 6 = "UNKNOWN" :=
  ⟨state_names_and_codes.1 3 (by decide), state_names_and_codes.2.1 "IN_SYNC" (by decide),
    state_names_and_codes.2.2.1 "in_sync" (by decide), state_names_and_codes.2.2.2 6 (by decide)⟩

/-! ### put-set: the destination path and the delimiter -/

theorem Trim_eq (s : Bytes) :
    Trim s = List.rdropWhile (fun x => decide (x = 47)) (s.dropWhile fun x => decide (x = 47)) :=
  rfl

theorem Trim_head (s : Bytes) (x : Nat) (r : Bytes) (h : Trim s = x :: r) : x ≠ 47 := by
  have hp : Trim s <+: s.dropWhile fun x => decide (x = 47) := by
    rw [Trim_eq]; exact List.rdropWhile_prefix _ _
  rw [h] at hp
  obtain ⟨t, ht⟩ := hp
  have hne : (s.dropWhile fun x => decide (x = 47)) ≠ [] := by rw [← ht]; simp
  have := List.head_dropWhile_not (fun x => decide (x = 47)) s hne
  simp only [← ht, List.cons_append, List.head_cons] at this
  simpa using this

theorem Trim_append_slash (s : Bytes) : Trim (Trim s ++ [47]) = Trim s := by
  cases ht : Trim s with
  | nil => rfl
  | cons x r =>
    have hx := Trim_head s x r ht
    have hd : ((x :: r) ++ [47]).dropWhile (fun x => decide (x = 47)) = (x :: r) ++ [47] := by
      rw [List.cons_append, List.dropWhile_cons_of_neg (by simpa using hx)]
    rw [Trim_eq, hd, List.rdropWhile_concat_pos _ _ _ (by simp), ← ht, Trim_eq]
    exact List.rdropWhile_idempotent _ _

theorem PutObjectSet_root {decode : Bytes → Option Bytes} {p : PutObjectSet} {db db' : DB}
    (h : p.Invoke decode db = .ok db') :
    ∃ t d, db' = some t ∧ t.root .destination_path = some (Trim p.DestinationPath ++ [47]) ∧
      t.root .delimiter = some d ∧
      ((p.Delimiter = some d) ∨ (p.Delimiter = none ∧ ∃ d64, p.DelimiterB64 = some d64 ∧
        decode d64 = some d)) := by
  unfold PutObjectSet.Invoke at h
  simp only [] at h
  split at h
  · cases h
  · rename_i d hd
    split at h
    · cases h
    · rename_i b hb
      refine ⟨_, d, (Except.ok.inj h).symm, ?_, ?_, ?_⟩
      · simp [putSetValues, ObjectSet.Marshal, Function.update, NewObjectSet]
      · simp [putSetValues, ObjectSet.Marshal, Function.update, NewObjectSet]
      · split at hd
        · rename_i d' hd'
          left; rw [hd']; exact congrArg some (Except.ok.inj hd)
        · rename_i hd'
          right
          refine ⟨hd', ?_⟩
          split at hd
          · rename_i d64 h64
            split at hd
            · rename_i d' hdec
              exact ⟨d64, h64, by rw [hdec]; exact congrArg some (Except.ok.inj hd)⟩
            · cases hd
          · cases hd

/-- C29: the destination path that a successful put-set stores is the given path without
its leading and trailing slashes, followed by one slash: it ends with a slash, it starts
with a slash only when it is the single slash, and normalising it again gives it back. -/
theorem put_set_normalises_destination_path (decode : Bytes → Option Bytes)
    (p : PutObjectSet) (db db' : DB) (h : p.Invoke decode db = .ok db') :
    ∃ t stored, db' = some t ∧ t.root .destination_path = some stored ∧
      stored.getLast? = some 47 ∧ (stored.head? = some 47 → stored = [47]) ∧
      Trim stored ++ [47] = stored := by
  obtain ⟨t, d, hdb, hpath, _, _⟩ := PutObjectSet_root h
  refine ⟨t, _, hdb, hpath, by simp, ?_, by rw [Trim_append_slash]⟩
  intro hhead
  cases ht : Trim p.DestinationPath with
  | nil => rfl
  | cons x r =>
    rw [ht] at hhead
    simp only [List.cons_append, List.head?_cons, Option.some.injEq] at hhead
    exact absurd hhead (Trim_head _ x r ht)

/-- C29 at the example request: the destination path `out` is stored as `out/`. -/
theorem put_set_normalises_destination_path_witness :
    ∃ t stored, exampleEmptySet = some t ∧ t.root .destination_path = some stored ∧
      stored.getLast? = some 47 ∧ (stored.head? = some 47 → stored = [47]) ∧
      Trim stored ++ [47] = stored :=
  put_set_normalises_destination_path (fun _ => none) examplePutSet none exampleEmptySet rfl

/-- C28 as stated fails on the code: when `delimiter` is given, `delimiter_b64` is not
looked at, so a request whose `delimiter_b64` is not valid base64 succeeds, creates the
table and stores the given delimiter. And when `delimiter_b64` alone is given, as `Cg==`, for
the empty bucket and the empty prefix, the table name is empty, `EnsureTable` fails with the
error of bolt and nothing is stored. -/
theorem invalid_b64_beside_delimiter_is_ignored :
    stdDecode [33] = none ∧
      (∃ t, examplePutSetBoth.Invoke stdDecode none = .ok (some t) ∧
        t.root .delimiter = some [124]) ∧
      examplePutSetNoName.Delimiter = none ∧
      examplePutSetNoName.DelimiterB64 = some [67, 103, 61, 61] ∧
      stdDecode [67, 103, 61, 61] = some [10] ∧
      tableName examplePutSetNoName.Bucket examplePutSetNoName.Prefix = [] ∧
      examplePutSetNoName.Invoke stdDecode none = .error .ErrBucketNameRequired :=
  ⟨rfl, ⟨_, rfl, rfl⟩, rfl, rfl, rfl, rfl, rfl⟩

/-- C28, amended: put-set fails with `ErrMissingDelimeter` exactly when neither `delimiter` nor
`delimiter_b64` is given; when only `delimiter_b64` is given and it does not decode, put-set
fails with the error of the decoder; both errors are returned before `EnsureTable` and the
write transaction, so no store results; and when only `delimiter_b64` is given and decodes,
and the table name of the set is not empty, the delimiter stored at the root of the table is
the decoded byte string. -/
theorem put_set_delimiter (decode : Bytes → Option Bytes) (p : PutObjectSet) (db : DB) :
    (p.Invoke decode db = .error .ErrMissingDelimeter ↔
      p.Delimiter = none ∧ p.DelimiterB64 = none) ∧
    (∀ d64, p.Delimiter = none → p.DelimiterB64 = some d64 → decode d64 = none →
      p.Invoke decode db = .error .corruptInput) ∧
    (∀ d64 d, p.Delimiter = none → p.DelimiterB64 = some d64 → decode d64 = some d →
      tableName p.Bucket p.Prefix ≠ [] →
      ∃ t, p.Invoke decode db = .ok (some t) ∧ t.root .delimiter = some d) := by
  refine ⟨⟨?_, ?_⟩, ?_, ?_⟩
  · intro h
    unfold PutObjectSet.Invoke at h
    simp only [] at h
    cases hd : p.Delimiter with
    | some d =>
      rw [hd] at h
      simp only [] at h
      cases he : EnsureTable (tableName p.Bucket p.Prefix) db with
      | error e =>
        rw [he] at h
        unfold EnsureTable at he
        split at he
        · cases he; cases h
        · cases db <;> cases he
      | ok b => rw [he] at h; cases h
    | none =>
      cases h64 : p.DelimiterB64 with
      | none => exact ⟨rfl, rfl⟩
      | some d64 =>
        rw [hd, h64] at h
        simp only [] at h
        cases hdec : decode d64 with
        | none => rw [hdec] at h; cases h
        | some d =>
          rw [hdec] at h
          simp only [] at h
          cases he : EnsureTable (tableName p.Bucket p.Prefix) db with
          | error e =>
            rw [he] at h
            unfold EnsureTable at he
            split at he
            · cases he; cases h
            · cases db <;> cases he
          | ok b => rw [he] at h; cases h
  · rintro ⟨hd, h64⟩
    simp [PutObjectSet.Invoke, hd, h64]
  · intro d64 hd h64 hdec
    simp [PutObjectSet.Invoke, hd, h64, hdec]
  · intro d64 d hd h64 hdec hname
    cases db <;>
      simp [PutObjectSet.Invoke, hd, h64, hdec, EnsureTable, hname, putSetValues,
        ObjectSet.Marshal, Function.update, NewObjectSet]

/-- The amended C28 at the example: with `delimiter_b64` = `Cg==` alone, put-set stores the single byte
`0x0A` as the delimiter. -/
theorem put_set_delimiter_witness :
    ∃ t, examplePutSetB64.Invoke stdDecode none = .ok (some t) ∧ t.root .delimiter = some [10] :=
  (put_set_delimiter stdDecode examplePutSetB64 none).2.2 [67, 103, 61, 61] [10] rfl rfl rfl
    (by decide)

/-! ### The request handler -/

theorem selectAction_eq (event : S3CatEvent) :
    selectAction event =
      match (setActions event).head? with
      | some a => .ok a
      | none => .error .errInvalidRequest := by
  obtain ⟨_, _, _, a1, a2, a3, a4, a5, a6, a7, a8⟩ := event
  cases a1 <;> cases a2 <;> cases a3 <;> cases a4 <;> cases a5 <;> cases a6 <;> cases a7 <;>
    cases a8 <;> rfl

/-- C27 as stated fails on the code: a request in which both `load_inventory` and
`plan_new_objects` are set is not rejected; the first switch takes the load-inventory
action and the request succeeds when that action does. -/
theorem two_set_actions_are_dispatched :
    exampleTwoActions.LoadInventory.isSome = true ∧
      exampleTwoActions.PlanNewObjects.isSome = true ∧
      (setActions exampleTwoActions).length = 2 ∧
      HandleRequest exampleRun exampleTwoActions = exampleRun (.loadInventory exampleLoad) ∧
      (HandleRequest exampleRun exampleTwoActions).toBool = true :=
  ⟨rfl, rfl, rfl, rfl, rfl⟩

/-- C27, amended: `HandleRequest` fails with the invalid-request error when none of the
eight action fields is set; when one or more of them are set it dispatches the first one
that is set, in the order of the cases of its switch, and only that one. -/
theorem HandleRequest_first_set_action (run : Action → Except Err S3CatOutput)
    (event : S3CatEvent) :
    (setActions event = [] → HandleRequest run event = .error .errInvalidRequest) ∧
    (∀ a rest, setActions event = a :: rest → HandleRequest run event = run a) := by
  unfold HandleRequest
  rw [selectAction_eq]
  constructor
  · intro h; rw [h]; rfl
  · intro a rest h; rw [h]; rfl

/-- The amended C27 at two requests: the empty request is rejected, and the request with
two set actions runs the first. -/
theorem HandleRequest_first_set_action_witness :
    HandleRequest exampleRun {} = .error .errInvalidRequest ∧
      HandleRequest exampleRun exampleTwoActions = exampleRun (.loadInventory exampleLoad) :=
  ⟨(HandleRequest_first_set_action exampleRun {}).1 rfl,
    (HandleRequest_first_set_action exampleRun exampleTwoActions).2 _ _ rfl⟩

/-! ### The error of a row of the wrong kind -/

theorem Ltoi_error {v : Bytes} {e : Err} (h : Ltoi v = .error e) : e = .panic := by
  unfold Ltoi Uint64 at h
  split at h
  · cases h
  · exact (Except.error.inj h).symm

theorem Ltouint16_error {v : Bytes} {e : Err} (h : Ltouint16 v = .error e) : e = .panic := by
  unfold Ltouint16 at h
  split at h
  · cases h
  · exact (Except.error.inj h).symm

theorem Object.Unmarshal_error {o : Object} {values : Values} {e : Err}
    (h : o.Unmarshal values = .error e) : e = .panic := by
  unfold Object.Unmarshal at h
  split at h
  · rename_i e1 h1
    cases Except.error.inj h
    split at h1
    · rename_i v _
      cases hv : Ltoi v with
      | error e2 => rw [hv] at h1; cases h1; exact Ltoi_error hv
      | ok n => rw [hv] at h1; cases h1
    · cases h1
  · split at h
    · rename_i e1 h1
      cases Except.error.inj h
      split at h1
      · rename_i v _
        cases hv : Ltoi v with
        | error e2 => rw [hv] at h1; cases h1; exact Ltoi_error hv
        | ok n => rw [hv] at h1; cases h1
      · cases h1
    · split at h
      · rename_i e1 h1
        cases Except.error.inj h
        split at h1
        · exact Ltouint16_error h1
        · cases h1
      · cases h

/-- C23 (the code at the failing input): unmarshalling the column map of a destination
row, which has no `is_source_object` cell, into a source object fails with
`ErrNotDestinationObject`; and `SourceObject.Unmarshal` returns `ErrNotSourceObject` for no
receiver and no column map at all. -/
theorem SourceObject_Unmarshal_wrong_kind_error :
    exampleBlockValues.get .is_source_object = none ∧
      (NewSourceObject exampleSetRead).Unmarshal exampleBlockValues =
        .error .ErrNotDestinationObject ∧
      ∀ (s : SourceObject) (values : Values),
        s.Unmarshal values ≠ .error .ErrNotSourceObject := by
  refine ⟨rfl, rfl, ?_⟩
  intro s values h
  unfold SourceObject.Unmarshal at h
  split at h
  · rename_i e he
    have := Object.Unmarshal_error he
    rw [this] at h
    cases h
  · dsimp only at h
    by_cases hm : (bytesEqual (values.get .is_source_object) (some valueTrue)
        && (values.get .is_source_object).isSome) = true
    · rw [if_pos hm] at h; cases h
    · rw [if_neg hm] at h; cases h

/-! ### Round trips of rows -/

theorem updateT_same (ix : Col → Option Idx) (id : Bytes) (curr : Values) :
    ∀ (values : Values) (b : Table),
      (∀ kv ∈ values, bytesEqual kv.2 (curr.get kv.1) = true) →
      updateT b ix id values curr = b
  | [], _, _ => rfl
  | kv :: values, b, h => by
    rw [updateT_cons]
    have h1 : putValueT b ix id kv.1 kv.2 (curr.get kv.1) = b := by
      unfold putValueT
      rw [if_pos (h kv (List.mem_cons_self _ _))]
    rw [h1]
    exact updateT_same ix id curr values b fun kv' hkv' => h kv' (List.mem_cons_of_mem _ hkv')

theorem Values.get_of_mem : ∀ (m : Values) (k : Col) (v : Option Bytes), m.keys.Nodup →
    (k, v) ∈ m → m.get k = v
  | [], _, _, _, h => by cases h
  | (k', v') :: m, k, v, hnd, h => by
    simp only [Values.keys, List.map_cons, List.nodup_cons] at hnd
    rcases List.mem_cons.mp h with heq | hmem
    · cases heq
      simp [Values.get]
    · have hne : k' ≠ k := by
        intro hk
        exact hnd.1 (hk ▸ List.mem_map.mpr ⟨(k, v), hmem, rfl⟩)
      simp only [Values.get, hne, if_false]
      exact Values.get_of_mem m k v hnd.2 hmem

theorem updateT_self (b : Table) (ix : Col → Option Idx) (id : Bytes) (values : Values)
    (hnd : values.keys.Nodup) : updateT b ix id values values = b := by
  refine updateT_same ix id values values b ?_
  intro kv hkv
  rw [Values.get_of_mem values kv.1 kv.2 hnd hkv]
  exact bytesEqual_self _

theorem sliceFrom_of_hasPrefix {k p : Bytes} (h : HasPrefix k p = true) :
    sliceFrom k p.length = .ok (k.drop p.length) := by
  unfold sliceFrom
  rw [if_pos (List.IsPrefix.length_le (List.isPrefixOf_iff_prefix.mp h))]

/-- C21: for a source object whose key is nil or begins with the prefix of its set, and for
a destination object whose key is nil or begins with the destination path of its set,
`Marshal` succeeds, unmarshalling the marshalled map into a fresh row of the same set
succeeds and yields a row that marshals to the same map, this row is the result of `Copy`,
and `UpdateRow` with the copy against the map of the original writes nothing, whatever
the table and the id. -/
theorem marshal_unmarshal_round_trip :
    (∀ s : SourceObject, (∀ k, s.Key = some k → HasPrefix k s.Parent.Prefix = true) →
      ∃ values c row, s.Marshal = .ok values ∧
        (NewSourceObject s.Parent).Unmarshal values = .ok c ∧ c.Marshal = .ok values ∧
        s.Copy = .ok c ∧ c.Row = .ok row ∧
        ∀ b id, UpdateRow b id row (some values) = .ok b) ∧
    (∀ d : DestinationObject,
      (∀ k, d.Key = some k → HasPrefix k d.Parent.DestinationPath = true) →
      ∃ values c row, d.Marshal = .ok values ∧
        (NewDestinationObject d.Parent).Unmarshal values = .ok c ∧ c.Marshal = .ok values ∧
        d.Copy = .ok c ∧ c.Row = .ok row ∧
        ∀ b id, UpdateRow b id row (some values) = .ok b) := by
  constructor
  · intro s hkey
    have hkc : ∃ kc, s.keyCell = .ok kc := by
      unfold SourceObject.keyCell
      cases hk : s.Key with
      | none => exact ⟨none, rfl⟩
      | some k =>
        refine ⟨some (k.drop s.Parent.Prefix.length), ?_⟩
        simp only [sliceFrom_of_hasPrefix (hkey k hk), Except.map]
    obtain ⟨kc, hkc⟩ := hkc
    obtain ⟨c, hc, _, hckc, hvals, _⟩ := SourceObject.Copy_values hkc
    have hm : s.Marshal = .ok (s.values kc) := by rw [SourceObject.Marshal_eq, hkc]; rfl
    have hcm : c.Marshal = .ok (s.values kc) := by
      rw [SourceObject.Marshal_eq, hckc, ← hvals]; rfl
    have hun : (NewSourceObject s.Parent).Unmarshal (s.values kc) = .ok c := by
      unfold SourceObject.Copy at hc
      rw [hm] at hc
      exact hc
    refine ⟨s.values kc, c, sourceRow (s.values kc), hm, hun, hcm, hc, ?_, ?_⟩
    · rw [SourceObject.Row_eq, hckc, ← hvals]; rfl
    · intro b id
      rw [UpdateRow_source, updateT_self _ _ _ _ (SourceObject.values_nodup s kc)]
  · intro d hkey
    have hkc : ∃ kc, d.keyCell = .ok kc := by
      unfold DestinationObject.keyCell
      cases hk : d.Key with
      | none => exact ⟨none, rfl⟩
      | some k =>
        refine ⟨some (k.drop d.Parent.DestinationPath.length), ?_⟩
        simp only [sliceFrom_of_hasPrefix (hkey k hk), Except.map]
    obtain ⟨kc, hkc⟩ := hkc
    obtain ⟨c, hc, _, hckc, hvals, _⟩ := DestinationObject.destCopy_values hkc
    have hm : d.Marshal = .ok (d.values kc) := by
      rw [DestinationObject.destMarshal_eq, hkc]; rfl
    have hcm : c.Marshal = .ok (d.values kc) := by
      rw [DestinationObject.destMarshal_eq, hckc, ← hvals]; rfl
    have hun : (NewDestinationObject d.Parent).Unmarshal (d.values kc) = .ok c := by
      unfold DestinationObject.Copy at hc
      rw [hm] at hc
      exact hc
    refine ⟨d.values kc, c, destinationRow (d.values kc), hm, hun, hcm, hc, ?_, ?_⟩
    · rw [DestinationObject.destRow_eq, hckc, ← hvals]; rfl
    · intro b id
      rw [UpdateRow_destination, updateT_self _ _ _ _ (DestinationObject.destValues_nodup d kc)]

/-- C21 at two rows: the source row with key `ab` of the example set, and the block with
key `out/u` of the merge example. -/
theorem marshal_unmarshal_round_trip_witness :
    (∃ values c row, rowAB.Marshal = .ok values ∧
      (NewSourceObject rowAB.Parent).Unmarshal values = .ok c ∧ c.Marshal = .ok values ∧
      rowAB.Copy = .ok c ∧ c.Row = .ok row ∧
      ∀ b id, UpdateRow b id row (some values) = .ok b) ∧
    (∃ values c row, exampleBlock.Marshal = .ok values ∧
      (NewDestinationObject exampleBlock.Parent).Unmarshal values = .ok c ∧
      c.Marshal = .ok values ∧ exampleBlock.Copy = .ok c ∧ c.Row = .ok row ∧
      ∀ b id, UpdateRow b id row (some values) = .ok b) :=
  ⟨marshal_unmarshal_round_trip.1 rowAB (by intro k hk; cases hk; rfl),
    marshal_unmarshal_round_trip.2 exampleBlock (by intro k hk; cases hk; rfl)⟩

theorem Itol_Ltoi {v : Bytes} {n : Int} (hlen : v.length = 8) (hb : IsBytes v)
    (h : Ltoi v = .ok n) : Itol n = v := by
  match v, hlen with
  | [b0, b1, b2, b3, b4, b5, b6, b7], _ =>
    have h0 : b0 < 256 := hb b0 (by simp)
    have h1 : b1 < 256 := hb b1 (by simp)
    have h2 : b2 < 256 := hb b2 (by simp)
    have h3 : b3 < 256 := hb b3 (by simp)
    have h4 : b4 < 256 := hb b4 (by simp)
    have h5 : b5 < 256 := hb b5 (by simp)
    have h6 : b6 < 256 := hb b6 (by simp)
    have h7 : b7 < 256 := hb b7 (by simp)
    simp only [Ltoi, Uint64, Except.map, Except.ok.injEq] at h
    rw [← h]
    unfold Itol
    rw [toUint64_toInt64 _ (Nat.mod_lt _ (by norm_num))]
    simp only [PutUint64, List.cons.injEq, and_true]
    norm_num
    omega

theorem Uint16tol_Ltouint16 {v : Bytes} {s : Nat} (hlen : v.length = 2) (hb : IsBytes v)
    (h : Ltouint16 v = .ok s) : Uint16tol s = v := by
  match v, hlen with
  | [b0, b1], _ =>
    have h0 : b0 < 256 := hb b0 (by simp)
    have h1 : b1 < 256 := hb b1 (by simp)
    simp only [Ltouint16, Except.ok.injEq] at h
    rw [← h]
    simp only [Uint16tol, List.cons.injEq, and_true]
    omega

/-- What an object that was unmarshalled from `m` marshals, column by column. -/
theorem Object.Marshal_of_Unmarshal {o c : Object} {m : Values} (h : o.Unmarshal m = .ok c)
    (hlm : ∀ v, m.get .last_modified = some v → v.length = 8 ∧ IsBytes v)
    (hsz : ∀ v, m.get .size = some v → v.length = 8 ∧ IsBytes v)
    (hst : ∃ v, m.get .state = some v ∧ v.length = 2 ∧ IsBytes v) :
    c.ETag = m.get .etag ∧ c.StorageClass = m.get .storage_class ∧
      c.LastModified.map Itol = m.get .last_modified ∧
      c.Owner.bind (·.ID) = m.get .owner_id ∧
      c.Owner.bind (·.DisplayName) = m.get .owner_display_name ∧
      c.Size.map Itol = m.get .size ∧ some (Uint16tol c.State) = m.get .state := by
  obtain ⟨_, h1, _, h3, h4, h5, h6, h7⟩ := Object.Unmarshal_fields h
  refine ⟨h1, h3, ?_, ?_, ?_, ?_, ?_⟩
  · cases hv : m.get .last_modified with
    | none => rw [hv] at h4; rw [h4]; rfl
    | some v =>
      rw [hv] at h4
      obtain ⟨n, hn, hc⟩ := h4
      rw [hc]
      exact congrArg some (Itol_Ltoi (hlm v hv).1 (hlm v hv).2 hn)
  · rw [h5]
    cases m.get .owner_id <;> cases m.get .owner_display_name <;> rfl
  · rw [h5]
    cases m.get .owner_id <;> cases m.get .owner_display_name <;> rfl
  · cases hv : m.get .size with
    | none => rw [hv] at h6; rw [h6]; rfl
    | some v =>
      rw [hv] at h6
      obtain ⟨n, hn, hc⟩ := h6
      rw [hc]
      exact congrArg some (Itol_Ltoi (hsz v hv).1 (hsz v hv).2 hn)
  · obtain ⟨v, hv, hlen, hb⟩ := hst
    rw [hv] at h7 ⊢
    exact congrArg some (Uint16tol_Ltouint16 hlen hb h7)

theorem SetValues.get_of_missing :
    ∀ (m : SetValues) (k : SetCol), m.has k = false → m.get k = none
  | [], _, _ => rfl
  | (k1, v) :: m, k, h => by
    simp only [SetValues.has] at h
    simp only [SetValues.get]
    by_cases hk : k1 = k
    · simp [hk] at h
    · simp only [hk, if_false] at h ⊢
      exact SetValues.get_of_missing m k h

/-- C22 as stated fails on the code: the column map `exampleStatelessValues` has the source
marker and no state cell (and no other numeric cell), `Unmarshal` accepts it, and the row
it yields marshals the state cell `[0, 0]`, which the map does not hold. And the values
`exampleRootNoBucket` of an object set, whose destination bucket is nil, are accepted, and
the set they yield marshals the empty string, which is not nil, as destination bucket. -/
theorem missing_state_cell_is_marshalled :
    (exampleStatelessValues.get .state = none ∧
      ∃ c values, (NewSourceObject exampleSet).Unmarshal exampleStatelessValues = .ok c ∧
        c.Marshal = .ok values ∧ values.get .state = some [0, 0]) ∧
      exampleRootNoBucket.get .destination_bucket = none ∧
      ∃ o, (NewObjectSet [98] []).Unmarshal exampleRootNoBucket = .ok o ∧
        o.Marshal.get .destination_bucket = some [] :=
  ⟨⟨rfl, _, _, rfl, rfl, rfl⟩, rfl, _, rfl, rfl⟩

/-- C22, amended: for each row kind and every column map that `Unmarshal` accepts, whose
numeric cells are byte strings of their declared width (8 bytes for `size`, `last_modified`
and `block_size`, 2 bytes for `state`), whose state cell is present and, for an object set,
whose `block_size` cell is present and whose destination bucket and path are not nil, the
row that `Unmarshal` yields marshals a map that agrees with the given one on every column of
the schema. An object set is unmarshalled into any receiver whose delimiter is nil, as that
of `NewObjectSet` is, or from a map that holds the key `delimiter`. -/
theorem unmarshal_marshal_round_trip :
    (∀ (o o' : ObjectSet) (m : SetValues), o.Unmarshal m = .ok o' →
      (∃ v, m.get .block_size = some v ∧ v.length = 8 ∧ IsBytes v) →
      m.get .destination_bucket ≠ none → m.get .destination_path ≠ none →
      (m.has .delimiter = true ∨ o.Delimiter = none) →
      ∀ k, o'.Marshal.get k = m.get k) ∧
    (∀ (p : ObjectSet) (m : Values) (c : SourceObject),
      (NewSourceObject p).Unmarshal m = .ok c →
      (∀ v, m.get .last_modified = some v → v.length = 8 ∧ IsBytes v) →
      (∀ v, m.get .size = some v → v.length = 8 ∧ IsBytes v) →
      (∃ v, m.get .state = some v ∧ v.length = 2 ∧ IsBytes v) →
      ∃ values, c.Marshal = .ok values ∧
        ∀ k, sourceObjectSchema k = true → values.get k = m.get k) ∧
    (∀ (p : ObjectSet) (m : Values) (c : DestinationObject),
      (NewDestinationObject p).Unmarshal m = .ok c →
      (∀ v, m.get .last_modified = some v → v.length = 8 ∧ IsBytes v) →
      (∀ v, m.get .size = some v → v.length = 8 ∧ IsBytes v) →
      (∃ v, m.get .state = some v ∧ v.length = 2 ∧ IsBytes v) →
      ∃ values, c.Marshal = .ok values ∧
        ∀ k, destinationObjectSchema k = true → values.get k = m.get k) := by
  refine ⟨?_, ?_, ?_⟩
  · intro o o' m h hw hdb hdp hdel k
    obtain ⟨v, hbs, hlen, hbytes⟩ := hw
    have hhas : ∀ c, m.get c ≠ none → m.has c = true := by
      intro c hc
      cases hh : m.has c with
      | true => rfl
      | false => exact absurd (SetValues.get_of_missing m c hh) hc
    have h1 : m.has .block_size = true := hhas _ (by rw [hbs]; simp)
    have h2 : m.has .destination_bucket = true := hhas _ hdb
    have h3 : m.has .destination_path = true := hhas _ hdp
    obtain ⟨w2, hw2⟩ := Option.ne_none_iff_exists'.mp hdb
    obtain ⟨w3, hw3⟩ := Option.ne_none_iff_exists'.mp hdp
    have h4 : (if m.has .delimiter = true then m.get .delimiter else o.Delimiter) =
        m.get .delimiter := by
      rcases hdel with hd | hd
      · rw [if_pos hd]
      · cases hh : m.has .delimiter with
        | true => rfl
        | false =>
          rw [if_neg (by simp), hd]
          exact (SetValues.get_of_missing m _ hh).symm
    unfold ObjectSet.Unmarshal at h
    rw [h1, h2, h3, hbs, hw2, hw3] at h
    simp only [if_true, Option.getD_some] at h
    cases hn : Ltoi v with
    | error e => rw [hn] at h; cases h
    | ok n =>
      rw [hn] at h
      simp only [] at h
      cases Except.ok.inj h
      cases k
      · simp only [ObjectSet.Marshal, SetValues.get, if_true, hbs]
        exact congrArg some (Itol_Ltoi hlen hbytes hn)
      · simp only [ObjectSet.Marshal, SetValues.get, if_true, if_false, reduceCtorEq, hw2]
      · simp only [ObjectSet.Marshal, SetValues.get, if_true, if_false, reduceCtorEq, hw3]
      · simp only [ObjectSet.Marshal, SetValues.get, if_true, if_false, reduceCtorEq, h4]
  · intro p m c h hlm hsz hst
    have hkc := SourceObject.keyCell_of_Unmarshal h
    obtain ⟨⟨o, ho, hco⟩, hd, hmark⟩ := SourceObject.Unmarshal_ok h
    obtain ⟨f1, f2, f3, f4, f5, f6, f7⟩ := Object.Marshal_of_Unmarshal ho hlm hsz hst
    have hdest : c.DestinationObjectID = m.get .destination_object := by
      rw [hd]
      cases hh : m.has .destination_object
      · simp only [Bool.false_eq_true, if_false]
        exact (Values.get_of_not_has m _ hh).symm
      · simp only [if_true]
    have e1 : c.ETag = o.ETag := by rw [show c.ETag = c.toObject.ETag from rfl, hco]
    have e2 : c.StorageClass = o.StorageClass := by
      rw [show c.StorageClass = c.toObject.StorageClass from rfl, hco]
    have e3 : c.LastModified = o.LastModified := by
      rw [show c.LastModified = c.toObject.LastModified from rfl, hco]
    have e4 : c.Owner = o.Owner := by rw [show c.Owner = c.toObject.Owner from rfl, hco]
    have e5 : c.Size = o.Size := by rw [show c.Size = c.toObject.Size from rfl, hco]
    have e6 : c.State = o.State := by rw [show c.State = c.toObject.State from rfl, hco]
    refine ⟨c.values (m.get .key), by rw [SourceObject.Marshal_eq, hkc]; rfl, ?_⟩
    intro k hk
    cases k <;> first
      | exact absurd hk (by decide)
      | simp only [SourceObject.values, Values.get, e1, e2, e3, e4, e5, e6, f1, f2, f3, f4, f5,
          f6, f7, hdest, hmark, if_true, if_false, reduceCtorEq]
  · intro p m c h hlm hsz hst
    have hkc := DestinationObject.destKeyCell_of_Unmarshal h
    obtain ⟨⟨o, ho, hco⟩, hmark⟩ := DestinationObject.destUnmarshal_ok h
    obtain ⟨f1, f2, f3, f4, f5, f6, f7⟩ := Object.Marshal_of_Unmarshal ho hlm hsz hst
    have e1 : c.ETag = o.ETag := by rw [show c.ETag = c.toObject.ETag from rfl, hco]
    have e2 : c.StorageClass = o.StorageClass := by
      rw [show c.StorageClass = c.toObject.StorageClass from rfl, hco]
    have e3 : c.LastModified = o.LastModified := by
      rw [show c.LastModified = c.toObject.LastModified from rfl, hco]
    have e4 : c.Owner = o.Owner := by rw [show c.Owner = c.toObject.Owner from rfl, hco]
    have e5 : c.Size = o.Size := by rw [show c.Size = c.toObject.Size from rfl, hco]
    have e6 : c.State = o.State := by rw [show c.State = c.toObject.State from rfl, hco]
    refine ⟨c.values (m.get .key), by rw [DestinationObject.destMarshal_eq, hkc]; rfl, ?_⟩
    intro k hk
    cases k <;> first
      | exact absurd hk (by decide)
      | simp only [DestinationObject.values, Values.get, e1, e2, e3, e4, e5, e6, f1, f2, f3, f4,
          f5, f6, f7, hmark, if_true, if_false, reduceCtorEq]

/-- The amended C22 at the root of the example set, at the column map of the source row
with key `ab`, and at the column map of a block of plan-new. -/
theorem unmarshal_marshal_round_trip_witness :
    (∀ k, exampleSetRead.Marshal.get k = exampleRoot.get k) ∧
    (∃ values, rowAB.Marshal = .ok values ∧
      ∀ k, sourceObjectSchema k = true → values.get k = (rowAB.values (some [97, 98])).get k) ∧
    (∃ values, (newBlock exampleSetRead (exampleKeys 0)).Marshal = .ok values ∧
      ∀ k, destinationObjectSchema k = true → values.get k = exampleBlockValues.get k) :=
  ⟨unmarshal_marshal_round_trip.1 (NewObjectSet [98] []) exampleSetRead exampleRoot rfl
      ⟨_, rfl, rfl, by decide⟩ (by decide) (by decide) (Or.inl rfl),
    unmarshal_marshal_round_trip.2.1 exampleSet (rowAB.values (some [97, 98])) rowAB rfl
      (by intro v hv; cases hv) (by intro v hv; cases hv; exact ⟨rfl, by decide⟩)
      ⟨_, rfl, rfl, by decide⟩,
    unmarshal_marshal_round_trip.2.2 exampleSetRead exampleBlockValues
      (newBlock exampleSetRead (exampleKeys 0)) rfl
      (by intro v hv; cases hv) (by intro v hv; cases hv) ⟨_, rfl, rfl, by decide⟩⟩

/-! ### Planning: the order of a page -/

set_option maxRecDepth 8192 in
/-- C26 as stated fails on the code: in `tableBA` the NEW source with key `b` has the id 1
and the NEW source with key `a` has the id 2. The page of plan-new lists the id 1 before
the id 2, so the row with key `b` is visited before the row with key `a`: with the block
size 100, the row of `b` (size 500) fills the block 3 alone and the row of `a` opens the
block 4, whereas in key order both would share one block. -/
theorem page_order_is_not_key_order :
    PrefixQuery tableBA .idx_source_state (Uint16tol StateNew) 2048 none =
        .ok [PutUint64 1, PutUint64 2] ∧
      tableBA.cell .key (PutUint64 1) = some [98] ∧
      tableBA.cell .key (PutUint64 2) = some [97] ∧
      bytesLt [98] [97] = false ∧
      ((examplePlan.Invoke exampleKeys 1 (some tableBA)).map fun r =>
        (r.1.map fun t => t.cols .destination_object, r.2)) =
        some (some [(PutUint64 1, PutUint64 3), (PutUint64 2, PutUint64 4)], none) :=
  ⟨rfl, rfl, rfl, rfl, rfl⟩

/-- C26, amended: over a state index in key order whose entries under NEW are `NEW ++ id`
with an 8-byte id, the page that plan-new queries, and that `planPage` then visits from first to last, lists
the ids of the first `limit` entries under NEW in ascending lexicographic order of
`state ++ id`, that is, in ascending byte order of the row ids. The page size `limit` is one
that `make` accepts as a capacity, as the 2048 of plan-new is. -/
theorem plan_new_page_order (t : Table) (limit : Int) (hl : 1 ≤ limit)
    (hcap : limit ≤ maxSliceCap) (hs : KV.Sorted (t.idxs .idx_source_state))
    (hlen : ∀ e, e ∈ t.index .idx_source_state → HasPrefix e encNew = true → e.length = 10) :
    ∃ ids, PrefixQuery t .idx_source_state (Uint16tol StateNew) limit none = .ok ids ∧
      (∀ (set : ObjectSet) (keys : Nat → Bytes) (fuel : Nat) (st : PlanState), st.b = t →
        planLoop set keys limit (fuel + 1) st =
          match planPage set keys limit st ids with
          | .error e => some (st.b, some e)
          | .ok st1 =>
            if (ids.length : Int) < limit then some (st1.b, none)
            else planLoop set keys limit fuel st1) ∧
      (∀ id ∈ ids, Uint16tol StateNew ++ id ∈ t.index .idx_source_state) ∧
      (ids.map fun id => Uint16tol StateNew ++ id).Pairwise (fun a b => bytesLt a b = true) ∧
      ids.Pairwise fun a b => bytesLt a b = true := by
  have hlen' : ∀ e ∈ t.idxs .idx_source_state, HasPrefix e.1 (Uint16tol StateNew) = true →
      idSize ≤ e.1.length := by
    intro e he hp
    have := hlen e.1 (List.mem_map_of_mem Prod.fst he) hp
    unfold idSize
    omega
  have hq := PrefixQuery_first t .idx_source_state (Uint16tol StateNew) limit (by omega) hcap hs
    hlen'
  have hsub : ∀ id ∈ (t.matchingIDs .idx_source_state (Uint16tol StateNew)).take limit.toNat,
      id ∈ t.newIDs := fun id hid => List.mem_of_mem_take hid
  have hpw : t.newIDs.Pairwise fun a b => bytesLt a b = true := by
    unfold Table.newIDs
    rw [List.pairwise_map]
    have h1 : (KV.matching (t.idxs .idx_source_state) encNew).Pairwise
        fun a b => bytesLt a.1 b.1 = true :=
      List.Pairwise.sublist (List.filter_sublist _) hs
    refine List.Pairwise.imp_of_mem ?_ h1
    intro a b ha hb hab
    unfold KV.matching at ha hb
    rw [List.mem_filter] at ha hb
    have hla := hlen a.1 (List.mem_map_of_mem Prod.fst ha.1) ha.2
    have hlb := hlen b.1 (List.mem_map_of_mem Prod.fst hb.1) hb.2
    rw [eq_encNew_append ha.2 hla, eq_encNew_append hb.2 hlb, bytesLt_append_left] at hab
    exact hab
  have hpw' : ((t.matchingIDs .idx_source_state (Uint16tol StateNew)).take limit.toNat).Pairwise
      fun a b => bytesLt a b = true :=
    List.Pairwise.sublist (List.take_sublist _ _) hpw
  refine ⟨_, hq, ?_, ?_, ?_, hpw'⟩
  · intro set keys fuel st hst
    subst hst
    simp only [planLoop, hq]
  · intro id hid
    obtain ⟨e, he, hp, rfl⟩ := mem_newIDs.mp (hsub id hid)
    have := eq_encNew_append hp (hlen e he hp)
    rw [show Uint16tol StateNew = encNew from rfl, ← this]
    exact he
  · rw [List.pairwise_map]
    refine hpw'.imp ?_
    intro a b hab
    show bytesLt (Uint16tol StateNew ++ a) (Uint16tol StateNew ++ b) = true
    rw [bytesLt_append_left]
    exact hab

set_option maxRecDepth 8192 in
/-- The amended C26 at `tableBA`: the page lists the rows in the order of their ids. -/
theorem plan_new_page_order_witness :
    ∃ ids, PrefixQuery tableBA .idx_source_state (Uint16tol StateNew) 2048 none = .ok ids ∧
      (∀ (set : ObjectSet) (keys : Nat → Bytes) (fuel : Nat) (st : PlanState), st.b = tableBA →
        planLoop set keys 2048 (fuel + 1) st =
          match planPage set keys 2048 st ids with
          | .error e => some (st.b, some e)
          | .ok st1 =>
            if (ids.length : Int) < 2048 then some (st1.b, none)
            else planLoop set keys 2048 fuel st1) ∧
      (∀ id ∈ ids, Uint16tol StateNew ++ id ∈ tableBA.index .idx_source_state) ∧
      (ids.map fun id => Uint16tol StateNew ++ id).Pairwise (fun a b => bytesLt a b = true) ∧
      ids.Pairwise fun a b => bytesLt a b = true :=
  plan_new_page_order tableBA 2048 (by decide) (by decide) (by unfold KV.Sorted; decide)
    (by decide)

/-! ### The writes of the commands, row by row -/

theorem RowWrite.isSource {b b' : Table} (h : RowWrite b b') {x : Bytes} (hx : b.isSource x) :
    b'.isSource x := by
  obtain ⟨id, marker, other, hk, hcells, hmark, hother, _⟩ := h
  unfold Table.isSource at hx ⊢
  by_cases hxi : x = id
  · subst hxi
    rcases hk with ⟨rfl, _⟩ | ⟨_, rfl⟩
    · exact hmark
    · rw [hother]; exact hx
  · rw [hcells _ _ hxi]; exact hx

theorem RowWrite.isDestination {b b' : Table} (h : RowWrite b b') {x : Bytes}
    (hx : b.isDestination x) : b'.isDestination x := by
  obtain ⟨id, marker, other, hk, hcells, hmark, hother, _⟩ := h
  unfold Table.isDestination at hx ⊢
  by_cases hxi : x = id
  · subst hxi
    rcases hk with ⟨_, rfl⟩ | ⟨rfl, _⟩
    · rw [hother]; exact hx
    · exact hmark
  · rw [hcells _ _ hxi]; exact hx

theorem RowWrite.isRow {b b' : Table} (h : RowWrite b b') {x : Bytes} (hx : b.isRow x) :
    b'.isRow x :=
  hx.imp (fun h1 => h.isSource h1) (fun h1 => h.isDestination h1)

theorem SourceObject.mem_values_sourceMarker (s : SourceObject) (kc : Option Bytes) :
    (Col.is_source_object, some valueTrue) ∈ s.values kc := by
  simp [SourceObject.values]

theorem DestinationObject.mem_values_destState (d : DestinationObject) (kc : Option Bytes) :
    (Col.state, some (Uint16tol d.State)) ∈ d.values kc := by
  simp [DestinationObject.values]

theorem RowWrite.appendSource (b : Table) (s : SourceObject) (kc : Option Bytes)
    (h1 : 1 ≤ s.State) (h5 : s.State ≤ 5) :
    RowWrite b (appendT b.bump sourceObjectIndexes b.nextID (s.values kc)) := by
  refine ⟨b.nextID, .is_source_object, .is_destination_object, Or.inl ⟨rfl, rfl⟩, ?_, ?_, ?_,
    Or.inr ⟨?_, rfl, s.State, h1, h5, ?_⟩⟩
  · intro c x hx
    rw [cell_appendT_of_ne _ _ _ _ hx]; rfl
  · exact cell_appendT _ _ _ _ _ _ (SourceObject.values_nodup s kc)
      (SourceObject.mem_values_sourceMarker s kc)
  · intro x
    rw [cell_appendT_of_not_mem _ _ _ _ _ _ (by simp [SourceObject.values])]; rfl
  · rw [appendT_sequence]; rfl
  · exact cell_appendT _ _ _ _ _ _ (SourceObject.values_nodup s kc)
      (SourceObject.mem_values_state s kc)

theorem RowWrite.appendDestination (b : Table) (d : DestinationObject) (kc : Option Bytes)
    (h1 : 1 ≤ d.State) (h5 : d.State ≤ 5) :
    RowWrite b (appendT b.bump destinationObjectIndexes b.nextID (d.values kc)) := by
  refine ⟨b.nextID, .is_destination_object, .is_source_object, Or.inr ⟨rfl, rfl⟩, ?_, ?_, ?_,
    Or.inr ⟨?_, rfl, d.State, h1, h5, ?_⟩⟩
  · intro c x hx
    rw [cell_appendT_of_ne _ _ _ _ hx]; rfl
  · exact cell_appendT _ _ _ _ _ _ (DestinationObject.destValues_nodup d kc)
      (DestinationObject.mem_values_marker d kc)
  · intro x
    rw [cell_appendT_of_not_mem _ _ _ _ _ _ (by simp [DestinationObject.values])]; rfl
  · rw [appendT_sequence]; rfl
  · exact cell_appendT _ _ _ _ _ _ (DestinationObject.destValues_nodup d kc)
      (DestinationObject.mem_values_destState d kc)

theorem RowWrite.updateSource (b : Table) (id : Bytes) (s : SourceObject) (kc : Option Bytes)
    (curr : Values) (hid : b.isSource id) (h1 : 1 ≤ s.State) (h5 : s.State ≤ 5) :
    RowWrite b (updateT b sourceObjectIndexes id (s.values kc) curr) := by
  refine ⟨id, .is_source_object, .is_destination_object, Or.inl ⟨rfl, rfl⟩, ?_, ?_, ?_,
    Or.inl ⟨updateT_sequence _ _ _ _ _, hid, ?_⟩⟩
  · intro c x hx
    exact cell_updateT_of_ne _ _ _ _ _ hx _ _
  · rw [cell_updateT _ _ _ _ _ _ _ (SourceObject.values_nodup s kc)
      (SourceObject.mem_values_sourceMarker s kc)]
    split
    · exact hid
    · rfl
  · intro x
    exact cell_updateT_of_not_mem _ _ _ _ _ _ _ (by rw [SourceObject.values_keys]; decide)
  · rw [cell_updateT _ _ _ _ _ _ _ (SourceObject.values_nodup s kc)
      (SourceObject.mem_values_state s kc)]
    split
    · exact Or.inl rfl
    · exact Or.inr ⟨s.State, h1, h5, rfl⟩

theorem RowWrite.updateDestination (b : Table) (id : Bytes) (d : DestinationObject)
    (kc : Option Bytes) (curr : Values) (hid : b.isDestination id) (h1 : 1 ≤ d.State)
    (h5 : d.State ≤ 5) :
    RowWrite b (updateT b destinationObjectIndexes id (d.values kc) curr) := by
  refine ⟨id, .is_destination_object, .is_source_object, Or.inr ⟨rfl, rfl⟩, ?_, ?_, ?_,
    Or.inl ⟨updateT_sequence _ _ _ _ _, hid, ?_⟩⟩
  · intro c x hx
    exact cell_updateT_of_ne _ _ _ _ _ hx _ _
  · rw [cell_updateT _ _ _ _ _ _ _ (DestinationObject.destValues_nodup d kc)
      (DestinationObject.mem_values_marker d kc)]
    split
    · exact hid
    · rfl
  · intro x
    exact cell_updateT_of_not_mem _ _ _ _ _ _ _
      (by rw [DestinationObject.destValues_keys]; decide)
  · rw [cell_updateT _ _ _ _ _ _ _ (DestinationObject.destValues_nodup d kc)
      (DestinationObject.mem_values_destState d kc)]
    split
    · exact Or.inl rfl
    · exact Or.inr ⟨d.State, h1, h5, rfl⟩

theorem RowWrite.putSize (b : Table) (id v : Bytes) (hid : b.isDestination id) :
    RowWrite b (b.putCell .size id v) := by
  refine ⟨id, .is_destination_object, .is_source_object, Or.inr ⟨rfl, rfl⟩, ?_, ?_, ?_,
    Or.inl ⟨rfl, hid, Or.inl ?_⟩⟩
  · intro c x hx
    simp [hx]
  · simpa using hid
  · intro x
    simp
  · simp

/-- A successful step of load-inventory writes nothing or is one row write. -/
theorem flushStep_write {objectSet : ObjectSet} {b b' : Table} {i : S3Object}
    (h : flushStep objectSet b i = .ok b') : b' = b ∨ RowWrite b b' := by
  rcases flushStep_shape h with rfl | ⟨id, current, kc, kc0, hcur, _, _, rfl⟩ | ⟨kc, _, rfl⟩
  · exact Or.inl rfl
  · exact Or.inr (RowWrite.updateSource b id _ kc _ (LookupSourceRow_ok hcur).2.2.1
      (show 1 ≤ StateDirty by decide) (show StateDirty ≤ 5 by decide))
  · exact Or.inr (RowWrite.appendSource b _ kc (show 1 ≤ StateNew by decide)
      (show StateNew ≤ 5 by decide))

/-- A successful step of update-state to a known state writes nothing or is one row
write. -/
theorem updateStep_write {set : ObjectSet} {type : String} {state : Nat} {b b' : Table}
    {id : Bytes} (h : updateStep set type state b id = .ok b') (h1 : 1 ≤ state)
    (h5 : state ≤ 5) : b' = b ∨ RowWrite b b' := by
  rcases updateStep_ok h with ⟨_, o, ho, ⟨_, rfl⟩ | ⟨_, rfl⟩⟩ | ⟨_, o, ho, ⟨_, rfl⟩ | ⟨_, rfl⟩⟩
  · exact Or.inl rfl
  · right
    rw [← updateT_source_state b id o o (b.cell .key id) state rfl]
    exact RowWrite.updateSource b id _ _ _ (LookupSourceRow_ok ho).2.2.1 h1 h5
  · exact Or.inl rfl
  · right
    rw [← updateT_destination_state b id o o (b.cell .key id) state rfl]
    exact RowWrite.updateDestination b id _ _ _ (LookupDestinationRow_ok ho).2.1 h1 h5

theorem ParseState_le (s : String) : ParseState s ≤ 5 := by
  unfold ParseState
  repeat' split
  all_goals decide

theorem PlanState.Holds_openBlock {P : Table → Prop}
    (hP : ∀ b b', P b → RowWrite b b' → P b') {set : ObjectSet} {keys : Nat → Bytes}
    {st st1 : PlanState} (h : st.Holds P set) (ho : openBlock set keys st = .ok st1) :
    st1.Holds P set ∧ (∃ bid, st1.blockID = some bid) ∧
      ∀ x, st.b.isSource x → st1.b.isSource x := by
  rcases openBlock_ok ho with ⟨hsome, rfl⟩ | ⟨_, kc, _, rfl⟩
  · exact ⟨h, Option.isSome_iff_exists.mp hsome, fun _ hx => hx⟩
  · have hw : RowWrite st.b (openT st.b set (keys st.created) kc) :=
      RowWrite.appendDestination st.b (newBlock set (keys st.created)) (some kc)
        (show 1 ≤ StateNew by decide) (show StateNew ≤ 5 by decide)
    refine ⟨⟨hP _ _ h.1 hw, ?_, ?_⟩, ⟨_, rfl⟩, fun x hx => hw.isSource hx⟩
    · intro bid hb
      rw [← Option.some.inj hb]
      exact cell_appendT _ _ _ _ _ _ (DestinationObject.destValues_nodup _ _)
        (DestinationObject.mem_values_marker _ _)
    · intro bid _
      exact ⟨_, rfl⟩

theorem PlanState.Holds_planStep {P : Table → Prop}
    (hP : ∀ b b', P b → RowWrite b b' → P b') {set : ObjectSet} {keys : Nat → Bytes}
    {st st' : PlanState} {id : Bytes} (h : st.Holds P set)
    (hs : planStep set keys st id = .ok st') : st'.Holds P set := by
  obtain ⟨source, st1, hsrc, hopen, hfull, hnot⟩ := planStep_ok hs
  obtain ⟨h1, ⟨bid, hbid⟩, hsource⟩ := PlanState.Holds_openBlock hP h hopen
  have hid : st1.b.isSource id := hsource id (LookupSourceRow_ok hsrc).2.2.1
  have hw : RowWrite st1.b
      (assignT st1.b id source.State source.DestinationObjectID st1.blockID) := by
    rw [← updateT_planned st1.b id source (st1.b.cell .key id) st1.blockID]
    exact RowWrite.updateSource st1.b id _ _ _ hid (show 1 ≤ StateInSync by decide)
      (show StateInSync ≤ 5 by decide)
  have h2 := hP _ _ h1.1 hw
  have hb2 : (assignT st1.b id source.State source.DestinationObjectID st1.blockID).isDestination
      bid := hw.isDestination (h1.2.1 bid hbid)
  by_cases hf : set.BlockSize ≤ runningSize set st1.n source
  · obtain ⟨b3, hb3, rfl⟩ := hfull hf
    obtain ⟨key, hkey⟩ := h1.2.2 bid hbid
    rw [hkey] at hb3
    rw [flushDestination_ok rfl hb3]
    have hgd : st1.blockID.getD [] = bid := by rw [hbid]; rfl
    exact ⟨hP _ _ h2 (RowWrite.putSize _ _ _ (by rw [hgd]; exact hb2)),
      fun _ hb => Option.noConfusion hb, fun _ hb => Option.noConfusion hb⟩
  · rw [hnot hf]
    refine ⟨h2, ?_, h1.2.2⟩
    intro d hd
    exact hw.isDestination (h1.2.1 d hd)

theorem PlanState.Holds_flush {P : Table → Prop}
    (hP : ∀ b b', P b → RowWrite b b' → P b') {set : ObjectSet} {st : PlanState} {bid : Bytes}
    {b' : Table} (h : st.Holds P set) (hbid : st.blockID = some bid)
    (hf : flushDestination st.b bid st.block st.n = .ok b') :
    PlanState.Holds P set { st with b := b' } := by
  obtain ⟨key, hkey⟩ := h.2.2 bid hbid
  rw [hkey] at hf
  rw [flushDestination_ok rfl hf]
  have hw := RowWrite.putSize st.b bid (Itol st.n) (h.2.1 bid hbid)
  exact ⟨hP _ _ h.1 hw, fun d hd => hw.isDestination (h.2.1 d hd), h.2.2⟩

/-- A property of tables that holds of the empty table, depends on the cells and the
sequence only, and is kept by every row write, holds in every reachable store. -/
theorem Reachable.of_rowWrite (P : Table → Prop) (hempty : P Table.empty)
    (hroot : ∀ t t', t'.cols = t.cols → t'.sequence = t.sequence → P t → P t')
    (hP : ∀ b b', P b → RowWrite b b' → P b') {db : DB} (h : Reachable db) : DB.All P db := by
  induction h with
  | init => intro t ht; cases ht
  | @putSet decode p db db' _ hok ih =>
    obtain ⟨t', rfl, hcols, _, hseq⟩ := PutObjectSet_ok hok
    intro t ht
    cases ht
    have hbase : P (db.getD Table.empty) := by
      cases db with
      | none => exact hempty
      | some t0 => exact ih t0 rfl
    exact hroot _ _ hcols hseq hbase
  | @load l inventory db _ ih =>
    refine loadLoop_inv P _ _ ?_ inventory [] db ih
    intro b i b' hb hs
    rcases flushStep_write hs with rfl | hw
    · exact hb
    · exact hP _ _ hb hw
  | @plan p keys fuel db r _ hok ih =>
    unfold PlanNewObjects.Invoke at hok
    split at hok
    · rw [← Option.some.inj hok]; exact ih
    · rename_i b set hlt
      have hdb := LookupTable_ok hlt
      cases hl : planLoop set keys 2048 fuel { b := b } with
      | none => simp [hl] at hok
      | some r' =>
        simp only [hl, Option.map_some', Option.some.injEq] at hok
        obtain ⟨st', hst', hr'⟩ := planLoop_inv (PlanState.Holds P set) set keys 2048
          (fun st id st' hst hs => PlanState.Holds_planStep hP hst hs)
          (fun st bid b' hst hb hf => PlanState.Holds_flush hP hst hb hf) fuel { b := b } r'
          ⟨ih b hdb, fun _ hb => Option.noConfusion hb, fun _ hb => Option.noConfusion hb⟩ hl
        intro t ht
        rw [← hok] at ht
        cases ht
        rw [hr']
        exact hst'.1
  | @update ToUpper decode u db db' _ hok ih =>
    cases db with
    | none =>
      unfold UpdateObjectsState.Invoke LookupTable at hok
      simp only [] at hok
      split at hok <;> cases hok
    | some t =>
      obtain ⟨hne, set, b', rfl, hfold⟩ := UpdateObjectsState.updateInvoke_ok hok
      intro t' ht'
      cases ht'
      refine foldlM_inv _ P ?_ u.IDS t _ (ih t rfl) hfold
      intro b1 idB64 b2 hb1 hstep1
      cases hd : decode idB64 with
      | none => simp [hd] at hstep1
      | some id =>
        simp only [hd] at hstep1
        have h1 : 1 ≤ ParseState (ToUpper u.State) := by
          unfold StateUnknown at hne
          omega
        rcases updateStep_write hstep1 h1 (ParseState_le _) with rfl | hw
        · exact hb1
        · exact hP _ _ hb1 hw

/-! ### Type disjointness (I2) and known states in the reachable stores -/

theorem StatesKnown.keptByWrite {b b' : Table} (h : StatesKnown b) (hw : RowWrite b b') :
    StatesKnown b' := by
  obtain ⟨id, marker, other, hk, hcells, hmark, hother, hseq⟩ := hw
  intro x hx
  by_cases hxi : x = id
  · subst hxi
    rcases hseq with ⟨_, hold, hstate⟩ | ⟨_, _, hstate⟩
    · have hrow : b.isRow x := by
        rcases hk with ⟨rfl, _⟩ | ⟨rfl, _⟩
        · exact Or.inl hold
        · exact Or.inr hold
      rcases hstate with hsame | hknown
      · rw [hsame]; exact h x hrow
      · exact hknown
    · exact hstate
  · have hrow : b.isRow x := by
      unfold Table.isRow Table.isSource Table.isDestination at hx ⊢
      rw [hcells _ _ hxi, hcells _ _ hxi] at hx
      exact hx
    rw [hcells _ _ hxi]
    exact h x hrow

theorem RowsFull.fullAfterWrite {b b' : Table} (h : RowsFull b) (hw : RowWrite b b') : RowsFull b' :=
  fun s h1 h2 => hw.isRow (h s h1 h2)

theorem RowsInv.afterWrite {b b' : Table} (h : RowsInv b) (hw : RowWrite b b') :
    RowsInv b' ∨ RowsFull b' := by
  have hmono := fun x (hx : b.isRow x) => RowWrite.isRow hw hx
  obtain ⟨id, marker, other, hk, hcells, hmark, hother, hseq⟩ := hw
  have hrowid : b'.isRow id := by
    rcases hk with ⟨rfl, _⟩ | ⟨rfl, _⟩
    · exact Or.inl hmark
    · exact Or.inr hmark
  have hboth : ∀ x, x ≠ id → (b'.isSource x ∧ b'.isDestination x) →
      b.isSource x ∧ b.isDestination x := by
    intro x hx hb
    unfold Table.isSource Table.isDestination at hb ⊢
    rw [hcells _ _ hx, hcells _ _ hx] at hb
    exact hb
  rcases hseq with ⟨hs, hold, _⟩ | ⟨hs, hnext, _⟩
  · left
    refine ⟨by rw [hs]; exact h.bound, ?_, ?_, ?_, ?_⟩
    · intro c x v hc
      rw [hs]
      by_cases hx : x = id
      · subst hx
        exact h.alloc marker x valueTrue hold
      · rw [hcells _ _ hx] at hc
        exact h.alloc c x v hc
    · intro s h1 h2
      rw [hs] at h2
      exact hmono _ (h.dense s h1 h2)
    · intro c x v hc
      by_cases hx : x = id
      · subst hx; exact hrowid
      · rw [hcells _ _ hx] at hc
        exact hmono _ (h.marked c x v hc)
    · intro x hb
      by_cases hx : x = id
      · subst hx
        unfold Table.isSource Table.isDestination at hb
        rcases hk with ⟨rfl, rfl⟩ | ⟨rfl, rfl⟩
        · rw [hother] at hb
          exact h.disjoint x ⟨hold, hb.2⟩
        · rw [hother] at hb
          exact h.disjoint x ⟨hb.1, hold⟩
      · exact h.disjoint x (hboth x hx hb)
  · by_cases hroom : b.sequence + 1 < 2 ^ 64
    · left
      have hs' : b'.sequence = b.sequence + 1 := by rw [hs, Nat.mod_eq_of_lt hroom]
      have hid : id = PutUint64 (b.sequence + 1) := by
        rw [hnext]; unfold Table.nextID; rw [Nat.mod_eq_of_lt hroom]
      have hfresh : ∀ c v, b.cell c id ≠ some v := by
        intro c v hc
        obtain ⟨s, _, hle, heq⟩ := h.alloc c id v hc
        rw [hid] at heq
        have := PutUint64_inj hroom (by omega) heq
        omega
      refine ⟨by rw [hs']; exact hroom, ?_, ?_, ?_, ?_⟩
      · intro c x v hc
        rw [hs']
        by_cases hx : x = id
        · subst hx
          exact ⟨b.sequence + 1, by omega, le_refl _, hid⟩
        · rw [hcells _ _ hx] at hc
          obtain ⟨s, h1, h2, h3⟩ := h.alloc c x v hc
          exact ⟨s, h1, by omega, h3⟩
      · intro s h1 h2
        rw [hs'] at h2
        by_cases hlast : s = b.sequence + 1
        · rw [hlast, ← hid]; exact hrowid
        · exact hmono _ (h.dense s h1 (by omega))
      · intro c x v hc
        by_cases hx : x = id
        · subst hx; exact hrowid
        · rw [hcells _ _ hx] at hc
          exact hmono _ (h.marked c x v hc)
      · intro x hb
        by_cases hx : x = id
        · subst hx
          unfold Table.isSource Table.isDestination at hb
          rcases hk with ⟨rfl, rfl⟩ | ⟨rfl, rfl⟩
          · rw [hother] at hb
            exact hfresh _ _ hb.2
          · rw [hother] at hb
            exact hfresh _ _ hb.1
        · exact h.disjoint x (hboth x hx hb)
    · right
      intro s h1 h2
      exact hmono _ (h.dense s h1 (by have := h.bound; omega))

theorem RowsInv.of_emptyTable : RowsInv Table.empty := by
  refine ⟨by decide, ?_, ?_, ?_, ?_⟩
  · intro c id v hc
    simp [Table.cell, Table.empty, KV.Get] at hc
  · intro s h1 h2
    have : Table.empty.sequence = 0 := rfl
    omega
  · intro c id v hc
    simp [Table.cell, Table.empty, KV.Get] at hc
  · intro id hb
    simp [Table.isSource, Table.cell, Table.empty, KV.Get] at hb

/-- In every reachable store the invariant behind I2 holds, unless every id of the 64-bit
sequence is taken. -/
theorem Reachable.rowsInv {db : DB} (h : Reachable db) :
    DB.All (fun t => RowsInv t ∨ RowsFull t) db := by
  refine Reachable.of_rowWrite _ (Or.inl RowsInv.of_emptyTable) ?_ ?_ h
  · intro t t' hcols hseq ht
    have hcell : ∀ c x, t'.cell c x = t.cell c x := by
      intro c x; unfold Table.cell; rw [hcols]
    have hrow : ∀ x, t'.isRow x ↔ t.isRow x := by
      intro x
      unfold Table.isRow Table.isSource Table.isDestination
      rw [hcell, hcell]
    rcases ht with ht | ht
    · left
      refine ⟨by rw [hseq]; exact ht.bound, ?_, ?_, ?_, ?_⟩
      · intro c id v hc
        rw [hcell] at hc
        rw [hseq]
        exact ht.alloc c id v hc
      · intro s h1 h2
        rw [hseq] at h2
        exact (hrow _).mpr (ht.dense s h1 h2)
      · intro c id v hc
        rw [hcell] at hc
        exact (hrow _).mpr (ht.marked c id v hc)
      · intro id hb
        unfold Table.isSource Table.isDestination at hb
        rw [hcell, hcell] at hb
        exact ht.disjoint id hb
    · right
      intro s h1 h2
      exact (hrow _).mpr (ht s h1 h2)
  · intro b b' hb hw
    rcases hb with hb | hb
    · exact hb.afterWrite hw
    · exact Or.inr (hb.fullAfterWrite hw)

theorem Reachable.statesKnown {db : DB} (h : Reachable db) : DB.All StatesKnown db := by
  refine Reachable.of_rowWrite _ ?_ ?_ (fun b b' hb hw => hb.keptByWrite hw) h
  · intro id hrow
    simp [Table.isRow, Table.isSource, Table.isDestination, Table.cell, Table.empty, KV.Get]
      at hrow
  · intro t t' hcols _ ht id hrow
    have hcell : ∀ c x, t'.cell c x = t.cell c x := by
      intro c x; unfold Table.cell; rw [hcols]
    unfold Table.isRow Table.isSource Table.isDestination at hrow
    rw [hcell, hcell] at hrow
    rw [hcell]
    exact ht id hrow

/-- C24. Type disjointness (I2): in every store reachable from the empty database through
put-set, load-inventory, plan-new and update-state in which some id of the 64-bit sequence
is still free, so that the sequence has not wrapped, every id that holds a cell carries
exactly one of the markers `is_source_object = 0x01` and `is_destination_object = 0x01`. -/
theorem type_disjointness (db : DB) (t : Table) (hreach : Reachable db) (ht : db = some t)
    (hfree : ∃ s, 1 ≤ s ∧ s < 2 ^ 64 ∧ ¬ t.isRow (PutUint64 s)) : TypeDisjoint t := by
  rcases hreach.rowsInv t ht with h | h
  · intro id ⟨c, v, hc⟩
    have hd := h.disjoint id
    rcases h.marked c id v hc with hs | hd'
    · exact Or.inl ⟨hs, fun hd' => hd ⟨hs, hd'⟩⟩
    · exact Or.inr ⟨hd', fun hs => hd ⟨hs, hd'⟩⟩
  · obtain ⟨s, h1, h2, h3⟩ := hfree
    exact absurd (h s h1 h2) h3

/-- C25: in every store reachable from the empty database through put-set, load-inventory,
plan-new and update-state, every source row and every destination row has a state cell of
2 bytes that reads as one of NEW, DIRTY, IN_SYNC, EXPIRED and DELETED, and not as UNKNOWN. -/
theorem persisted_states_are_known (db : DB) (t : Table) (hreach : Reachable db)
    (ht : db = some t) (id : Bytes) (hrow : t.isSource id ∨ t.isDestination id) :
    ∃ v s, t.cell .state id = some v ∧ v.length = 2 ∧ Ltouint16 v = .ok s ∧
      s ≠ StateUnknown ∧
      s ∈ [StateNew, StateDirty, StateInSync, StateExpired, StateDeleted] := by
  obtain ⟨s, h1, h5, hc⟩ := hreach.statesKnown t ht id hrow
  refine ⟨_, s, hc, rfl, ?_, ?_, ?_⟩
  · rw [Ltouint16_Uint16tol, Nat.mod_eq_of_lt (by omega)]
  · unfold StateUnknown; omega
  · unfold StateNew StateDirty StateInSync StateExpired StateDeleted
    simp only [List.mem_cons, List.mem_singleton, List.not_mem_nil, or_false]
    omega

set_option maxRecDepth 8192 in
/-- C24 at a concrete store: after put-set, load-inventory of two objects and plan-new the
id 4 is free, and the ids that hold cells carry exactly one marker each. -/
theorem type_disjointness_witness :
    ¬ tablePlanned.isRow (PutUint64 4) ∧ TypeDisjoint tablePlanned :=
  have hfree : ¬ tablePlanned.isRow (PutUint64 4) := fun h =>
    h.elim
      (show ¬ tablePlanned.cell .is_source_object (PutUint64 4) = some valueTrue by decide)
      (show ¬ tablePlanned.cell .is_destination_object (PutUint64 4) = some valueTrue
        by decide)
  ⟨hfree, type_disjointness storePlanned tablePlanned storePlanned_reachable rfl
    ⟨4, by decide, by decide, hfree⟩⟩

set_option maxRecDepth 8192 in
/-- C25 at a concrete store: after put-set, load-inventory of two objects and plan-new, the
block row 3 has a state cell that reads as a known state. -/
theorem persisted_states_are_known_witness :
    ∃ v s, tablePlanned.cell .state (PutUint64 3) = some v ∧ v.length = 2 ∧
      Ltouint16 v = .ok s ∧ s ≠ StateUnknown ∧
      s ∈ [StateNew, StateDirty, StateInSync, StateExpired, StateDeleted] :=
  persisted_states_are_known storePlanned tablePlanned storePlanned_reachable rfl (PutUint64 3)
    (Or.inr rfl)

/-! ### update-state with an unknown type -/

set_option maxRecDepth 8192 in
/-- C40 (the code at the failing input): with the type `Source`, and with the empty type,
update-state of the source row 1 of the planned example store does not return an error of
its own and updates no row: neither case of the switch is taken, `row` stays nil, and
`UpdateRow` panics on it. -/
theorem update_state_unknown_type_panics :
    exampleUpdateCapital.IDS = [PutUint64 1] ∧
      exampleUpdateCapital.Invoke (fun s => s) some storePlanned = .error .panic ∧
      exampleUpdateNoType.Invoke (fun s => s) some storePlanned = .error .panic :=
  ⟨rfl, rfl, rfl⟩

/-! ### The log level -/

/-- C32 (the code at the failing input): with `LOG_LEVEL=info`, a valid level name,
`logrus.ParseLevel` returns the level info and no error, and `init` leaves the level at
debug; with `LOG_LEVEL=verbose`, which is no level name, `ParseLevel` returns an error and
`init` sets the level to the zero value returned with it, the level panic. The
assignment is guarded by `err != nil`. -/
theorem init_ignores_valid_level :
    ParseLevel (fun s => s) "info" = (.InfoLevel, false) ∧
      init (ParseLevel fun s => s) "info" = .DebugLevel ∧
      ParseLevel (fun s => s) "verbose" = (.PanicLevel, true) ∧
      init (ParseLevel fun s => s) "verbose" = .PanicLevel ∧
      init (ParseLevel fun s => s) "" = .DebugLevel := by
  refine ⟨?_, ?_, ?_, ?_, ?_⟩ <;> decide

/-! ### Table names -/

/-- C34 (the code at the failing input): the pairs (`b`, `x`) and (`b`, `x/`) are
distinct and get the same table name `b/x`, and so do the pairs (`a/b`, `c`) and
(`a`, `b/c`), which get `a/b/c`. -/
theorem tableName_collides :
    (([98], [120]) : Bytes × Bytes) ≠ ([98], [120, 47]) ∧
      tableName [98] [120] = [98, 47, 120] ∧ tableName [98] [120, 47] = [98, 47, 120] ∧
      (([97, 47, 98], [99]) : Bytes × Bytes) ≠ ([97], [98, 47, 99]) ∧
      tableName [97, 47, 98] [99] = [97, 47, 98, 47, 99] ∧
      tableName [97] [98, 47, 99] = [97, 47, 98, 47, 99] := by
  refine ⟨by decide, ?_, ?_, by decide, ?_, ?_⟩ <;> rfl

/-! ### load-inventory on a planned source -/

set_option maxRecDepth 8192 in
/-- C33 (the code at the failing input): in the planned example store the source row 1
(key `a`) is IN_SYNC in the block 3. After load-inventory of the object `a` with a new
etag the row is DIRTY, its `destination_object` cell is gone and `idx_destination` no
longer holds its entry: the candidate built from the inventory object marshals a nil
destination. -/
theorem dirty_source_loses_destination :
    tablePlanned.cell .destination_object (PutUint64 1) = some (PutUint64 3) ∧
      tablePlanned.index .idx_destination =
        [PutUint64 3 ++ PutUint64 1, PutUint64 3 ++ PutUint64 2] ∧
      tableReloaded.cell .state (PutUint64 1) = some (Uint16tol StateDirty) ∧
      tableReloaded.cell .destination_object (PutUint64 1) = none ∧
      tableReloaded.index .idx_destination = [PutUint64 3 ++ PutUint64 2] :=
  ⟨rfl, rfl, rfl, rfl, rfl⟩

/-! ### `UpdateRow`: nil and missing values -/

theorem UpdateRow_eq {b b' : Table} {id : Bytes} {row : Row} {current : Option Values}
    (h : UpdateRow b id row current = .ok b') :
    b' = updateT b row.Indexes id row.Marshal (currValues b id row current) :=
  foldlM_putValue_ok row.Marshal b b' h

set_option maxRecDepth 8192 in
/-- C35 as stated fails on the code: the current etag of the row 1 of `tableEmptyEtag` is
the empty string, which is not nil, and the new row marshals a nil etag; `bytes.Equal`
takes the two for equal, `UpdateRow` writes nothing, and the etag cell is still there. -/
theorem nil_over_empty_value_is_not_deleted :
    (rowEmptyEtag.values (some [97])).get .etag = some [] ∧
      (.etag, none) ∈ rowNoEtag.values (some [97]) ∧
      tableEmptyEtag.cell .etag (PutUint64 1) = some [] ∧
      ∃ t, UpdateRow tableEmptyEtag (PutUint64 1) (sourceRow (rowNoEtag.values (some [97])))
          (some (rowEmptyEtag.values (some [97]))) = .ok t ∧
        t.cell .etag (PutUint64 1) = some [] :=
  ⟨rfl, by decide, rfl, _, rfl, rfl⟩

/-- C35, amended: after a successful `UpdateRow`, for every column whose new value is nil
while its current value is not empty, the cell at `id` is deleted and, if the column is the
one that feeds an index, the entry `old_value ++ id` is deleted from that index and nothing
is added to it; and for every column that is missing from the new map, every cell of the
column is as before, and so is every entry of its index when no marshalled column feeds
it. -/
theorem UpdateRow_nil_and_missing (b b' : Table) (id : Bytes) (row : Row)
    (current : Option Values) (hnd : row.Marshal.keys.Nodup)
    (h : UpdateRow b id row current = .ok b') :
    (∀ k old, (k, none) ∈ row.Marshal → (currValues b id row current).get k = some old →
      old ≠ [] →
      b'.cell k id = none ∧
      ∀ i, row.Indexes k = some i →
        (∀ k' ∈ row.Marshal.keys, row.Indexes k' = some i → k' = k) →
        ∀ e, e ∈ b'.index i ↔ (e ≠ old ++ id ∧ e ∈ b.index i)) ∧
    (∀ k, k ∉ row.Marshal.keys →
      (∀ x, b'.cell k x = b.cell k x) ∧
      ∀ i, row.Indexes k = some i → (∀ k' ∈ row.Marshal.keys, row.Indexes k' ≠ some i) →
        ∀ e, e ∈ b'.index i ↔ e ∈ b.index i) := by
  rw [UpdateRow_eq h]
  constructor
  · intro k old hmem hcur hne
    have hneq : bytesEqual none ((currValues b id row current).get k) = false := by
      rw [hcur]
      simp only [bytesEqual, Option.getD_none, Option.getD_some, decide_eq_false_iff_not]
      exact fun h' => hne h'.symm
    constructor
    · rw [cell_updateT _ _ _ _ _ _ _ hnd hmem, hneq]
      rfl
    · intro i hi huniq e
      rw [mem_index_updateT _ _ _ k none i e hi _ _ hnd hmem huniq, hneq, hcur]
      simp
  · intro k hk
    constructor
    · intro x
      exact cell_updateT_of_not_mem _ _ _ _ _ _ _ hk
    · intro i _ hno e
      exact mem_index_updateT_of_not_mem _ _ _ _ _ _ _ hno

set_option maxRecDepth 8192 in
/-- The amended C35 at the planned example store: `UpdateRow` of the source row 1 with a
row that marshals a nil destination deletes the `destination_object` cell and the entry of
the row in `idx_destination`, and leaves the etag cells, which the row does not marshal. -/
theorem UpdateRow_nil_and_missing_witness :
    tableUnplanned.cell .destination_object (PutUint64 1) = none ∧
      (∀ e, e ∈ tableUnplanned.index .idx_destination ↔
        (e ≠ PutUint64 3 ++ PutUint64 1 ∧ e ∈ tablePlanned.index .idx_destination)) ∧
      ∀ x, tableUnplanned.cell .etag x = tablePlanned.cell .etag x :=
  have h := UpdateRow_nil_and_missing tablePlanned tableUnplanned (PutUint64 1) rowUnplanned
    none (by decide) rfl
  have h1 := h.1 .destination_object (PutUint64 3) (by decide) rfl (by decide)
  ⟨h1.1, h1.2 .idx_destination rfl (by decide), (h.2 .etag (by decide)).1⟩

/-! ### The batches of load-inventory -/

theorem loadLoop_eq_flushAll (objectSet : ObjectSet) (cap : Nat) :
    ∀ (inventory buf : List S3Object) (db : DB),
      loadLoop objectSet cap inventory buf db =
        flushAll objectSet (loadBatches cap inventory buf) db := by
  intro inventory
  induction inventory with
  | nil =>
    intro buf db
    simp only [loadLoop, loadBatches, flushAll]
  | cons o rest ih =>
    intro buf db
    simp only [loadLoop, loadBatches]
    by_cases hc : (buf ++ [o]).length = cap
    · simp only [if_pos hc, flushAll]
      cases flushBuffer objectSet db (buf ++ [o]) with
      | error e => rfl
      | ok db1 => exact ih [] db1
    · simp only [if_neg hc]
      exact ih _ db

theorem loadBatches_join (cap : Nat) :
    ∀ (inventory buf : List S3Object),
      (loadBatches cap inventory buf).flatten = buf ++ inventory := by
  intro inventory
  induction inventory with
  | nil => intro buf; simp [loadBatches]
  | cons o rest ih =>
    intro buf
    simp only [loadBatches]
    by_cases hc : (buf ++ [o]).length = cap
    · rw [if_pos hc, List.flatten_cons, ih, List.append_assoc]
      rfl
    · rw [if_neg hc, ih, List.append_assoc]
      rfl

theorem loadBatches_shape (cap : Nat) :
    ∀ (inventory buf : List S3Object), buf.length < cap →
      ∃ front last, loadBatches cap inventory buf = front ++ [last] ∧
        front.length = (buf.length + inventory.length) / cap ∧
        (∀ b ∈ front, b.length = cap) ∧
        last.length = (buf.length + inventory.length) % cap := by
  intro inventory
  induction inventory with
  | nil =>
    intro buf hlt
    refine ⟨[], buf, rfl, ?_, ?_, ?_⟩
    · simp [Nat.div_eq_of_lt hlt]
    · intro b hb; cases hb
    · simp [Nat.mod_eq_of_lt hlt]
  | cons o rest ih =>
    intro buf hlt
    simp only [loadBatches]
    by_cases hc : (buf ++ [o]).length = cap
    · simp only [if_pos hc]
      obtain ⟨front, last, he, hl, hall, hlast⟩ := ih [] (Nat.lt_of_le_of_lt (Nat.zero_le _) hlt)
      have hb : buf.length + 1 = cap := by simpa using hc
      have hpos : 0 < cap := by omega
      have hsum : buf.length + (o :: rest).length = rest.length + cap := by
        simp only [List.length_cons]; omega
      refine ⟨(buf ++ [o]) :: front, last, by rw [he]; rfl, ?_, ?_, ?_⟩
      · rw [hsum, Nat.add_div_right _ hpos, List.length_cons, hl]
        simp
      · intro b hb
        rcases List.mem_cons.1 hb with h | h
        · rw [h]; exact hc
        · exact hall b h
      · rw [hsum, Nat.add_mod_right, hlast]
        simp
    · simp only [if_neg hc]
      have hb : buf.length + 1 ≠ cap := by simpa using hc
      obtain ⟨front, last, he, hl, hall, hlast⟩ :=
        ih (buf ++ [o]) (by simp only [List.length_append, List.length_singleton]; omega)
      have hsum : (buf ++ [o]).length + rest.length = buf.length + (o :: rest).length := by
        rw [List.length_append, List.length_singleton, List.length_cons]; omega
      rw [hsum] at hl hlast
      exact ⟨front, last, he, hl, hall, hlast⟩

/-- C38: load-inventory on a stream of `N` objects runs `flushBuffer` on the batches
`loadBatches 2048 inventory []`, in order and up to the first one that fails; their
concatenation is the stream, and they are `N / 2048` batches of exactly 2048 objects
followed by one last batch of `N % 2048` objects. -/
theorem load_inventory_batches (l : LoadInventory) (inventory : List S3Object) (db : DB) :
    l.Invoke inventory db =
        flushAll (NewObjectSet l.Bucket l.Prefix) (loadBatches 2048 inventory []) db ∧
      (loadBatches 2048 inventory []).flatten = inventory ∧
      ∃ front last, loadBatches 2048 inventory [] = front ++ [last] ∧
        front.length = inventory.length / 2048 ∧
        (∀ b ∈ front, b.length = 2048) ∧
        last.length = inventory.length % 2048 := by
  refine ⟨loadLoop_eq_flushAll _ _ _ _ _, ?_, ?_⟩
  · simpa using loadBatches_join 2048 inventory []
  · simpa using loadBatches_shape 2048 inventory [] (by decide)

/-! ### get-source-stats -/

theorem addInt64_one (v : Int) (h1 : 0 ≤ v) (h2 : v < 2 ^ 63 - 1) : addInt64 v 1 = v + 1 := by
  rw [addInt64_eq]
  exact wrap64_of_range _ (by omega) (by omega)

theorem bumpCount_spec (k : String) :
    ∀ m : List (String × Int), (∀ p ∈ m, 1 ≤ p.2 ∧ p.2 < 2 ^ 63 - 1) →
      (∀ p ∈ bumpCount m k, 1 ≤ p.2) ∧
      ((bumpCount m k).map Prod.snd).sum = (m.map Prod.snd).sum + 1 ∧
      ∀ s, stateCount (bumpCount m k) s = stateCount m s + if s = k then 1 else 0 := by
  intro m
  induction m with
  | nil =>
    intro _
    refine ⟨?_, ?_, ?_⟩
    · intro p hp
      simp only [bumpCount, List.mem_singleton] at hp
      rw [hp]
    · simp [bumpCount]
    · intro s
      by_cases hs : s = k
      · simp [bumpCount, stateCount, mapGet, hs]
      · have hs2 : ¬ k = s := fun h => hs h.symm
        simp [bumpCount, stateCount, mapGet, hs, hs2]
  | cons e rest ih =>
    intro h
    obtain ⟨k1, v⟩ := e
    have hv := h (k1, v) (List.mem_cons_self _ _)
    have hrest : ∀ p ∈ rest, 1 ≤ p.2 ∧ p.2 < 2 ^ 63 - 1 :=
      fun p hp => h p (List.mem_cons_of_mem _ hp)
    by_cases hk : k1 = k
    · have hb : bumpCount ((k1, v) :: rest) k = (k1, v + 1) :: rest := by
        simp only [bumpCount, if_pos hk]
        rw [addInt64_one v (by have := hv.1; simp only at this; omega) hv.2]
      rw [hb]
      refine ⟨?_, ?_, ?_⟩
      · intro p hp
        rcases List.mem_cons.1 hp with h1 | h1
        · rw [h1]
          have := hv.1
          simp only at this ⊢
          omega
        · exact (hrest p h1).1
      · simp only [List.map_cons, List.sum_cons]
        omega
      · intro s
        by_cases hs : s = k
        · have h1 : k1 = s := by rw [hk, hs]
          simp [stateCount, mapGet, h1, hs]
        · have h1 : ¬ k1 = s := fun h => hs (by rw [← h, hk])
          simp [stateCount, mapGet, h1, hs]
    · have hb : bumpCount ((k1, v) :: rest) k = (k1, v) :: bumpCount rest k := by
        simp only [bumpCount, if_neg hk]
      rw [hb]
      obtain ⟨i1, i2, i3⟩ := ih hrest
      refine ⟨?_, ?_, ?_⟩
      · intro p hp
        rcases List.mem_cons.1 hp with h1 | h1
        · rw [h1]; exact hv.1
        · exact i1 p h1
      · simp only [List.map_cons, List.sum_cons, i2]
        omega
      · intro s
        by_cases hs : k1 = s
        · have h1 : ¬ s = k := fun h => hk (by rw [hs, h])
          simp [stateCount, mapGet, hs, h1]
        · have := i3 s
          simp only [stateCount, mapGet, if_neg hs] at this ⊢
          exact this

theorem statsStep_ok (b : Table) (l : List Bytes) (output : GetSourceStatsOutput)
    (id : Bytes) (hinv : StatsInv b l output) (hlen : (l ++ [id]).length < 2 ^ 63)
    (hstate : ∃ v, b.cell .state id = some v ∧ 2 ≤ v.length)
    (hsize : ∃ v, b.cell .size id = some v ∧ v.length = 8) :
    ∃ out, statsStep b output id = .ok out ∧ StatsInv b (l ++ [id]) out ∧
      out.Size = output.Size := by
  obtain ⟨v, hv, hvl⟩ := hstate
  obtain ⟨w, hw, hwl⟩ := hsize
  obtain ⟨s, hs⟩ : ∃ s, Ltouint16 v = .ok s := by
    match v, hvl with
    | b0 :: b1 :: _, _ => exact ⟨_, rfl⟩
  obtain ⟨n, hn⟩ : ∃ n, Ltoi w = .ok n := by
    match w, hwl with
    | [b0, b1, b2, b3, b4, b5, b6, b7], _ => exact ⟨_, rfl⟩
  have hname : b.stateName id = State.String s := by
    simp only [Table.stateName, hv, Option.getD_some, hs]
  have hsz : b.sizeOf id = n := by
    simp only [Table.sizeOf, hw, hn]
  have hl : (l.length : Int) + 1 < 2 ^ 63 := by
    have : l.length + 1 < 2 ^ 63 := by simpa using hlen
    omega
  have hbound : ∀ p ∈ output.States, 1 ≤ p.2 ∧ p.2 < 2 ^ 63 - 1 := by
    intro p hp
    refine ⟨hinv.pos p hp, ?_⟩
    have h1 : p.2 ≤ (output.States.map Prod.snd).sum :=
      List.single_le_sum (fun x hx => by
        obtain ⟨q, hq, rfl⟩ := List.mem_map.1 hx
        have := hinv.pos q hq
        omega) _ (List.mem_map_of_mem _ hp)
    rw [hinv.total] at h1
    omega
  obtain ⟨i1, i2, i3⟩ := bumpCount_spec (State.String s) output.States hbound
  refine ⟨{ output with
      States := bumpCount output.States (State.String s)
      size := addInt64 output.size n
      Count := addInt64 output.Count 1 },
    by simp only [statsStep, hv, hs, hw, Option.getD_some, hn], ?_, rfl⟩
  constructor
  · show addInt64 output.Count 1 = _
    rw [hinv.count, addInt64_one _ (by omega) (by omega)]
    simp
  · show addInt64 output.size n = _
    rw [hinv.size, addInt64_eq, wrap64_wrap64_add, List.map_append, List.sum_append]
    simp [hsz]
  · exact i1
  · show ((bumpCount output.States (State.String s)).map Prod.snd).sum = _
    rw [i2, hinv.total]
    simp
  · intro t
    show stateCount (bumpCount output.States (State.String s)) t = _
    rw [i3 t, hinv.tally t, List.filter_append]
    by_cases ht : t = State.String s
    · simp [hname, ht]
    · have ht2 : ¬ State.String s = t := fun h => ht h.symm
      simp [hname, ht, ht2]

theorem statsFold_ok (b : Table) :
    ∀ (rest l : List Bytes) (output : GetSourceStatsOutput), StatsInv b l output →
      (l ++ rest).length < 2 ^ 63 →
      (∀ id ∈ rest, ∃ v, b.cell .state id = some v ∧ 2 ≤ v.length) →
      (∀ id ∈ rest, ∃ v, b.cell .size id = some v ∧ v.length = 8) →
      ∃ out, rest.foldlM (statsStep b) output = .ok out ∧ StatsInv b (l ++ rest) out ∧
        out.Size = output.Size := by
  intro rest
  induction rest with
  | nil =>
    intro l output hinv _ _ _
    exact ⟨output, rfl, by simpa using hinv, rfl⟩
  | cons id rest ih =>
    intro l output hinv hlen hstate hsize
    have hlen1 : (l ++ [id]).length < 2 ^ 63 := by
      simp only [List.length_append, List.length_cons, List.length_nil] at hlen ⊢
      omega
    obtain ⟨o1, h1, hinv1, hS1⟩ := statsStep_ok b l output id hinv hlen1
      (hstate id (List.mem_cons_self _ _)) (hsize id (List.mem_cons_self _ _))
    obtain ⟨o2, h2, hinv2, hS2⟩ := ih (l ++ [id]) o1 hinv1 (by simpa using hlen)
      (fun x hx => hstate x (List.mem_cons_of_mem _ hx))
      (fun x hx => hsize x (List.mem_cons_of_mem _ hx))
    refine ⟨o2, ?_, by simpa using hinv2, hS2.trans hS1⟩
    rw [List.foldlM_cons, h1]
    exact h2

theorem statsFold_congr (b b2 : Table) :
    ∀ (ids : List Bytes) (output : GetSourceStatsOutput),
      (∀ id ∈ ids, b2.cell .state id = b.cell .state id ∧
        b2.cell .size id = b.cell .size id) →
      ids.foldlM (statsStep b2) output = ids.foldlM (statsStep b) output := by
  intro ids
  induction ids with
  | nil => intro _ _; rfl
  | cons id rest ih =>
    intro output h
    have hstep : statsStep b2 output id = statsStep b output id := by
      simp only [statsStep, (h id (List.mem_cons_self _ _)).1,
        (h id (List.mem_cons_self _ _)).2]
    rw [List.foldlM_cons, List.foldlM_cons, hstep]
    cases statsStep b output id with
    | error e => rfl
    | ok o => exact ih o fun x hx => h x (List.mem_cons_of_mem _ hx)

theorem cell_of_width {c : Option Bytes} {n : Nat} (h : c.map List.length = some n) :
    ∃ v, c = some v ∧ v.length = n := by
  cases c with
  | none => cases h
  | some v => exact ⟨v, rfl, by simpa using h⟩

/-- C31: on a table in which every id of the column `is_source_object` has a 2-byte state
cell and an 8-byte size cell, `GetSourceStats.Invoke` returns an output whose `Count` is the
number of these ids, whose raw `size` is the `int64` sum of their size cells (the sum itself
when it is within `int64`), whose `Size` is formatted from it, and whose `States` hold, under
each state string, the number of ids whose state cell has that string, the values summing to
`Count`; a table with the same column `is_source_object` and the same state and size cells
at these ids gives the same output, whatever its other rows are. -/
theorem GetSourceStats_totals (format : Int → String) (g : GetSourceStats) (b : Table)
    (hlen : b.sourceIDs.length < 2 ^ 63)
    (hstate : ∀ id ∈ b.sourceIDs, (b.cell .state id).map List.length = some 2)
    (hsize : ∀ id ∈ b.sourceIDs, (b.cell .size id).map List.length = some 8) :
    ∃ out, g.Invoke format (some b) = .ok out ∧
      out.Count = b.sourceIDs.length ∧
      out.size = wrap64 ((b.sourceIDs.map b.sizeOf).sum) ∧
      (-(2 ^ 63 : Int) ≤ (b.sourceIDs.map b.sizeOf).sum →
        (b.sourceIDs.map b.sizeOf).sum < 2 ^ 63 →
        out.size = (b.sourceIDs.map b.sizeOf).sum) ∧
      out.Size = format out.size ∧
      (out.States.map Prod.snd).sum = out.Count ∧
      (∀ s, stateCount out.States s =
        (b.sourceIDs.filter fun id => b.stateName id = s).length) ∧
      ∀ b2 : Table, b2.cols .is_source_object = b.cols .is_source_object →
        (∀ id ∈ b.sourceIDs, b2.cell .state id = b.cell .state id ∧
          b2.cell .size id = b.cell .size id) →
        g.Invoke format (some b2) = .ok out := by
  have hinv0 : StatsInv b [] { Count := 0, Size := "", States := [], size := 0 } :=
    ⟨rfl, rfl, fun p hp => absurd hp (List.not_mem_nil p), rfl, fun _ => rfl⟩
  obtain ⟨o, ho, hinv, _⟩ := statsFold_ok b b.sourceIDs [] _ hinv0 (by simpa using hlen)
    (fun id hid => by
      obtain ⟨v, hv, hl⟩ := cell_of_width (hstate id hid)
      exact ⟨v, hv, by omega⟩)
    (fun id hid => cell_of_width (hsize id hid))
  rw [List.nil_append] at hinv
  have hrun : g.Invoke format (some b) = .ok { o with Size := format o.size } := by
    simp only [GetSourceStats.Invoke]
    rw [show KV.keys (b.cols .is_source_object) = b.sourceIDs from rfl, ho]
  refine ⟨{ o with Size := format o.size }, hrun, hinv.count, hinv.size, ?_, rfl, ?_,
    hinv.tally, ?_⟩
  · intro h1 h2
    exact hinv.size.trans (wrap64_of_range _ h1 h2)
  · exact hinv.total.trans hinv.count.symm
  · intro b2 hcol hcells
    rw [← hrun]
    simp only [GetSourceStats.Invoke, hcol]
    rw [statsFold_congr b b2 (KV.keys (b.cols .is_source_object)) _ hcells]

set_option maxRecDepth 8192 in
/-- C31 at the planned example store, whose two source rows `a` (40 bytes) and `b` (80 bytes)
are IN_SYNC, besides a destination row: a count of 2, a raw size of 120, and 2 rows under
`IN_SYNC`. -/
theorem GetSourceStats_totals_witness :
    tablePlanned.sourceIDs = [PutUint64 1, PutUint64 2] ∧
      tablePlanned.cell .is_destination_object (PutUint64 3) = some valueTrue ∧
      ∃ out, exampleStats.Invoke (fun _ => "") (some tablePlanned) = .ok out ∧
        out.Count = 2 ∧ out.size = 120 ∧ stateCount out.States "IN_SYNC" = 2 ∧
        (out.States.map Prod.snd).sum = 2 :=
  ⟨rfl, rfl,
    match GetSourceStats_totals (fun _ => "") exampleStats tablePlanned (by decide)
      (by decide) (by decide) with
    | ⟨out, h, hc, hs, _, _, hsum, ht, _⟩ =>
      ⟨out, h, hc, hs.trans (by decide), (ht "IN_SYNC").trans (by decide),
        hsum.trans hc⟩⟩

/-! ### Planning: termination -/

/-- A successful page of plan-new from a state between two pages: the ids of the page join
the processed sources, the index buckets of the state after the page are those the loop over
the sources left, and after a full page the invariant between two pages holds again. -/
theorem PlanPage.page {t0 : Table} {set : ObjectSet} {keys : Nat → Bytes}
    (hready : PlanReady t0) (limit : Int) {done : List (Bytes × Nat)} {st st1 : PlanState}
    (hpage : PlanPage t0 set done st)
    (hp : planPage set keys limit st (st.b.newIDs.take limit.toNat) = .ok st1) :
    ∃ done1 st2, PlanInv t0 set done1 st2 ∧
      done1.map Prod.fst = done.map Prod.fst ++ st.b.newIDs.take limit.toNat ∧
      st1.b.idxs = st2.b.idxs ∧
      (¬ ((st.b.newIDs.take limit.toNat).length : Int) < limit → PlanPage t0 set done1 st1) := by
  have hc := hpage.inv.core
  obtain ⟨st2, hfold, hshape⟩ := planPage_ok hp
  have hmemL : ∀ id, id ∈ st.b.newIDs →
      encNew ++ id ∈ t0.index .idx_source_state ∧ id ∉ done.map Prod.fst := by
    intro id hid
    obtain ⟨e, he, hpfx, rfl⟩ := mem_newIDs.mp hid
    obtain ⟨h1, h2⟩ := hc.listed e he hpfx
    have := eq_encNew_append hpfx (hready.2.1 e h1 hpfx).1
    exact ⟨this ▸ h1, h2⟩
  have hLpw : st.b.newIDs.Pairwise fun a b => bytesLt a b = true :=
    newIDs_pairwise hc.sorted
      (fun e he hpfx => (hready.2.1 e (hc.listed e he hpfx).1 hpfx).1)
  have htake : ∀ id, id ∈ st.b.newIDs.take limit.toNat → id ∈ st.b.newIDs :=
    fun id hid => List.mem_of_mem_take hid
  obtain ⟨done1, hinv1, hmap1⟩ := hpage.inv.fold hready _ done st st2
    (fun id hid => (hmemL id (htake id hid)).1)
    (fun id hid => (hmemL id (htake id hid)).2)
    (List.Pairwise.sublist (List.take_sublist _ _) hLpw)
    (by
      intro x hx id hid
      have := hpage.lower _ (hmemL id (htake id hid)).1 (hasPrefix_encNew id)
      rw [idOf_append _ _ (hready.listed (hmemL id (htake id hid)).1).1] at this
      exact this (hmemL id (htake id hid)).2 x hx)
    hfold
  have hrel : ∀ e, e ∈ t0.index .idx_source_state → HasPrefix e encNew = true →
      idOf e ∉ done.map Prod.fst → idOf e ∈ st.b.newIDs := by
    intro e he hpfx hnd
    exact mem_newIDs.mpr ⟨e, hc.relisted e he hpfx hnd, hpfx, rfl⟩
  refine ⟨done1, st2, hinv1, hmap1, ?_, ?_⟩
  · rcases hshape with ⟨bid, b2, hb, _, hfl, rfl⟩ | ⟨_, rfl⟩
    · obtain ⟨_, _, ⟨key, hblock⟩, _, _⟩ := hinv1.core.opened bid hb
      rw [hblock] at hfl
      have hb2 := flushDestination_ok rfl hfl
      subst hb2
      rfl
    · rfl
  · intro hlt
    have hst : st1 = st2 := by
      rcases hshape with ⟨_, _, _, hlt1, _, _⟩ | ⟨_, rfl⟩
      · exact absurd hlt1 hlt
      · rfl
    subst hst
    refine ⟨hinv1, ?_⟩
    intro e he hpfx hnd x hx
    have hx1 : x.1 ∈ done1.map Prod.fst := List.mem_map_of_mem Prod.fst hx
    rw [hmap1, List.mem_append] at hx1 hnd
    have hnd1 : idOf e ∉ done.map Prod.fst := fun hh => hnd (Or.inl hh)
    rcases hx1 with hx1 | hx1
    · obtain ⟨y, hy, hyx⟩ := List.mem_map.mp hx1
      rw [← hyx]
      exact hpage.lower e he hpfx hnd1 y hy
    · have heL := hrel e he hpfx hnd1
      rw [← List.take_append_drop limit.toNat st.b.newIDs] at heL hLpw
      rw [List.pairwise_append] at hLpw
      rcases List.mem_append.mp heL with heL | heL
      · exact absurd (Or.inr heL) hnd
      · exact hLpw.2.2 x.1 hx1 (idOf e) heL

/-- The sources processed so far are among the NEW sources the pass started with. -/
theorem PlanCore.done_length_le {t0 : Table} {set : ObjectSet} {done : List (Bytes × Nat)}
    {st : PlanState} (h : PlanCore t0 set done st) (hready : PlanReady t0) :
    done.length ≤ t0.newIDs.length := by
  have hsub : done.map Prod.fst ⊆ t0.newIDs := by
    intro y hy
    obtain ⟨x, hx, rfl⟩ := List.mem_map.mp hy
    exact mem_newIDs_of_listed hready (h.done_listed hready hx)
  have hle := (List.subperm_of_subset h.doneNodup hsub).length_le
  simpa using hle

/-- The loop of plan-new returns within one page more than the full pages that the NEW
sources still to be processed can fill. -/
theorem planLoop_returns {t0 : Table} {set : ObjectSet} {keys : Nat → Bytes}
    (hready : PlanReady t0) :
    ∀ (fuel : Nat) (done : List (Bytes × Nat)) (st : PlanState),
      PlanPage t0 set done st → (t0.newIDs.length - done.length) / 2048 + 1 ≤ fuel →
      ∃ r, planLoop set keys 2048 fuel st = some r := by
  intro fuel
  induction fuel with
  | zero => intro done st _ h; omega
  | succ fuel ih =>
    intro done st hpage hfuel
    have hc := hpage.inv.core
    simp only [planLoop]
    rw [hc.query hready 2048 (by norm_num) (by decide)]
    simp only []
    cases hp : planPage set keys 2048 st (st.b.newIDs.take (2048 : Int).toNat) with
    | error e => exact ⟨_, rfl⟩
    | ok st1 =>
      simp only []
      by_cases hlt : ((st.b.newIDs.take (2048 : Int).toNat).length : Int) < 2048
      · rw [if_pos hlt]
        exact ⟨_, rfl⟩
      · rw [if_neg hlt]
        obtain ⟨done1, st2, hinv1, hmap1, _, hnext⟩ := hpage.page hready 2048 hp
        have hpage1 := hnext hlt
        have hlen1 : done1.length = done.length + 2048 := by
          have := congrArg List.length hmap1
          simp only [List.length_map, List.length_append] at this
          have h2 : (st.b.newIDs.take (2048 : Int).toNat).length ≤ 2048 := by
            rw [List.length_take]
            exact Nat.min_le_left _ _
          omega
        have hle := hpage1.inv.core.done_length_le hready
        exact ih done1 st1 hpage1 (by omega)

/-- C36: plan-new on a store that is ready for planning returns, with a result or an error,
within `N / 2048 + 1` pages, `N` being the number of sources listed under NEW. The invariant
between two pages holds at the start; from a state in which it holds, a successful page
leaves no entry under the prefix NEW of `idx_source_state` for an id it listed, so the
entries under NEW decrease by at least the length of the page, and after a full page the
invariant holds again. -/
theorem plan_new_terminates (p : PlanNewObjects) (keys : Nat → Bytes) (t0 : Table)
    (hready : PlanReady t0) :
    (∀ fuel, t0.newIDs.length / 2048 + 1 ≤ fuel →
      ∃ r, p.Invoke keys fuel (some t0) = some r) ∧
    (∀ set, PlanPage t0 set [] { b := t0 }) ∧
    ∀ (set : ObjectSet) (done : List (Bytes × Nat)) (st st1 : PlanState) (ids : List Bytes),
      PlanPage t0 set done st →
      PrefixQuery st.b .idx_source_state (Uint16tol StateNew) 2048 none = .ok ids →
      planPage set keys 2048 st ids = .ok st1 →
      (∀ e, e ∈ st1.b.index .idx_source_state → HasPrefix e (Uint16tol StateNew) = true →
        idOf e ∉ ids) ∧
      st1.b.newIDs.length + ids.length ≤ st.b.newIDs.length ∧
      (¬ (ids.length : Int) < 2048 → ∃ done1, PlanPage t0 set done1 st1) := by
  refine ⟨?_, fun set => PlanPage.start t0 set hready, ?_⟩
  · intro fuel hfuel
    unfold PlanNewObjects.Invoke LookupTable
    simp only []
    cases hu : (NewObjectSet p.Bucket p.Prefix).Unmarshal t0.rootValues with
    | error e => exact ⟨_, rfl⟩
    | ok set =>
      obtain ⟨r, hr⟩ := @planLoop_returns t0 set keys hready fuel [] { b := t0 }
        (PlanPage.start t0 set hready) (by simpa using hfuel)
      simp only []
      rw [hr]
      exact ⟨_, rfl⟩
  · intro set done st st1 ids hpage hq hp
    have hc := hpage.inv.core
    rw [hc.query hready 2048 (by norm_num) (by decide)] at hq
    cases Except.ok.inj hq
    obtain ⟨done1, st2, hinv1, hmap1, hidx, hnext⟩ := hpage.page hready 2048 hp
    have hindex : ∀ i, st1.b.index i = st2.b.index i := fun i => by
      unfold Table.index
      rw [hidx]
    have hnew : st1.b.newIDs = st2.b.newIDs := by
      unfold Table.newIDs
      rw [hidx]
    have hgone : ∀ e, e ∈ st1.b.index .idx_source_state → HasPrefix e encNew = true →
        idOf e ∉ st.b.newIDs.take (2048 : Int).toNat := by
      intro e he hpfx hmem
      rw [hindex] at he
      have := (hinv1.core.listed e he hpfx).2
      rw [hmap1] at this
      exact this (List.mem_append_right _ hmem)
    refine ⟨hgone, ?_, fun hlt => ⟨done1, hnext hlt⟩⟩
    have hpw1 : st1.b.newIDs.Pairwise fun a b => bytesLt a b = true := by
      rw [hnew]
      exact newIDs_pairwise hinv1.core.sorted
        (fun e he hpfx => (hready.2.1 e (hinv1.core.listed e he hpfx).1 hpfx).1)
    have hpw : st.b.newIDs.Pairwise fun a b => bytesLt a b = true :=
      newIDs_pairwise hc.sorted
        (fun e he hpfx => (hready.2.1 e (hc.listed e he hpfx).1 hpfx).1)
    have hnd1 : st1.b.newIDs.Nodup := hpw1.imp fun hab => bytesLt_ne _ _ hab
    have hnd : (st.b.newIDs.take (2048 : Int).toNat).Nodup :=
      (hpw.imp fun hab => bytesLt_ne _ _ hab).sublist (List.take_sublist _ _)
    have hdisj : ∀ x, x ∈ st1.b.newIDs → x ∉ st.b.newIDs.take (2048 : Int).toNat := by
      intro x hx
      obtain ⟨e, he, hpfx, rfl⟩ := mem_newIDs.mp hx
      exact hgone e he hpfx
    have hall : (st1.b.newIDs ++ st.b.newIDs.take (2048 : Int).toNat).Nodup :=
      List.nodup_append.mpr ⟨hnd1, hnd, fun x hx hx2 => hdisj x hx hx2⟩
    have hsub : st1.b.newIDs ++ st.b.newIDs.take (2048 : Int).toNat ⊆ st.b.newIDs := by
      intro x hx
      rcases List.mem_append.mp hx with hx | hx
      · obtain ⟨e, he, hpfx, rfl⟩ := mem_newIDs.mp hx
        rw [hindex] at he
        obtain ⟨h1, h2⟩ := hinv1.core.listed e he hpfx
        have h3 : idOf e ∉ done.map Prod.fst := by
          rw [hmap1] at h2
          exact fun hh => h2 (List.mem_append_left _ hh)
        exact mem_newIDs.mpr ⟨e, hc.relisted e h1 hpfx h3, hpfx, rfl⟩
      · exact List.mem_of_mem_take hx
    have hle := (List.subperm_of_subset hall hsub).length_le
    simpa using hle

set_option maxRecDepth 8192 in
/-- C36 at a concrete store: with two NEW sources plan-new returns within one page. -/
theorem plan_new_terminates_witness :
    tableBigSmall.newIDs.length = 2 ∧
      ∃ r, examplePlan.Invoke exampleKeys 1 (some tableBigSmall) = some r :=
  ⟨rfl, (plan_new_terminates examplePlan exampleKeys tableBigSmall tableBigSmall_ready).1 1
    (by decide)⟩

/-! ### Planning: greedy blocks -/

/-- The members of a block in scan order, read off the outcome of the pass. -/
theorem PlanDone.members_ordered {t0 t : Table} {set : ObjectSet}
    {done : List (Bytes × Nat)} {cr : Nat} (h : PlanDone t0 set done cr t) (j : Nat) :
    ((membersOf done j).map Prod.fst).Pairwise fun a b => bytesLt a b = true :=
  List.Pairwise.sublist (List.Sublist.map _ (List.filter_sublist _)) h.ordered

theorem membersOf_snd {done : List (Bytes × Nat)} {j : Nat} {x : Bytes × Nat}
    (hx : x ∈ membersOf done j) : x ∈ done ∧ x.2 = j := by
  unfold membersOf at hx
  rw [List.mem_filter] at hx
  exact ⟨hx.1, by simpa using hx.2⟩

/-- C39: after a successful plan-new on a store that is ready for planning, for a set with a
positive block size, every destination row the pass created has a member source that comes
last in scan order, the byte order of the row ids, and the recorded size of the row less the
size plus delimiter length of that last member is below the block size, both in `int64` and,
when the size of the last member is not negative, as integers. -/
theorem plan_new_blocks_are_minimal (p : PlanNewObjects) (keys : Nat → Bytes)
    (fuel : Nat) (t0 t : Table) (set : ObjectSet) (hready : PlanReady t0)
    (hset : (NewObjectSet p.Bucket p.Prefix).Unmarshal t0.rootValues = .ok set)
    (hrun : p.Invoke keys fuel (some t0) = some (some t, none))
    (hpos : 0 < set.BlockSize) (bid : Bytes)
    (hdest : t.isDestination bid) (hnew : ¬ t0.isDestination bid) :
    ∃ y v n, t.isSource y ∧ t.cell .destination_object y = some bid ∧
      (∀ z, t.cell .destination_object z = some bid → z ≠ y → bytesLt z y = true) ∧
      t.cell .size bid = some v ∧ Ltoi v = .ok n ∧
      wrap64 (n - (t.sizeOf y + ((StringValue set.Delimiter).length : Int))) <
        set.BlockSize ∧
      (0 ≤ t.sizeOf y →
        n - (t.sizeOf y + ((StringValue set.Delimiter).length : Int)) < set.BlockSize) := by
  obtain ⟨done, cr, D⟩ := plan_outcome hready hset hrun
  obtain ⟨j, h1, h2, rfl⟩ := D.created hdest hnew
  obtain ⟨_, _, _, hsize, hne⟩ := D.blocks j h1 h2
  obtain ⟨m1, last, hM⟩ : ∃ m1 last, membersOf done j = m1 ++ [last] :=
    ⟨_, _, (List.dropLast_append_getLast hne).symm⟩
  have hlastM : last ∈ membersOf done j := by rw [hM]; simp
  obtain ⟨hlastD, hlast2⟩ := membersOf_snd hlastM
  obtain ⟨hs0, _, _, _, _, hdl, hkeep⟩ := D.doneRows last hlastD
  rw [hlast2] at hdl
  have hsz : t.sizeOf last.1 = t0.sizeOf last.1 := by
    unfold Table.sizeOf
    rw [hkeep .size (by simp) (by simp)]
  have hmin : wrap64 (wrap64 (sizeSum t0 set (membersOf done j)) -
      (t.sizeOf last.1 + ((StringValue set.Delimiter).length : Int))) < set.BlockSize := by
    rw [hsz, hM, sizeSum_append, sizeSum_singleton, sub_eq_add_neg, wrap64_wrap64_add]
    have hcancel : sizeSum t0 set m1 +
        (t0.sizeOf last.1 + ((StringValue set.Delimiter).length : Int)) +
        -(t0.sizeOf last.1 + ((StringValue set.Delimiter).length : Int)) =
        sizeSum t0 set m1 := by omega
    rw [hcancel]
    by_cases hm1 : m1 = []
    · rw [hm1]
      exact hpos
    · exact D.minimal j m1 [last] hM hm1 (by simp)
  refine ⟨last.1, _, wrap64 (sizeSum t0 set (membersOf done j)), ?_, hdl, ?_, hsize, ?_, hmin,
    ?_⟩
  · unfold Table.isSource at hs0 ⊢
    rw [hkeep .is_source_object (by simp) (by simp)]
    exact hs0
  · intro z hz hzy
    have hzM := (D.members hready h1 h2 z).mp hz
    have hpw := D.members_ordered j
    rw [hM] at hzM hpw
    rw [List.map_append, List.pairwise_append] at hpw
    rcases List.mem_append.mp hzM with hz1 | hz1
    · exact hpw.2.2 z (List.mem_map_of_mem Prod.fst hz1) last.1 (by simp)
    · rw [List.mem_singleton] at hz1
      exact absurd (congrArg Prod.fst hz1) hzy
  · rw [← Itol_wrap64]
    exact Ltoi_Itol_wrap64 _
  · intro h0
    have hr := toInt64_range (toUint64 (sizeSum t0 set (membersOf done j)))
    have hr1 : wrap64 (sizeSum t0 set (membersOf done j)) < 2 ^ 63 := hr.2
    have hlen : (0 : Int) ≤ ((StringValue set.Delimiter).length : Int) := Int.natCast_nonneg _
    by_cases hlow : -(2 ^ 63 : Int) ≤ wrap64 (sizeSum t0 set (membersOf done j)) -
        (t.sizeOf last.1 + ((StringValue set.Delimiter).length : Int))
    · rw [wrap64_of_range _ hlow (by omega)] at hmin
      exact hmin
    · omega

set_option maxRecDepth 8192 in
/-- C39 at a concrete store: the block of `tableBigSmallPlanned` in row 3 records 501 for its
one member, the source of size 500 in row 1, and 501 less 501 is below the block size 100. -/
theorem plan_new_blocks_are_minimal_witness :
    0 < exampleSetRead.BlockSize ∧ tableBigSmallPlanned.isDestination (PutUint64 3) ∧
      ∃ y v n, tableBigSmallPlanned.isSource y ∧
        tableBigSmallPlanned.cell .destination_object y = some (PutUint64 3) ∧
        (∀ z, tableBigSmallPlanned.cell .destination_object z = some (PutUint64 3) → z ≠ y →
          bytesLt z y = true) ∧
        tableBigSmallPlanned.cell .size (PutUint64 3) = some v ∧ Ltoi v = .ok n ∧
        wrap64 (n - (tableBigSmallPlanned.sizeOf y +
          ((StringValue exampleSetRead.Delimiter).length : Int))) < exampleSetRead.BlockSize ∧
        (0 ≤ tableBigSmallPlanned.sizeOf y →
          n - (tableBigSmallPlanned.sizeOf y +
            ((StringValue exampleSetRead.Delimiter).length : Int)) <
              exampleSetRead.BlockSize) :=
  ⟨by decide, rfl, plan_new_blocks_are_minimal examplePlan exampleKeys 1 tableBigSmall
    tableBigSmallPlanned exampleSetRead tableBigSmall_ready tableBigSmall_set tableBigSmall_run
    (by decide) (PutUint64 3) rfl (by unfold Table.isDestination; decide)⟩

/-! ### Planning: one block per large source -/

/-- C37: after a successful plan-new on a store that is ready for planning, in which the
size plus delimiter length of every NEW source is at least the block size (and within
`int64`), every source that was NEW is the only member of a destination row the pass
created, whose recorded size is the size of the source plus the delimiter length; and every
destination row the pass created is the block of a source that was NEW. -/
theorem plan_new_one_block_per_large_source (p : PlanNewObjects) (keys : Nat → Bytes)
    (fuel : Nat) (t0 t : Table) (set : ObjectSet) (hready : PlanReady t0)
    (hset : (NewObjectSet p.Bucket p.Prefix).Unmarshal t0.rootValues = .ok set)
    (hrun : p.Invoke keys fuel (some t0) = some (some t, none))
    (hbig : ∀ x, t0.isSource x → t0.cell .state x = some (Uint16tol StateNew) →
      set.BlockSize ≤ t0.sizeOf x + ((StringValue set.Delimiter).length : Int) ∧
      t0.sizeOf x + ((StringValue set.Delimiter).length : Int) < 2 ^ 63) :
    (∀ x, t0.isSource x → t0.cell .state x = some (Uint16tol StateNew) →
      ∃ bid, t.isDestination bid ∧ ¬ t0.isDestination bid ∧
        t.cell .destination_object x = some bid ∧
        (∀ y, t.cell .destination_object y = some bid → y = x) ∧
        ∃ v, t.cell .size bid = some v ∧
          Ltoi v = .ok (t0.sizeOf x + ((StringValue set.Delimiter).length : Int))) ∧
    (∀ bid, t.isDestination bid → ¬ t0.isDestination bid →
      ∃ x, t0.isSource x ∧ t0.cell .state x = some (Uint16tol StateNew) ∧
        t.cell .destination_object x = some bid) := by
  obtain ⟨done, cr, D⟩ := plan_outcome hready hset hrun
  have hroom := D.room
  have hwrap : ∀ a ∈ done, set.BlockSize ≤ wrap64 (sizeSum t0 set [a]) ∧
      wrap64 (sizeSum t0 set [a]) =
        t0.sizeOf a.1 + ((StringValue set.Delimiter).length : Int) := by
    intro a ha
    obtain ⟨hs, hn, _⟩ := D.doneRows a ha
    obtain ⟨hb1, hb2⟩ := hbig a.1 hs hn
    have hr := t0.sizeOf_range a.1
    have hw : wrap64 (sizeSum t0 set [a]) =
        t0.sizeOf a.1 + ((StringValue set.Delimiter).length : Int) := by
      rw [sizeSum_singleton]
      exact wrap64_of_range _ (by have := hr.1; omega) hb2
    exact ⟨by rw [hw]; exact hb1, hw⟩
  have hsingle : ∀ j a, a ∈ membersOf done j → membersOf done j = [a] := by
    intro j a ha
    cases hM : membersOf done j with
    | nil => rw [hM] at ha; cases ha
    | cons a0 rest =>
      have ha0 : a0 ∈ done := (membersOf_snd (by rw [hM]; simp)).1
      have hrest : rest = [] := by
        by_contra hne
        have hlt := D.minimal j [a0] rest (by rw [hM]; rfl) (by simp) hne
        have := (hwrap a0 ha0).1
        omega
      subst hrest
      rw [hM, List.mem_singleton] at ha
      rw [ha]
  constructor
  · intro x hs hn
    obtain ⟨x0, hx0, hx0x⟩ := List.mem_map.mp (D.allDone x hs hn)
    obtain ⟨x1, j⟩ := x0
    simp only at hx0x
    subst hx0x
    obtain ⟨_, _, h1, h2, _, hdx, _⟩ := D.doneRows _ hx0
    simp only at h1 h2 hdx
    have hxM : (x1, j) ∈ membersOf done j := (D.members hready h1 h2 x1).mp hdx
    have hM := hsingle j _ hxM
    obtain ⟨hb1, _, _, hsize, _⟩ := D.blocks j h1 h2
    refine ⟨blockIDAt t0 j, hb1, ?_, hdx, ?_, _, hsize, ?_⟩
    · unfold Table.isDestination
      rw [hready.cell_blockIDAt _ j h1 (by omega)]
      simp
    · intro y hy
      have hyM := (D.members hready h1 h2 y).mp hy
      rw [hM, List.mem_singleton] at hyM
      exact congrArg Prod.fst hyM
    · rw [hM, ← Itol_wrap64, Ltoi_Itol_wrap64, (hwrap _ hx0).2]
  · intro bid hd hnd
    obtain ⟨j, h1, h2, rfl⟩ := D.created hd hnd
    obtain ⟨_, _, _, _, hne⟩ := D.blocks j h1 h2
    obtain ⟨a, ha⟩ := List.exists_mem_of_ne_nil _ hne
    obtain ⟨haD, ha2⟩ := membersOf_snd ha
    obtain ⟨hs, hn, _, _, _, hdl, _⟩ := D.doneRows a haD
    rw [ha2] at hdl
    exact ⟨a.1, hs, hn, hdl⟩

set_option maxRecDepth 8192 in
theorem tableThree_ready : PlanReady tableThree := by
  refine ⟨⟨fun c => ?_, fun i => ?_⟩, ?_, ?_, ?_, ?_, ?_⟩
  · cases c <;> (unfold KV.Sorted; decide)
  · cases i <;> (unfold KV.Sorted; decide)
  · decide
  · decide
  · decide
  · decide
  · decide

set_option maxRecDepth 8192 in
theorem tableThree_run :
    examplePlan.Invoke exampleKeys 1 (some tableThree) =
      some (some tableThreePlanned, none) := rfl

theorem tableThree_set :
    (NewObjectSet examplePlan.Bucket examplePlan.Prefix).Unmarshal tableThree.rootValues =
      .ok exampleSetTen := rfl

set_option maxRecDepth 8192 in
/-- Every source row of `tableThree` has size 20, which with the delimiter is 21. -/
theorem tableThree_big (x : Bytes) (hs : tableThree.isSource x)
    (_ : tableThree.cell .state x = some (Uint16tol StateNew)) :
    exampleSetTen.BlockSize ≤
        tableThree.sizeOf x + ((StringValue exampleSetTen.Delimiter).length : Int) ∧
      tableThree.sizeOf x + ((StringValue exampleSetTen.Delimiter).length : Int) < 2 ^ 63 := by
  have hm := Table.cell_mem hs
  have hcols : tableThree.cols .is_source_object =
      [(PutUint64 1, valueTrue), (PutUint64 2, valueTrue), (PutUint64 3, valueTrue)] := rfl
  rw [hcols] at hm
  simp only [List.mem_cons, Prod.mk.injEq, List.mem_singleton, List.not_mem_nil, or_false,
    and_true] at hm
  rcases hm with rfl | rfl | rfl <;> decide

set_option maxRecDepth 8192 in
/-- C37 at the store of the example: with block size 10, a delimiter of one byte and three
sources of size 20, plan-new creates the three rows 4, 5 and 6, each of recorded size 21, and
the source in row 1 is the only member of the block in row 4. -/
theorem plan_new_one_block_per_large_source_witness :
    tableThree.sequence = 3 ∧ tableThreePlanned.sequence = 6 ∧
      tableThreePlanned.cell .size (PutUint64 4) = some (Itol 21) ∧
      tableThreePlanned.cell .size (PutUint64 5) = some (Itol 21) ∧
      tableThreePlanned.cell .size (PutUint64 6) = some (Itol 21) ∧
      tableThreePlanned.cell .destination_object (PutUint64 1) = some (PutUint64 4) ∧
      tableThreePlanned.cell .destination_object (PutUint64 2) = some (PutUint64 5) ∧
      tableThreePlanned.cell .destination_object (PutUint64 3) = some (PutUint64 6) ∧
      ∃ bid, tableThreePlanned.isDestination bid ∧ ¬ tableThree.isDestination bid ∧
        tableThreePlanned.cell .destination_object (PutUint64 1) = some bid ∧
        (∀ y, tableThreePlanned.cell .destination_object y = some bid → y = PutUint64 1) ∧
        ∃ v, tableThreePlanned.cell .size bid = some v ∧
          Ltoi v = .ok (tableThree.sizeOf (PutUint64 1) +
            ((StringValue exampleSetTen.Delimiter).length : Int)) :=
  ⟨rfl, rfl, rfl, rfl, rfl, rfl, rfl, rfl,
    (plan_new_one_block_per_large_source examplePlan exampleKeys 1 tableThree
      tableThreePlanned exampleSetTen tableThree_ready tableThree_set tableThree_run
      tableThree_big).1 (PutUint64 1) rfl rfl⟩

end S3fc
